import Mathlib

/-!
# viper: the JSON and console encoders of `vipercore`, the observer core, the atomic
level, the logger options, stack traces and sinks

A shallow embedding of `vipercore/json_encoder.go`,
`vipercore/console_encoder.go`, `vipertest/observer/observer.go`, `level.go`,
`options.go`, `stacktrace.go`, `writer.go` and `internal/vtest/writer.go`.

* A byte is a natural number and a Go `string` / `[]byte` / `buffer.Buffer`
  content is a `List Nat`.
* Methods of `*jsonEncoder` take the encoder state and return the new state.
* A Go `panic` (a nil function value being called) is `none`.
* User code handed an encoder (encoder functions, marshalers) is the list of
  the calls it makes on that encoder.
* Where a claim is about sharing (`Clone`, the context slice of the observer, the
  copies of an `AtomicLevel`), structs, buffers, backing arrays and atomic values are
  held by address in an explicit memory.
* A machine integer is an `Int`, with the conversion or the wrap-around written out.
* What the program is given by its environment (the call frames of the runtime, the
  outcome of opening a sink) is an argument of the function that uses it.
-/

namespace Viper

/-! ## Bytes and the buffer -/

/-- The bytes of an ASCII string literal. -/
def bytes (s : String) : List Nat := s.toList.map Char.toNat

/-- The constant `_hex` of `json_encoder.go`: the sixteen lowercase hex digits. -/
def _hex : List Nat := [48, 49, 50, 51, 52, 53, 54, 55, 56, 57, 97, 98, 99, 100, 101, 102]

/-- The `strconv.AppendUint(bs, n, 10)` digit loop: at most `fuel` digits of `n`,
most significant first, put in front of `acc`. -/
def formatUintCore : Nat → Nat → List Nat → List Nat
  | 0, _, acc => acc
  | fuel + 1, n, acc =>
    if n / 10 = 0 then (48 + n % 10) :: acc
    else formatUintCore fuel (n / 10) ((48 + n % 10) :: acc)

/-- The base-10 text of an unsigned integer (`buffer.WriteUint`). -/
def formatUint (n : Nat) : List Nat := formatUintCore (n + 1) n []

/-- The base-10 text of a signed integer (`buffer.WriteInt`). -/
def formatInt (i : Int) : List Nat :=
  if i < 0 then 45 :: formatUint i.natAbs else formatUint i.natAbs

/-- The method `buffer.WriteBool`: `strconv.AppendBool`. -/
def formatBool (v : Bool) : List Nat := if v then bytes "true" else bytes "false"

/-! ## `unicode/utf8` -/

/-- The constant `utf8.RuneError`, U+FFFD. -/
def RuneError : Nat := 0xFFFD

/-- The constant `utf8.RuneSelf`. -/
def RuneSelf : Nat := 0x80

/-- The table `first` of `unicode/utf8`: information about the first byte of a
UTF-8 sequence (`as = 0xF0`, `xx = 0xF1`, `s1 = 0x02`, `s2 = 0x13`, `s3 = 0x03`,
`s4 = 0x23`, `s5 = 0x34`, `s6 = 0x04`, `s7 = 0x44`). -/
def first (b : Nat) : Nat :=
  if b < 0x80 then 0xF0
  else if b < 0xC2 then 0xF1
  else if b < 0xE0 then 0x02
  else if b = 0xE0 then 0x13
  else if b < 0xED then 0x03
  else if b = 0xED then 0x23
  else if b < 0xF0 then 0x03
  else if b = 0xF0 then 0x34
  else if b < 0xF4 then 0x04
  else if b = 0xF4 then 0x44
  else 0xF1

/-- The table `acceptRanges` of `unicode/utf8`: the range `(lo, hi)` of valid
second bytes. -/
def acceptRanges (i : Nat) : Nat × Nat :=
  if i = 0 then (0x80, 0xBF)
  else if i = 1 then (0xA0, 0xBF)
  else if i = 2 then (0x80, 0x9F)
  else if i = 3 then (0x90, 0xBF)
  else if i = 4 then (0x80, 0x8F)
  else (0, 0)

/-- The function `utf8.DecodeRuneInString` (and `utf8.DecodeRune`): the rune at
the head of `s` and its width in bytes; `(RuneError, 1)` when the encoding is
invalid, `(RuneError, 0)` when `s` is empty. -/
def DecodeRuneInString (s : List Nat) : Nat × Nat :=
  let n := s.length
  if n < 1 then (RuneError, 0)
  else
    let s0 := s.getD 0 0
    let x := first s0
    if x ≥ 0xF0 then
      -- mask := rune(x) << 31 >> 31 is all ones exactly when x is odd (x == xx)
      (if x % 2 = 1 then RuneError else s0, 1)
    else
      let sz := x &&& 7
      let accept := acceptRanges (x >>> 4)
      if n < sz then (RuneError, 1)
      else
        let s1 := s.getD 1 0
        if s1 < accept.1 ∨ accept.2 < s1 then (RuneError, 1)
        else if sz ≤ 2 then (((s0 &&& 0x1F) <<< 6) ||| (s1 &&& 0x3F), 2)
        else
          let s2 := s.getD 2 0
          if s2 < 0x80 ∨ 0xBF < s2 then (RuneError, 1)
          else if sz ≤ 3 then
            (((s0 &&& 0x0F) <<< 12) ||| ((s1 &&& 0x3F) <<< 6) ||| (s2 &&& 0x3F), 3)
          else
            let s3 := s.getD 3 0
            if s3 < 0x80 ∨ 0xBF < s3 then (RuneError, 1)
            else
              (((s0 &&& 0x07) <<< 18) ||| ((s1 &&& 0x3F) <<< 12) |||
                ((s2 &&& 0x3F) <<< 6) ||| (s3 &&& 0x3F), 4)

/-- The function `utf8.DecodeRune`: the same algorithm as `DecodeRuneInString`,
over a byte slice. -/
def DecodeRune (p : List Nat) : Nat × Nat := DecodeRuneInString p

/-! ## Values handed to the encoder -/

/-- A `float64` (or `float32`) through the text `strconv.AppendFloat(_, f, 'f', -1,
bitSize)` gives it: a finite value is its sign, its integer part and its decimal
digits after the point (none for an integral value). -/
inductive GoFloat where
  | nan
  | posInf
  | negInf
  | finite (neg : Bool) (whole : Nat) (frac : List (Fin 10))
  deriving DecidableEq

/-- The method `buffer.WriteFloat`: `strconv.AppendFloat(bs, f, 'f', -1, bitSize)`.
The digits of the value at the bit size are part of the `GoFloat`. -/
def formatFloat (f : GoFloat) (_bitSize : Nat) : List Nat :=
  match f with
  | .nan => bytes "NaN"
  | .posInf => bytes "+Inf"
  | .negInf => bytes "-Inf"
  | .finite neg whole frac =>
    (if neg then [45] else []) ++ formatUint whole ++
      (if frac = [] then [] else 46 :: frac.map (fun d => 48 + d.val))

/-- A Go `error` is its message. -/
abbrev Error := List Nat

/-- A non-nil value handed to `AddReflected`: what `json.Encoder.Encode` does with
it, either the bytes it writes to the reflection buffer (the JSON text and a
newline) or the error it returns. -/
inductive Reflected where
  | encodes (written : List Nat)
  | fails (err : Error)
  deriving DecidableEq

/-- One call on a `PrimitiveArrayEncoder`. The narrower variants (`WriteInt`,
`WriteInt32`, `WriteUint8`, `AppendComplex64`, ...) convert and delegate to these. -/
inductive PrimCall where
  | WriteBool (v : Bool)
  | WriteByteString (v : List Nat)
  | AppendComplex128 (re im : GoFloat)
  | WriteFloat64 (v : GoFloat)
  | WriteFloat32 (v : GoFloat)
  | WriteInt64 (v : Int)
  | WriteString (v : List Nat)
  | WriteUint64 (v : Nat)
  deriving DecidableEq

/-- Modelled from the spec: `Level` (vipercore/level.go is not among the sources), a
signed 8-bit enumeration `Debug < Info < Warn < Error < DPanic < Panic < Fatal`. -/
abbrev Level := Int

def DebugLevel : Level := -1
def InfoLevel : Level := 0
def WarnLevel : Level := 1
def ErrorLevel : Level := 2
def DPanicLevel : Level := 3
def PanicLevel : Level := 4
def FatalLevel : Level := 5

/-- Modelled from the spec: `Level.String`, the lowercase name of a named level
(§6.3); any other value prints as `Level(n)`. -/
def Level.String (l : Level) : List Nat :=
  if l = DebugLevel then bytes "debug"
  else if l = InfoLevel then bytes "info"
  else if l = WarnLevel then bytes "warn"
  else if l = ErrorLevel then bytes "error"
  else if l = DPanicLevel then bytes "dpanic"
  else if l = PanicLevel then bytes "panic"
  else if l = FatalLevel then bytes "fatal"
  else bytes "Level(" ++ formatInt l ++ bytes ")"

/-- Modelled from the spec: `EntryCaller` (§3.2, "caller (optional: file, line,
defined?)"); vipercore/entry.go is not among the sources. -/
structure EntryCaller where
  Defined : Bool
  File : List Nat
  Line : Int
  deriving DecidableEq

/-- Modelled from the spec: `EntryCaller.String`, the text `file:line` (§4.4), and
`undefined` for a caller that is not defined. -/
def EntryCaller.String (ec : EntryCaller) : List Nat :=
  if ec.Defined then ec.File ++ [58] ++ formatInt ec.Line else bytes "undefined"

/-- Modelled from the spec: `Entry` (§3.2). The time is its `UnixNano()`. -/
structure Entry where
  Level : Level
  Time : Int
  LoggerName : List Nat
  Message : List Nat
  Caller : EntryCaller
  Stack : List Nat
  deriving DecidableEq

/-- Modelled from the spec: `EncoderConfig` (§6.1, §6.4; vipercore/encoder.go is not
among the sources): the six keys, the line ending, and the five pluggable encoder
functions. An encoder function is the calls it makes on the primitive encoder it is
handed; `none` is a nil function value. -/
structure EncoderConfig where
  MessageKey : List Nat
  LevelKey : List Nat
  TimeKey : List Nat
  NameKey : List Nat
  CallerKey : List Nat
  StacktraceKey : List Nat
  LineEnding : List Nat
  EncodeLevel : Option (Level → List PrimCall)
  EncodeTime : Option (Int → List PrimCall)
  EncodeDuration : Option (Int → List PrimCall)
  EncodeCaller : Option (EntryCaller → List PrimCall)
  EncodeName : Option (List Nat → List PrimCall)

/-- Modelled from the spec: the constant `DefaultLineEnding`, a newline (§4.4). -/
def DefaultLineEnding : List Nat := [10]

/-- Modelled from the spec: `FullNameEncoder`, which writes the logger name as it is
(§4.4, "plain name"). -/
def FullNameEncoder (loggerName : List Nat) : List PrimCall := [.WriteString loggerName]

mutual
/-- One call on an `ObjectEncoder`. The narrower variants (`AddInt`, `AddUint8`,
`AddComplex64`, ...) convert and delegate to these. -/
inductive ObjectCall where
  | AddArray (key : List Nat) (arr : ArrayMarshaler)
  | AddObject (key : List Nat) (obj : ObjectMarshaler)
  | AddBinary (key : List Nat) (val : List Nat)
  | AddByteString (key : List Nat) (val : List Nat)
  | AddBool (key : List Nat) (val : Bool)
  | AddComplex128 (key : List Nat) (re im : GoFloat)
  | AddDuration (key : List Nat) (val : Int)
  | AddFloat64 (key : List Nat) (val : GoFloat)
  | AddFloat32 (key : List Nat) (val : GoFloat)
  | AddInt64 (key : List Nat) (val : Int)
  | AddReflected (key : List Nat) (obj : Option Reflected)
  | OpenNamespace (key : List Nat)
  | AddString (key : List Nat) (val : List Nat)
  | AddTime (key : List Nat) (val : Int)
  | AddUint64 (key : List Nat) (val : Nat)
/-- One call on an `ArrayEncoder`. -/
inductive ArrayCall where
  | AppendArray (arr : ArrayMarshaler)
  | AppendObject (obj : ObjectMarshaler)
  | AppendReflected (obj : Option Reflected)
  | AppendDuration (val : Int)
  | AppendTime (val : Int)
  | prim (c : PrimCall)
/-- An `ObjectMarshaler`: the calls `MarshalLogObject` makes on the encoder it is
handed, and the error it returns. -/
inductive ObjectMarshaler where
  | mk (calls : List ObjectCall) (err : Option Error)
/-- An `ArrayMarshaler`: the calls `MarshalLogArray` makes, and the error it returns. -/
inductive ArrayMarshaler where
  | mk (calls : List ArrayCall) (err : Option Error)
end

/-! ## `jsonEncoder` -/

/-- The struct `jsonEncoder`: the embedded `*EncoderConfig`, the buffer, the spaced
flag and the number of open namespaces. -/
structure jsonEncoder where
  cfg : EncoderConfig
  buf : List Nat
  spaced : Bool
  openNamespaces : Nat

namespace jsonEncoder

/-- The call `enc.buf.WriteByte(c)`. -/
def bufWriteByte (enc : jsonEncoder) (c : Nat) : jsonEncoder :=
  { enc with buf := enc.buf ++ [c] }

/-- The calls `enc.buf.WriteString(s)` and `enc.buf.Write(s)`. -/
def bufWriteString (enc : jsonEncoder) (s : List Nat) : jsonEncoder :=
  { enc with buf := enc.buf ++ s }

/-- The method `tryAddRuneSelf`: appends `b` if it is a valid UTF-8 character
represented in a single byte. -/
def tryAddRuneSelf (enc : jsonEncoder) (b : Nat) : jsonEncoder × Bool :=
  if b ≥ RuneSelf then (enc, false)
  else if 0x20 ≤ b ∧ b ≠ 92 ∧ b ≠ 34 then (enc.bufWriteByte b, true)
  else if b = 92 ∨ b = 34 then ((enc.bufWriteByte 92).bufWriteByte b, true)
  else if b = 10 then ((enc.bufWriteByte 92).bufWriteByte 110, true)
  else if b = 13 then ((enc.bufWriteByte 92).bufWriteByte 114, true)
  else if b = 9 then ((enc.bufWriteByte 92).bufWriteByte 116, true)
  else
    (((enc.bufWriteString [92, 117, 48, 48]).bufWriteByte (_hex.getD (b >>> 4) 0)).bufWriteByte
      (_hex.getD (b &&& 0xF) 0), true)

/-- The method `tryAddRuneError`. -/
def tryAddRuneError (enc : jsonEncoder) (r : Nat) (size : Nat) : jsonEncoder × Bool :=
  if r = RuneError ∧ size = 1 then (enc.bufWriteString [92, 117, 102, 102, 102, 100], true)
  else (enc, false)

/-- The loop of `safeAddString`; `s` is the rest `s[i:]` of the input and every
iteration uses one unit of fuel. -/
def safeAddStringLoop : Nat → jsonEncoder → List Nat → jsonEncoder
  | 0, enc, _ => enc
  | fuel + 1, enc, s =>
    match s with
    | [] => enc
    | b :: _ =>
      let r1 := enc.tryAddRuneSelf b
      if r1.2 then safeAddStringLoop fuel r1.1 (s.drop 1)
      else
        let d := DecodeRuneInString s
        let r2 := r1.1.tryAddRuneError d.1 d.2
        if r2.2 then safeAddStringLoop fuel r2.1 (s.drop 1)
        else safeAddStringLoop fuel (r2.1.bufWriteString (s.take d.2)) (s.drop d.2)

/-- The method `safeAddString`: JSON-escapes a string and appends it to the buffer.
Every iteration advances by at least one byte, so `len(s)` iterations suffice. -/
def safeAddString (enc : jsonEncoder) (s : List Nat) : jsonEncoder :=
  safeAddStringLoop s.length enc s

/-- The loop of `safeAddByteString`. -/
def safeAddByteStringLoop : Nat → jsonEncoder → List Nat → jsonEncoder
  | 0, enc, _ => enc
  | fuel + 1, enc, s =>
    match s with
    | [] => enc
    | b :: _ =>
      let r1 := enc.tryAddRuneSelf b
      if r1.2 then safeAddByteStringLoop fuel r1.1 (s.drop 1)
      else
        let d := DecodeRune s
        let r2 := r1.1.tryAddRuneError d.1 d.2
        if r2.2 then safeAddByteStringLoop fuel r2.1 (s.drop 1)
        else safeAddByteStringLoop fuel (r2.1.bufWriteString (s.take d.2)) (s.drop d.2)

/-- The method `safeAddByteString`. -/
def safeAddByteString (enc : jsonEncoder) (s : List Nat) : jsonEncoder :=
  safeAddByteStringLoop s.length enc s

/-- The method `addElementSeparator`. -/
def addElementSeparator (enc : jsonEncoder) : jsonEncoder :=
  let last : Int := (enc.buf.length : Int) - 1
  if last < 0 then enc
  else
    let c := enc.buf.getD last.toNat 0
    if c = 123 ∨ c = 91 ∨ c = 58 ∨ c = 44 ∨ c = 32 then enc
    else
      let enc1 := enc.bufWriteByte 44
      if enc1.spaced then enc1.bufWriteByte 32 else enc1

/-- The method `addKey`. -/
def addKey (enc : jsonEncoder) (key : List Nat) : jsonEncoder :=
  let enc := enc.addElementSeparator
  let enc := enc.bufWriteByte 34
  let enc := enc.safeAddString key
  let enc := enc.bufWriteByte 34
  let enc := enc.bufWriteByte 58
  if enc.spaced then enc.bufWriteByte 32 else enc

/-- The method `WriteBool`. -/
def WriteBool (enc : jsonEncoder) (val : Bool) : jsonEncoder :=
  let enc := enc.addElementSeparator
  enc.bufWriteString (formatBool val)

/-- The method `WriteByteString`. -/
def WriteByteString (enc : jsonEncoder) (val : List Nat) : jsonEncoder :=
  let enc := enc.addElementSeparator
  let enc := enc.bufWriteByte 34
  let enc := enc.safeAddByteString val
  enc.bufWriteByte 34

/-- The method `AppendComplex128`. -/
def AppendComplex128 (enc : jsonEncoder) (re im : GoFloat) : jsonEncoder :=
  let enc := enc.addElementSeparator
  let enc := enc.bufWriteByte 34
  let enc := enc.bufWriteString (formatFloat re 64)
  let enc := enc.bufWriteByte 43
  let enc := enc.bufWriteString (formatFloat im 64)
  let enc := enc.bufWriteByte 105
  enc.bufWriteByte 34

/-- The method `WriteInt64`. -/
def WriteInt64 (enc : jsonEncoder) (val : Int) : jsonEncoder :=
  let enc := enc.addElementSeparator
  enc.bufWriteString (formatInt val)

/-- The method `WriteString`. -/
def WriteString (enc : jsonEncoder) (val : List Nat) : jsonEncoder :=
  let enc := enc.addElementSeparator
  let enc := enc.bufWriteByte 34
  let enc := enc.safeAddString val
  enc.bufWriteByte 34

/-- The method `WriteUint64`. -/
def WriteUint64 (enc : jsonEncoder) (val : Nat) : jsonEncoder :=
  let enc := enc.addElementSeparator
  enc.bufWriteString (formatUint val)

/-- The method `appendFloat`. -/
def appendFloat (enc : jsonEncoder) (val : GoFloat) (bitSize : Nat) : jsonEncoder :=
  let enc := enc.addElementSeparator
  match val with
  | .nan => enc.bufWriteString [34, 78, 97, 78, 34]
  | .posInf => enc.bufWriteString [34, 43, 73, 110, 102, 34]
  | .negInf => enc.bufWriteString [34, 45, 73, 110, 102, 34]
  | .finite neg whole frac => enc.bufWriteString (formatFloat (.finite neg whole frac) bitSize)

/-- The method `WriteFloat64`. -/
def WriteFloat64 (enc : jsonEncoder) (v : GoFloat) : jsonEncoder := enc.appendFloat v 64

/-- The method `WriteFloat32`. -/
def WriteFloat32 (enc : jsonEncoder) (v : GoFloat) : jsonEncoder := enc.appendFloat v 32

end jsonEncoder

/-- The effect of one call of an encoder function on the JSON encoder it is handed. -/
def PrimCall.run (enc : jsonEncoder) : PrimCall → jsonEncoder
  | .WriteBool v => enc.WriteBool v
  | .WriteByteString v => enc.WriteByteString v
  | .AppendComplex128 re im => enc.AppendComplex128 re im
  | .WriteFloat64 v => enc.WriteFloat64 v
  | .WriteFloat32 v => enc.WriteFloat32 v
  | .WriteInt64 v => enc.WriteInt64 v
  | .WriteString v => enc.WriteString v
  | .WriteUint64 v => enc.WriteUint64 v

/-- The effect of an encoder function: its calls, in order. -/
def runPrims : jsonEncoder → List PrimCall → jsonEncoder
  | enc, [] => enc
  | enc, c :: cs => runPrims (c.run enc) cs

/-- The method `buffer.TrimNewline`: drops one trailing newline. -/
def TrimNewline (bs : List Nat) : List Nat :=
  let i : Int := (bs.length : Int) - 1
  if i ≥ 0 then
    if bs.getD i.toNat 0 = 10 then bs.take i.toNat else bs
  else bs

/-- The alphabet of `base64.StdEncoding`. -/
def encodeStd : List Nat :=
  [65, 66, 67, 68, 69, 70, 71, 72, 73, 74, 75, 76, 77, 78, 79, 80, 81, 82, 83, 84, 85, 86, 87,
   88, 89, 90, 97, 98, 99, 100, 101, 102, 103, 104, 105, 106, 107, 108, 109, 110, 111, 112, 113,
   114, 115, 116, 117, 118, 119, 120, 121, 122, 48, 49, 50, 51, 52, 53, 54, 55, 56, 57, 43, 47]

/-- One character of the base64 alphabet; the index is a 6-bit value. -/
def encodeStdAt (i : Nat) : Nat := encodeStd.getD (i % 64) 65

/-- The function `base64.StdEncoding.EncodeToString`: padded standard base64. -/
def EncodeToString : List Nat → List Nat
  | [] => []
  | [a] => [encodeStdAt (a >>> 2), encodeStdAt ((a &&& 3) <<< 4), 61, 61]
  | [a, b] =>
    [encodeStdAt (a >>> 2), encodeStdAt (((a &&& 3) <<< 4) ||| (b >>> 4)),
      encodeStdAt ((b &&& 15) <<< 2), 61]
  | a :: b :: c :: rest =>
    encodeStdAt (a >>> 2) :: encodeStdAt (((a &&& 3) <<< 4) ||| (b >>> 4)) ::
      encodeStdAt (((b &&& 15) <<< 2) ||| (c >>> 6)) :: encodeStdAt (c &&& 63) ::
        EncodeToString rest

namespace jsonEncoder

/-- The method `AppendDuration`; `none` when `EncodeDuration` is nil. -/
def AppendDuration (enc : jsonEncoder) (val : Int) : Option jsonEncoder :=
  let cur := enc.buf.length
  match enc.cfg.EncodeDuration with
  | none => none
  | some f =>
    let enc := runPrims enc (f val)
    if cur = enc.buf.length then some (enc.WriteInt64 val) else some enc

/-- The method `AppendTime`; `none` when `EncodeTime` is nil. -/
def AppendTime (enc : jsonEncoder) (val : Int) : Option jsonEncoder :=
  let cur := enc.buf.length
  match enc.cfg.EncodeTime with
  | none => none
  | some f =>
    let enc := runPrims enc (f val)
    if cur = enc.buf.length then some (enc.WriteInt64 val) else some enc

/-- The method `encodeReflected`: the literal `null` for a nil value, else what the
standard JSON encoder wrote, without its trailing newline, or its error. -/
def encodeReflected (_enc : jsonEncoder) (obj : Option Reflected) : Except Error (List Nat) :=
  match obj with
  | none => .ok [110, 117, 108, 108]
  | some (.fails err) => .error err
  | some (.encodes written) => .ok (TrimNewline written)

/-- The method `AppendReflected`. -/
def AppendReflected (enc : jsonEncoder) (val : Option Reflected) : jsonEncoder × Option Error :=
  match enc.encodeReflected val with
  | .error err => (enc, some err)
  | .ok valueBytes =>
    let enc := enc.addElementSeparator
    (enc.bufWriteString valueBytes, none)

/-- The method `AddReflected`. -/
def AddReflected (enc : jsonEncoder) (key : List Nat) (obj : Option Reflected) :
    jsonEncoder × Option Error :=
  match enc.encodeReflected obj with
  | .error err => (enc, some err)
  | .ok valueBytes =>
    let enc := enc.addKey key
    (enc.bufWriteString valueBytes, none)

/-- The method `AddByteString`. -/
def AddByteString (enc : jsonEncoder) (key val : List Nat) : jsonEncoder :=
  (enc.addKey key).WriteByteString val

/-- The method `AddBool`. -/
def AddBool (enc : jsonEncoder) (key : List Nat) (val : Bool) : jsonEncoder :=
  (enc.addKey key).WriteBool val

/-- The method `AddComplex128`. -/
def AddComplex128 (enc : jsonEncoder) (key : List Nat) (re im : GoFloat) : jsonEncoder :=
  (enc.addKey key).AppendComplex128 re im

/-- The method `AddDuration`. -/
def AddDuration (enc : jsonEncoder) (key : List Nat) (val : Int) : Option jsonEncoder :=
  (enc.addKey key).AppendDuration val

/-- The method `AddFloat64`. -/
def AddFloat64 (enc : jsonEncoder) (key : List Nat) (val : GoFloat) : jsonEncoder :=
  (enc.addKey key).WriteFloat64 val

/-- The method `AddFloat32`: `AddFloat64(k, float64(v))`. -/
def AddFloat32 (enc : jsonEncoder) (key : List Nat) (val : GoFloat) : jsonEncoder :=
  enc.AddFloat64 key val

/-- The method `AddInt64`. -/
def AddInt64 (enc : jsonEncoder) (key : List Nat) (val : Int) : jsonEncoder :=
  (enc.addKey key).WriteInt64 val

/-- The method `OpenNamespace`. -/
def OpenNamespace (enc : jsonEncoder) (key : List Nat) : jsonEncoder :=
  let enc := enc.addKey key
  let enc := enc.bufWriteByte 123
  { enc with openNamespaces := enc.openNamespaces + 1 }

/-- The method `AddString`. -/
def AddString (enc : jsonEncoder) (key val : List Nat) : jsonEncoder :=
  (enc.addKey key).WriteString val

/-- The method `AddBinary`. -/
def AddBinary (enc : jsonEncoder) (key val : List Nat) : jsonEncoder :=
  enc.AddString key (EncodeToString val)

/-- The method `AddTime`. -/
def AddTime (enc : jsonEncoder) (key : List Nat) (val : Int) : Option jsonEncoder :=
  (enc.addKey key).AppendTime val

/-- The method `AddUint64`. -/
def AddUint64 (enc : jsonEncoder) (key : List Nat) (val : Nat) : jsonEncoder :=
  (enc.addKey key).WriteUint64 val

end jsonEncoder

mutual
/-- The effect of one call a marshaler (or a field) makes on the JSON encoder as an
`ObjectEncoder`, with the error the call returns; `AddArray` and `AddObject` are the
bodies of these methods and of `AppendArray` and `AppendObject`. -/
def ObjectCall.run (enc : jsonEncoder) : ObjectCall → Option (jsonEncoder × Option Error)
  | .AddArray key arr =>
    let enc := enc.addKey key
    let enc := enc.addElementSeparator
    let enc := enc.bufWriteByte 91
    match ArrayMarshaler.MarshalLogArray enc arr with
    | none => none
    | some (enc, err) => some (enc.bufWriteByte 93, err)
  | .AddObject key obj =>
    let enc := enc.addKey key
    let enc := enc.addElementSeparator
    let enc := enc.bufWriteByte 123
    match ObjectMarshaler.MarshalLogObject enc obj with
    | none => none
    | some (enc, err) => some (enc.bufWriteByte 125, err)
  | .AddBinary key val => some (enc.AddBinary key val, none)
  | .AddByteString key val => some (enc.AddByteString key val, none)
  | .AddBool key val => some (enc.AddBool key val, none)
  | .AddComplex128 key re im => some (enc.AddComplex128 key re im, none)
  | .AddDuration key val => (enc.AddDuration key val).map (fun e => (e, none))
  | .AddFloat64 key val => some (enc.AddFloat64 key val, none)
  | .AddFloat32 key val => some (enc.AddFloat32 key val, none)
  | .AddInt64 key val => some (enc.AddInt64 key val, none)
  | .AddReflected key obj => some (enc.AddReflected key obj)
  | .OpenNamespace key => some (enc.OpenNamespace key, none)
  | .AddString key val => some (enc.AddString key val, none)
  | .AddTime key val => (enc.AddTime key val).map (fun e => (e, none))
  | .AddUint64 key val => some (enc.AddUint64 key val, none)
/-- The effect of one call a marshaler makes on the JSON encoder as an `ArrayEncoder`. -/
def ArrayCall.run (enc : jsonEncoder) : ArrayCall → Option (jsonEncoder × Option Error)
  | .AppendArray arr =>
    let enc := enc.addElementSeparator
    let enc := enc.bufWriteByte 91
    match ArrayMarshaler.MarshalLogArray enc arr with
    | none => none
    | some (enc, err) => some (enc.bufWriteByte 93, err)
  | .AppendObject obj =>
    let enc := enc.addElementSeparator
    let enc := enc.bufWriteByte 123
    match ObjectMarshaler.MarshalLogObject enc obj with
    | none => none
    | some (enc, err) => some (enc.bufWriteByte 125, err)
  | .AppendReflected obj => some (enc.AppendReflected obj)
  | .AppendDuration val => (enc.AppendDuration val).map (fun e => (e, none))
  | .AppendTime val => (enc.AppendTime val).map (fun e => (e, none))
  | .prim c => some (c.run enc, none)
/-- The calls of an object marshaler, in order. -/
def runObjectCalls (enc : jsonEncoder) : List ObjectCall → Option jsonEncoder
  | [] => some enc
  | c :: cs =>
    match ObjectCall.run enc c with
    | none => none
    | some (enc, _) => runObjectCalls enc cs
/-- The calls of an array marshaler, in order. -/
def runArrayCalls (enc : jsonEncoder) : List ArrayCall → Option jsonEncoder
  | [] => some enc
  | c :: cs =>
    match ArrayCall.run enc c with
    | none => none
    | some (enc, _) => runArrayCalls enc cs
/-- The call `obj.MarshalLogObject(enc)`. -/
def ObjectMarshaler.MarshalLogObject (enc : jsonEncoder) :
    ObjectMarshaler → Option (jsonEncoder × Option Error)
  | .mk calls err =>
    match runObjectCalls enc calls with
    | none => none
    | some enc => some (enc, err)
/-- The call `arr.MarshalLogArray(enc)`. -/
def ArrayMarshaler.MarshalLogArray (enc : jsonEncoder) :
    ArrayMarshaler → Option (jsonEncoder × Option Error)
  | .mk calls err =>
    match runArrayCalls enc calls with
    | none => none
    | some enc => some (enc, err)
end

namespace jsonEncoder

/-- The method `AppendArray`. -/
def AppendArray (enc : jsonEncoder) (arr : ArrayMarshaler) : Option (jsonEncoder × Option Error) :=
  let enc := enc.addElementSeparator
  let enc := enc.bufWriteByte 91
  match ArrayMarshaler.MarshalLogArray enc arr with
  | none => none
  | some (enc, err) => some (enc.bufWriteByte 93, err)

/-- The method `AppendObject`. -/
def AppendObject (enc : jsonEncoder) (obj : ObjectMarshaler) :
    Option (jsonEncoder × Option Error) :=
  let enc := enc.addElementSeparator
  let enc := enc.bufWriteByte 123
  match ObjectMarshaler.MarshalLogObject enc obj with
  | none => none
  | some (enc, err) => some (enc.bufWriteByte 125, err)

/-- The method `AddArray`. -/
def AddArray (enc : jsonEncoder) (key : List Nat) (arr : ArrayMarshaler) :
    Option (jsonEncoder × Option Error) :=
  (enc.addKey key).AppendArray arr

/-- The method `AddObject`. -/
def AddObject (enc : jsonEncoder) (key : List Nat) (obj : ObjectMarshaler) :
    Option (jsonEncoder × Option Error) :=
  (enc.addKey key).AppendObject obj

end jsonEncoder

/-! ## Fields -/

/-- Modelled from the spec: `Field` (§3.3; vipercore/field.go is not among the
sources), a tagged union of a key and a payload. The integer tags of all widths
carry their value (`IntType`, `UintType`), a complex or float value its text, a
stringer its rendered text, an error its message and, when it groups other errors,
the messages of its causes. -/
inductive Field where
  | UnknownType (key : List Nat)
  | ArrayMarshalerType (key : List Nat) (arr : ArrayMarshaler)
  | ObjectMarshalerType (key : List Nat) (obj : ObjectMarshaler)
  | BinaryType (key : List Nat) (val : List Nat)
  | BoolType (key : List Nat) (val : Bool)
  | ByteStringType (key : List Nat) (val : List Nat)
  | ComplexType (key : List Nat) (re im : GoFloat)
  | DurationType (key : List Nat) (val : Int)
  | Float64Type (key : List Nat) (val : GoFloat)
  | Float32Type (key : List Nat) (val : GoFloat)
  | IntType (key : List Nat) (val : Int)
  | UintType (key : List Nat) (val : Nat)
  | StringType (key : List Nat) (val : List Nat)
  | TimeType (key : List Nat) (val : Int)
  | ErrorType (key : List Nat) (msg : List Nat) (causes : Option (List (List Nat)))
  | SkipType
  | StringerType (key : List Nat) (text : List Nat)
  | ReflectType (key : List Nat) (obj : Option Reflected)
  | NamespaceType (key : List Nat)

/-- Modelled from the spec: the array of the messages of the causes of a grouped
error (§3.3, "also logs causes array"). -/
def errorCauses (causes : List (List Nat)) : ArrayMarshaler :=
  .mk (causes.map (fun m => ArrayCall.prim (.WriteString m))) none

/-- Modelled from the spec: `Field.AddTo` (§3.3, §4.3): the `add_<T>(key, value)` call
of the field's tag on the encoder, with the error it returns. An unknown tag panics,
a skip does nothing, a namespace opens a scope named by the key; an error logs its
message under the key and, when it groups other errors, the causes array under the
key followed by `Causes` (the spec does not name that key). -/
def Field.AddTo (enc : jsonEncoder) : Field → Option (jsonEncoder × Option Error)
  | .UnknownType _ => none
  | .ArrayMarshalerType key arr => enc.AddArray key arr
  | .ObjectMarshalerType key obj => enc.AddObject key obj
  | .BinaryType key val => some (enc.AddBinary key val, none)
  | .BoolType key val => some (enc.AddBool key val, none)
  | .ByteStringType key val => some (enc.AddByteString key val, none)
  | .ComplexType key re im => some (enc.AddComplex128 key re im, none)
  | .DurationType key val => (enc.AddDuration key val).map (fun e => (e, none))
  | .Float64Type key val => some (enc.AddFloat64 key val, none)
  | .Float32Type key val => some (enc.AddFloat32 key val, none)
  | .IntType key val => some (enc.AddInt64 key val, none)
  | .UintType key val => some (enc.AddUint64 key val, none)
  | .StringType key val => some (enc.AddString key val, none)
  | .TimeType key val => (enc.AddTime key val).map (fun e => (e, none))
  | .ErrorType key msg causes =>
    let enc := enc.AddString key msg
    match causes with
    | none => some (enc, none)
    | some cs => enc.AddArray (key ++ bytes "Causes") (errorCauses cs)
  | .SkipType => some (enc, none)
  | .StringerType key text => some (enc.AddString key text, none)
  | .ReflectType key obj => some (enc.AddReflected key obj)
  | .NamespaceType key => some (enc.OpenNamespace key, none)

/-- Modelled from the spec: `addFields`, which adds every field to the encoder in the
order given (§4.4, §9). -/
def addFields (enc : jsonEncoder) : List Field → Option jsonEncoder
  | [] => some enc
  | f :: fs =>
    match f.AddTo enc with
    | none => none
    | some (enc, _) => addFields enc fs

/-! ## Encoding an entry as JSON -/

/-- The function `newJSONEncoder`. -/
def newJSONEncoder (cfg : EncoderConfig) (spaced : Bool) : jsonEncoder :=
  { cfg := cfg, buf := [], spaced := spaced, openNamespaces := 0 }

/-- The function `NewJSONEncoder`. -/
def NewJSONEncoder (cfg : EncoderConfig) : jsonEncoder := newJSONEncoder cfg false

namespace jsonEncoder

/-- The method `clone`: the same configuration, flag and namespace count over a
fresh buffer. -/
def clone (enc : jsonEncoder) : jsonEncoder :=
  { cfg := enc.cfg, buf := [], spaced := enc.spaced, openNamespaces := enc.openNamespaces }

/-- The method `Clone`. -/
def Clone (enc : jsonEncoder) : jsonEncoder :=
  let clone := enc.clone
  clone.bufWriteString enc.buf

/-- The loop of `closeOpenNamespaces`, with `n` iterations left. -/
def closeOpenNamespacesLoop : Nat → jsonEncoder → jsonEncoder
  | 0, enc => enc
  | n + 1, enc => closeOpenNamespacesLoop n (enc.bufWriteByte 125)

/-- The method `closeOpenNamespaces`. -/
def closeOpenNamespaces (enc : jsonEncoder) : jsonEncoder :=
  closeOpenNamespacesLoop enc.openNamespaces enc

/-- The block `if final.LevelKey != ""` of `EncodeEntry`. -/
def entryLevel (final : jsonEncoder) (ent : Entry) : Option jsonEncoder :=
  if final.cfg.LevelKey ≠ [] then
    let final := final.addKey final.cfg.LevelKey
    let cur := final.buf.length
    match final.cfg.EncodeLevel with
    | none => none
    | some f =>
      let final := runPrims final (f ent.Level)
      if cur = final.buf.length then some (final.WriteString ent.Level.String) else some final
  else some final

/-- The block `if final.TimeKey != ""` of `EncodeEntry`. -/
def entryTime (final : jsonEncoder) (ent : Entry) : Option jsonEncoder :=
  if final.cfg.TimeKey ≠ [] then final.AddTime final.cfg.TimeKey ent.Time else some final

/-- The block `if ent.LoggerName != "" && final.NameKey != ""` of `EncodeEntry`. -/
def entryName (final : jsonEncoder) (ent : Entry) : jsonEncoder :=
  if ent.LoggerName ≠ [] ∧ final.cfg.NameKey ≠ [] then
    let final := final.addKey final.cfg.NameKey
    let cur := final.buf.length
    let nameEncoder :=
      match final.cfg.EncodeName with
      | none => FullNameEncoder
      | some f => f
    let final := runPrims final (nameEncoder ent.LoggerName)
    if cur = final.buf.length then final.WriteString ent.LoggerName else final
  else final

/-- The block `if ent.Caller.Defined && final.CallerKey != ""` of `EncodeEntry`. -/
def entryCaller (final : jsonEncoder) (ent : Entry) : Option jsonEncoder :=
  if ent.Caller.Defined = true ∧ final.cfg.CallerKey ≠ [] then
    let final := final.addKey final.cfg.CallerKey
    let cur := final.buf.length
    match final.cfg.EncodeCaller with
    | none => none
    | some f =>
      let final := runPrims final (f ent.Caller)
      if cur = final.buf.length then some (final.WriteString ent.Caller.String) else some final
  else some final

/-- The block `if final.MessageKey != ""` of `EncodeEntry`. -/
def entryMessage (enc final : jsonEncoder) (ent : Entry) : jsonEncoder :=
  if final.cfg.MessageKey ≠ [] then
    let final := final.addKey enc.cfg.MessageKey
    final.WriteString ent.Message
  else final

/-- The block `if enc.buf.Len() > 0` of `EncodeEntry`. -/
def entryContext (enc final : jsonEncoder) : jsonEncoder :=
  if enc.buf.length > 0 then
    let final := final.addElementSeparator
    final.bufWriteString enc.buf
  else final

/-- The block `if ent.Stack != "" && final.StacktraceKey != ""` of `EncodeEntry`. -/
def entryStack (final : jsonEncoder) (ent : Entry) : jsonEncoder :=
  if ent.Stack ≠ [] ∧ final.cfg.StacktraceKey ≠ [] then
    final.AddString final.cfg.StacktraceKey ent.Stack
  else final

/-- The block `if final.LineEnding != ""` of `EncodeEntry` (and of the console
`EncodeEntry`). -/
def entryLineEnding (final : jsonEncoder) : jsonEncoder :=
  if final.cfg.LineEnding ≠ [] then final.bufWriteString final.cfg.LineEnding
  else final.bufWriteString DefaultLineEnding

/-- The method `EncodeEntry` of the JSON encoder: the returned buffer and error, or
`none` when it panics. -/
def EncodeEntry (enc : jsonEncoder) (ent : Entry) (fields : List Field) :
    Option (List Nat × Option Error) :=
  let final := enc.clone
  let final := final.bufWriteByte 123
  match final.entryLevel ent with
  | none => none
  | some final =>
    match final.entryTime ent with
    | none => none
    | some final =>
      let final := final.entryName ent
      match final.entryCaller ent with
      | none => none
      | some final =>
        let final := entryMessage enc final ent
        let final := entryContext enc final
        match addFields final fields with
        | none => none
        | some final =>
          let final := final.closeOpenNamespaces
          let final := final.entryStack ent
          let final := final.bufWriteByte 125
          let final := final.entryLineEnding
          let ret := final.buf
          some (ret, none)

end jsonEncoder

/-! ## The console encoder -/

/-- The struct `consoleEncoder`: an embedded `*jsonEncoder`. -/
structure consoleEncoder where
  jsonEncoder : jsonEncoder

/-- The function `NewConsoleEncoder`. -/
def NewConsoleEncoder (cfg : EncoderConfig) : consoleEncoder :=
  { jsonEncoder := newJSONEncoder cfg true }

/-- Modelled from the spec: `sliceArrayEncoder`, the temporary in-memory primitive
encoder of §4.5 (vipercore/memory_encoder.go is not among the sources): every call
of an encoder function appends the value it writes. -/
structure sliceArrayEncoder where
  elems : List PrimCall

/-- Modelled from the spec: `fmt.Fprint` of one element, with no quoting (§4.5): a
string or byte string is its bytes, an integer its base-10 text, a boolean `true` or
`false`; the text of a float or complex value is given by `fmtNum`. -/
def Fprint (fmtNum : PrimCall → List Nat) : PrimCall → List Nat
  | .WriteBool v => formatBool v
  | .WriteByteString v => v
  | .WriteInt64 v => formatInt v
  | .WriteString v => v
  | .WriteUint64 v => formatUint v
  | c => fmtNum c

namespace consoleEncoder

/-- The method `addTabIfNecessary`. -/
def addTabIfNecessary (_c : consoleEncoder) (line : List Nat) : List Nat :=
  if line.length > 0 then line ++ [9] else line

/-- The method `writeContext`; `none` when adding a field panics. -/
def writeContext (c : consoleEncoder) (line : List Nat) (extra : List Field) :
    Option (List Nat) :=
  let context := c.jsonEncoder.Clone
  match addFields context extra with
  | none => none
  | some context =>
    let context := context.closeOpenNamespaces
    if context.buf.length = 0 then some line
    else
      let line := c.addTabIfNecessary line
      let line := line ++ [123]
      let line := line ++ context.buf
      some (line ++ [125])

/-- The loop `for i := range arr.elems` of the console `EncodeEntry`, at index `i`. -/
def printElems (fmtNum : PrimCall → List Nat) : Nat → List Nat → List PrimCall → List Nat
  | _, line, [] => line
  | i, line, e :: es =>
    let line := if i > 0 then line ++ [9] else line
    printElems fmtNum (i + 1) (line ++ Fprint fmtNum e) es

/-- The block `if c.TimeKey != "" && c.EncodeTime != nil` of the console
`EncodeEntry`. -/
def timeElems (c : consoleEncoder) (arr : sliceArrayEncoder) (ent : Entry) : sliceArrayEncoder :=
  if c.jsonEncoder.cfg.TimeKey ≠ [] then
    match c.jsonEncoder.cfg.EncodeTime with
    | some f => { elems := arr.elems ++ f ent.Time }
    | none => arr
  else arr

/-- The block `if c.LevelKey != "" && c.EncodeLevel != nil` of the console
`EncodeEntry`. -/
def levelElems (c : consoleEncoder) (arr : sliceArrayEncoder) (ent : Entry) : sliceArrayEncoder :=
  if c.jsonEncoder.cfg.LevelKey ≠ [] then
    match c.jsonEncoder.cfg.EncodeLevel with
    | some f => { elems := arr.elems ++ f ent.Level }
    | none => arr
  else arr

/-- The block `if ent.LoggerName != "" && c.NameKey != ""` of the console
`EncodeEntry`. -/
def nameElems (c : consoleEncoder) (arr : sliceArrayEncoder) (ent : Entry) : sliceArrayEncoder :=
  if ent.LoggerName ≠ [] ∧ c.jsonEncoder.cfg.NameKey ≠ [] then
    let nameEncoder :=
      match c.jsonEncoder.cfg.EncodeName with
      | none => FullNameEncoder
      | some f => f
    { elems := arr.elems ++ nameEncoder ent.LoggerName }
  else arr

/-- The block `if ent.Caller.Defined && c.CallerKey != "" && c.EncodeCaller != nil`
of the console `EncodeEntry`. -/
def callerElems (c : consoleEncoder) (arr : sliceArrayEncoder) (ent : Entry) :
    sliceArrayEncoder :=
  if ent.Caller.Defined = true ∧ c.jsonEncoder.cfg.CallerKey ≠ [] then
    match c.jsonEncoder.cfg.EncodeCaller with
    | some f => { elems := arr.elems ++ f ent.Caller }
    | none => arr
  else arr

/-- The block `if c.MessageKey != ""` of the console `EncodeEntry`. -/
def messageLine (c : consoleEncoder) (line : List Nat) (ent : Entry) : List Nat :=
  if c.jsonEncoder.cfg.MessageKey ≠ [] then c.addTabIfNecessary line ++ ent.Message else line

/-- The block `if ent.Stack != "" && c.StacktraceKey != ""` of the console
`EncodeEntry`. -/
def stackLine (c : consoleEncoder) (line : List Nat) (ent : Entry) : List Nat :=
  if ent.Stack ≠ [] ∧ c.jsonEncoder.cfg.StacktraceKey ≠ [] then line ++ [10] ++ ent.Stack
  else line

/-- The block `if c.LineEnding != ""` of the console `EncodeEntry`. -/
def lineEnding (c : consoleEncoder) (line : List Nat) : List Nat :=
  if c.jsonEncoder.cfg.LineEnding ≠ [] then line ++ c.jsonEncoder.cfg.LineEnding
  else line ++ DefaultLineEnding

/-- The method `EncodeEntry` of the console encoder: the returned line and error, or
`none` when adding a field panics. -/
def EncodeEntry (fmtNum : PrimCall → List Nat) (c : consoleEncoder) (ent : Entry)
    (fields : List Field) : Option (List Nat × Option Error) :=
  let line : List Nat := []
  let arr : sliceArrayEncoder := { elems := [] }
  let arr := c.timeElems arr ent
  let arr := c.levelElems arr ent
  let arr := c.nameElems arr ent
  let arr := c.callerElems arr ent
  let line := printElems fmtNum 0 line arr.elems
  let line := c.messageLine line ent
  match c.writeContext line fields with
  | none => none
  | some line =>
    let line := c.stackLine line ent
    let line := c.lineEnding line
    some (line, none)

end consoleEncoder

/-! ## Example values -/

/-- An encoder function that writes nothing. -/
def noop {α : Type} : α → List PrimCall := fun _ => []

/-- The zero-value `EncoderConfig`. -/
def zeroConfig : EncoderConfig :=
  { MessageKey := [], LevelKey := [], TimeKey := [], NameKey := [], CallerKey := [],
    StacktraceKey := [], LineEnding := [], EncodeLevel := none, EncodeTime := none,
    EncodeDuration := none, EncodeCaller := none, EncodeName := none }

/-- The configuration of scenario 1 of §8: level key `level`, message key `msg`, time
disabled; the level encoder writes the lowercase level name. -/
def basicConfig : EncoderConfig :=
  { zeroConfig with
    MessageKey := bytes "msg", LevelKey := bytes "level",
    EncodeLevel := some (fun l => [.WriteString (Level.String l)]) }

/-- An entry with a level and a message only. -/
def entryOf (l : Level) (msg : List Nat) : Entry :=
  { Level := l, Time := 0, LoggerName := [], Message := msg,
    Caller := { Defined := false, File := [], Line := 0 }, Stack := [] }

/-! ## Reference definitions, from the words of the specification -/

/-- The bytes `safeAddString` appends for `s`: what it leaves in an empty buffer. -/
def escaped (s : List Nat) : List Nat :=
  ((newJSONEncoder zeroConfig false).safeAddString s).buf

/-- The separator of a mode: a comma, followed by one space in spaced mode. -/
def separator (spaced : Bool) : List Nat := if spaced then [44, 32] else [44]

/-- The text after the closing quote of a key: a colon, followed by one space in
spaced mode. -/
def keyColon (spaced : Bool) : List Nat := if spaced then [58, 32] else [58]

/-- A buffer calls for a separator when it is non-empty and its last byte is none
of `{`, `[`, `:`, `,` and space. -/
def needsSeparator (buf : List Nat) : Bool :=
  match buf.getLast? with
  | none => false
  | some c => !(c == 123 || c == 91 || c == 58 || c == 44 || c == 32)

/-- The lowercase hex digit of a value below sixteen. -/
def hexDigit (d : Nat) : Nat := if d < 10 then 48 + d else 87 + d

/-- The escape of one ASCII byte: a backslash before a backslash or a double quote,
the short escapes of newline, carriage return and tab, `\u00` and two hex digits for
any other byte below 0x20, and the byte itself otherwise. -/
def escapeByte (b : Nat) : List Nat :=
  if b = 92 ∨ b = 34 then [92, b]
  else if b = 10 then [92, 110]
  else if b = 13 then [92, 114]
  else if b = 9 then [92, 116]
  else if b < 0x20 then [92, 117, 48, 48, hexDigit (b / 16), hexDigit (b % 16)]
  else [b]

/-- A continuation byte of UTF-8, `80..BF`. -/
def isCont (b : Nat) : Bool := decide (0x80 ≤ b ∧ b ≤ 0xBF)

/-- Well-formed UTF-8 byte sequences (the Unicode Standard, table 3-7). -/
def wellFormedSeq : List Nat → Bool
  | [a] => decide (a ≤ 0x7F)
  | [a, b] => decide (0xC2 ≤ a ∧ a ≤ 0xDF) && isCont b
  | [a, b, c] =>
    (decide (a = 0xE0 ∧ 0xA0 ≤ b ∧ b ≤ 0xBF) || decide (0xE1 ≤ a ∧ a ≤ 0xEC) && isCont b ||
      decide (a = 0xED ∧ 0x80 ≤ b ∧ b ≤ 0x9F) || decide (0xEE ≤ a ∧ a ≤ 0xEF) && isCont b) &&
      isCont c
  | [a, b, c, d] =>
    (decide (a = 0xF0 ∧ 0x90 ≤ b ∧ b ≤ 0xBF) || decide (0xF1 ≤ a ∧ a ≤ 0xF3) && isCont b ||
      decide (a = 0xF4 ∧ 0x80 ≤ b ∧ b ≤ 0x8F)) && isCont c && isCont d
  | _ => false

/-- The length of the well-formed multi-byte sequence at the head of `s`, if there
is one. -/
def multiByteLen (s : List Nat) : Option Nat :=
  if wellFormedSeq (s.take 2) then some 2
  else if wellFormedSeq (s.take 3) then some 3
  else if wellFormedSeq (s.take 4) then some 4
  else none

/-- The escaping of the specification, reading the input left to right; `k` bytes of
a well-formed multi-byte sequence are still to be copied. -/
def escapeSpecAux : Nat → List Nat → List Nat
  | _, [] => []
  | k + 1, b :: rest => b :: escapeSpecAux k rest
  | 0, b :: rest =>
    if b < 0x80 then escapeByte b ++ escapeSpecAux 0 rest
    else
      match multiByteLen (b :: rest) with
      | some n => b :: escapeSpecAux (n - 1) rest
      | none => [92, 117, 102, 102, 102, 100] ++ escapeSpecAux 0 rest

/-- The escaping of the specification. -/
def escapeSpec (s : List Nat) : List Nat := escapeSpecAux 0 s

/-- Valid UTF-8: a concatenation of well-formed sequences; `k` bytes of a multi-byte
sequence are still to be skipped. -/
def validUTF8Aux : Nat → List Nat → Bool
  | 0, [] => true
  | _ + 1, [] => false
  | k + 1, _ :: rest => validUTF8Aux k rest
  | 0, b :: rest =>
    if b < 0x80 then validUTF8Aux 0 rest
    else
      match multiByteLen (b :: rest) with
      | some n => validUTF8Aux (n - 1) rest
      | none => false

/-- Valid UTF-8. -/
def validUTF8 (s : List Nat) : Bool := validUTF8Aux 0 s

/-- The value of a hex digit. -/
def hexVal (c : Nat) : Option Nat :=
  if 48 ≤ c ∧ c ≤ 57 then some (c - 48)
  else if 97 ≤ c ∧ c ≤ 102 then some (c - 87)
  else if 65 ≤ c ∧ c ≤ 70 then some (c - 55)
  else none

/-- The value of four hex digits. -/
def hex4 (a b c d : Nat) : Option Nat :=
  match hexVal a, hexVal b, hexVal c, hexVal d with
  | some x, some y, some z, some w => some (x * 4096 + y * 256 + z * 16 + w)
  | _, _, _, _ => none

/-- The UTF-8 encoding of a code point. -/
def utf8Encode (cp : Nat) : List Nat :=
  if cp < 0x80 then [cp]
  else if cp < 0x800 then [0xC0 + cp / 64, 0x80 + cp % 64]
  else if cp < 0x10000 then [0xE0 + cp / 4096, 0x80 + cp / 64 % 64, 0x80 + cp % 64]
  else [0xF0 + cp / 262144, 0x80 + cp / 4096 % 64, 0x80 + cp / 64 % 64, 0x80 + cp % 64]

/-- The character of a two-character JSON escape (RFC 8259, section 7). -/
def simpleEscape (e : Nat) : Option Nat :=
  if e = 34 ∨ e = 92 ∨ e = 47 then some e
  else if e = 98 then some 8
  else if e = 102 then some 12
  else if e = 110 then some 10
  else if e = 114 then some 13
  else if e = 116 then some 9
  else none

/-- The value of the four hex digits at the head of `s`. -/
def hex4At (s : List Nat) : Option Nat :=
  match s with
  | a :: b :: c :: d :: _ => hex4 a b c d
  | _ => none

/-- The escape that follows a backslash (RFC 8259, section 7): the bytes it stands
for and the number of input bytes it takes. A two-character escape is one byte; a
`\u` escape is the UTF-8 encoding of its code point, a surrogate pair being one code
point (a surrogate on its own is refused). -/
def decodeEscape (rest : List Nat) : Option (List Nat × Nat) :=
  match rest with
  | [] => none
  | e :: rest1 =>
    if e = 117 then
      match hex4At rest1 with
      | none => none
      | some cp =>
        if 0xD800 ≤ cp ∧ cp < 0xDC00 then
          if rest1.getD 4 0 = 92 ∧ rest1.getD 5 0 = 117 then
            match hex4At (rest1.drop 6) with
            | none => none
            | some lo =>
              if 0xDC00 ≤ lo ∧ lo < 0xE000 then
                some (utf8Encode (0x10000 + (cp - 0xD800) * 1024 + (lo - 0xDC00)), 11)
              else none
          else none
        else if 0xDC00 ≤ cp ∧ cp < 0xE000 then none
        else some (utf8Encode cp, 5)
    else
      match simpleEscape e with
      | some v => some ([v], 1)
      | none => none

/-- JSON string decoding after the opening quote (RFC 8259, section 7): the decoded
bytes when the input is string characters followed by the closing quote and nothing
else; `k` bytes of an escape already decoded are still to be passed over. A raw
byte below 0x20 is refused and a backslash starts an escape. -/
def unquoteAux : Nat → List Nat → Option (List Nat)
  | _, [] => none
  | k + 1, _ :: rest => unquoteAux k rest
  | 0, c :: rest =>
    if c = 34 then (if rest.isEmpty then some [] else none)
    else if c = 92 then
      match decodeEscape rest with
      | none => none
      | some (out, k) => (unquoteAux k rest).map (fun t => out ++ t)
    else if c < 0x20 then none
    else (unquoteAux 0 rest).map (fun t => c :: t)

/-- The value of a JSON string literal: the decoding of what follows its opening
quote; `none` when the bytes are not one string literal. -/
def jsonDecodeString : List Nat → Option (List Nat)
  | [] => none
  | c :: rest => if c = 34 then unquoteAux 0 rest else none

/-- The bytes after the first byte of a sequence complete a sequence of `sz` bytes
whose second byte lies in `lo..hi`. -/
def seqOK (sz lo hi : Nat) (rest : List Nat) : Prop :=
  sz ≤ rest.length + 1 ∧ lo ≤ rest.getD 0 0 ∧ rest.getD 0 0 ≤ hi ∧
    (3 ≤ sz → 0x80 ≤ rest.getD 1 0 ∧ rest.getD 1 0 ≤ 0xBF) ∧
    (4 ≤ sz → 0x80 ≤ rest.getD 2 0 ∧ rest.getD 2 0 ≤ 0xBF)

/-! ## The text of each write -/

/-- The separator written before a key or a value, given the buffer so far. -/
def sepText (spaced : Bool) (prev : List Nat) : List Nat :=
  if needsSeparator prev then separator spaced else []

/-- A double-quoted, escaped string. -/
def quoted (s : List Nat) : List Nat := [34] ++ escapeSpec s ++ [34]

/-- A key as written after the buffer so far: the separator if one is called for,
the quoted key, the colon. -/
def keyText (spaced : Bool) (prev : List Nat) (key : List Nat) : List Nat :=
  sepText spaced prev ++ quoted key ++ keyColon spaced

/-- The text of a float value: a quoted name for NaN and the infinities, the plain
number otherwise. -/
def floatText (v : GoFloat) (bitSize : Nat) : List Nat :=
  match v with
  | .nan => [34, 78, 97, 78, 34]
  | .posInf => [34, 43, 73, 110, 102, 34]
  | .negInf => [34, 45, 73, 110, 102, 34]
  | .finite neg whole frac => formatFloat (.finite neg whole frac) bitSize

/-- The text of the value one primitive call writes. -/
def primText : PrimCall → List Nat
  | .WriteBool v => formatBool v
  | .WriteByteString v => quoted v
  | .AppendComplex128 re im => [34] ++ formatFloat re 64 ++ [43] ++ formatFloat im 64 ++ [105, 34]
  | .WriteFloat64 v => floatText v 64
  | .WriteFloat32 v => floatText v 32
  | .WriteInt64 v => formatInt v
  | .WriteString v => quoted v
  | .WriteUint64 v => formatUint v

/-- The text the calls of an encoder function write after the buffer so far: every
value, with the separator it calls for. -/
def primsText (spaced : Bool) : List Nat → List PrimCall → List Nat
  | _, [] => []
  | prev, c :: cs =>
    (sepText spaced prev ++ primText c) ++
      primsText spaced (prev ++ (sepText spaced prev ++ primText c)) cs

/-- One encoder state extends another: same configuration and mode, a longer buffer
with the same beginning, and at least as many open namespaces. -/
def Extends (enc e : jsonEncoder) : Prop :=
  e.cfg = enc.cfg ∧ e.spaced = enc.spaced ∧ (∃ t, e.buf = enc.buf ++ t) ∧
    enc.openNamespaces ≤ e.openNamespaces

/-- An encoder state with another buffer. -/
def withBuf (enc : jsonEncoder) (p : List Nat) : jsonEncoder :=
  { cfg := enc.cfg, buf := p, spaced := enc.spaced, openNamespaces := enc.openNamespaces }

/-- `AddTo` of a field is a sequence of at most two calls on the encoder. -/
def Field.calls : Field → Option (List ObjectCall)
  | .UnknownType _ => none
  | .ArrayMarshalerType key arr => some [.AddArray key arr]
  | .ObjectMarshalerType key obj => some [.AddObject key obj]
  | .BinaryType key val => some [.AddBinary key val]
  | .BoolType key val => some [.AddBool key val]
  | .ByteStringType key val => some [.AddByteString key val]
  | .ComplexType key re im => some [.AddComplex128 key re im]
  | .DurationType key val => some [.AddDuration key val]
  | .Float64Type key val => some [.AddFloat64 key val]
  | .Float32Type key val => some [.AddFloat32 key val]
  | .IntType key val => some [.AddInt64 key val]
  | .UintType key val => some [.AddUint64 key val]
  | .StringType key val => some [.AddString key val]
  | .TimeType key val => some [.AddTime key val]
  | .ErrorType key msg none => some [.AddString key msg]
  | .ErrorType key msg (some cs) =>
    some [.AddString key msg, .AddArray (key ++ bytes "Causes") (errorCauses cs)]
  | .SkipType => some []
  | .StringerType key text => some [.AddString key text]
  | .ReflectType key obj => some [.AddReflected key obj]
  | .NamespaceType key => some [.OpenNamespace key]

/-! ## The layout of an encoded entry, from the words of the specification -/

/-- A pair whose value an encoder function writes, after the buffer so far: the key,
then what the calls of the function write, or `fallback` when the function makes no
call. -/
def pairText (spaced : Bool) (prev key : List Nat) (calls : List PrimCall)
    (fallback : List Nat) : List Nat :=
  keyText spaced prev key ++
    (match calls with
     | [] => fallback
     | c :: cs => primsText spaced (prev ++ keyText spaced prev key) (c :: cs))

/-- The level pair: nothing when the level key is empty; `none` when the level
encoder is nil. -/
def levelText (cfg : EncoderConfig) (spaced : Bool) (prev : List Nat) (ent : Entry) :
    Option (List Nat) :=
  if cfg.LevelKey = [] then some []
  else
    match cfg.EncodeLevel with
    | none => none
    | some f => some (pairText spaced prev cfg.LevelKey (f ent.Level) (quoted ent.Level.String))

/-- The time pair: nothing when the time key is empty; `none` when the time encoder
is nil. -/
def timeText (cfg : EncoderConfig) (spaced : Bool) (prev : List Nat) (ent : Entry) :
    Option (List Nat) :=
  if cfg.TimeKey = [] then some []
  else
    match cfg.EncodeTime with
    | none => none
    | some f => some (pairText spaced prev cfg.TimeKey (f ent.Time) (formatInt ent.Time))

/-- The logger-name pair: nothing when the logger name or the name key is empty. -/
def nameText (cfg : EncoderConfig) (spaced : Bool) (prev : List Nat) (ent : Entry) : List Nat :=
  if ent.LoggerName = [] ∨ cfg.NameKey = [] then []
  else
    pairText spaced prev cfg.NameKey
      ((match cfg.EncodeName with
        | none => FullNameEncoder
        | some f => f) ent.LoggerName)
      (quoted ent.LoggerName)

/-- The caller pair: nothing when the caller is not defined or the caller key is
empty; `none` when the caller encoder is nil. -/
def callerText (cfg : EncoderConfig) (spaced : Bool) (prev : List Nat) (ent : Entry) :
    Option (List Nat) :=
  if ent.Caller.Defined = false ∨ cfg.CallerKey = [] then some []
  else
    match cfg.EncodeCaller with
    | none => none
    | some f =>
      some (pairText spaced prev cfg.CallerKey (f ent.Caller) (quoted ent.Caller.String))

/-- The message pair: nothing when the message key is empty. -/
def messageText (cfg : EncoderConfig) (spaced : Bool) (prev : List Nat) (ent : Entry) :
    List Nat :=
  if cfg.MessageKey = [] then []
  else keyText spaced prev cfg.MessageKey ++ quoted ent.Message

/-- The accumulated context: the bytes of the encoder's buffer, after a separator if
one is called for. -/
def contextText (spaced : Bool) (prev context : List Nat) : List Nat :=
  if context = [] then [] else sepText spaced prev ++ context

/-- The stacktrace pair: nothing when the stack or the stacktrace key is empty. -/
def stackText (cfg : EncoderConfig) (spaced : Bool) (prev : List Nat) (ent : Entry) : List Nat :=
  if ent.Stack = [] ∨ cfg.StacktraceKey = [] then []
  else keyText spaced prev cfg.StacktraceKey ++ quoted ent.Stack

/-- The line ending: the configured one, or a newline when it is empty. -/
def lineEndingText (cfg : EncoderConfig) : List Nat :=
  if cfg.LineEnding = [] then [10] else cfg.LineEnding

/-- The per-call fields after the buffer so far: the bytes that adding the fields, in
the order given, appends, and the number of open namespaces afterwards; `none` when
adding a field panics. -/
def fieldsText (cfg : EncoderConfig) (spaced : Bool) (opened : Nat) (prev : List Nat)
    (fields : List Field) : Option (List Nat × Nat) :=
  (addFields { cfg := cfg, buf := prev, spaced := spaced, openNamespaces := opened } fields).map
    (fun e => (e.buf.drop prev.length, e.openNamespaces))

/-- The layout of an encoded entry: `{`, the level, time, logger-name, caller and
message pairs, the accumulated context, the per-call fields, one `}` per open
namespace, the stacktrace pair, `}` and the line ending. -/
def entryLayout (enc : jsonEncoder) (ent : Entry) (fields : List Field) : Option (List Nat) :=
  let cfg := enc.cfg
  let sp := enc.spaced
  match levelText cfg sp [123] ent with
  | none => none
  | some lvl =>
    match timeText cfg sp ([123] ++ lvl) ent with
    | none => none
    | some tm =>
      let nm := nameText cfg sp ([123] ++ lvl ++ tm) ent
      match callerText cfg sp ([123] ++ lvl ++ tm ++ nm) ent with
      | none => none
      | some clr =>
        let msg := messageText cfg sp ([123] ++ lvl ++ tm ++ nm ++ clr) ent
        let ctx := contextText sp ([123] ++ lvl ++ tm ++ nm ++ clr ++ msg) enc.buf
        match fieldsText cfg sp enc.openNamespaces
            ([123] ++ lvl ++ tm ++ nm ++ clr ++ msg ++ ctx) fields with
        | none => none
        | some (flds, opened) =>
          let closers := List.replicate opened 125
          let stk := stackText cfg sp
            ([123] ++ lvl ++ tm ++ nm ++ clr ++ msg ++ ctx ++ flds ++ closers) ent
          some ([123] ++ lvl ++ tm ++ nm ++ clr ++ msg ++ ctx ++ flds ++ closers ++ stk ++
            [125] ++ lineEndingText cfg)

/-- The number of namespace fields among the fields. -/
def countNamespaces : List Field → Nat
  | [] => 0
  | .NamespaceType _ :: fs => countNamespaces fs + 1
  | _ :: fs => countNamespaces fs

mutual
/-- The number of `OpenNamespace` calls made during a call on the object encoder,
those of the marshalers it runs included. -/
def ObjectCall.opened : ObjectCall → Nat
  | .AddArray _ arr => ArrayMarshaler.opened arr
  | .AddObject _ obj => ObjectMarshaler.opened obj
  | .OpenNamespace _ => 1
  | _ => 0
/-- The number of `OpenNamespace` calls made during a call on the array encoder. -/
def ArrayCall.opened : ArrayCall → Nat
  | .AppendArray arr => ArrayMarshaler.opened arr
  | .AppendObject obj => ObjectMarshaler.opened obj
  | _ => 0
/-- The number of `OpenNamespace` calls made during a list of calls. -/
def openedObjectCalls : List ObjectCall → Nat
  | [] => 0
  | c :: cs => ObjectCall.opened c + openedObjectCalls cs
/-- The number of `OpenNamespace` calls made during a list of array calls. -/
def openedArrayCalls : List ArrayCall → Nat
  | [] => 0
  | c :: cs => ArrayCall.opened c + openedArrayCalls cs
/-- The number of `OpenNamespace` calls an object marshaler makes. -/
def ObjectMarshaler.opened : ObjectMarshaler → Nat
  | .mk calls _ => openedObjectCalls calls
/-- The number of `OpenNamespace` calls an array marshaler makes. -/
def ArrayMarshaler.opened : ArrayMarshaler → Nat
  | .mk calls _ => openedArrayCalls calls
end

/-- The number of `OpenNamespace` calls the marshaler of a field makes: zero for a
field that carries no marshaler. -/
def Field.marshalerOpened : Field → Nat
  | .ArrayMarshalerType _ arr => ArrayMarshaler.opened arr
  | .ObjectMarshalerType _ obj => ObjectMarshaler.opened obj
  | _ => 0

/-! ## More example values -/

/-- An encoder after the key `d`, with a duration encoder that writes nothing and a
time encoder that writes a string. -/
def fallbackExample : jsonEncoder :=
  (NewJSONEncoder { zeroConfig with
    EncodeDuration := some noop,
    EncodeTime := some (fun _ => [.WriteString (bytes "now")]) }).addKey (bytes "d")

/-- A configuration with every key set and every encoder function writing nothing. -/
def noopConfig : EncoderConfig :=
  { MessageKey := bytes "msg", LevelKey := bytes "level", TimeKey := bytes "ts",
    NameKey := bytes "logger", CallerKey := bytes "caller", StacktraceKey := bytes "stack",
    LineEnding := [], EncodeLevel := some noop, EncodeTime := some noop,
    EncodeDuration := some noop, EncodeCaller := some noop, EncodeName := some noop }

/-- An entry with every element set. -/
def fullEntry : Entry :=
  { Level := WarnLevel, Time := 1700000000000000000, LoggerName := bytes "main",
    Message := bytes "m", Caller := { Defined := true, File := bytes "a.go", Line := 3 },
    Stack := bytes "s" }

/-- A configuration with the message key only. -/
def messageOnlyConfig : EncoderConfig := { zeroConfig with MessageKey := bytes "msg" }

/-- An object marshaler that opens the namespace `x` on the encoder it is handed. -/
def openingMarshaler : ObjectMarshaler := .mk [.OpenNamespace (bytes "x")] none

/-- A configuration whose level encoder writes two strings. -/
def twoValueConfig : EncoderConfig :=
  { zeroConfig with
    LevelKey := bytes "level",
    EncodeLevel := some (fun _ => [.WriteString (bytes "a"), .WriteString (bytes "b")]) }

/-- Calls that accumulate a context: a string, a namespace, a number. -/
def contextCalls : List ObjectCall :=
  [.AddString (bytes "k") (bytes "v"), .OpenNamespace (bytes "ns"), .AddInt64 (bytes "n") (-3)]

/-- The encoder reached from `NewJSONEncoder noopConfig` by `contextCalls`. -/
def contextEncoder : jsonEncoder :=
  (((NewJSONEncoder noopConfig).AddString (bytes "k") (bytes "v")).OpenNamespace
    (bytes "ns")).AddInt64 (bytes "n") (-3)

/-- Fields of several kinds: an object, an array, a nil reflected value, a namespace,
a float. -/
def sampleFields : List Field :=
  [.ObjectMarshalerType (bytes "o") (.mk [.AddBool (bytes "b") true] none),
   .ArrayMarshalerType (bytes "a") (.mk [.prim (.WriteUint64 7), .AppendObject (.mk [] none)] none),
   .ReflectType (bytes "r") none,
   .NamespaceType (bytes "in"),
   .Float64Type (bytes "f") .nan]

/-- An array marshaler whose element is an object that opens a namespace. -/
def openingArray : ArrayMarshaler := .mk [.AppendObject openingMarshaler] none

/-- An object marshaler that makes no call and returns an error. -/
def failingMarshaler : ObjectMarshaler := .mk [] (some (bytes "boom"))

/-- A console configuration with every key set: the time encoder writes the time as
a number, the level encoder the lowercase name, the caller encoder the caller's text;
the name encoder is nil. -/
def consoleConfig : EncoderConfig :=
  { MessageKey := bytes "M", LevelKey := bytes "L", TimeKey := bytes "T",
    NameKey := bytes "N", CallerKey := bytes "C", StacktraceKey := bytes "S",
    LineEnding := [],
    EncodeLevel := some (fun l => [.WriteString (Level.String l)]),
    EncodeTime := some (fun t => [.WriteInt64 t]),
    EncodeDuration := some (fun d => [.WriteInt64 d]),
    EncodeCaller := some (fun c => [.WriteString (EntryCaller.String c)]),
    EncodeName := none }

/-! ## JSON syntax (RFC 8259), as a scanner with a stack of open brackets -/

/-- What the scanner expects next. -/
inductive JMode where
  /-- a value -/
  | value
  /-- a value or `]`, after `[` -/
  | arrFirst
  /-- a key or the closing brace, after the opening brace -/
  | objFirst
  /-- a key, after a comma in an object -/
  | objKey
  /-- the colon after a key -/
  | colon
  /-- a comma or a closing bracket, after a complete value -/
  | after
  /-- inside a string (a key when the flag is set) -/
  | str (key : Bool)
  /-- after a backslash in a string -/
  | esc (key : Bool)
  /-- `n` hex digits of a `\u` escape are still to come -/
  | hex (key : Bool) (n : Nat)
  /-- after the minus sign of a number -/
  | minus
  /-- after the single digit zero of an integer part -/
  | zero
  /-- in the digits of an integer part -/
  | int
  /-- after the decimal point -/
  | dot
  /-- in the digits of a fraction -/
  | frac
  /-- after the `e` of an exponent -/
  | expE
  /-- after the sign of an exponent -/
  | expSign
  /-- in the digits of an exponent -/
  | exp
  /-- in a literal name, with the bytes still to come -/
  | lit (rest : List Nat)
  deriving DecidableEq

/-- The state of the scanner: what it expects, and the open brackets, innermost
first (`true` for an object, `false` for an array). -/
structure JState where
  mode : JMode
  stack : List Bool
  deriving DecidableEq

/-- JSON whitespace: space, tab, line feed, carriage return. -/
def isWs (b : Nat) : Bool := b == 32 || b == 9 || b == 10 || b == 13

/-- A decimal digit. -/
def isDigit (b : Nat) : Bool := decide (48 ≤ b ∧ b ≤ 57)

/-- A hex digit, in either case. -/
def isHexDigit (b : Nat) : Bool :=
  decide (48 ≤ b ∧ b ≤ 57) || decide (97 ≤ b ∧ b ≤ 102) || decide (65 ≤ b ∧ b ≤ 70)

/-- A value is complete in this mode: after it, or in a number that may end here. -/
def JMode.complete : JMode → Bool
  | .after => true
  | .zero => true
  | .int => true
  | .frac => true
  | .exp => true
  | _ => false

/-- The step after a complete value: whitespace, a comma (then a key in an object, a
value in an array) or the closing bracket of the innermost open bracket. -/
def stepAfter (stack : List Bool) (b : Nat) : Option JState :=
  if isWs b then some ⟨.after, stack⟩
  else
    match stack with
    | [] => none
    | true :: rest =>
      if b = 44 then some ⟨.objKey, true :: rest⟩
      else if b = 125 then some ⟨.after, rest⟩
      else none
    | false :: rest =>
      if b = 44 then some ⟨.value, false :: rest⟩
      else if b = 93 then some ⟨.after, rest⟩
      else none

/-- The step at the first byte of a value. -/
def stepValue (stack : List Bool) (b : Nat) : Option JState :=
  if b = 34 then some ⟨.str false, stack⟩
  else if b = 123 then some ⟨.objFirst, true :: stack⟩
  else if b = 91 then some ⟨.arrFirst, false :: stack⟩
  else if b = 45 then some ⟨.minus, stack⟩
  else if b = 48 then some ⟨.zero, stack⟩
  else if 49 ≤ b ∧ b ≤ 57 then some ⟨.int, stack⟩
  else if b = 116 then some ⟨.lit [114, 117, 101], stack⟩
  else if b = 102 then some ⟨.lit [97, 108, 115, 101], stack⟩
  else if b = 110 then some ⟨.lit [117, 108, 108], stack⟩
  else none

/-- One step of the scanner; `none` when the byte is not allowed. -/
def step (s : JState) (b : Nat) : Option JState :=
  match s.mode with
  | .value => if isWs b then some s else stepValue s.stack b
  | .arrFirst =>
    if isWs b then some s
    else if b = 93 then
      match s.stack with
      | false :: rest => some ⟨.after, rest⟩
      | _ => none
    else stepValue s.stack b
  | .objFirst =>
    if isWs b then some s
    else if b = 34 then some ⟨.str true, s.stack⟩
    else if b = 125 then
      match s.stack with
      | true :: rest => some ⟨.after, rest⟩
      | _ => none
    else none
  | .objKey =>
    if isWs b then some s
    else if b = 34 then some ⟨.str true, s.stack⟩
    else none
  | .colon =>
    if isWs b then some s
    else if b = 58 then some ⟨.value, s.stack⟩
    else none
  | .after => stepAfter s.stack b
  | .str key =>
    if b = 34 then some ⟨if key then .colon else .after, s.stack⟩
    else if b = 92 then some ⟨.esc key, s.stack⟩
    else if b < 0x20 then none
    else some s
  | .esc key =>
    if b = 34 ∨ b = 92 ∨ b = 47 ∨ b = 98 ∨ b = 102 ∨ b = 110 ∨ b = 114 ∨ b = 116 then
      some ⟨.str key, s.stack⟩
    else if b = 117 then some ⟨.hex key 4, s.stack⟩
    else none
  | .hex key n =>
    if isHexDigit b then
      if n ≤ 1 then some ⟨.str key, s.stack⟩ else some ⟨.hex key (n - 1), s.stack⟩
    else none
  | .minus =>
    if b = 48 then some ⟨.zero, s.stack⟩
    else if 49 ≤ b ∧ b ≤ 57 then some ⟨.int, s.stack⟩
    else none
  | .zero =>
    if b = 46 then some ⟨.dot, s.stack⟩
    else if b = 101 ∨ b = 69 then some ⟨.expE, s.stack⟩
    else stepAfter s.stack b
  | .int =>
    if isDigit b then some s
    else if b = 46 then some ⟨.dot, s.stack⟩
    else if b = 101 ∨ b = 69 then some ⟨.expE, s.stack⟩
    else stepAfter s.stack b
  | .dot => if isDigit b then some ⟨.frac, s.stack⟩ else none
  | .frac =>
    if isDigit b then some s
    else if b = 101 ∨ b = 69 then some ⟨.expE, s.stack⟩
    else stepAfter s.stack b
  | .expE =>
    if b = 43 ∨ b = 45 then some ⟨.expSign, s.stack⟩
    else if isDigit b then some ⟨.exp, s.stack⟩
    else none
  | .expSign => if isDigit b then some ⟨.exp, s.stack⟩ else none
  | .exp => if isDigit b then some s else stepAfter s.stack b
  | .lit rest =>
    match rest with
    | [] => none
    | c :: cs => if b = c then some ⟨if cs.isEmpty then .after else .lit cs, s.stack⟩ else none

/-- The scanner over a byte string. -/
def run : JState → List Nat → Option JState
  | s, [] => some s
  | s, b :: bs =>
    match step s b with
    | none => none
    | some s1 => run s1 bs

/-- The bytes are one JSON text: the scanner, started where a value is expected, ends
after one complete value with no bracket open. -/
def validJSON (bs : List Nat) : Bool :=
  match run ⟨.value, []⟩ bs with
  | none => false
  | some s => s.mode.complete && s.stack.isEmpty

/-- The bytes are one JSON object. -/
def validJSONObject (bs : List Nat) : Bool := bs.head? == some 123 && validJSON bs

/-- A text the scanner reads as one value wherever a value may start, and after which
the encoder sees that a separator is called for. -/
def ValueText (v : List Nat) : Prop :=
  (∀ p : List Nat, needsSeparator (p ++ v) = true) ∧
    ∀ σ : List Bool, ∃ m : JMode, m.complete = true ∧
      run ⟨.value, σ⟩ v = some ⟨m, σ⟩ ∧ run ⟨.arrFirst, σ⟩ v = some ⟨m, σ⟩

/-! ## The conditions of the validity theorem -/

/-- Every encoder function of the configuration writes at most one value. -/
def EncoderConfig.singleValued (cfg : EncoderConfig) : Prop :=
  (∀ f, cfg.EncodeLevel = some f → ∀ x, (f x).length ≤ 1) ∧
  (∀ f, cfg.EncodeTime = some f → ∀ x, (f x).length ≤ 1) ∧
  (∀ f, cfg.EncodeDuration = some f → ∀ x, (f x).length ≤ 1) ∧
  (∀ f, cfg.EncodeCaller = some f → ∀ x, (f x).length ≤ 1) ∧
  (∀ f, cfg.EncodeName = some f → ∀ x, (f x).length ≤ 1)

/-- What the standard JSON encoder wrote for a reflected value is, without its
trailing newline, one JSON text that does not end in a space. -/
def reflectedOK : Option Reflected → Bool
  | none => true
  | some (.fails _) => true
  | some (.encodes w) => validJSON (TrimNewline w) && !((TrimNewline w).getLast? == some 32)

mutual
/-- A call of a marshaler is well behaved: it opens no namespace, and the same holds
of the marshalers it runs; the reflected values are encoded as JSON. -/
def ObjectCall.wellBehaved : ObjectCall → Bool
  | .AddArray _ arr => ArrayMarshaler.wellBehaved arr
  | .AddObject _ obj => ObjectMarshaler.wellBehaved obj
  | .AddReflected _ obj => reflectedOK obj
  | .OpenNamespace _ => false
  | _ => true
/-- A call of an array marshaler is well behaved. -/
def ArrayCall.wellBehaved : ArrayCall → Bool
  | .AppendArray arr => ArrayMarshaler.wellBehaved arr
  | .AppendObject obj => ObjectMarshaler.wellBehaved obj
  | .AppendReflected obj => reflectedOK obj
  | _ => true
/-- Every call of the list is well behaved. -/
def wellBehavedObjectCalls : List ObjectCall → Bool
  | [] => true
  | c :: cs => ObjectCall.wellBehaved c && wellBehavedObjectCalls cs
/-- Every call of the list is well behaved. -/
def wellBehavedArrayCalls : List ArrayCall → Bool
  | [] => true
  | c :: cs => ArrayCall.wellBehaved c && wellBehavedArrayCalls cs
/-- An object marshaler is well behaved: its calls are. -/
def ObjectMarshaler.wellBehaved : ObjectMarshaler → Bool
  | .mk calls _ => wellBehavedObjectCalls calls
/-- An array marshaler is well behaved: its calls are. -/
def ArrayMarshaler.wellBehaved : ArrayMarshaler → Bool
  | .mk calls _ => wellBehavedArrayCalls calls
end

/-- A call on the encoder itself is acceptable: it opens a namespace, or it is a well
behaved call. -/
def ObjectCall.acceptable : ObjectCall → Bool
  | .OpenNamespace _ => true
  | c => ObjectCall.wellBehaved c

/-- A field is acceptable: its marshaler, if it has one, is well behaved, and its
reflected value is encoded as JSON. -/
def Field.acceptable : Field → Bool
  | .ArrayMarshalerType _ arr => ArrayMarshaler.wellBehaved arr
  | .ObjectMarshalerType _ obj => ObjectMarshaler.wellBehaved obj
  | .ReflectType _ obj => reflectedOK obj
  | _ => true

/-- The scanner is where a key may be written in an object: after the opening brace,
after a comma with nothing written since, or after a complete value, and the encoder's
view of the buffer agrees on whether a separator is called for. -/
def ObjSlot (st : JState) (buf : List Nat) : Prop :=
  st.stack.head? = some true ∧
    ((st.mode = .objFirst ∧ needsSeparator buf = false) ∨ (st.mode = .objKey ∧ buf = []) ∨
      (st.mode.complete = true ∧ needsSeparator buf = true))

/-- The scanner is where an element may be written in an array. -/
def ArrSlot (st : JState) (buf : List Nat) : Prop :=
  st.stack.head? = some false ∧
    ((st.mode = .arrFirst ∧ needsSeparator buf = false) ∨
      (st.mode.complete = true ∧ needsSeparator buf = true))

/-- The scanner is where a value may be written: a value is expected and no separator
is called for, or an element of an array is complete and a separator is called for. -/
def ValuePos (st : JState) (buf : List Nat) : Prop :=
  ((st.mode = .value ∨ st.mode = .arrFirst) ∧ needsSeparator buf = false) ∨
    (st.mode.complete = true ∧ st.stack.head? = some false ∧ needsSeparator buf = true)

/-- The bytes still to come of a literal name are none of the bytes after which no separator is called for. -/
def litOK : JMode → Prop
  | .lit rest => ∀ c ∈ rest, c ≠ 123 ∧ c ≠ 91 ∧ c ≠ 58 ∧ c ≠ 44
  | _ => True

/-- The buffer of the encoder is scanned from `s0` up to where a key may be written in
an object, with the brackets `σ` open. -/
def ObjInv (s0 : JState) (σ : List Bool) (e : jsonEncoder) : Prop :=
  ∃ st : JState, run s0 e.buf = some st ∧ st.stack = σ ∧ ObjSlot st e.buf

/-- The buffer of the encoder is scanned from `s0` up to where an element may be
written in an array, with the brackets `σ` open. -/
def ArrInv (s0 : JState) (σ : List Bool) (e : jsonEncoder) : Prop :=
  ∃ st : JState, run s0 e.buf = some st ∧ st.stack = σ ∧ ArrSlot st e.buf

/-- The buffer of the encoder is scanned from `s0` up to where a value may be written,
with the brackets `σ` open. -/
def ValInv (s0 : JState) (σ : List Bool) (e : jsonEncoder) : Prop :=
  ∃ st : JState, run s0 e.buf = some st ∧ st.stack = σ ∧ ValuePos st e.buf

/-- The buffer of the encoder is scanned from `s0` up to the end of a complete value,
with the brackets `σ` open. -/
def DoneInv (s0 : JState) (σ : List Bool) (e : jsonEncoder) : Prop :=
  ∃ m : JMode, m.complete = true ∧ run s0 e.buf = some ⟨m, σ⟩ ∧ needsSeparator e.buf = true

/-! ## The layout of a console line, from the words of the specification -/

/-- The values the metadata encoder functions emit, in the order time, level, logger
name, caller: those of the time, level and caller functions when the key is set and
the function is not nil (and the caller is defined), those of the name function (the
full-name encoder when it is nil) when the logger name and the name key are set. -/
def metaValues (cfg : EncoderConfig) (ent : Entry) : List PrimCall :=
  (if cfg.TimeKey = [] then []
    else match cfg.EncodeTime with
      | none => []
      | some f => f ent.Time) ++
  (if cfg.LevelKey = [] then []
    else match cfg.EncodeLevel with
      | none => []
      | some f => f ent.Level) ++
  (if ent.LoggerName = [] ∨ cfg.NameKey = [] then []
    else (match cfg.EncodeName with
      | none => FullNameEncoder
      | some f => f) ent.LoggerName) ++
  (if ent.Caller.Defined = false ∨ cfg.CallerKey = [] then []
    else match cfg.EncodeCaller with
      | none => []
      | some f => f ent.Caller)

/-- Texts joined by single TABs. -/
def tabJoined (texts : List (List Nat)) : List Nat := List.intercalate [9] texts

/-- The line so far, followed by a TAB if and only if it is not empty. -/
def tabbed (line : List Nat) : List Nat := if line = [] then [] else line ++ [9]

/-- The context block after the line so far: nothing when the accumulated context,
the per-call fields and the closing braces of the open namespaces render to no byte;
otherwise a TAB (if the line is not empty), `{`, the accumulated context, the
per-call fields, one `}` per open namespace, and `}`. -/
def contextBlock (c : jsonEncoder) (line : List Nat) (fields : List Field) :
    Option (List Nat) :=
  match fieldsText c.cfg c.spaced c.openNamespaces c.buf fields with
  | none => none
  | some (flds, opened) =>
    let body := c.buf ++ flds ++ List.replicate opened 125
    if body = [] then some line else some (tabbed line ++ [123] ++ body ++ [125])

/-- The line of the console encoder: the metadata values unquoted and joined by TABs,
the message after a TAB if the line is not empty, the context block, the stack after
a newline, the line ending. -/
def consoleLayout (fmtNum : PrimCall → List Nat) (c : consoleEncoder) (ent : Entry)
    (fields : List Field) : Option (List Nat) :=
  let cfg := c.jsonEncoder.cfg
  let metadata := tabJoined ((metaValues cfg ent).map (Fprint fmtNum))
  let msg := if cfg.MessageKey = [] then metadata else tabbed metadata ++ ent.Message
  match contextBlock c.jsonEncoder msg fields with
  | none => none
  | some ctx =>
    some (ctx ++ (if ent.Stack = [] ∨ cfg.StacktraceKey = [] then [] else 10 :: ent.Stack) ++
      lineEndingText cfg)

/-! ## Encoders in memory

`Clone` is about two encoders that do not share a buffer, so here an encoder is a
struct held by address whose buffer is held by address too. A method of
`*jsonEncoder` reads the struct and the bytes of its buffer, runs as above, and
writes the bytes and the namespace count back. The reflection buffer is scratch space
of one call and is left out. -/

/-- The struct `jsonEncoder` in memory: the configuration and the buffer are
pointers, nil in a struct fresh from the pool. -/
structure encoderCell where
  cfg : Option EncoderConfig
  buf : Option Nat
  spaced : Bool
  openNamespaces : Nat

/-- The buffers and the encoder structs, each by address. -/
structure Memory where
  buffers : List (List Nat)
  encoders : List encoderCell

namespace Memory

/-- Modelled from the spec: `buffer.Get` (§3.5, §9; the package `buffer` is not among
the sources): a buffer from the pool is empty and in use nowhere else. -/
def bufferGet (m : Memory) : Memory × Nat :=
  ({ m with buffers := m.buffers ++ [[]] }, m.buffers.length)

/-- The function `getJSONEncoder`: a struct from the pool, in use nowhere else; its
fields are zero, as `putJSONEncoder` (or the pool's `New`) left them. -/
def getJSONEncoder (m : Memory) : Memory × Nat :=
  ({ m with encoders := m.encoders ++ [⟨none, none, false, 0⟩] }, m.encoders.length)

/-- An assignment to the fields of the struct at `p`. -/
def assign (m : Memory) (p : Nat) (f : encoderCell → encoderCell) : Memory :=
  match m.encoders[p]? with
  | none => m
  | some c => { m with encoders := m.encoders.set p (f c) }

/-- The struct at `p`; `none` for a pointer to no struct. -/
def cell (m : Memory) (p : Nat) : Option encoderCell := m.encoders[p]?

/-- The bytes `enc.buf.Bytes()` of the encoder at `p`. -/
def bytesOf (m : Memory) (p : Nat) : Option (List Nat) :=
  match m.cell p with
  | none => none
  | some c =>
    match c.buf with
    | none => none
    | some b => m.buffers[b]?

/-- The method `buffer.Write` on the buffer at `b`: the bytes are appended. -/
def bufWrite (m : Memory) (b : Nat) (bs : List Nat) : Memory :=
  match m.buffers[b]? with
  | none => m
  | some old => { m with buffers := m.buffers.set b (old ++ bs) }

/-- The method `clone`, on the encoder at `enc`; `none` when a nil pointer is
dereferenced. -/
def clone (m : Memory) (enc : Nat) : Option (Memory × Nat) :=
  let (m, clone) := m.getJSONEncoder
  match m.cell enc with
  | none => none
  | some e =>
    let m := m.assign clone (fun c => { c with cfg := e.cfg })
    let m := m.assign clone (fun c => { c with spaced := e.spaced })
    let m := m.assign clone (fun c => { c with openNamespaces := e.openNamespaces })
    let (m, b) := m.bufferGet
    let m := m.assign clone (fun c => { c with buf := some b })
    some (m, clone)

/-- The method `Clone`, on the encoder at `enc`. -/
def Clone (m : Memory) (enc : Nat) : Option (Memory × Nat) :=
  match m.clone enc with
  | none => none
  | some (m, clone) =>
    match m.bytesOf enc, m.cell clone with
    | some bs, some c =>
      match c.buf with
      | none => none
      | some b => some (m.bufWrite b bs, clone)
    | _, _ => none

/-- The encoder at `p` as a value: its configuration, the bytes of its buffer, its
flag and its namespace count. -/
def view (m : Memory) (p : Nat) : Option jsonEncoder :=
  match m.cell p with
  | none => none
  | some c =>
    match c.cfg, m.bytesOf p with
    | some cfg, some bs =>
      some { cfg := cfg, buf := bs, spaced := c.spaced, openNamespaces := c.openNamespaces }
    | _, _ => none

/-- What a method of `*jsonEncoder` leaves in memory: the bytes of the buffer of the
encoder at `p` and its namespace count. -/
def writeBack (m : Memory) (p : Nat) (e : jsonEncoder) : Memory :=
  match m.cell p with
  | none => m
  | some c =>
    match c.buf with
    | none => m
    | some b =>
      { buffers := m.buffers.set b e.buf,
        encoders := m.encoders.set p { c with openNamespaces := e.openNamespaces } }

/-- One `Add*` or `OpenNamespace` call on the encoder at `p`. -/
def call (m : Memory) (p : Nat) (c : ObjectCall) : Option (Memory × Option Error) :=
  match m.view p with
  | none => none
  | some enc =>
    match ObjectCall.run enc c with
    | none => none
    | some (e, err) => some (m.writeBack p e, err)

/-- A sequence of calls on the encoder at `p`. -/
def calls (m : Memory) (p : Nat) : List ObjectCall → Option Memory
  | [] => some m
  | c :: cs =>
    match m.call p c with
    | none => none
    | some (m1, _) => calls m1 p cs

end Memory

/-- The struct `consoleEncoder` in memory: the pointer to its `jsonEncoder`. -/
structure consoleEncoderRef where
  jsonEncoder : Nat

/-- The method `Clone` of the console encoder. -/
def consoleEncoderRef.Clone (m : Memory) (c : consoleEncoderRef) :
    Option (Memory × consoleEncoderRef) :=
  match m.Clone c.jsonEncoder with
  | none => none
  | some (m, q) => some (m, ⟨q⟩)

/-- An encoder that has accumulated `"k":"v"` and has the namespace `ns` open. -/
def sampleEncoder : jsonEncoder :=
  { cfg := basicConfig, buf := bytes "\"k\":\"v\",\"ns\":\x7b", spaced := false,
    openNamespaces := 1 }

/-- A memory that holds `sampleEncoder` at address 0, its buffer at address 0. -/
def sampleMemory : Memory :=
  { buffers := [bytes "\"k\":\"v\",\"ns\":\x7b"],
    encoders := [⟨some basicConfig, some 0, false, 1⟩] }

/-- The memory after `Clone` of the encoder at address 0 of `sampleMemory`: the clone
is at address 1, its buffer at address 1. -/
def clonedMemory : Memory :=
  { buffers := [bytes "\"k\":\"v\",\"ns\":\x7b", bytes "\"k\":\"v\",\"ns\":\x7b"],
    encoders := [⟨some basicConfig, some 0, false, 1⟩, ⟨some basicConfig, some 1, false, 1⟩] }

/-- What the calls `AddInt64("n", 1)`, `OpenNamespace("in")` leave of `clonedMemory`
when made on the encoder at `p`. -/
def afterCalls (p : Nat) : Memory :=
  match clonedMemory.calls p [.AddInt64 (bytes "n") 1, .OpenNamespace (bytes "in")] with
  | some m => m
  | none => clonedMemory

/-! ## The observer core (package `observer`)

A `[]Field` is a window on a backing array held by address, so that two slices may
share an array; `append` is the built-in of the language. -/

namespace observer

/-- A slice of fields: `len` fields, with capacity `cap`, from offset `off` of the
backing array at address `arr`. The nil slice has length and capacity zero. -/
structure FieldSlice where
  arr : Nat
  off : Nat
  len : Nat
  cap : Nat
  deriving DecidableEq

/-- The nil slice. -/
def nilSlice : FieldSlice := ⟨0, 0, 0, 0⟩

/-- The struct `LoggedEntry` (its declaration is not among the sources; `Write` builds
it as `LoggedEntry{ent, all}`): an entry and its context. -/
structure LoggedEntry where
  Entry : Entry
  Context : FieldSlice

/-- The memory of the package: the backing arrays of the field slices and, for every
`ObservedLogs`, its `logs` (a slice no other struct holds, so the list of its
elements). -/
structure Heap where
  arrays : List (List Field)
  logs : List (List LoggedEntry)

/-- The zero value of `Field`. -/
def zeroField : Field := .UnknownType []

/-- The slice is within its backing array. -/
def FieldSlice.valid (m : Heap) (s : FieldSlice) : Prop :=
  s.len ≤ s.cap ∧ (s.cap = 0 ∨ s.off + s.cap ≤ (m.arrays.getD s.arr []).length)

/-- The fields of a slice. -/
def Heap.elems (m : Heap) (s : FieldSlice) : List Field :=
  ((m.arrays.getD s.arr []).drop s.off).take s.len

/-- The full slice expression `s[:len(s):len(s)]`: the same fields, the capacity cut
to the length. -/
def FieldSlice.capped (s : FieldSlice) : FieldSlice := { s with cap := s.len }

/-- The built-in `make([]Field, 0, n)`: a new array of `n` zero fields. -/
def Heap.make (m : Heap) (n : Nat) : Heap × FieldSlice :=
  ({ m with arrays := m.arrays ++ [List.replicate n zeroField] }, ⟨m.arrays.length, 0, 0, n⟩)

/-- The built-in `append(s, xs...)`: when the capacity suffices the fields are written
into the backing array after the last field of `s`; otherwise a new array is
allocated, with the fields of `s`, then `xs`, and the `spare` capacity the runtime
chooses. -/
def Heap.append (spare : Nat) (m : Heap) (s : FieldSlice) (xs : List Field) :
    Heap × FieldSlice :=
  if s.len + xs.length ≤ s.cap then
    let a := m.arrays.getD s.arr []
    let a1 := a.take (s.off + s.len) ++ xs ++ a.drop (s.off + s.len + xs.length)
    ({ m with arrays := m.arrays.set s.arr a1 }, { s with len := s.len + xs.length })
  else
    ({ m with arrays := m.arrays ++ [m.elems s ++ xs ++ List.replicate spare zeroField] },
      ⟨m.arrays.length, 0, s.len + xs.length, s.len + xs.length + spare⟩)

/-- The method `ObservedLogs.add`, on the struct at `o`; `none` for a nil pointer. -/
def ObservedLogs.add (m : Heap) (o : Nat) (log : LoggedEntry) : Option Heap :=
  match m.logs[o]? with
  | none => none
  | some l => some { m with logs := m.logs.set o (l ++ [log]) }

/-- The method `ObservedLogs.All`, as values: every logged entry with the fields of
its context. -/
def ObservedLogs.All (m : Heap) (o : Nat) : List (Entry × List Field) :=
  (m.logs.getD o []).map (fun le => (le.Entry, m.elems le.Context))

/-- The method `ObservedLogs.Len`. -/
def ObservedLogs.Len (m : Heap) (o : Nat) : Nat := (m.logs.getD o []).length

/-- The struct `contextObserver`: the level enabler, a pointer to the observed logs
and the context. -/
structure contextObserver where
  LevelEnabler : Level → Bool
  logs : Nat
  context : FieldSlice

/-- The function `New`. -/
def New (m : Heap) (enab : Level → Bool) : Heap × contextObserver × Nat :=
  ({ m with logs := m.logs ++ [[]] }, ⟨enab, m.logs.length, nilSlice⟩, m.logs.length)

/-- Modelled from the spec: `CheckedEntry` (§3.4; vipercore/entry.go is not among the
sources), the entry and the cores that accepted it. -/
structure CheckedEntry where
  Entry : Entry
  cores : List contextObserver

/-- Modelled from the spec: `CheckedEntry.AddCore` (§4.6): the core is appended to the
checked entry, which is allocated when it is nil. -/
def CheckedEntry.AddCore (ce : Option CheckedEntry) (ent : Viper.Entry)
    (core : contextObserver) :
    Option CheckedEntry :=
  match ce with
  | none => some ⟨ent, [core]⟩
  | some ce => some { ce with cores := ce.cores ++ [core] }

namespace contextObserver

/-- The method `Check`. -/
def Check (co : contextObserver) (ent : Entry) (ce : Option CheckedEntry) :
    Option CheckedEntry :=
  if co.LevelEnabler ent.Level then CheckedEntry.AddCore ce ent co else ce

/-- The method `With`. -/
def With (spare : Nat) (m : Heap) (co : contextObserver) (fields : List Field) :
    Heap × contextObserver :=
  let r := m.append spare co.context.capped fields
  (r.1, { LevelEnabler := co.LevelEnabler, logs := co.logs, context := r.2 })

/-- The method `Write`: the heap afterwards and the error returned; `none` when the
pointer to the observed logs is nil. -/
def Write (spare : Nat) (m : Heap) (co : contextObserver) (ent : Entry) (fields : List Field) :
    Option (Heap × Option Error) :=
  let r := m.make (fields.length + co.context.len)
  let r := r.1.append spare r.2 (r.1.elems co.context)
  let r := r.1.append spare r.2 fields
  match ObservedLogs.add r.1 co.logs ⟨ent, r.2⟩ with
  | none => none
  | some m => some (m, none)

/-- The method `Sync`. -/
def Sync (_co : contextObserver) : Option Error := none

end contextObserver

/-- Modelled from the spec: the dispatch of a checked entry (§4.8): `Write` of every
core that accepted the entry, in order; nothing for a nil checked entry. -/
def dispatch (spare : Nat) (m : Heap) (ce : Option CheckedEntry) (fields : List Field) :
    Option Heap :=
  match ce with
  | none => some m
  | some ce =>
    ce.cores.foldl
      (fun acc core =>
        match acc with
        | none => none
        | some m => (core.Write spare m ce.Entry fields).map Prod.fst)
      (some m)

/-- Every context in the observed logs is within its backing array. -/
def Heap.wellFormed (m : Heap) : Prop :=
  ∀ l ∈ m.logs, ∀ le ∈ l, le.Context.valid m

end observer

/-! ## The observer of `TestObserverWith` -/

namespace observer

/-- The field `Int(k, v)`. -/
def intField (k : String) (v : Int) : Field := .IntType (bytes k) v

/-- The level enabler `InfoLevel`: a level is enabled from `InfoLevel` on. -/
def enabInfo : Level → Bool := fun l => decide (InfoLevel ≤ l)

/-- The entry of the test. -/
def helloEntry : Entry := entryOf InfoLevel (bytes "hello")

/-- The core `sf1` of the test: a new observer with the fields `a`, `b`; the runtime
gives the new array two fields of spare capacity. -/
def sf1 : Heap × contextObserver :=
  (New ⟨[], []⟩ enabInfo).2.1.With 2 (New ⟨[], []⟩ enabInfo).1 [intField "a" 1, intField "b" 2]

/-- The core `sf2 = sf1.With(c)`: its context `[a, b, c]` has spare capacity. -/
def sf2 : Heap × contextObserver := sf1.2.With 1 sf1.1 [intField "c" 3]

/-- The core `sf3 = sf2.With(d)`. -/
def sf3 : Heap × contextObserver := sf2.2.With 1 sf2.1 [intField "d" 4]

/-- The core `sf4 = sf2.With(e)`, made after `sf3`. -/
def sf4 : Heap × contextObserver := sf2.2.With 1 sf3.1 [intField "e" 5]

/-- The heap after the entry is written through `sf2`, `sf3` and `sf4`, with the
field `i` counting the cores. -/
def testWrites : Option Heap :=
  match sf2.2.Write 0 sf4.1 helloEntry [intField "i" 0] with
  | none => none
  | some r2 =>
    match sf3.2.Write 0 r2.1 helloEntry [intField "i" 1] with
    | none => none
    | some r3 => (sf4.2.Write 0 r3.1 helloEntry [intField "i" 2]).map Prod.fst

end observer

namespace observer

/-- The level enabler `WarnLevel`: a level is enabled from `WarnLevel` on. -/
def enabWarn : Level → Bool := fun l => decide (WarnLevel ≤ l)

/-- A new observer at `WarnLevel`, in an empty heap. -/
def warnObserver : Heap × contextObserver × Nat := New ⟨[], []⟩ enabWarn

end observer

/-! ## The observed logs: `TakeAll` and the filters -/

namespace observer

/-- The method `ObservedLogs.TakeAll`: the logs are handed out and the struct keeps
the nil slice; `none` for a nil pointer. -/
def ObservedLogs.TakeAll (m : Heap) (o : Nat) : Option (Heap × List LoggedEntry) :=
  match m.logs[o]? with
  | none => none
  | some ret => some ({ m with logs := m.logs.set o [] }, ret)

/-- A logged entry as a value: the entry with the fields of its context. -/
def Heap.view (m : Heap) (le : LoggedEntry) : Entry × List Field :=
  (le.Entry, m.elems le.Context)

/-- The function `strings.Contains`: `substr` occurs within `s`. -/
def Contains : List Nat → List Nat → Bool
  | [], substr => substr.isEmpty
  | c :: s, substr => substr.isPrefixOf (c :: s) || Contains s substr

/-- The loop of `filter`: every entry that matches is appended to `filtered`. -/
def ObservedLogs.filterLoop (matchFn : LoggedEntry → Bool) :
    List LoggedEntry → List LoggedEntry → List LoggedEntry
  | filtered, [] => filtered
  | filtered, entry :: rest =>
    if matchFn entry then ObservedLogs.filterLoop matchFn (filtered ++ [entry]) rest
    else ObservedLogs.filterLoop matchFn filtered rest

/-- The method `ObservedLogs.filter`: a new `ObservedLogs` with the entries that
match, and its address; `none` for a nil pointer. -/
def ObservedLogs.filter (m : Heap) (o : Nat) (matchFn : LoggedEntry → Bool) :
    Option (Heap × Nat) :=
  match m.logs[o]? with
  | none => none
  | some l =>
    some ({ m with logs := m.logs ++ [ObservedLogs.filterLoop matchFn [] l] }, m.logs.length)

/-- The method `ObservedLogs.FilterMessage`. -/
def ObservedLogs.FilterMessage (m : Heap) (o : Nat) (msg : List Nat) : Option (Heap × Nat) :=
  ObservedLogs.filter m o (fun e => decide (e.Entry.Message = msg))

/-- The method `ObservedLogs.FilterMessageSnippet`. -/
def ObservedLogs.FilterMessageSnippet (m : Heap) (o : Nat) (snippet : List Nat) :
    Option (Heap × Nat) :=
  ObservedLogs.filter m o (fun e => Contains e.Entry.Message snippet)

/-- The method `ObservedLogs.FilterField`; `equals` is the method `Field.Equals`
(vipercore/field.go is not among the sources). -/
def ObservedLogs.FilterField (equals : Field → Field → Bool) (m : Heap) (o : Nat)
    (field : Field) : Option (Heap × Nat) :=
  ObservedLogs.filter m o
    (fun e => (m.elems e.Context).any (fun ctxField => equals ctxField field))

/-- An equality of fields for the examples: two `Int` fields, or two `String` fields,
with the same key and the same value. -/
def sameField : Field → Field → Bool
  | .IntType k v, .IntType k2 v2 => decide (k = k2) && decide (v = v2)
  | .StringType k v, .StringType k2 v2 => decide (k = k2) && decide (v = v2)
  | _, _ => false

/-- The string field `String(k, v)`. -/
def stringField (k v : String) : Field := .StringType (bytes k) (bytes v)

/-- The first three entries of `TestFilters`, written through a new observer at
`InfoLevel`: `log a` with `fStr=1, a=1`, `log a` with `fStr=2, b=2`, `log b` with
`a=1, b=2`. -/
def filterLogs : Option Heap :=
  let r := New ⟨[], []⟩ enabInfo
  match r.2.1.Write 0 r.1 (entryOf InfoLevel (bytes "log a"))
      [stringField "fStr" "1", intField "a" 1] with
  | none => none
  | some r1 =>
    match r.2.1.Write 0 r1.1 (entryOf InfoLevel (bytes "log a"))
        [stringField "fStr" "2", intField "b" 2] with
    | none => none
    | some r2 =>
      (r.2.1.Write 0 r2.1 (entryOf InfoLevel (bytes "log b"))
        [intField "a" 1, intField "b" 2]).map Prod.fst

/-- The heap of `filterLogs`; the observed logs are at address 0. -/
def filterHeap : Heap := filterLogs.getD ⟨[], []⟩

end observer

/-! ## The atomic level (level.go) -/

/-- The conversion `int8(x)`: the low eight bits, as a signed value. -/
def int8 (x : Int) : Int := (x + 128) % 256 - 128

/-- The conversion `int32(x)`: the low thirty-two bits, as a signed value. -/
def int32 (x : Int) : Int := (x + 2147483648) % 4294967296 - 2147483648

/-- Modelled from the spec: `Level.Enabled` (§3.1, "`Enabled(lvl)` returns
`this <= lvl`"); vipercore/level.go is not among the sources. -/
def Level.Enabled (l lvl : Level) : Bool := decide (l ≤ lvl)

/-- Modelled from the spec: `Level.MarshalText` (§6.3): the name of the level, and no
error. -/
def Level.MarshalText (l : Level) : List Nat × Option Error := (Level.String l, none)

/-- Modelled from the spec: `Level.UnmarshalText` (§6.3): the level of a lowercase
name; the spec names no other text, which is taken as an error. -/
def Level.UnmarshalText (text : List Nat) : Except Error Level :=
  if text = bytes "debug" then .ok DebugLevel
  else if text = bytes "info" then .ok InfoLevel
  else if text = bytes "warn" then .ok WarnLevel
  else if text = bytes "error" then .ok ErrorLevel
  else if text = bytes "dpanic" then .ok DPanicLevel
  else if text = bytes "panic" then .ok PanicLevel
  else if text = bytes "fatal" then .ok FatalLevel
  else .error (bytes "unrecognized level")

/-- The seven named levels with their lowercase names (§6.3). -/
def levelNames : List (Level × List Nat) :=
  [(DebugLevel, bytes "debug"), (InfoLevel, bytes "info"), (WarnLevel, bytes "warn"),
   (ErrorLevel, bytes "error"), (DPanicLevel, bytes "dpanic"), (PanicLevel, bytes "panic"),
   (FatalLevel, bytes "fatal")]

/-- The memory of the `atomic.Int32` values, held by address. -/
structure Atomics where
  cells : List Int

/-- The method `atomic.Int32.Load`; `none` for a nil pointer. -/
def Atomics.Load (m : Atomics) (p : Option Nat) : Option Int :=
  match p with
  | none => none
  | some a => m.cells[a]?

/-- The method `atomic.Int32.Store`; `none` for a nil pointer. -/
def Atomics.Store (m : Atomics) (p : Option Nat) (v : Int) : Option Atomics :=
  match p with
  | none => none
  | some a => if a < m.cells.length then some ⟨m.cells.set a v⟩ else none

/-- The struct `AtomicLevel`: a pointer to an `atomic.Int32`, nil in the zero
value. -/
structure AtomicLevel where
  l : Option Nat
  deriving DecidableEq

/-- The function `NewAtomicLevel`. -/
def NewAtomicLevel (m : Atomics) : Atomics × AtomicLevel :=
  (⟨m.cells ++ [int32 InfoLevel]⟩, ⟨some m.cells.length⟩)

namespace AtomicLevel

/-- The method `SetLevel`. -/
def SetLevel (m : Atomics) (lvl : AtomicLevel) (l : Level) : Option Atomics :=
  m.Store lvl.l (int32 l)

/-- The method `Level`. -/
def Level (m : Atomics) (lvl : AtomicLevel) : Option Viper.Level :=
  (m.Load lvl.l).map int8

/-- The method `Enabled`. -/
def Enabled (m : Atomics) (lvl : AtomicLevel) (l : Viper.Level) : Option Bool :=
  (lvl.Level m).map (fun s => Level.Enabled s l)

/-- The method `String`. -/
def String (m : Atomics) (lvl : AtomicLevel) : Option (List Nat) :=
  (lvl.Level m).map Level.String

/-- The method `MarshalText`. -/
def MarshalText (m : Atomics) (lvl : AtomicLevel) : Option (List Nat × Option Error) :=
  (lvl.Level m).map Level.MarshalText

/-- The method `UnmarshalText`: the memory and the atomic level afterwards, and the
error returned. -/
def UnmarshalText (m : Atomics) (lvl : AtomicLevel) (text : List Nat) :
    Option (Atomics × AtomicLevel × Option Error) :=
  let r : Atomics × AtomicLevel :=
    match lvl.l with
    | none => (⟨m.cells ++ [0]⟩, ⟨some m.cells.length⟩)
    | some _ => (m, lvl)
  match Level.UnmarshalText text with
  | .error err => some (r.1, r.2, some err)
  | .ok l => (r.2.SetLevel r.1 l).map (fun m1 => (m1, r.2, none))

/-- The pointer of the atomic level is to a value in memory. -/
def allocated (m : Atomics) (lvl : AtomicLevel) : Prop :=
  ∃ a, lvl.l = some a ∧ a < m.cells.length

end AtomicLevel

/-- The function `NewAtomicLevelAt`. -/
def NewAtomicLevelAt (m : Atomics) (l : Level) : Option (Atomics × AtomicLevel) :=
  let a := NewAtomicLevel m
  (a.2.SetLevel a.1 l).map (fun m1 => (m1, a.2))

/-! ## The logger options (options.go) -/

/-- The arithmetic of `int`, `bits` wide (32 or 64 with the platform): the sum wraps
around. -/
def wrapInt (bits : Nat) (x : Int) : Int := (x + 2 ^ (bits - 1)) % 2 ^ bits - 2 ^ (bits - 1)

/-- The struct `Logger` (logger.go is not among the sources): the fields the options
assign. -/
structure Logger (Core WriteSyncer Enabler : Type) where
  core : Core
  development : Bool
  errorOutput : WriteSyncer
  addCaller : Bool
  addStack : Enabler
  callerSkip : Int

/-- The option `ErrorOutput`. -/
def ErrorOutput {Core WriteSyncer Enabler : Type} (w : WriteSyncer)
    (log : Logger Core WriteSyncer Enabler) : Logger Core WriteSyncer Enabler :=
  { log with errorOutput := w }

/-- The option `Development`. -/
def Development {Core WriteSyncer Enabler : Type} (log : Logger Core WriteSyncer Enabler) :
    Logger Core WriteSyncer Enabler :=
  { log with development := true }

/-- The option `AddCaller`. -/
def AddCaller {Core WriteSyncer Enabler : Type} (log : Logger Core WriteSyncer Enabler) :
    Logger Core WriteSyncer Enabler :=
  { log with addCaller := true }

/-- The option `AddCallerSkip`, with `int` of `bits` bits. -/
def AddCallerSkip {Core WriteSyncer Enabler : Type} (bits : Nat) (skip : Int)
    (log : Logger Core WriteSyncer Enabler) : Logger Core WriteSyncer Enabler :=
  { log with callerSkip := wrapInt bits (log.callerSkip + skip) }

/-- The option `AddStacktrace`. -/
def AddStacktrace {Core WriteSyncer Enabler : Type} (lvl : Enabler)
    (log : Logger Core WriteSyncer Enabler) : Logger Core WriteSyncer Enabler :=
  { log with addStack := lvl }

/-- A logger with the caller annotation on and no caller skipped. -/
def callerLogger : Logger Unit Unit Level :=
  AddCaller ⟨(), false, (), false, ErrorLevel, 0⟩

/-! ## The pairs of an object -/

/-- The key of a call that adds to an object. -/
def ObjectCall.key : ObjectCall → List Nat
  | .AddArray key _ => key
  | .AddObject key _ => key
  | .AddBinary key _ => key
  | .AddByteString key _ => key
  | .AddBool key _ => key
  | .AddComplex128 key _ _ => key
  | .AddDuration key _ => key
  | .AddFloat64 key _ => key
  | .AddFloat32 key _ => key
  | .AddInt64 key _ => key
  | .AddReflected key _ => key
  | .OpenNamespace key => key
  | .AddString key _ => key
  | .AddTime key _ => key
  | .AddUint64 key _ => key

/-- The text of the value of a call that adds one plain value: a string, a number, a
boolean or `null`. -/
def ObjectCall.plainValue : ObjectCall → Option (List Nat)
  | .AddBinary _ val => some ([34] ++ EncodeToString val ++ [34])
  | .AddByteString _ val => some (quoted val)
  | .AddBool _ val => some (formatBool val)
  | .AddComplex128 _ re im =>
    some ([34] ++ formatFloat re 64 ++ [43] ++ formatFloat im 64 ++ [105, 34])
  | .AddFloat64 _ val => some (floatText val 64)
  | .AddFloat32 _ val => some (floatText val 64)
  | .AddInt64 _ val => some (formatInt val)
  | .AddReflected _ none => some [110, 117, 108, 108]
  | .AddString _ val => some (quoted val)
  | .AddUint64 _ val => some (formatUint val)
  | _ => none

/-- The pair of a call that adds one plain value, as the compact encoder writes it:
the quoted key, a colon, the value. -/
def ObjectCall.pair (c : ObjectCall) : List Nat :=
  quoted c.key ++ [58] ++ (c.plainValue.getD [])

/-- The calls `AddString("foo", "bar")` and `AddString("foo", "baz")`. -/
def sameKeyCalls : List ObjectCall :=
  [.AddString (bytes "foo") (bytes "bar"), .AddString (bytes "foo") (bytes "baz")]

/-- The fields `String("foo", "bar")` and `String("foo", "baz")`. -/
def sameKeyFields : List Field :=
  [.StringType (bytes "foo") (bytes "bar"), .StringType (bytes "foo") (bytes "baz")]

/-- The calls `AddString("foo", "bar")`, `AddReflected("k", v)` for a value `v` the
reflection encoder fails on, and `AddString("foo", "baz")`. -/
def failedReflectionCalls : List ObjectCall :=
  [.AddString (bytes "foo") (bytes "bar"),
   .AddReflected (bytes "k") (some (.fails (bytes "unsupported type"))),
   .AddString (bytes "foo") (bytes "baz")]

/-! ## The test buffer (internal/vtest/writer.go) -/

/-- The loop of `strings.trimRightByte`: while the string is non-empty and its last
byte is `c`, the last byte is dropped; `fuel` bounds the iterations. -/
def trimRightByteLoop : Nat → List Nat → Nat → List Nat
  | 0, s, _ => s
  | fuel + 1, s, c =>
    if s.length > 0 ∧ s.getD (s.length - 1) 0 = c then
      trimRightByteLoop fuel (s.take (s.length - 1)) c
    else s

/-- The function `strings.trimRightByte`, which is what `strings.TrimRight(s, cutset)`
runs for a cutset of one ASCII byte. -/
def trimRightByte (s : List Nat) (c : Nat) : List Nat := trimRightByteLoop s.length s c

/-- The method `Buffer.Stripped`, on the content of the buffer:
`strings.TrimRight(b.String(), "\n")`. -/
def Buffer.Stripped (content : List Nat) : List Nat := trimRightByte content 10

/-- The result the documentation of `Stripped` describes: the content without its last
byte when that byte is a newline, the content otherwise. -/
def stripLastNewline (s : List Nat) : List Nat :=
  if s.getLast? = some 10 then s.dropLast else s

/-! ## Stack traces (stacktrace.go) -/

/-- The constant `_viperPackage`. -/
def _viperPackage : List Nat := bytes "github.com/gottingen/viper"

/-- The function `addPrefix`: every string of `ss` after `pre`. -/
def addPrefix (pre : List Nat) : List (List Nat) → List (List Nat)
  | [] => []
  | s :: ss => (pre ++ s) :: addPrefix pre ss

/-- The variable `_viperStacktracePrefixes`. -/
def _viperStacktracePrefixes : List (List Nat) := addPrefix _viperPackage [bytes ".", bytes "/"]

/-- The variable `_viperStacktraceVendorContains`. -/
def _viperStacktraceVendorContains : List (List Nat) :=
  addPrefix (bytes "/vendor/") _viperStacktracePrefixes

/-- The function `strings.HasPrefix`: `s` begins with `pre`. -/
def HasPrefix (s pre : List Nat) : Bool :=
  decide (s.length ≥ pre.length) && decide (s.take pre.length = pre)

/-- The first loop of `isViperFrame`: some string of the list begins `function`. -/
def anyHasPrefix (function : List Nat) : List (List Nat) → Bool
  | [] => false
  | pre :: rest => if HasPrefix function pre then true else anyHasPrefix function rest

/-- The second loop of `isViperFrame`: some string of the list occurs in `function`. -/
def anyContains (function : List Nat) : List (List Nat) → Bool
  | [] => false
  | contains :: rest =>
    if observer.Contains function contains then true else anyContains function rest

/-- The function `isViperFrame`. -/
def isViperFrame (function : List Nat) : Bool :=
  if anyHasPrefix function _viperStacktracePrefixes then true
  else if anyContains function _viperStacktraceVendorContains then true
  else false

/-- The struct `runtime.Frame`, with the fields `takeStacktrace` reads. -/
structure Frame where
  Function : List Nat
  File : List Nat
  Line : Int

/-- The loop of `takeStacktrace` over the frames still to come of
`runtime.CallersFrames`: `Next` returns the next frame and whether another one follows,
so that the body runs on every frame but the last; `i` counts the frames written and
`skipViperFrames` is the flag of that name. -/
def takeStacktraceLoop : List Frame → Nat → Bool → List Nat → List Nat
  | [], _, _, buf => buf
  | [_], _, _, buf => buf
  | frame :: next :: rest, i, skipViperFrames, buf =>
    if skipViperFrames && isViperFrame frame.Function then
      takeStacktraceLoop (next :: rest) i skipViperFrames buf
    else
      let buf := if i ≠ 0 then buf ++ [10] else buf
      let buf := buf ++ frame.Function
      let buf := buf ++ [10]
      let buf := buf ++ [9]
      let buf := buf ++ frame.File
      let buf := buf ++ [58]
      let buf := buf ++ formatInt frame.Line
      takeStacktraceLoop (next :: rest) (i + 1) false buf

/-- The function `takeStacktrace`, given the frames of the callers. -/
def takeStacktrace (frames : List Frame) : List Nat := takeStacktraceLoop frames 0 true []

/-- One frame of a stack trace as the claim describes it: the function name, a
newline, a TAB, the file, a colon and the line number. -/
def frameText (f : Frame) : List Nat :=
  f.Function ++ [10, 9] ++ f.File ++ [58] ++ formatInt f.Line

/-- The frames of a logging call from a test: two frames of viper, the test function,
a marshal method of `vipercore` called further up, the test runner and the frame of
the runtime. -/
def sampleFrames : List Frame :=
  [⟨bytes "github.com/gottingen/viper.(*Logger).check", bytes "/v/logger.go", 268⟩,
   ⟨bytes "github.com/gottingen/viper.(*Logger).Error", bytes "/v/logger.go", 203⟩,
   ⟨bytes "main.TestLog", bytes "/t/log_test.go", 12⟩,
   ⟨bytes "github.com/gottingen/viper/vipercore.(*jsonEncoder).AddObject", bytes "/v/j.go", 80⟩,
   ⟨bytes "testing.tRunner", bytes "/go/testing.go", 909⟩,
   ⟨bytes "runtime.goexit", bytes "/go/asm.s", 1357⟩]

/-! ## Opening sinks (writer.go) -/

/-- What happens to the sinks, in order: a call of `newSink` for a path, a call of
`Close` on a sink. -/
inductive SinkEvent where
  | newSink (path : List Nat)
  | Close (sink : Nat)
  deriving DecidableEq

/-- The result of `CombineWriteSyncers` (the functions `AddSync`, `Lock` and
`NewMultiWriteSyncer` of vipercore are not among the sources): the no-op write syncer
over `ioutil.Discard`, or the locked multi write syncer of the writers. -/
inductive WriteSyncer where
  | discard
  | lockedMulti (writers : List Nat)
  deriving DecidableEq

/-- The function `CombineWriteSyncers`. -/
def CombineWriteSyncers (writers : List Nat) : WriteSyncer :=
  if writers.length = 0 then .discard else .lockedMulti writers

/-- The error `fmt.Errorf("couldn't open sink %q: %v", path, err)`; `quote` is the
verb `%q`. -/
def openError (quote : List Nat → List Nat) (path : List Nat) (err : Error) : Error :=
  bytes "couldn't open sink " ++ quote path ++ bytes ": " ++ err

/-- The variables of `open`: the events so far, the writers, the closers and the
combined error `openErr`, which `multierr.Append` extends and which is nil when
empty. -/
structure openState where
  events : List SinkEvent
  writers : List Nat
  closers : List Nat
  openErr : List Error

/-- The loop of `open`; `newSink` (sink.go is not among the sources) returns a sink or
an error for a path, given what happened before. -/
def openLoop (newSink : List SinkEvent → List Nat → Except Error Nat)
    (quote : List Nat → List Nat) : List (List Nat) → openState → openState
  | [], st => st
  | path :: paths, st =>
    match newSink st.events path with
    | .error err =>
      openLoop newSink quote paths
        { st with events := st.events ++ [.newSink path],
                  openErr := st.openErr ++ [openError quote path err] }
    | .ok sink =>
      openLoop newSink quote paths
        { st with events := st.events ++ [.newSink path],
                  writers := st.writers ++ [sink], closers := st.closers ++ [sink] }

/-- A call of the function `close` that `open` builds: `Close` on each closer, in
order. -/
def runClose (events : List SinkEvent) (closers : List Nat) : List SinkEvent :=
  events ++ closers.map SinkEvent.Close

/-- The function `open`: the events afterwards, the writers, the close function (the
closers it runs over, `none` for nil) and the error. -/
def openPaths (newSink : List SinkEvent → List Nat → Except Error Nat)
    (quote : List Nat → List Nat) (events : List SinkEvent) (paths : List (List Nat)) :
    List SinkEvent × List Nat × Option (List Nat) × List Error :=
  let st := openLoop newSink quote paths ⟨events, [], [], []⟩
  if st.openErr ≠ [] then (runClose st.events st.closers, st.writers, none, st.openErr)
  else (st.events, st.writers, some st.closers, [])

/-- The function `Open`: the events afterwards, the write syncer, the close function
and the error. -/
def Open (newSink : List SinkEvent → List Nat → Except Error Nat)
    (quote : List Nat → List Nat) (events : List SinkEvent) (paths : List (List Nat)) :
    List SinkEvent × Option WriteSyncer × Option (List Nat) × List Error :=
  let r := openPaths newSink quote events paths
  if r.2.2.2 ≠ [] then (r.1, none, none, r.2.2.2)
  else (r.1, some (CombineWriteSyncers r.2.1), r.2.2.1, [])

/-- What `newSink` returns for each path in turn, given the events before it. -/
def sinkOutcomes (newSink : List SinkEvent → List Nat → Except Error Nat) :
    List SinkEvent → List (List Nat) → List (List Nat × Except Error Nat)
  | _, [] => []
  | events, path :: paths =>
    (path, newSink events path) :: sinkOutcomes newSink (events ++ [.newSink path]) paths

/-- The sinks among the outcomes. -/
def openedSinks : List (List Nat × Except Error Nat) → List Nat
  | [] => []
  | (_, .ok sink) :: rest => sink :: openedSinks rest
  | (_, .error _) :: rest => openedSinks rest

/-- The failures among the outcomes: each path that failed, with its error. -/
def failedPaths : List (List Nat × Except Error Nat) → List (List Nat × Error)
  | [] => []
  | (_, .ok _) :: rest => failedPaths rest
  | (path, .error err) :: rest => (path, err) :: failedPaths rest

/-- A `newSink` for the examples: the path `/nope` cannot be opened, every other path
gives the sink whose number is the count of the events so far. -/
def sampleNewSink (events : List SinkEvent) (path : List Nat) : Except Error Nat :=
  if path = bytes "/nope" then .error (bytes "no such directory") else .ok events.length

/-- A quoting for the examples: the path between double quotes. -/
def sampleQuote (path : List Nat) : List Nat := [34] ++ path ++ [34]

/-! ## Filters, one after the other -/

namespace observer

/-- One of the three filters of `ObservedLogs`, with its argument. -/
inductive LogFilter where
  | byMessage (msg : List Nat)
  | bySnippet (snippet : List Nat)
  | byField (field : Field)

/-- The call of the filter on the observed logs at `o`. -/
def LogFilter.run (equals : Field → Field → Bool) (m : Heap) (o : Nat) :
    LogFilter → Option (Heap × Nat)
  | .byMessage msg => ObservedLogs.FilterMessage m o msg
  | .bySnippet snippet => ObservedLogs.FilterMessageSnippet m o snippet
  | .byField field => ObservedLogs.FilterField equals m o field

/-- The entries the filter is for: the message is `msg`, the message contains the
snippet, the context holds a field equal to `field`. -/
def LogFilter.holds (equals : Field → Field → Bool) :
    LogFilter → Entry × List Field → Bool
  | .byMessage msg, e => decide (e.1.Message = msg)
  | .bySnippet snippet, e => decide (snippet <:+: e.1.Message)
  | .byField field, e => e.2.any (fun ctxField => equals ctxField field)

/-- The entries of the observed logs after the filter `p` and then the filter `q`. -/
def twoFilters (equals : Field → Field → Bool) (m : Heap) (o : Nat) (p q : LogFilter) :
    Option (List (Entry × List Field)) :=
  match p.run equals m o with
  | none => none
  | some r1 =>
    match q.run equals r1.1 r1.2 with
    | none => none
    | some r2 => some (ObservedLogs.All r2.1 r2.2)

end observer

/-! ## `EncodeEntry` in memory -/

namespace jsonEncoder

/-- The body of `EncodeEntry` after `final := enc.clone()` and up to `ret := final.buf`:
what it leaves of `final`, reading the message key and the bytes of `enc`. -/
def encodeBody (enc final : jsonEncoder) (ent : Entry) (fields : List Field) :
    Option jsonEncoder :=
  let final := final.bufWriteByte 123
  match final.entryLevel ent with
  | none => none
  | some final =>
    match final.entryTime ent with
    | none => none
    | some final =>
      let final := final.entryName ent
      match final.entryCaller ent with
      | none => none
      | some final =>
        let final := entryMessage enc final ent
        let final := entryContext enc final
        match addFields final fields with
        | none => none
        | some final =>
          let final := final.closeOpenNamespaces
          let final := final.entryStack ent
          let final := final.bufWriteByte 125
          some final.entryLineEnding

end jsonEncoder

namespace Memory

/-- The function `putJSONEncoder`: the fields of the struct are zeroed and the struct
goes back to the pool. -/
def putJSONEncoder (m : Memory) (enc : Nat) : Memory :=
  let m := m.assign enc (fun c => { c with cfg := none })
  let m := m.assign enc (fun c => { c with buf := none })
  let m := m.assign enc (fun c => { c with spaced := false })
  m.assign enc (fun c => { c with openNamespaces := 0 })

/-- The method `EncodeEntry`, on the encoder at `enc`: the memory afterwards, the
address of the buffer returned and the error; `none` when it panics. -/
def EncodeEntry (m : Memory) (enc : Nat) (ent : Entry) (fields : List Field) :
    Option (Memory × Nat × Option Error) :=
  match m.clone enc with
  | none => none
  | some (m, final) =>
    match m.view enc, m.view final with
    | some e, some f =>
      match jsonEncoder.encodeBody e f ent fields with
      | none => none
      | some f1 =>
        let m := m.writeBack final f1
        match m.cell final with
        | none => none
        | some c =>
          match c.buf with
          | none => none
          | some ret => some (m.putJSONEncoder final, ret, none)
    | _, _ => none

end Memory

/-- Two fields of which the first opens the namespace `ns`. -/
def namespaceFields : List Field := [.NamespaceType (bytes "ns"), .IntType (bytes "x") 1]

/-! ## Encoders with one function only, base64 by the standard, and calls on their own -/

/-- An encoder after the key `d` whose duration encoder writes nothing and whose time
encoder is nil. -/
def durationOnlyExample : jsonEncoder :=
  (NewJSONEncoder { zeroConfig with EncodeDuration := some noop }).addKey (bytes "d")

/-- The base64 alphabet of RFC 4648, table 1, by value: `A` to `Z` stand for 0 to 25,
`a` to `z` for 26 to 51, `0` to `9` for 52 to 61, `+` for 62 and `/` for 63. -/
def base64Char (i : Nat) : Nat :=
  if i < 26 then 65 + i
  else if i < 52 then 97 + (i - 26)
  else if i < 62 then 48 + (i - 52)
  else if i = 62 then 43
  else 47

/-- Standard padded base64 as RFC 4648, section 4, words it, in arithmetic: three
octets make one 24-bit number, written as four 6-bit digits from the most significant
one down; a last single octet is filled up with four zero bits to two digits and padded
with `==`; two last octets are filled up with two zero bits to three digits and padded
with `=`. -/
def base64Spec : List Nat → List Nat
  | [] => []
  | [a] => [base64Char (a * 16 / 64 % 64), base64Char (a * 16 % 64), 61, 61]
  | [a, b] =>
    [base64Char ((a * 256 + b) * 4 / 4096 % 64), base64Char ((a * 256 + b) * 4 / 64 % 64),
      base64Char ((a * 256 + b) * 4 % 64), 61]
  | a :: b :: c :: rest =>
    base64Char ((a * 65536 + b * 256 + c) / 262144 % 64) ::
      base64Char ((a * 65536 + b * 256 + c) / 4096 % 64) ::
        base64Char ((a * 65536 + b * 256 + c) / 64 % 64) ::
          base64Char ((a * 65536 + b * 256 + c) % 64) :: base64Spec rest

/-- The value of a character of the base64 alphabet of RFC 4648; `none` for any other
character. -/
def base64Value (ch : Nat) : Option Nat :=
  if 65 ≤ ch ∧ ch ≤ 90 then some (ch - 65)
  else if 97 ≤ ch ∧ ch ≤ 122 then some (ch - 97 + 26)
  else if 48 ≤ ch ∧ ch ≤ 57 then some (ch - 48 + 52)
  else if ch = 43 then some 62
  else if ch = 47 then some 63
  else none

/-- Decoding of standard padded base64 by RFC 4648: four characters give three octets,
a last group that ends in `==` gives one octet and one that ends in `=` gives two;
`none` for text that is no padded base64. -/
def base64Decode : List Nat → Option (List Nat)
  | [] => some []
  | w :: x :: y :: z :: rest =>
    if y = 61 ∧ z = 61 ∧ rest = [] then
      match base64Value w, base64Value x with
      | some p, some q => some [(p * 64 + q) / 16]
      | _, _ => none
    else if z = 61 ∧ rest = [] then
      match base64Value w, base64Value x, base64Value y with
      | some p, some q, some r =>
        some [(p * 4096 + q * 64 + r) / 1024, (p * 4096 + q * 64 + r) / 4 % 256]
      | _, _, _ => none
    else
      match base64Value w, base64Value x, base64Value y, base64Value z, base64Decode rest with
      | some p, some q, some r, some s, some tl =>
        some ((p * 262144 + q * 4096 + r * 64 + s) / 65536 ::
          (p * 262144 + q * 4096 + r * 64 + s) / 256 % 256 ::
            (p * 262144 + q * 4096 + r * 64 + s) % 256 :: tl)
      | _, _, _, _, _ => none
  | _ => none

/-- What a call writes when it is the only call on a new encoder of the configuration
and the mode: its key and its value, with nothing before them; `none` when the call
panics. -/
def ObjectCall.pairAlone (cfg : EncoderConfig) (spaced : Bool) (c : ObjectCall) :
    Option (List Nat) :=
  (ObjectCall.run (newJSONEncoder cfg spaced) c).map (fun r => r.1.buf)

/-- The text of the value of a call, whatever the kind of the call: the brackets around
what the marshaler writes after the opening one, the text the duration or time encoder
writes or else the integer, the trimmed text of the reflection encoder, the opening
brace of a namespace, the text of a plain value; `none` for a call that panics or whose
value the reflection encoder fails on. -/
def ObjectCall.valueAlone (cfg : EncoderConfig) (spaced : Bool) : ObjectCall → Option (List Nat)
  | .AddArray _ arr =>
    (ArrayMarshaler.MarshalLogArray ((newJSONEncoder cfg spaced).bufWriteByte 91) arr).map
      (fun r => r.1.buf ++ [93])
  | .AddObject _ obj =>
    (ObjectMarshaler.MarshalLogObject ((newJSONEncoder cfg spaced).bufWriteByte 123) obj).map
      (fun r => r.1.buf ++ [125])
  | .AddDuration _ val =>
    cfg.EncodeDuration.map (fun f =>
      match f val with
      | [] => formatInt val
      | c :: cs => primsText spaced [] (c :: cs))
  | .AddTime _ val =>
    cfg.EncodeTime.map (fun f =>
      match f val with
      | [] => formatInt val
      | c :: cs => primsText spaced [] (c :: cs))
  | .AddReflected _ (some (.encodes written)) => some (TrimNewline written)
  | .AddReflected _ (some (.fails _)) => none
  | .OpenNamespace _ => some [123]
  | c => c.plainValue

/-- Pairs written one after the other after the buffer `prev`: each pair that is not
empty follows the separator the buffer before it calls for. -/
def joinPairs (spaced : Bool) : List Nat → List (List Nat) → List Nat
  | _, [] => []
  | prev, t :: ts =>
    if t = [] then joinPairs spaced prev ts
    else (sepText spaced prev ++ t) ++ joinPairs spaced (prev ++ (sepText spaced prev ++ t)) ts

/-- A canonical buffer that calls for a separator, or does not. -/
def sepState (b : Bool) : List Nat := if b then [125] else []

/-- Calls of every kind under one key: an array of two numbers, an object with one
pair, a duration, a time, a reflected value, and a string. -/
def mixedCalls : List ObjectCall :=
  [.AddArray (bytes "k") (.mk [.prim (.WriteInt64 1), .prim (.WriteInt64 2)] none),
   .AddObject (bytes "k") (.mk [.AddBool (bytes "a") true] none),
   .AddDuration (bytes "k") 5,
   .AddTime (bytes "k") 7,
   .AddReflected (bytes "k") (some (.encodes (bytes "[1]\n"))),
   .AddString (bytes "k") (bytes "v")]

/-- The text `AppendDuration` and `AppendTime` append after the buffer `p`: what the
encoder function writes, or the integer after the separator when it makes no call. -/
def appendText (sp : Bool) (p : List Nat) (calls : List PrimCall) (fb : List Nat) : List Nat :=
  match calls with
  | [] => sepText sp p ++ fb
  | c :: cs => primsText sp p (c :: cs)

/-- An encoder with a no-op duration encoder and a time encoder that writes a string,
in the spaced mode. -/
def mixedExample : jsonEncoder :=
  newJSONEncoder { zeroConfig with
    EncodeDuration := some noop,
    EncodeTime := some (fun _ => [.WriteString (bytes "now")]) } true

/-! ## Frame lemmas -/

namespace jsonEncoder

theorem ext_iff_fields (a b : jsonEncoder) :
    a = b ↔ a.cfg = b.cfg ∧ a.buf = b.buf ∧ a.spaced = b.spaced ∧
      a.openNamespaces = b.openNamespaces := by
  cases a; cases b; simp

@[simp] theorem bufWriteByte_buf (enc : jsonEncoder) (c : Nat) :
    (enc.bufWriteByte c).buf = enc.buf ++ [c] := rfl

@[simp] theorem bufWriteByte_cfg (enc : jsonEncoder) (c : Nat) :
    (enc.bufWriteByte c).cfg = enc.cfg := rfl

@[simp] theorem bufWriteByte_spaced (enc : jsonEncoder) (c : Nat) :
    (enc.bufWriteByte c).spaced = enc.spaced := rfl

@[simp] theorem bufWriteByte_open (enc : jsonEncoder) (c : Nat) :
    (enc.bufWriteByte c).openNamespaces = enc.openNamespaces := rfl

@[simp] theorem bufWriteString_buf (enc : jsonEncoder) (s : List Nat) :
    (enc.bufWriteString s).buf = enc.buf ++ s := rfl

@[simp] theorem bufWriteString_cfg (enc : jsonEncoder) (s : List Nat) :
    (enc.bufWriteString s).cfg = enc.cfg := rfl

@[simp] theorem bufWriteString_spaced (enc : jsonEncoder) (s : List Nat) :
    (enc.bufWriteString s).spaced = enc.spaced := rfl

@[simp] theorem bufWriteString_open (enc : jsonEncoder) (s : List Nat) :
    (enc.bufWriteString s).openNamespaces = enc.openNamespaces := rfl

theorem bufWriteByte_eq (enc : jsonEncoder) (c : Nat) :
    enc.bufWriteByte c = enc.bufWriteString [c] := rfl

@[simp] theorem bufWriteString_nil (enc : jsonEncoder) : enc.bufWriteString [] = enc := by
  simp [ext_iff_fields]

@[simp] theorem bufWriteString_bufWriteString (enc : jsonEncoder) (s t : List Nat) :
    (enc.bufWriteString s).bufWriteString t = enc.bufWriteString (s ++ t) := by
  simp [ext_iff_fields]

/-- The source's index arithmetic reads the last byte of the buffer. -/
theorem addElementSeparator_eq (enc : jsonEncoder) :
    enc.addElementSeparator =
      enc.bufWriteString (if needsSeparator enc.buf then separator enc.spaced else []) := by
  rcases List.eq_nil_or_concat enc.buf with h | ⟨l, c, h⟩
  · simp [addElementSeparator, needsSeparator, h]
  · have hlen : ((enc.buf.length : Int) - 1).toNat = l.length := by simp [h]
    have hnn : ¬ ((enc.buf.length : Int) - 1 < 0) := by simp [h]
    have hget : enc.buf.getD l.length 0 = c := by simp [h]
    have hlast : enc.buf.getLast? = some c := by simp [h]
    unfold addElementSeparator
    simp only [hnn, hlen, hget, if_false, needsSeparator, hlast, separator]
    by_cases hc : c = 123 ∨ c = 91 ∨ c = 58 ∨ c = 44 ∨ c = 32
    · have : (c == 123 || c == 91 || c == 58 || c == 44 || c == 32) = true := by
        simp only [Bool.or_eq_true, beq_iff_eq]; tauto
      simp [hc, this]
    · have : (c == 123 || c == 91 || c == 58 || c == 44 || c == 32) = false := by
        simp only [Bool.or_eq_false_iff, beq_eq_false_iff_ne]; tauto
      simp only [hc, this, if_false]
      cases hs : enc.spaced <;> simp [ext_iff_fields, hs, bufWriteByte, bufWriteString]

end jsonEncoder

/-! ## UTF-8 decoding and escaping -/

namespace jsonEncoder
theorem tryAddRuneSelf_lt (enc : jsonEncoder) (b : Nat) (h : b < 0x80) :
    enc.tryAddRuneSelf b = (enc.bufWriteString (escapeByte b), true) := by
  by_cases h32 : b < 32
  · interval_cases b <;>
      simp [tryAddRuneSelf, escapeByte, RuneSelf, _hex, hexDigit, bufWriteByte, bufWriteString] <;> rfl
  · have h1 : ¬ (b ≥ RuneSelf) := by simp [RuneSelf]; omega
    unfold tryAddRuneSelf escapeByte
    by_cases hq : b = 92 ∨ b = 34
    · rcases hq with rfl | rfl <;>
        simp [RuneSelf, bufWriteByte, bufWriteString]
    · have h2 : 0x20 ≤ b ∧ b ≠ 92 ∧ b ≠ 34 := by omega
      have h3 : ¬ b = 10 := by omega
      have h4 : ¬ b = 13 := by omega
      have h5 : ¬ b = 9 := by omega
      rw [if_neg h1, if_pos h2, if_neg hq, if_neg h3, if_neg h4, if_neg h5, if_neg h32]
      rfl

theorem tryAddRuneSelf_ge (enc : jsonEncoder) (b : Nat) (h : 0x80 ≤ b) :
    enc.tryAddRuneSelf b = (enc, false) := by
  simp [tryAddRuneSelf, RuneSelf, h]
end jsonEncoder

theorem first_cases (b : Nat) :
    (b < 0x80 ∧ first b = 0xF0) ∨ (0x80 ≤ b ∧ b < 0xC2 ∧ first b = 0xF1) ∨
    (0xC2 ≤ b ∧ b < 0xE0 ∧ first b = 0x02) ∨ (b = 0xE0 ∧ first b = 0x13) ∨
    (0xE1 ≤ b ∧ b < 0xED ∧ first b = 0x03) ∨ (b = 0xED ∧ first b = 0x23) ∨
    (0xEE ≤ b ∧ b < 0xF0 ∧ first b = 0x03) ∨ (b = 0xF0 ∧ first b = 0x34) ∨
    (0xF1 ≤ b ∧ b < 0xF4 ∧ first b = 0x04) ∨ (b = 0xF4 ∧ first b = 0x44) ∨
    (0xF5 ≤ b ∧ first b = 0xF1) := by
  unfold first
  split_ifs <;> simp <;> omega

theorem multiByteLen_invalid (b : Nat) (rest : List Nat) (h : 0x80 ≤ b)
    (h2 : b < 0xC2 ∨ 0xF5 ≤ b) : multiByteLen (b :: rest) = none := by
  rcases rest with _ | ⟨b1, _ | ⟨b2, _ | ⟨b3, tl⟩⟩⟩ <;>
    simp only [multiByteLen, wellFormedSeq, isCont, List.take, Bool.and_eq_true, Bool.or_eq_true,
      decide_eq_true_eq] <;>
    repeat (rw [if_neg (by omega)])

theorem decode_form (b : Nat) (rest : List Nat) (sz lo hi : Nat) (hx : ¬ first b ≥ 0xF0)
    (hsz : first b &&& 7 = sz) (hacc : acceptRanges (first b >>> 4) = (lo, hi))
    (h2 : 2 ≤ sz) (h4 : sz ≤ 4) :
    (seqOK sz lo hi rest → (DecodeRuneInString (b :: rest)).2 = sz) ∧
    (¬ seqOK sz lo hi rest → DecodeRuneInString (b :: rest) = (RuneError, 1)) := by
  unfold DecodeRuneInString seqOK
  simp only [List.length_cons, List.getD_cons_zero, List.getD_cons_succ, hx, hsz, hacc,
    if_false]
  have h1 : ¬ (rest.length + 1 < 1) := by omega
  rw [if_neg h1]
  interval_cases sz <;> split_ifs <;>
    (constructor <;> intro hok <;> first | rfl | omega)

theorem multiByteLen_class (b : Nat) (rest : List Nat) (sz lo hi : Nat)
    (hc : (0xC2 ≤ b ∧ b ≤ 0xDF ∧ sz = 2 ∧ lo = 0x80 ∧ hi = 0xBF) ∨
      (b = 0xE0 ∧ sz = 3 ∧ lo = 0xA0 ∧ hi = 0xBF) ∨
      (0xE1 ≤ b ∧ b ≤ 0xEC ∧ sz = 3 ∧ lo = 0x80 ∧ hi = 0xBF) ∨
      (b = 0xED ∧ sz = 3 ∧ lo = 0x80 ∧ hi = 0x9F) ∨
      (0xEE ≤ b ∧ b ≤ 0xEF ∧ sz = 3 ∧ lo = 0x80 ∧ hi = 0xBF) ∨
      (b = 0xF0 ∧ sz = 4 ∧ lo = 0x90 ∧ hi = 0xBF) ∨
      (0xF1 ≤ b ∧ b ≤ 0xF3 ∧ sz = 4 ∧ lo = 0x80 ∧ hi = 0xBF) ∨
      (b = 0xF4 ∧ sz = 4 ∧ lo = 0x80 ∧ hi = 0x8F)) :
    (seqOK sz lo hi rest → multiByteLen (b :: rest) = some sz) ∧
    (¬ seqOK sz lo hi rest → multiByteLen (b :: rest) = none) := by
  rcases hc with ⟨h1, h2, rfl, rfl, rfl⟩ | ⟨h1, rfl, rfl, rfl⟩ | ⟨h1, h2, rfl, rfl, rfl⟩ |
    ⟨h1, rfl, rfl, rfl⟩ | ⟨h1, h2, rfl, rfl, rfl⟩ | ⟨h1, rfl, rfl, rfl⟩ |
    ⟨h1, h2, rfl, rfl, rfl⟩ | ⟨h1, rfl, rfl, rfl⟩ <;>
  rcases rest with _ | ⟨b1, _ | ⟨b2, _ | ⟨b3, tl⟩⟩⟩ <;>
  simp only [multiByteLen, wellFormedSeq, isCont, List.take, Bool.and_eq_true, Bool.or_eq_true,
      decide_eq_true_eq, seqOK, List.length_cons, List.length_nil, List.getD_cons_zero,
      List.getD_cons_succ, List.getD_nil] <;>
  (constructor <;> intro hok <;>
    repeat (first | rw [if_neg (by omega)] | rw [if_pos (by omega)] | omega))

theorem first_class (b : Nat) (h : 0xC2 ≤ b) (h5 : b < 0xF5) :
    ∃ sz lo hi, ¬ first b ≥ 0xF0 ∧ first b &&& 7 = sz ∧
        acceptRanges (first b >>> 4) = (lo, hi) ∧ 2 ≤ sz ∧ sz ≤ 4 ∧ 0x80 ≤ lo ∧
        ((0xC2 ≤ b ∧ b ≤ 0xDF ∧ sz = 2 ∧ lo = 0x80 ∧ hi = 0xBF) ∨
        (b = 0xE0 ∧ sz = 3 ∧ lo = 0xA0 ∧ hi = 0xBF) ∨
        (0xE1 ≤ b ∧ b ≤ 0xEC ∧ sz = 3 ∧ lo = 0x80 ∧ hi = 0xBF) ∨
        (b = 0xED ∧ sz = 3 ∧ lo = 0x80 ∧ hi = 0x9F) ∨
        (0xEE ≤ b ∧ b ≤ 0xEF ∧ sz = 3 ∧ lo = 0x80 ∧ hi = 0xBF) ∨
        (b = 0xF0 ∧ sz = 4 ∧ lo = 0x90 ∧ hi = 0xBF) ∨
        (0xF1 ≤ b ∧ b ≤ 0xF3 ∧ sz = 4 ∧ lo = 0x80 ∧ hi = 0xBF) ∨
        (b = 0xF4 ∧ sz = 4 ∧ lo = 0x80 ∧ hi = 0x8F)) := by
  rcases first_cases b with ⟨h1, hf⟩ | ⟨h1, h2, hf⟩ | ⟨h1, h2, hf⟩ | ⟨h1, hf⟩ | ⟨h1, h2, hf⟩ |
    ⟨h1, hf⟩ | ⟨h1, h2, hf⟩ | ⟨h1, hf⟩ | ⟨h1, h2, hf⟩ | ⟨h1, hf⟩ | ⟨h1, hf⟩
  · omega
  · omega
  ·
    exact ⟨2, 0x80, 0xBF, by rw [hf]; decide, by rw [hf]; rfl, by rw [hf]; rfl, by omega,
      by omega, by omega, by omega⟩
  ·
    exact ⟨3, 0xA0, 0xBF, by rw [hf]; decide, by rw [hf]; rfl, by rw [hf]; rfl, by omega,
      by omega, by omega, by omega⟩
  ·
    exact ⟨3, 0x80, 0xBF, by rw [hf]; decide, by rw [hf]; rfl, by rw [hf]; rfl, by omega,
      by omega, by omega, by omega⟩
  ·
    exact ⟨3, 0x80, 0x9F, by rw [hf]; decide, by rw [hf]; rfl, by rw [hf]; rfl, by omega,
      by omega, by omega, by omega⟩
  ·
    exact ⟨3, 0x80, 0xBF, by rw [hf]; decide, by rw [hf]; rfl, by rw [hf]; rfl, by omega,
      by omega, by omega, by omega⟩
  ·
    exact ⟨4, 0x90, 0xBF, by rw [hf]; decide, by rw [hf]; rfl, by rw [hf]; rfl, by omega,
      by omega, by omega, by omega⟩
  ·
    exact ⟨4, 0x80, 0xBF, by rw [hf]; decide, by rw [hf]; rfl, by rw [hf]; rfl, by omega,
      by omega, by omega, by omega⟩
  ·
    exact ⟨4, 0x80, 0x8F, by rw [hf]; decide, by rw [hf]; rfl, by rw [hf]; rfl, by omega,
      by omega, by omega, by omega⟩
  · omega

/-- What `DecodeRuneInString` returns at a byte that is not ASCII: an error of width
one exactly when no well-formed sequence starts there, else the length of that
sequence. -/
theorem decode_multi (b : Nat) (rest : List Nat) (h : 0x80 ≤ b) :
    (multiByteLen (b :: rest) = none ∧ DecodeRuneInString (b :: rest) = (RuneError, 1)) ∨
    (∃ n, multiByteLen (b :: rest) = some n ∧ (DecodeRuneInString (b :: rest)).2 = n ∧
      2 ≤ n ∧ n ≤ rest.length + 1 ∧ ∀ i, i < n - 1 → 0x80 ≤ rest.getD i 0) := by
  by_cases hinv : b < 0xC2 ∨ 0xF5 ≤ b
  · left
    refine ⟨multiByteLen_invalid b rest h hinv, ?_⟩
    have hf : first b = 0xF1 := by
      rcases first_cases b with ⟨h1, hf⟩ | ⟨h1, h2, hf⟩ | ⟨h1, h2, hf⟩ | ⟨h1, hf⟩ |
        ⟨h1, h2, hf⟩ | ⟨h1, hf⟩ | ⟨h1, h2, hf⟩ | ⟨h1, hf⟩ | ⟨h1, h2, hf⟩ | ⟨h1, hf⟩ | ⟨h1, hf⟩ <;>
        first | exact hf | omega
    simp [DecodeRuneInString, hf]
  · obtain ⟨sz, lo, hi, hx, hsz, hacc, hsz2, hsz4, hlo, hc⟩ :=
      first_class b (by omega) (by omega)
    have hA := decode_form b rest sz lo hi hx hsz hacc hsz2 hsz4
    have hB := multiByteLen_class b rest sz lo hi hc
    by_cases hok : seqOK sz lo hi rest
    · right
      refine ⟨sz, hB.1 hok, hA.1 hok, hsz2, hok.1, ?_⟩
      intro i hi
      obtain ⟨_, h3, _, h5, h6⟩ := hok
      have : i = 0 ∨ i = 1 ∨ i = 2 := by omega
      rcases this with rfl | rfl | rfl
      · omega
      · exact (h5 (by omega)).1
      · exact (h6 (by omega)).1
    · left
      exact ⟨hB.2 hok, hA.2 hok⟩

theorem escapeSpecAux_skip : ∀ (k : Nat) (s : List Nat),
    escapeSpecAux k s = s.take k ++ escapeSpecAux 0 (s.drop k)
  | 0, s => by simp
  | k + 1, [] => by simp [escapeSpecAux]
  | k + 1, b :: rest => by
    simp [escapeSpecAux, escapeSpecAux_skip k rest]

namespace jsonEncoder

theorem safeAddStringLoop_eq : ∀ (fuel : Nat) (s : List Nat) (enc : jsonEncoder),
    s.length ≤ fuel → safeAddStringLoop fuel enc s = enc.bufWriteString (escapeSpec s)
  | 0, s, enc, h => by
    have : s = [] := List.length_eq_zero.mp (by omega)
    subst this
    simp [safeAddStringLoop, escapeSpec, escapeSpecAux]
  | fuel + 1, [], enc, _ => by simp [safeAddStringLoop, escapeSpec, escapeSpecAux]
  | fuel + 1, b :: rest, enc, h => by
    have hlen : rest.length ≤ fuel := by simpa using h
    by_cases hb : b < 0x80
    · simp only [safeAddStringLoop, tryAddRuneSelf_lt enc b hb, if_true, List.drop_one,
        List.tail_cons]
      rw [safeAddStringLoop_eq fuel rest _ hlen]
      simp [escapeSpec, escapeSpecAux, hb]
    · have hge : 0x80 ≤ b := by omega
      simp only [safeAddStringLoop, tryAddRuneSelf_ge enc b hge]
      rcases decode_multi b rest hge with ⟨hm, hd⟩ | ⟨n, hm, hd, hn2, hnl, _⟩
      · have e1 : tryAddRuneError enc (DecodeRuneInString (b :: rest)).1
            (DecodeRuneInString (b :: rest)).2 =
            (enc.bufWriteString [92, 117, 102, 102, 102, 100], true) := by
          rw [hd]; simp [tryAddRuneError]
        simp only [e1, if_true, List.drop_one, List.tail_cons, Bool.false_eq_true, if_false]
        rw [safeAddStringLoop_eq fuel rest _ hlen]
        simp [escapeSpec, escapeSpecAux, hb, hm]
      · have e1 : tryAddRuneError enc (DecodeRuneInString (b :: rest)).1
            (DecodeRuneInString (b :: rest)).2 = (enc, false) := by
          have hne : ¬ ((DecodeRuneInString (b :: rest)).1 = RuneError ∧
            (DecodeRuneInString (b :: rest)).2 = 1) := by rw [hd]; omega
          simp only [tryAddRuneError, hne, if_false]
        rw [hd] at e1
        simp only [hd, e1, Bool.false_eq_true, if_false]
        obtain ⟨m, rfl⟩ : ∃ m, n = m + 1 := ⟨n - 1, by omega⟩
        simp only [List.take_succ_cons, List.drop_succ_cons]
        rw [safeAddStringLoop_eq fuel (rest.drop m) _ (by simp; omega)]
        simp [escapeSpec, escapeSpecAux, hb, hm, escapeSpecAux_skip m rest]

theorem safeAddString_eq (enc : jsonEncoder) (s : List Nat) :
    enc.safeAddString s = enc.bufWriteString (escapeSpec s) :=
  safeAddStringLoop_eq s.length s enc (le_refl _)

theorem escaped_eq (s : List Nat) : escaped s = escapeSpec s := by
  simp [escaped, safeAddString_eq, newJSONEncoder]

end jsonEncoder
/-! ## Decoding an escaped string -/

theorem unquoteBody_plain (c : Nat) (rest : List Nat) (h1 : c ≠ 34) (h2 : c ≠ 92)
    (h3 : ¬ c < 0x20) : unquoteAux 0 (c :: rest) = (unquoteAux 0 rest).map (fun t => c :: t) := by
  rw [unquoteAux, if_neg h1, if_neg h2, if_neg h3]

theorem unquoteBody_simple (e v : Nat) (rest : List Nat) (h : e ≠ 117)
    (hs : simpleEscape e = some v) :
    unquoteAux 0 (92 :: e :: rest) = (unquoteAux 0 rest).map (fun t => v :: t) := by
  rw [unquoteAux, if_neg (by decide), if_pos rfl]
  simp [decodeEscape, h, hs, unquoteAux]

theorem unquoteBody_u (h1 h2 h3 h4 cp : Nat) (rest : List Nat)
    (hh : hex4 h1 h2 h3 h4 = some cp) (hcp : cp < 0xD800) :
    unquoteAux 0 (92 :: 117 :: h1 :: h2 :: h3 :: h4 :: rest) =
      (unquoteAux 0 rest).map (fun t => utf8Encode cp ++ t) := by
  rw [unquoteAux, if_neg (by decide), if_pos rfl]
  have h1 : ¬ (0xD800 ≤ cp ∧ cp < 0xDC00) := by omega
  have h2 : ¬ (0xDC00 ≤ cp ∧ cp < 0xE000) := by omega
  simp only [decodeEscape, if_true, hex4At, hh, if_neg h1, if_neg h2, unquoteAux]

theorem unquoteBody_quote : unquoteAux 0 [34] = some [] := by decide

theorem hex4_control (b : Nat) (h : b < 32) :
    hex4 48 48 (hexDigit (b / 16)) (hexDigit (b % 16)) = some b := by
  interval_cases b <;> decide

theorem unquote_ascii (b : Nat) (t : List Nat) (h : b < 0x80) :
    unquoteAux 0 (escapeByte b ++ t) = (unquoteAux 0 t).map (fun r => b :: r) := by
  unfold escapeByte
  by_cases hq : b = 92 ∨ b = 34
  · rw [if_pos hq]
    rcases hq with rfl | rfl <;> exact unquoteBody_simple _ _ _ (by decide) (by decide)
  rw [if_neg hq]
  by_cases h10 : b = 10
  · subst h10; exact unquoteBody_simple _ _ _ (by decide) (by decide)
  rw [if_neg h10]
  by_cases h13 : b = 13
  · subst h13; exact unquoteBody_simple _ _ _ (by decide) (by decide)
  rw [if_neg h13]
  by_cases h9 : b = 9
  · subst h9; exact unquoteBody_simple _ _ _ (by decide) (by decide)
  rw [if_neg h9]
  by_cases h32 : b < 32
  · rw [if_pos h32]
    have hu := unquoteBody_u 48 48 (hexDigit (b / 16)) (hexDigit (b % 16)) b t
      (hex4_control b h32) (by omega)
    have he : utf8Encode b = [b] := by simp [utf8Encode]; omega
    simpa [he] using hu
  · rw [if_neg h32]
    exact unquoteBody_plain b t (by omega) (by omega) h32

theorem unquote_high (w t : List Nat) (h : ∀ b ∈ w, 0x80 ≤ b) :
    unquoteAux 0 (w ++ t) = (unquoteAux 0 t).map (fun r => w ++ r) := by
  induction w with
  | nil => simp
  | cons b w ih =>
    have hb : 0x80 ≤ b := h b (by simp)
    rw [List.cons_append, unquoteBody_plain b _ (by omega) (by omega) (by omega),
      ih (fun c hc => h c (by simp [hc]))]
    simp [Option.map_map, Function.comp_def]

theorem validUTF8Aux_skip : ∀ (k : Nat) (s : List Nat), k ≤ s.length →
    validUTF8Aux k s = validUTF8Aux 0 (s.drop k)
  | 0, s, _ => by simp
  | k + 1, [], h => by simp at h
  | k + 1, b :: rest, h => by
    simp only [validUTF8Aux, List.drop_succ_cons]
    exact validUTF8Aux_skip k rest (by simpa using h)

theorem getD_ge_of_take (rest : List Nat) (m : Nat) (h : ∀ i, i < m → 0x80 ≤ rest.getD i 0)
    (hm : m ≤ rest.length) : ∀ b ∈ rest.take m, 0x80 ≤ b := by
  intro b hb
  obtain ⟨i, hi, rfl⟩ := List.getElem_of_mem hb
  have hi2 : i < m := by simp at hi; omega
  have := h i hi2
  have hil : i < rest.length := by omega
  rw [List.getD_eq_getElem _ _ hil] at this
  simpa [List.getElem_take] using this

theorem unquote_escapeSpec : ∀ (n : Nat) (s : List Nat), s.length ≤ n → validUTF8Aux 0 s = true →
    unquoteAux 0 (escapeSpecAux 0 s ++ [34]) = some s
  | _, [], _, _ => by simp [escapeSpecAux, unquoteBody_quote]
  | 0, b :: rest, h, _ => by simp at h
  | n + 1, b :: rest, h, hv => by
    have hlen : rest.length ≤ n := by simpa using h
    by_cases hb : b < 0x80
    · simp only [validUTF8Aux, if_pos hb] at hv
      simp only [escapeSpecAux, if_pos hb, List.append_assoc]
      rw [unquote_ascii b _ hb, unquote_escapeSpec n rest hlen hv]
      rfl
    · simp only [validUTF8Aux, if_neg hb] at hv
      rcases decode_multi b rest (by omega) with ⟨hm, _⟩ | ⟨k, hm, _, hk2, hkl, hhigh⟩
      · simp [hm] at hv
      · obtain ⟨m, rfl⟩ : ∃ m, k = m + 1 := ⟨k - 1, by omega⟩
        simp only [hm, Nat.add_sub_cancel] at hv
        have hml : m ≤ rest.length := by omega
        rw [validUTF8Aux_skip m rest hml] at hv
        simp only [escapeSpecAux, if_neg hb, hm, Nat.add_sub_cancel]
        rw [escapeSpecAux_skip m rest]
        have hall : ∀ c ∈ b :: rest.take m, 0x80 ≤ c := by
          intro c hc
          rcases List.mem_cons.mp hc with rfl | hc
          · omega
          · exact getD_ge_of_take rest m (by simpa using hhigh) hml c hc
        have := unquote_high (b :: rest.take m) (escapeSpecAux 0 (rest.drop m) ++ [34]) hall
        simp only [List.cons_append, List.append_assoc] at this ⊢
        rw [this, unquote_escapeSpec n (rest.drop m) (by simp; omega) hv]
        simp

theorem escapeByte_ge (b c : Nat) (hc : c ∈ escapeByte b) (hb : b < 0x80) : 0x20 ≤ c := by
  unfold escapeByte hexDigit at hc
  split_ifs at hc <;> simp at hc <;> omega

theorem escapeSpec_ge : ∀ (n : Nat) (s : List Nat), s.length ≤ n →
    ∀ c ∈ escapeSpecAux 0 s, 0x20 ≤ c
  | _, [], _ => by simp [escapeSpecAux]
  | 0, b :: rest, h => by simp at h
  | n + 1, b :: rest, h => by
    have hlen : rest.length ≤ n := by simpa using h
    intro c hc
    by_cases hb : b < 0x80
    · simp only [escapeSpecAux, if_pos hb, List.mem_append] at hc
      rcases hc with hc | hc
      · exact escapeByte_ge b c hc hb
      · exact escapeSpec_ge n rest hlen c hc
    · simp only [escapeSpecAux, if_neg hb] at hc
      rcases decode_multi b rest (by omega) with ⟨hm, _⟩ | ⟨k, hm, _, hk2, hkl, hhigh⟩
      · simp only [hm, List.mem_append, List.mem_cons, List.mem_singleton] at hc
        rcases hc with hc | hc
        · simp at hc; omega
        · exact escapeSpec_ge n rest hlen c hc
      · obtain ⟨m, rfl⟩ : ∃ m, k = m + 1 := ⟨k - 1, by omega⟩
        simp only [hm, Nat.add_sub_cancel, escapeSpecAux_skip m rest, List.mem_cons,
          List.mem_append] at hc
        rcases hc with rfl | hc | hc
        · omega
        · have := getD_ge_of_take rest m (by simpa using hhigh) (by omega) c hc
          omega
        · exact escapeSpec_ge n (rest.drop m) (by simp; omega) c hc

/-! ## The text of each write, and the buffer only grows -/

namespace jsonEncoder

theorem addElementSeparator_text (enc : jsonEncoder) :
    enc.addElementSeparator = enc.bufWriteString (sepText enc.spaced enc.buf) :=
  addElementSeparator_eq enc

theorem safeAddByteStringLoop_eq (fuel : Nat) : ∀ (enc : jsonEncoder) (s : List Nat),
    safeAddByteStringLoop fuel enc s = safeAddStringLoop fuel enc s := by
  induction fuel with
  | zero => intro enc s; rfl
  | succ n ih =>
    intro enc s
    cases s with
    | nil => rfl
    | cons b rest => simp only [safeAddByteStringLoop, safeAddStringLoop, DecodeRune, ih]

theorem safeAddByteString_eq (enc : jsonEncoder) (s : List Nat) :
    enc.safeAddByteString s = enc.bufWriteString (escapeSpec s) := by
  rw [safeAddByteString, safeAddByteStringLoop_eq, ← safeAddString, safeAddString_eq]

theorem addKey_text (enc : jsonEncoder) (key : List Nat) :
    enc.addKey key = enc.bufWriteString (keyText enc.spaced enc.buf key) := by
  cases hs : enc.spaced <;>
    simp [addKey, safeAddString_eq, bufWriteByte_eq, addElementSeparator_text, keyText, quoted,
      keyColon, hs]

theorem WriteString_text (enc : jsonEncoder) (s : List Nat) :
    enc.WriteString s = enc.bufWriteString (sepText enc.spaced enc.buf ++ quoted s) := by
  simp [WriteString, safeAddString_eq, bufWriteByte_eq, addElementSeparator_text, quoted]

theorem WriteByteString_text (enc : jsonEncoder) (s : List Nat) :
    enc.WriteByteString s = enc.bufWriteString (sepText enc.spaced enc.buf ++ quoted s) := by
  simp [WriteByteString, safeAddByteString_eq, bufWriteByte_eq, addElementSeparator_text, quoted]

theorem WriteInt64_text (enc : jsonEncoder) (v : Int) :
    enc.WriteInt64 v = enc.bufWriteString (sepText enc.spaced enc.buf ++ formatInt v) := by
  simp [WriteInt64, addElementSeparator_text]

theorem WriteUint64_text (enc : jsonEncoder) (v : Nat) :
    enc.WriteUint64 v = enc.bufWriteString (sepText enc.spaced enc.buf ++ formatUint v) := by
  simp [WriteUint64, addElementSeparator_text]

theorem WriteBool_text (enc : jsonEncoder) (v : Bool) :
    enc.WriteBool v = enc.bufWriteString (sepText enc.spaced enc.buf ++ formatBool v) := by
  simp [WriteBool, addElementSeparator_text]

theorem appendFloat_text (enc : jsonEncoder) (v : GoFloat) (bits : Nat) :
    enc.appendFloat v bits = enc.bufWriteString (sepText enc.spaced enc.buf ++ floatText v bits) := by
  cases v <;> simp [appendFloat, addElementSeparator_text, floatText]

theorem AppendComplex128_text (enc : jsonEncoder) (re im : GoFloat) :
    enc.AppendComplex128 re im = enc.bufWriteString (sepText enc.spaced enc.buf ++
      ([34] ++ formatFloat re 64 ++ [43] ++ formatFloat im 64 ++ [105, 34])) := by
  simp [AppendComplex128, bufWriteByte_eq, addElementSeparator_text]

end jsonEncoder

theorem PrimCall.run_text (enc : jsonEncoder) (c : PrimCall) :
    c.run enc = enc.bufWriteString (sepText enc.spaced enc.buf ++ primText c) := by
  cases c <;>
    simp [PrimCall.run, primText, jsonEncoder.WriteBool_text, jsonEncoder.WriteByteString_text,
      jsonEncoder.AppendComplex128_text, jsonEncoder.WriteFloat64, jsonEncoder.WriteFloat32,
      jsonEncoder.appendFloat_text, jsonEncoder.WriteInt64_text, jsonEncoder.WriteString_text,
      jsonEncoder.WriteUint64_text]

theorem runPrims_text : ∀ (cs : List PrimCall) (enc : jsonEncoder),
    runPrims enc cs = enc.bufWriteString (primsText enc.spaced enc.buf cs)
  | [], enc => by simp [runPrims, primsText]
  | c :: cs, enc => by
    rw [runPrims, PrimCall.run_text, runPrims_text cs]
    simp [primsText]

theorem Extends.refl (enc : jsonEncoder) : Extends enc enc :=
  ⟨rfl, rfl, ⟨[], by simp⟩, le_refl _⟩

theorem Extends.trans {a b c : jsonEncoder} (h1 : Extends a b) (h2 : Extends b c) :
    Extends a c := by
  obtain ⟨h1c, h1s, ⟨t1, h1b⟩, h1o⟩ := h1
  obtain ⟨h2c, h2s, ⟨t2, h2b⟩, h2o⟩ := h2
  exact ⟨h2c.trans h1c, h2s.trans h1s, ⟨t1 ++ t2, by rw [h2b, h1b, List.append_assoc]⟩,
    le_trans h1o h2o⟩

theorem Extends.write (enc : jsonEncoder) (t : List Nat) : Extends enc (enc.bufWriteString t) :=
  ⟨rfl, rfl, ⟨t, rfl⟩, le_refl _⟩

theorem Extends.writeByte (enc : jsonEncoder) (c : Nat) : Extends enc (enc.bufWriteByte c) :=
  ⟨rfl, rfl, ⟨[c], rfl⟩, le_refl _⟩

theorem Extends.addKey (enc : jsonEncoder) (key : List Nat) : Extends enc (enc.addKey key) := by
  rw [jsonEncoder.addKey_text]; exact Extends.write _ _

theorem Extends.sep (enc : jsonEncoder) : Extends enc enc.addElementSeparator := by
  rw [jsonEncoder.addElementSeparator_text]; exact Extends.write _ _

theorem Extends.runPrims (enc : jsonEncoder) (cs : List PrimCall) : Extends enc (runPrims enc cs) := by
  rw [runPrims_text]; exact Extends.write _ _

theorem Extends.AppendDuration {enc e : jsonEncoder} {v : Int} (h : enc.AppendDuration v = some e) :
    Extends enc e := by
  unfold jsonEncoder.AppendDuration at h
  cases hf : enc.cfg.EncodeDuration with
  | none => simp [hf] at h
  | some f =>
    simp only [hf] at h
    split_ifs at h
    · cases h
      rw [jsonEncoder.WriteInt64_text]
      exact (Extends.runPrims enc _).trans (Extends.write _ _)
    · cases h
      exact Extends.runPrims enc _

theorem Extends.AppendTime {enc e : jsonEncoder} {v : Int} (h : enc.AppendTime v = some e) :
    Extends enc e := by
  unfold jsonEncoder.AppendTime at h
  cases hf : enc.cfg.EncodeTime with
  | none => simp [hf] at h
  | some f =>
    simp only [hf] at h
    split_ifs at h
    · cases h
      rw [jsonEncoder.WriteInt64_text]
      exact (Extends.runPrims enc _).trans (Extends.write _ _)
    · cases h
      exact Extends.runPrims enc _

theorem Extends.AppendReflected (enc : jsonEncoder) (v : Option Reflected) :
    Extends enc (enc.AppendReflected v).1 := by
  unfold jsonEncoder.AppendReflected
  cases enc.encodeReflected v with
  | error e => exact Extends.refl _
  | ok b => exact (Extends.sep enc).trans (Extends.write _ _)

theorem Extends.AddReflected (enc : jsonEncoder) (key : List Nat) (v : Option Reflected) :
    Extends enc (enc.AddReflected key v).1 := by
  unfold jsonEncoder.AddReflected
  cases enc.encodeReflected v with
  | error e => exact Extends.refl _
  | ok b => exact (Extends.addKey enc key).trans (Extends.write _ _)

theorem Extends.OpenNamespace (enc : jsonEncoder) (key : List Nat) :
    Extends enc (enc.OpenNamespace key) := by
  refine (Extends.addKey enc key).trans ((Extends.writeByte _ 123).trans ?_)
  exact ⟨rfl, rfl, ⟨[], by simp [jsonEncoder.OpenNamespace]⟩, Nat.le_succ _⟩

mutual
theorem objectCall_extends : ∀ (c : ObjectCall) (enc e : jsonEncoder) (err : Option Error),
    ObjectCall.run enc c = some (e, err) → Extends enc e
  | .AddArray key arr, enc, e, err, h => by
    simp only [ObjectCall.run] at h
    split at h
    · cases h
    · rename_i e1 err1 hm
      cases h
      exact (Extends.addKey enc key).trans ((Extends.sep _).trans ((Extends.writeByte _ 91).trans
        ((ArrayMarshaler.MarshalLogArray_extends arr _ _ _ hm).trans (Extends.writeByte _ 93))))
  | .AddObject key obj, enc, e, err, h => by
    simp only [ObjectCall.run] at h
    split at h
    · cases h
    · rename_i e1 err1 hm
      cases h
      exact (Extends.addKey enc key).trans ((Extends.sep _).trans ((Extends.writeByte _ 123).trans
        ((ObjectMarshaler.MarshalLogObject_extends obj _ _ _ hm).trans (Extends.writeByte _ 125))))
  | .AddBinary key val, enc, e, err, h => by
    simp only [ObjectCall.run, Option.some.injEq, Prod.mk.injEq] at h
    rw [← h.1, jsonEncoder.AddBinary, jsonEncoder.AddString, jsonEncoder.WriteString_text]
    exact (Extends.addKey enc key).trans (Extends.write _ _)
  | .AddByteString key val, enc, e, err, h => by
    simp only [ObjectCall.run, Option.some.injEq, Prod.mk.injEq] at h
    rw [← h.1, jsonEncoder.AddByteString, jsonEncoder.WriteByteString_text]
    exact (Extends.addKey enc key).trans (Extends.write _ _)
  | .AddBool key val, enc, e, err, h => by
    simp only [ObjectCall.run, Option.some.injEq, Prod.mk.injEq] at h
    rw [← h.1, jsonEncoder.AddBool, jsonEncoder.WriteBool_text]
    exact (Extends.addKey enc key).trans (Extends.write _ _)
  | .AddComplex128 key re im, enc, e, err, h => by
    simp only [ObjectCall.run, Option.some.injEq, Prod.mk.injEq] at h
    rw [← h.1, jsonEncoder.AddComplex128, jsonEncoder.AppendComplex128_text]
    exact (Extends.addKey enc key).trans (Extends.write _ _)
  | .AddDuration key val, enc, e, err, h => by
    simp only [ObjectCall.run, Option.map_eq_some', Prod.mk.injEq] at h
    obtain ⟨e1, h1, rfl, _⟩ := h
    exact (Extends.addKey enc key).trans (Extends.AppendDuration h1)
  | .AddFloat64 key val, enc, e, err, h => by
    simp only [ObjectCall.run, Option.some.injEq, Prod.mk.injEq] at h
    rw [← h.1, jsonEncoder.AddFloat64, jsonEncoder.WriteFloat64, jsonEncoder.appendFloat_text]
    exact (Extends.addKey enc key).trans (Extends.write _ _)
  | .AddFloat32 key val, enc, e, err, h => by
    simp only [ObjectCall.run, Option.some.injEq, Prod.mk.injEq] at h
    rw [← h.1, jsonEncoder.AddFloat32, jsonEncoder.AddFloat64, jsonEncoder.WriteFloat64,
      jsonEncoder.appendFloat_text]
    exact (Extends.addKey enc key).trans (Extends.write _ _)
  | .AddInt64 key val, enc, e, err, h => by
    simp only [ObjectCall.run, Option.some.injEq, Prod.mk.injEq] at h
    rw [← h.1, jsonEncoder.AddInt64, jsonEncoder.WriteInt64_text]
    exact (Extends.addKey enc key).trans (Extends.write _ _)
  | .AddReflected key obj, enc, e, err, h => by
    simp only [ObjectCall.run, Option.some.injEq] at h
    have := Extends.AddReflected enc key obj
    rw [h] at this
    exact this
  | .OpenNamespace key, enc, e, err, h => by
    simp only [ObjectCall.run, Option.some.injEq, Prod.mk.injEq] at h
    rw [← h.1]
    exact Extends.OpenNamespace enc key
  | .AddString key val, enc, e, err, h => by
    simp only [ObjectCall.run, Option.some.injEq, Prod.mk.injEq] at h
    rw [← h.1, jsonEncoder.AddString, jsonEncoder.WriteString_text]
    exact (Extends.addKey enc key).trans (Extends.write _ _)
  | .AddTime key val, enc, e, err, h => by
    simp only [ObjectCall.run, Option.map_eq_some', Prod.mk.injEq] at h
    obtain ⟨e1, h1, rfl, _⟩ := h
    exact (Extends.addKey enc key).trans (Extends.AppendTime h1)
  | .AddUint64 key val, enc, e, err, h => by
    simp only [ObjectCall.run, Option.some.injEq, Prod.mk.injEq] at h
    rw [← h.1, jsonEncoder.AddUint64, jsonEncoder.WriteUint64_text]
    exact (Extends.addKey enc key).trans (Extends.write _ _)
theorem arrayCall_extends : ∀ (c : ArrayCall) (enc e : jsonEncoder) (err : Option Error),
    ArrayCall.run enc c = some (e, err) → Extends enc e
  | .AppendArray arr, enc, e, err, h => by
    simp only [ArrayCall.run] at h
    split at h
    · cases h
    · rename_i e1 err1 hm
      cases h
      exact (Extends.sep _).trans ((Extends.writeByte _ 91).trans
        ((ArrayMarshaler.MarshalLogArray_extends arr _ _ _ hm).trans (Extends.writeByte _ 93)))
  | .AppendObject obj, enc, e, err, h => by
    simp only [ArrayCall.run] at h
    split at h
    · cases h
    · rename_i e1 err1 hm
      cases h
      exact (Extends.sep _).trans ((Extends.writeByte _ 123).trans
        ((ObjectMarshaler.MarshalLogObject_extends obj _ _ _ hm).trans (Extends.writeByte _ 125)))
  | .AppendReflected obj, enc, e, err, h => by
    simp only [ArrayCall.run, Option.some.injEq] at h
    have := Extends.AppendReflected enc obj
    rw [h] at this
    exact this
  | .AppendDuration val, enc, e, err, h => by
    simp only [ArrayCall.run, Option.map_eq_some', Prod.mk.injEq] at h
    obtain ⟨e1, h1, rfl, _⟩ := h
    exact Extends.AppendDuration h1
  | .AppendTime val, enc, e, err, h => by
    simp only [ArrayCall.run, Option.map_eq_some', Prod.mk.injEq] at h
    obtain ⟨e1, h1, rfl, _⟩ := h
    exact Extends.AppendTime h1
  | .prim c, enc, e, err, h => by
    simp only [ArrayCall.run, Option.some.injEq, Prod.mk.injEq] at h
    rw [← h.1, PrimCall.run_text]
    exact Extends.write _ _
theorem runObjectCalls_extends : ∀ (cs : List ObjectCall) (enc e : jsonEncoder),
    runObjectCalls enc cs = some e → Extends enc e
  | [], enc, e, h => by
    simp only [runObjectCalls, Option.some.injEq] at h
    rw [← h]; exact Extends.refl _
  | c :: cs, enc, e, h => by
    simp only [runObjectCalls] at h
    split at h
    · cases h
    · rename_i e1 err1 hc
      exact (objectCall_extends c _ _ _ hc).trans (runObjectCalls_extends cs _ _ h)
theorem runArrayCalls_extends : ∀ (cs : List ArrayCall) (enc e : jsonEncoder),
    runArrayCalls enc cs = some e → Extends enc e
  | [], enc, e, h => by
    simp only [runArrayCalls, Option.some.injEq] at h
    rw [← h]; exact Extends.refl _
  | c :: cs, enc, e, h => by
    simp only [runArrayCalls] at h
    split at h
    · cases h
    · rename_i e1 err1 hc
      exact (arrayCall_extends c _ _ _ hc).trans (runArrayCalls_extends cs _ _ h)
theorem ObjectMarshaler.MarshalLogObject_extends : ∀ (m : ObjectMarshaler)
    (enc e : jsonEncoder) (err : Option Error),
    ObjectMarshaler.MarshalLogObject enc m = some (e, err) → Extends enc e
  | .mk calls err0, enc, e, err, h => by
    simp only [ObjectMarshaler.MarshalLogObject] at h
    split at h
    · cases h
    · rename_i e1 hc
      cases h
      exact runObjectCalls_extends calls _ _ hc
theorem ArrayMarshaler.MarshalLogArray_extends : ∀ (m : ArrayMarshaler)
    (enc e : jsonEncoder) (err : Option Error),
    ArrayMarshaler.MarshalLogArray enc m = some (e, err) → Extends enc e
  | .mk calls err0, enc, e, err, h => by
    simp only [ArrayMarshaler.MarshalLogArray] at h
    split at h
    · cases h
    · rename_i e1 hc
      cases h
      exact runArrayCalls_extends calls _ _ hc
end

/-! ## The stages of `EncodeEntry` -/

theorem needsSeparator_keyColon (spaced : Bool) (l : List Nat) :
    needsSeparator (l ++ keyColon spaced) = false := by
  cases spaced <;> simp [needsSeparator, keyColon]

theorem sepText_keyText (spaced : Bool) (prev key : List Nat) :
    sepText spaced (prev ++ keyText spaced prev key) = [] := by
  have : prev ++ keyText spaced prev key =
      (prev ++ sepText spaced prev ++ quoted key) ++ keyColon spaced := by
    simp [keyText]
  rw [sepText, this, needsSeparator_keyColon]
  simp

theorem formatUintCore_ne_nil : ∀ (fuel n : Nat) (acc : List Nat),
    0 < fuel ∨ acc ≠ [] → formatUintCore fuel n acc ≠ []
  | 0, n, acc, h => by
    rcases h with h | h
    · omega
    · simpa [formatUintCore] using h
  | fuel + 1, n, acc, _ => by
    unfold formatUintCore
    split_ifs
    · simp
    · exact formatUintCore_ne_nil fuel _ _ (Or.inr (by simp))

theorem formatUint_ne_nil (n : Nat) : formatUint n ≠ [] :=
  formatUintCore_ne_nil (n + 1) n [] (Or.inl (by omega))

theorem formatInt_ne_nil (i : Int) : formatInt i ≠ [] := by
  unfold formatInt
  split_ifs
  · simp
  · exact formatUint_ne_nil _

theorem floatText_ne_nil (v : GoFloat) (bits : Nat) : floatText v bits ≠ [] := by
  cases v with
  | finite neg whole frac =>
    have := formatUint_ne_nil whole
    simp [floatText, formatFloat, this]
  | _ => simp [floatText]

theorem primText_ne_nil (c : PrimCall) : primText c ≠ [] := by
  cases c with
  | WriteBool v => cases v <;> simp [primText, formatBool, bytes]
  | WriteByteString v => simp [primText, quoted]
  | AppendComplex128 re im => simp [primText]
  | WriteFloat64 v => exact floatText_ne_nil v 64
  | WriteFloat32 v => exact floatText_ne_nil v 32
  | WriteInt64 v => exact formatInt_ne_nil v
  | WriteString v => simp [primText, quoted]
  | WriteUint64 v => exact formatUint_ne_nil v

theorem primsText_cons_ne_nil (spaced : Bool) (prev : List Nat) (c : PrimCall)
    (cs : List PrimCall) : primsText spaced prev (c :: cs) ≠ [] := by
  have := primText_ne_nil c
  simp [primsText, this]

/-- The check `cur == final.buf.Len()` after an encoder function has run holds exactly
when the function made no call. -/
theorem runPrims_length_eq (enc : jsonEncoder) (cs : List PrimCall) :
    enc.buf.length = (runPrims enc cs).buf.length ↔ cs = [] := by
  cases cs with
  | nil => simp [runPrims]
  | cons c cs =>
    have := primsText_cons_ne_nil enc.spaced enc.buf c cs
    rw [runPrims_text]
    simp [this]

/-- A key, then the value an encoder function writes, or the fallback string or number
when it writes nothing. -/
theorem pair_stage (final : jsonEncoder) (key : List Nat) (calls : List PrimCall)
    (fb : List Nat) (wr : jsonEncoder → jsonEncoder)
    (hwr : ∀ e : jsonEncoder, wr e = e.bufWriteString (sepText e.spaced e.buf ++ fb)) :
    (if (final.addKey key).buf.length = (runPrims (final.addKey key) calls).buf.length then
        wr (runPrims (final.addKey key) calls)
      else runPrims (final.addKey key) calls) =
      final.bufWriteString (pairText final.spaced final.buf key calls fb) := by
  cases calls with
  | nil =>
    simp only [runPrims, if_true, hwr, pairText, jsonEncoder.addKey_text,
      jsonEncoder.bufWriteString_buf, jsonEncoder.bufWriteString_spaced, sepText_keyText,
      List.nil_append, jsonEncoder.bufWriteString_bufWriteString]
  | cons c cs =>
    have h := (runPrims_length_eq (final.addKey key) (c :: cs)).not.2 (by simp)
    rw [if_neg h, runPrims_text]
    simp [pairText, jsonEncoder.addKey_text]

namespace jsonEncoder

theorem entryLevel_text (final : jsonEncoder) (ent : Entry) :
    final.entryLevel ent =
      (levelText final.cfg final.spaced final.buf ent).map final.bufWriteString := by
  unfold entryLevel levelText
  by_cases hk : final.cfg.LevelKey = []
  · simp [hk]
  · simp only [hk, ne_eq, not_false_eq_true, if_true, if_false]
    cases hf : final.cfg.EncodeLevel with
    | none => simp [addKey_text, hf]
    | some f =>
      have hc : (final.addKey final.cfg.LevelKey).cfg.EncodeLevel = some f := by
        rw [addKey_text]; exact hf
      simp only [hc, Option.map_some']
      have := pair_stage final final.cfg.LevelKey (f ent.Level) (quoted ent.Level.String)
        (fun e => e.WriteString ent.Level.String) (fun e => WriteString_text e _)
      split_ifs at this ⊢ <;> simp_all

theorem entryTime_text (final : jsonEncoder) (ent : Entry) :
    final.entryTime ent =
      (timeText final.cfg final.spaced final.buf ent).map final.bufWriteString := by
  unfold entryTime timeText AddTime AppendTime
  by_cases hk : final.cfg.TimeKey = []
  · simp [hk]
  · simp only [hk, ne_eq, not_false_eq_true, if_true, if_false]
    cases hf : final.cfg.EncodeTime with
    | none => simp [addKey_text, hf]
    | some f =>
      have hc : (final.addKey final.cfg.TimeKey).cfg.EncodeTime = some f := by
        rw [addKey_text]; exact hf
      simp only [hc, Option.map_some']
      have := pair_stage final final.cfg.TimeKey (f ent.Time) (formatInt ent.Time)
        (fun e => e.WriteInt64 ent.Time) (fun e => WriteInt64_text e _)
      split_ifs at this ⊢ <;> simp_all

theorem entryName_text (final : jsonEncoder) (ent : Entry) :
    final.entryName ent =
      final.bufWriteString (nameText final.cfg final.spaced final.buf ent) := by
  unfold entryName nameText
  by_cases hk : ent.LoggerName = [] ∨ final.cfg.NameKey = []
  · have : ¬ (ent.LoggerName ≠ [] ∧ final.cfg.NameKey ≠ []) := by tauto
    simp [hk, this]
  · have h2 : ent.LoggerName ≠ [] ∧ final.cfg.NameKey ≠ [] := by tauto
    rw [if_pos h2, if_neg hk]
    have hc : (final.addKey final.cfg.NameKey).cfg = final.cfg := by rw [addKey_text]; rfl
    simp only [hc]
    exact pair_stage final final.cfg.NameKey _ (quoted ent.LoggerName)
      (fun e => e.WriteString ent.LoggerName) (fun e => WriteString_text e _)

theorem entryCaller_text (final : jsonEncoder) (ent : Entry) :
    final.entryCaller ent =
      (callerText final.cfg final.spaced final.buf ent).map final.bufWriteString := by
  unfold entryCaller callerText
  by_cases hk : ent.Caller.Defined = false ∨ final.cfg.CallerKey = []
  · have : ¬ (ent.Caller.Defined = true ∧ final.cfg.CallerKey ≠ []) := by
      rcases hk with h | h <;> simp [h]
    simp [hk, this]
  · have h2 : ent.Caller.Defined = true ∧ final.cfg.CallerKey ≠ [] := by
      constructor
      · cases h : ent.Caller.Defined <;> simp_all
      · tauto
    rw [if_pos h2, if_neg hk]
    cases hf : final.cfg.EncodeCaller with
    | none => simp [addKey_text, hf]
    | some f =>
      have hc : (final.addKey final.cfg.CallerKey).cfg.EncodeCaller = some f := by
        rw [addKey_text]; exact hf
      simp only [hc, Option.map_some']
      have := pair_stage final final.cfg.CallerKey (f ent.Caller) (quoted ent.Caller.String)
        (fun e => e.WriteString ent.Caller.String) (fun e => WriteString_text e _)
      split_ifs at this ⊢ <;> simp_all

theorem entryMessage_text (enc final : jsonEncoder) (ent : Entry) (hc : final.cfg = enc.cfg) :
    entryMessage enc final ent =
      final.bufWriteString (messageText final.cfg final.spaced final.buf ent) := by
  unfold entryMessage messageText
  by_cases hk : final.cfg.MessageKey = []
  · simp [hk]
  · simp only [hk, ne_eq, not_false_eq_true, if_true, if_false, ← hc]
    rw [WriteString_text, addKey_text]
    simp [sepText_keyText]

theorem entryContext_text (enc final : jsonEncoder) :
    entryContext enc final =
      final.bufWriteString (contextText final.spaced final.buf enc.buf) := by
  unfold entryContext contextText
  by_cases hk : enc.buf = []
  · simp [hk]
  · have : enc.buf.length > 0 := List.length_pos.mpr hk
    simp [hk, this, addElementSeparator_text]

theorem entryStack_text (final : jsonEncoder) (ent : Entry) :
    final.entryStack ent =
      final.bufWriteString (stackText final.cfg final.spaced final.buf ent) := by
  unfold entryStack stackText
  by_cases hk : ent.Stack = [] ∨ final.cfg.StacktraceKey = []
  · have : ¬ (ent.Stack ≠ [] ∧ final.cfg.StacktraceKey ≠ []) := by tauto
    simp [hk, this]
  · have h2 : ent.Stack ≠ [] ∧ final.cfg.StacktraceKey ≠ [] := by tauto
    rw [if_pos h2, if_neg hk, AddString, WriteString_text, addKey_text]
    simp [sepText_keyText]

theorem entryLineEnding_text (final : jsonEncoder) :
    final.entryLineEnding = final.bufWriteString (lineEndingText final.cfg) := by
  unfold entryLineEnding lineEndingText
  by_cases hk : final.cfg.LineEnding = [] <;> simp [hk, DefaultLineEnding]

theorem closeOpenNamespacesLoop_text : ∀ (n : Nat) (enc : jsonEncoder),
    closeOpenNamespacesLoop n enc = enc.bufWriteString (List.replicate n 125)
  | 0, enc => by simp [closeOpenNamespacesLoop]
  | n + 1, enc => by
    rw [closeOpenNamespacesLoop, closeOpenNamespacesLoop_text n, bufWriteByte_eq]
    simp [List.replicate_succ]

theorem closeOpenNamespaces_text (enc : jsonEncoder) :
    enc.closeOpenNamespaces = enc.bufWriteString (List.replicate enc.openNamespaces 125) :=
  closeOpenNamespacesLoop_text _ _

end jsonEncoder

theorem Extends.AppendArray {enc e : jsonEncoder} {arr : ArrayMarshaler} {err : Option Error}
    (h : enc.AppendArray arr = some (e, err)) : Extends enc e := by
  simp only [jsonEncoder.AppendArray] at h
  split at h
  · cases h
  · rename_i e1 err1 hm
    cases h
    exact (Extends.sep _).trans ((Extends.writeByte _ 91).trans
      ((ArrayMarshaler.MarshalLogArray_extends arr _ _ _ hm).trans (Extends.writeByte _ 93)))

theorem Extends.AppendObject {enc e : jsonEncoder} {obj : ObjectMarshaler} {err : Option Error}
    (h : enc.AppendObject obj = some (e, err)) : Extends enc e := by
  simp only [jsonEncoder.AppendObject] at h
  split at h
  · cases h
  · rename_i e1 err1 hm
    cases h
    exact (Extends.sep _).trans ((Extends.writeByte _ 123).trans
      ((ObjectMarshaler.MarshalLogObject_extends obj _ _ _ hm).trans (Extends.writeByte _ 125)))

theorem Field.AddTo_calls (enc : jsonEncoder) (f : Field) :
    (f.AddTo enc).map Prod.fst = f.calls.bind (runObjectCalls enc) := by
  cases f with
  | ErrorType key msg causes =>
    cases causes with
    | none => simp [Field.AddTo, Field.calls, runObjectCalls, ObjectCall.run]
    | some cs =>
      simp only [Field.AddTo, Field.calls, runObjectCalls, ObjectCall.run, Option.some_bind,
        jsonEncoder.AddArray, jsonEncoder.AppendArray]
      split <;> simp_all
  | ArrayMarshalerType key arr =>
    simp only [Field.AddTo, Field.calls, runObjectCalls, ObjectCall.run, Option.some_bind,
        jsonEncoder.AddArray, jsonEncoder.AppendArray]
    split <;> simp_all
  | ObjectMarshalerType key obj =>
    simp only [Field.AddTo, Field.calls, runObjectCalls, ObjectCall.run, Option.some_bind,
        jsonEncoder.AddObject, jsonEncoder.AppendObject]
    split <;> simp_all
  | DurationType key val =>
    simp only [Field.AddTo, Field.calls, runObjectCalls, ObjectCall.run, Option.some_bind]
    cases enc.AddDuration key val <;> simp
  | TimeType key val =>
    simp only [Field.AddTo, Field.calls, runObjectCalls, ObjectCall.run, Option.some_bind]
    cases enc.AddTime key val <;> simp
  | _ => simp [Field.AddTo, Field.calls, runObjectCalls, ObjectCall.run]

theorem Field.AddTo_extends (f : Field) (enc e : jsonEncoder) (err : Option Error)
    (h : f.AddTo enc = some (e, err)) : Extends enc e := by
  have h1 := Field.AddTo_calls enc f
  rw [h] at h1
  simp only [Option.map_some'] at h1
  cases hc : f.calls with
  | none => simp [hc] at h1
  | some cs =>
    rw [hc] at h1
    exact runObjectCalls_extends cs enc e h1.symm

theorem addFields_extends : ∀ (fs : List Field) (enc e : jsonEncoder),
    addFields enc fs = some e → Extends enc e
  | [], enc, e, h => by
    simp only [addFields, Option.some.injEq] at h
    rw [← h]; exact Extends.refl _
  | f :: fs, enc, e, h => by
    simp only [addFields] at h
    split at h
    · cases h
    · rename_i e1 err1 hc
      exact (Field.AddTo_extends f _ _ _ hc).trans (addFields_extends fs _ _ h)

theorem withBuf_write (enc : jsonEncoder) (p t : List Nat) :
    (withBuf enc p).bufWriteString t = withBuf enc (p ++ t) := rfl

theorem entryLevel_wb (enc : jsonEncoder) (p : List Nat) (ent : Entry) :
    (withBuf enc p).entryLevel ent =
      (levelText enc.cfg enc.spaced p ent).map (fun t => withBuf enc (p ++ t)) := by
  rw [jsonEncoder.entryLevel_text]; rfl

theorem entryTime_wb (enc : jsonEncoder) (p : List Nat) (ent : Entry) :
    (withBuf enc p).entryTime ent =
      (timeText enc.cfg enc.spaced p ent).map (fun t => withBuf enc (p ++ t)) := by
  rw [jsonEncoder.entryTime_text]; rfl

theorem entryName_wb (enc : jsonEncoder) (p : List Nat) (ent : Entry) :
    (withBuf enc p).entryName ent = withBuf enc (p ++ nameText enc.cfg enc.spaced p ent) := by
  rw [jsonEncoder.entryName_text]; rfl

theorem entryCaller_wb (enc : jsonEncoder) (p : List Nat) (ent : Entry) :
    (withBuf enc p).entryCaller ent =
      (callerText enc.cfg enc.spaced p ent).map (fun t => withBuf enc (p ++ t)) := by
  rw [jsonEncoder.entryCaller_text]; rfl

theorem entryMessage_wb (enc : jsonEncoder) (p : List Nat) (ent : Entry) :
    jsonEncoder.entryMessage enc (withBuf enc p) ent =
      withBuf enc (p ++ messageText enc.cfg enc.spaced p ent) := by
  rw [jsonEncoder.entryMessage_text enc (withBuf enc p) ent rfl]; rfl

theorem entryContext_wb (enc : jsonEncoder) (p : List Nat) :
    jsonEncoder.entryContext enc (withBuf enc p) =
      withBuf enc (p ++ contextText enc.spaced p enc.buf) := by
  rw [jsonEncoder.entryContext_text]; rfl

theorem fieldsText_wb (enc : jsonEncoder) (p : List Nat) (fields : List Field) :
    fieldsText enc.cfg enc.spaced enc.openNamespaces p fields =
      (addFields (withBuf enc p) fields).map
        (fun e => (e.buf.drop p.length, e.openNamespaces)) := rfl

/-- What `EncodeEntry` does after the fields have been added. -/
theorem entry_tail (e : jsonEncoder) (ent : Entry) :
    (((e.closeOpenNamespaces.entryStack ent).bufWriteByte 125).entryLineEnding).buf =
      e.buf ++ List.replicate e.openNamespaces 125 ++
        stackText e.cfg e.spaced (e.buf ++ List.replicate e.openNamespaces 125) ent ++ [125] ++
        lineEndingText e.cfg := by
  simp [jsonEncoder.closeOpenNamespaces_text, jsonEncoder.entryStack_text,
    jsonEncoder.entryLineEnding_text, jsonEncoder.bufWriteByte_eq]

/-- `EncodeEntry` writes the layout of the specification. -/
theorem EncodeEntry_layout (enc : jsonEncoder) (ent : Entry) (fields : List Field) :
    enc.EncodeEntry ent fields = (entryLayout enc ent fields).map (fun out => (out, none)) := by
  unfold jsonEncoder.EncodeEntry entryLayout
  have e0 : enc.clone.bufWriteByte 123 = withBuf enc [123] := rfl
  simp only [e0, entryLevel_wb]
  cases levelText enc.cfg enc.spaced [123] ent with
  | none => rfl
  | some lvl =>
    simp only [Option.map_some', entryTime_wb]
    cases timeText enc.cfg enc.spaced ([123] ++ lvl) ent with
    | none => rfl
    | some tm =>
      simp only [Option.map_some', entryName_wb, entryCaller_wb]
      cases callerText enc.cfg enc.spaced
          ([123] ++ lvl ++ tm ++ nameText enc.cfg enc.spaced ([123] ++ lvl ++ tm) ent) ent with
      | none => rfl
      | some clr =>
        simp only [Option.map_some', entryMessage_wb, entryContext_wb, fieldsText_wb]
        generalize [123] ++ lvl ++ tm ++ nameText enc.cfg enc.spaced ([123] ++ lvl ++ tm) ent ++
          clr = p4
        generalize p4 ++ messageText enc.cfg enc.spaced p4 ent = p5
        generalize p5 ++ contextText enc.spaced p5 enc.buf = p6
        cases h4 : addFields (withBuf enc p6) fields with
        | none => rfl
        | some e7 =>
          obtain ⟨hcfg, hsp, ⟨t, ht⟩, _⟩ := addFields_extends _ _ _ h4
          simp only [Option.map_some', entry_tail]
          have hcfg2 : e7.cfg = enc.cfg := hcfg
          have hsp2 : e7.spaced = enc.spaced := hsp
          have ht2 : e7.buf = p6 ++ t := ht
          simp only [hcfg2, hsp2, ht2, List.drop_left, List.append_assoc]

/-! ## Counting open namespaces -/

theorem AppendDuration_open {enc e : jsonEncoder} {v : Int} (h : enc.AppendDuration v = some e) :
    e.openNamespaces = enc.openNamespaces := by
  unfold jsonEncoder.AppendDuration at h
  cases hf : enc.cfg.EncodeDuration with
  | none => simp [hf] at h
  | some f =>
    simp only [hf] at h
    split_ifs at h <;> cases h <;> simp [jsonEncoder.WriteInt64_text, runPrims_text]

theorem AppendTime_open {enc e : jsonEncoder} {v : Int} (h : enc.AppendTime v = some e) :
    e.openNamespaces = enc.openNamespaces := by
  unfold jsonEncoder.AppendTime at h
  cases hf : enc.cfg.EncodeTime with
  | none => simp [hf] at h
  | some f =>
    simp only [hf] at h
    split_ifs at h <;> cases h <;> simp [jsonEncoder.WriteInt64_text, runPrims_text]

theorem AppendReflected_open (enc : jsonEncoder) (v : Option Reflected) :
    (enc.AppendReflected v).1.openNamespaces = enc.openNamespaces := by
  unfold jsonEncoder.AppendReflected
  cases enc.encodeReflected v <;> simp [jsonEncoder.addElementSeparator_text]

theorem AddReflected_open (enc : jsonEncoder) (key : List Nat) (v : Option Reflected) :
    (enc.AddReflected key v).1.openNamespaces = enc.openNamespaces := by
  unfold jsonEncoder.AddReflected
  cases enc.encodeReflected v <;> simp [jsonEncoder.addKey_text]

mutual
theorem objectCall_opened : ∀ (c : ObjectCall) (enc e : jsonEncoder) (err : Option Error),
    ObjectCall.run enc c = some (e, err) →
      e.openNamespaces = enc.openNamespaces + ObjectCall.opened c
  | .AddArray key arr, enc, e, err, h => by
    simp only [ObjectCall.run] at h
    split at h
    · cases h
    · rename_i e1 err1 hm
      cases h
      have := ArrayMarshaler.MarshalLogArray_opened arr _ _ _ hm
      simpa [ObjectCall.opened, jsonEncoder.addKey_text, jsonEncoder.addElementSeparator_text]
        using this
  | .AddObject key obj, enc, e, err, h => by
    simp only [ObjectCall.run] at h
    split at h
    · cases h
    · rename_i e1 err1 hm
      cases h
      have := ObjectMarshaler.MarshalLogObject_opened obj _ _ _ hm
      simpa [ObjectCall.opened, jsonEncoder.addKey_text, jsonEncoder.addElementSeparator_text]
        using this
  | .AddBinary key val, enc, e, err, h => by
    simp only [ObjectCall.run, Option.some.injEq, Prod.mk.injEq] at h
    simp [← h.1, ObjectCall.opened, jsonEncoder.AddBinary, jsonEncoder.AddString,
      jsonEncoder.WriteString_text, jsonEncoder.addKey_text]
  | .AddByteString key val, enc, e, err, h => by
    simp only [ObjectCall.run, Option.some.injEq, Prod.mk.injEq] at h
    simp [← h.1, ObjectCall.opened, jsonEncoder.AddByteString, jsonEncoder.WriteByteString_text,
      jsonEncoder.addKey_text]
  | .AddBool key val, enc, e, err, h => by
    simp only [ObjectCall.run, Option.some.injEq, Prod.mk.injEq] at h
    simp [← h.1, ObjectCall.opened, jsonEncoder.AddBool, jsonEncoder.WriteBool_text,
      jsonEncoder.addKey_text]
  | .AddComplex128 key re im, enc, e, err, h => by
    simp only [ObjectCall.run, Option.some.injEq, Prod.mk.injEq] at h
    simp [← h.1, ObjectCall.opened, jsonEncoder.AddComplex128,
      jsonEncoder.AppendComplex128_text, jsonEncoder.addKey_text]
  | .AddDuration key val, enc, e, err, h => by
    simp only [ObjectCall.run, Option.map_eq_some', Prod.mk.injEq] at h
    obtain ⟨e1, h1, rfl, _⟩ := h
    simpa [ObjectCall.opened, jsonEncoder.addKey_text] using AppendDuration_open h1
  | .AddFloat64 key val, enc, e, err, h => by
    simp only [ObjectCall.run, Option.some.injEq, Prod.mk.injEq] at h
    simp [← h.1, ObjectCall.opened, jsonEncoder.AddFloat64, jsonEncoder.WriteFloat64,
      jsonEncoder.appendFloat_text, jsonEncoder.addKey_text]
  | .AddFloat32 key val, enc, e, err, h => by
    simp only [ObjectCall.run, Option.some.injEq, Prod.mk.injEq] at h
    simp [← h.1, ObjectCall.opened, jsonEncoder.AddFloat32, jsonEncoder.AddFloat64,
      jsonEncoder.WriteFloat64, jsonEncoder.appendFloat_text, jsonEncoder.addKey_text]
  | .AddInt64 key val, enc, e, err, h => by
    simp only [ObjectCall.run, Option.some.injEq, Prod.mk.injEq] at h
    simp [← h.1, ObjectCall.opened, jsonEncoder.AddInt64, jsonEncoder.WriteInt64_text,
      jsonEncoder.addKey_text]
  | .AddReflected key obj, enc, e, err, h => by
    simp only [ObjectCall.run, Option.some.injEq] at h
    have := AddReflected_open enc key obj
    rw [h] at this
    simpa [ObjectCall.opened] using this
  | .OpenNamespace key, enc, e, err, h => by
    simp only [ObjectCall.run, Option.some.injEq, Prod.mk.injEq] at h
    simp [← h.1, ObjectCall.opened, jsonEncoder.OpenNamespace, jsonEncoder.addKey_text]
  | .AddString key val, enc, e, err, h => by
    simp only [ObjectCall.run, Option.some.injEq, Prod.mk.injEq] at h
    simp [← h.1, ObjectCall.opened, jsonEncoder.AddString, jsonEncoder.WriteString_text,
      jsonEncoder.addKey_text]
  | .AddTime key val, enc, e, err, h => by
    simp only [ObjectCall.run, Option.map_eq_some', Prod.mk.injEq] at h
    obtain ⟨e1, h1, rfl, _⟩ := h
    simpa [ObjectCall.opened, jsonEncoder.addKey_text] using AppendTime_open h1
  | .AddUint64 key val, enc, e, err, h => by
    simp only [ObjectCall.run, Option.some.injEq, Prod.mk.injEq] at h
    simp [← h.1, ObjectCall.opened, jsonEncoder.AddUint64, jsonEncoder.WriteUint64_text,
      jsonEncoder.addKey_text]
theorem arrayCall_opened : ∀ (c : ArrayCall) (enc e : jsonEncoder) (err : Option Error),
    ArrayCall.run enc c = some (e, err) →
      e.openNamespaces = enc.openNamespaces + ArrayCall.opened c
  | .AppendArray arr, enc, e, err, h => by
    simp only [ArrayCall.run] at h
    split at h
    · cases h
    · rename_i e1 err1 hm
      cases h
      have := ArrayMarshaler.MarshalLogArray_opened arr _ _ _ hm
      simpa [ArrayCall.opened, jsonEncoder.addElementSeparator_text] using this
  | .AppendObject obj, enc, e, err, h => by
    simp only [ArrayCall.run] at h
    split at h
    · cases h
    · rename_i e1 err1 hm
      cases h
      have := ObjectMarshaler.MarshalLogObject_opened obj _ _ _ hm
      simpa [ArrayCall.opened, jsonEncoder.addElementSeparator_text] using this
  | .AppendReflected obj, enc, e, err, h => by
    simp only [ArrayCall.run, Option.some.injEq] at h
    have := AppendReflected_open enc obj
    rw [h] at this
    simpa [ArrayCall.opened] using this
  | .AppendDuration val, enc, e, err, h => by
    simp only [ArrayCall.run, Option.map_eq_some', Prod.mk.injEq] at h
    obtain ⟨e1, h1, rfl, _⟩ := h
    simpa [ArrayCall.opened] using AppendDuration_open h1
  | .AppendTime val, enc, e, err, h => by
    simp only [ArrayCall.run, Option.map_eq_some', Prod.mk.injEq] at h
    obtain ⟨e1, h1, rfl, _⟩ := h
    simpa [ArrayCall.opened] using AppendTime_open h1
  | .prim c, enc, e, err, h => by
    simp only [ArrayCall.run, Option.some.injEq, Prod.mk.injEq] at h
    simp [← h.1, ArrayCall.opened, PrimCall.run_text]
theorem runObjectCalls_opened : ∀ (cs : List ObjectCall) (enc e : jsonEncoder),
    runObjectCalls enc cs = some e →
      e.openNamespaces = enc.openNamespaces + openedObjectCalls cs
  | [], enc, e, h => by
    simp only [runObjectCalls, Option.some.injEq] at h
    simp [← h, openedObjectCalls]
  | c :: cs, enc, e, h => by
    simp only [runObjectCalls] at h
    split at h
    · cases h
    · rename_i e1 err1 hc
      rw [runObjectCalls_opened cs _ _ h, objectCall_opened c _ _ _ hc, openedObjectCalls]
      omega
theorem runArrayCalls_opened : ∀ (cs : List ArrayCall) (enc e : jsonEncoder),
    runArrayCalls enc cs = some e →
      e.openNamespaces = enc.openNamespaces + openedArrayCalls cs
  | [], enc, e, h => by
    simp only [runArrayCalls, Option.some.injEq] at h
    simp [← h, openedArrayCalls]
  | c :: cs, enc, e, h => by
    simp only [runArrayCalls] at h
    split at h
    · cases h
    · rename_i e1 err1 hc
      rw [runArrayCalls_opened cs _ _ h, arrayCall_opened c _ _ _ hc, openedArrayCalls]
      omega
theorem ObjectMarshaler.MarshalLogObject_opened : ∀ (m : ObjectMarshaler)
    (enc e : jsonEncoder) (err : Option Error),
    ObjectMarshaler.MarshalLogObject enc m = some (e, err) →
      e.openNamespaces = enc.openNamespaces + ObjectMarshaler.opened m
  | .mk calls err0, enc, e, err, h => by
    simp only [ObjectMarshaler.MarshalLogObject] at h
    split at h
    · cases h
    · rename_i e1 hc
      cases h
      simpa [ObjectMarshaler.opened] using runObjectCalls_opened calls _ _ hc
theorem ArrayMarshaler.MarshalLogArray_opened : ∀ (m : ArrayMarshaler)
    (enc e : jsonEncoder) (err : Option Error),
    ArrayMarshaler.MarshalLogArray enc m = some (e, err) →
      e.openNamespaces = enc.openNamespaces + ArrayMarshaler.opened m
  | .mk calls err0, enc, e, err, h => by
    simp only [ArrayMarshaler.MarshalLogArray] at h
    split at h
    · cases h
    · rename_i e1 hc
      cases h
      simpa [ArrayMarshaler.opened] using runArrayCalls_opened calls _ _ hc
end

theorem errorCauses_opened (cs : List (List Nat)) : ArrayMarshaler.opened (errorCauses cs) = 0 := by
  simp only [errorCauses, ArrayMarshaler.opened]
  induction cs with
  | nil => rfl
  | cons c cs ih => simpa [openedArrayCalls, ArrayCall.opened] using ih

theorem Field.AddTo_opened (f : Field) (enc e : jsonEncoder) (err : Option Error)
    (h : f.AddTo enc = some (e, err)) :
    e.openNamespaces = enc.openNamespaces + countNamespaces [f] + f.marshalerOpened := by
  have h1 := Field.AddTo_calls enc f
  rw [h] at h1
  simp only [Option.map_some'] at h1
  cases hc : f.calls with
  | none => simp [hc] at h1
  | some cs =>
    rw [hc] at h1
    have h2 := runObjectCalls_opened cs enc e h1.symm
    rw [h2]
    cases f with
    | ErrorType key msg causes =>
      cases causes <;> simp only [Field.calls, Option.some.injEq] at hc <;> subst hc <;>
        simp [openedObjectCalls, ObjectCall.opened, countNamespaces, Field.marshalerOpened,
          errorCauses_opened]
    | UnknownType key => simp [Field.calls] at hc
    | _ =>
      simp only [Field.calls, Option.some.injEq] at hc
      subst hc
      simp [openedObjectCalls, ObjectCall.opened, countNamespaces, Field.marshalerOpened]

theorem countNamespaces_cons (f : Field) (fs : List Field) :
    countNamespaces (f :: fs) = countNamespaces [f] + countNamespaces fs := by
  cases f <;> simp [countNamespaces]
  omega

/-- After the fields are added the open-namespace count has grown by the number of
namespace fields and by the number of `OpenNamespace` calls their marshalers made. -/
theorem addFields_opened : ∀ (fs : List Field) (enc e : jsonEncoder),
    addFields enc fs = some e →
      e.openNamespaces =
        enc.openNamespaces + countNamespaces fs + (fs.map Field.marshalerOpened).sum
  | [], enc, e, h => by
    simp only [addFields, Option.some.injEq] at h
    simp [← h, countNamespaces]
  | f :: fs, enc, e, h => by
    simp only [addFields] at h
    split at h
    · cases h
    · rename_i e1 err1 hc
      rw [addFields_opened fs _ _ h, Field.AddTo_opened f _ _ _ hc, countNamespaces_cons f fs]
      simp only [List.map_cons, List.sum_cons]
      omega

/-! ## Scanning the texts the encoder writes -/

theorem run_append (s : JState) (a b : List Nat) :
    run s (a ++ b) = (run s a).bind (fun s1 => run s1 b) := by
  induction a generalizing s with
  | nil => rfl
  | cons x a ih =>
    simp only [List.cons_append, run]
    cases step s x with
    | none => rfl
    | some s1 => exact ih s1

theorem run_append_of {s s1 : JState} {a : List Nat} (h : run s a = some s1) (b : List Nat) :
    run s (a ++ b) = run s1 b := by
  rw [run_append, h]; rfl

theorem run_cons_of {s s1 : JState} {x : Nat} (h : step s x = some s1) (b : List Nat) :
    run s (x :: b) = run s1 b := by
  simp [run, h]

theorem hexDigit_isHex (d : Nat) (h : d < 16) : isHexDigit (hexDigit d) = true := by
  interval_cases d <;> decide

/-- A string byte from 0x20 on other than backslash and double quote keeps the
scanner inside the string. -/
theorem step_str_plain (k : Bool) (σ : List Bool) (b : Nat) (h1 : b ≠ 34) (h2 : b ≠ 92)
    (h3 : ¬ b < 0x20) : step ⟨.str k, σ⟩ b = some ⟨.str k, σ⟩ := by
  simp [step, h1, h2, h3]

theorem run_str_high (k : Bool) (σ : List Bool) (w : List Nat) (h : ∀ b ∈ w, 0x80 ≤ b) :
    run ⟨.str k, σ⟩ w = some ⟨.str k, σ⟩ := by
  induction w with
  | nil => rfl
  | cons b w ih =>
    have hb : 0x80 ≤ b := h b (by simp)
    rw [run_cons_of (step_str_plain k σ b (by omega) (by omega) (by omega))]
    exact ih (fun c hc => h c (by simp [hc]))

theorem run_str_escapeByte (k : Bool) (σ : List Bool) (b : Nat) (h : b < 0x80) :
    run ⟨.str k, σ⟩ (escapeByte b) = some ⟨.str k, σ⟩ := by
  unfold escapeByte
  by_cases hq : b = 92 ∨ b = 34
  · rw [if_pos hq]
    rcases hq with rfl | rfl <;> simp [run, step]
  rw [if_neg hq]
  by_cases h10 : b = 10
  · subst h10; simp [run, step]
  rw [if_neg h10]
  by_cases h13 : b = 13
  · subst h13; simp [run, step]
  rw [if_neg h13]
  by_cases h9 : b = 9
  · subst h9; simp [run, step]
  rw [if_neg h9]
  by_cases h32 : b < 32
  · rw [if_pos h32]
    have e1 := hexDigit_isHex (b / 16) (by omega)
    have e2 := hexDigit_isHex (b % 16) (by omega)
    have e0 : isHexDigit 48 = true := by decide
    simp [run, step, e0, e1, e2]
  · rw [if_neg h32]
    simp only [run]
    rw [step_str_plain k σ b (by omega) (by omega) h32]

theorem run_str_escapeSpec (k : Bool) (σ : List Bool) : ∀ (n : Nat) (s : List Nat),
    s.length ≤ n → run ⟨.str k, σ⟩ (escapeSpecAux 0 s) = some ⟨.str k, σ⟩
  | _, [], _ => by simp [escapeSpecAux, run]
  | 0, b :: rest, h => by simp at h
  | n + 1, b :: rest, h => by
    have hlen : rest.length ≤ n := by simpa using h
    by_cases hb : b < 0x80
    · simp only [escapeSpecAux, if_pos hb]
      rw [run_append_of (run_str_escapeByte k σ b hb)]
      exact run_str_escapeSpec k σ n rest hlen
    · simp only [escapeSpecAux, if_neg hb]
      rcases decode_multi b rest (by omega) with ⟨hm, _⟩ | ⟨j, hm, _, hj2, hjl, hhigh⟩
      · simp only [hm]
        have e : run ⟨.str k, σ⟩ [92, 117, 102, 102, 102, 100] = some ⟨.str k, σ⟩ := by
          have e0 : isHexDigit 102 = true := by decide
          have e1 : isHexDigit 100 = true := by decide
          simp [run, step, e0, e1]
        rw [run_append_of e]
        exact run_str_escapeSpec k σ n rest hlen
      · obtain ⟨m, rfl⟩ : ∃ m, j = m + 1 := ⟨j - 1, by omega⟩
        simp only [hm, Nat.add_sub_cancel, escapeSpecAux_skip m rest]
        have hall : ∀ c ∈ b :: rest.take m, 0x80 ≤ c := by
          intro c hc
          rcases List.mem_cons.mp hc with rfl | hc
          · omega
          · exact getD_ge_of_take rest m (by simpa using hhigh) (by omega) c hc
        have := run_str_high k σ (b :: rest.take m) hall
        rw [← List.cons_append, run_append_of this]
        exact run_str_escapeSpec k σ n (rest.drop m) (by simp; omega)

/-- A quoted string takes the scanner from its opening quote to the state after a
value, or to the colon for a key. -/
theorem run_quoted_body (k : Bool) (σ : List Bool) (s : List Nat) :
    run ⟨.str k, σ⟩ (escapeSpec s ++ [34]) = some ⟨if k then .colon else .after, σ⟩ := by
  unfold escapeSpec
  rw [run_append_of (run_str_escapeSpec k σ s.length s (le_refl _))]
  simp [run, step]

theorem needsSeparator_append_last (p v : List Nat) (c : Nat)
    (hc : c ≠ 123 ∧ c ≠ 91 ∧ c ≠ 58 ∧ c ≠ 44 ∧ c ≠ 32) :
    needsSeparator (p ++ (v ++ [c])) = true := by
  have : (p ++ (v ++ [c])).getLast? = some c := by
    rw [← List.append_assoc]; simp
  simp only [needsSeparator, this]
  simp [hc.1, hc.2.1, hc.2.2.1, hc.2.2.2.1, hc.2.2.2.2]

theorem needsSeparator_of_getLast (p v : List Nat) (c : Nat) (hv : v.getLast? = some c)
    (hc : c ≠ 123 ∧ c ≠ 91 ∧ c ≠ 58 ∧ c ≠ 44 ∧ c ≠ 32) :
    needsSeparator (p ++ v) = true := by
  obtain ⟨l, rfl⟩ : ∃ l, v = l ++ [c] := by
    rcases List.eq_nil_or_concat v with h | ⟨l, d, h⟩
    · simp [h] at hv
    · rw [List.concat_eq_append] at h
      subst h
      simp at hv
      exact ⟨l, by rw [hv]⟩
  exact needsSeparator_append_last p l c hc

theorem run_int_digits (σ : List Bool) : ∀ ds : List Nat, (∀ c ∈ ds, isDigit c = true) →
    run ⟨.int, σ⟩ ds = some ⟨.int, σ⟩
  | [], _ => rfl
  | d :: ds, h => by
    have hd : isDigit d = true := h d (by simp)
    have : step ⟨.int, σ⟩ d = some ⟨.int, σ⟩ := by simp [step, hd]
    rw [run_cons_of this]
    exact run_int_digits σ ds (fun c hc => h c (by simp [hc]))

theorem run_frac_digits (σ : List Bool) : ∀ ds : List Nat, (∀ c ∈ ds, isDigit c = true) →
    run ⟨.frac, σ⟩ ds = some ⟨.frac, σ⟩
  | [], _ => rfl
  | d :: ds, h => by
    have hd : isDigit d = true := h d (by simp)
    have : step ⟨.frac, σ⟩ d = some ⟨.frac, σ⟩ := by simp [step, hd]
    rw [run_cons_of this]
    exact run_frac_digits σ ds (fun c hc => h c (by simp [hc]))

/-- The digits of a positive number: a first digit other than zero, then digits. -/
theorem formatUintCore_digits : ∀ (fuel n : Nat) (acc : List Nat), 1 ≤ n → n < fuel →
    (∀ c ∈ acc, isDigit c = true) →
    ∃ d ds, formatUintCore fuel n acc = d :: ds ∧ 49 ≤ d ∧ d ≤ 57 ∧ ∀ c ∈ ds, isDigit c = true
  | 0, n, acc, _, h, _ => by omega
  | fuel + 1, n, acc, h1, h2, hacc => by
    unfold formatUintCore
    by_cases h10 : n / 10 = 0
    · rw [if_pos h10]
      have : n < 10 := by omega
      exact ⟨48 + n % 10, acc, rfl, by omega, by omega, hacc⟩
    · rw [if_neg h10]
      apply formatUintCore_digits fuel (n / 10) _ (by omega) (by omega)
      intro c hc
      rcases List.mem_cons.mp hc with rfl | hc
      · simp [isDigit]; omega
      · exact hacc c hc

theorem formatUint_zero : formatUint 0 = [48] := by decide

theorem formatUint_pos (n : Nat) (h : 1 ≤ n) :
    ∃ d ds, formatUint n = d :: ds ∧ 49 ≤ d ∧ d ≤ 57 ∧ ∀ c ∈ ds, isDigit c = true :=
  formatUintCore_digits (n + 1) n [] h (by omega) (by simp)

theorem formatUint_allDigits (n : Nat) : ∀ c ∈ formatUint n, isDigit c = true := by
  rcases Nat.eq_zero_or_pos n with rfl | h
  · rw [formatUint_zero]; simp [isDigit]
  · obtain ⟨d, ds, he, h1, h2, hds⟩ := formatUint_pos n h
    rw [he]
    intro c hc
    rcases List.mem_cons.mp hc with rfl | hc
    · simp [isDigit]; omega
    · exact hds c hc

theorem digit_not_special (c : Nat) (h : isDigit c = true) :
    c ≠ 123 ∧ c ≠ 91 ∧ c ≠ 58 ∧ c ≠ 44 ∧ c ≠ 32 := by
  simp [isDigit] at h; omega

theorem needsSeparator_digits (p v : List Nat) (hv : v ≠ []) (h : ∀ c ∈ v, isDigit c = true) :
    needsSeparator (p ++ v) = true := by
  rcases List.eq_nil_or_concat v with h0 | ⟨l, c, h0⟩
  · exact absurd h0 hv
  · rw [List.concat_eq_append] at h0
    subst h0
    exact needsSeparator_append_last p l c (digit_not_special c (h c (by simp)))

/-- The scanner over the digits of an unsigned number, from any mode that steps like
the start of a value on a digit. -/
theorem run_formatUint (σ : List Bool) (n : Nat) (s : JState)
    (h0 : step s 48 = some ⟨.zero, σ⟩)
    (h1 : ∀ d, 49 ≤ d → d ≤ 57 → step s d = some ⟨.int, σ⟩) :
    ∃ m : JMode, (m = .zero ∨ m = .int) ∧ run s (formatUint n) = some ⟨m, σ⟩ := by
  rcases Nat.eq_zero_or_pos n with rfl | h
  · exact ⟨.zero, Or.inl rfl, by rw [formatUint_zero, run_cons_of h0]; rfl⟩
  · obtain ⟨d, ds, he, hd1, hd2, hds⟩ := formatUint_pos n h
    refine ⟨.int, Or.inr rfl, ?_⟩
    rw [he, run_cons_of (h1 d hd1 hd2)]
    exact run_int_digits σ ds hds

theorem step_value_digit0 (σ : List Bool) : step ⟨.value, σ⟩ 48 = some ⟨.zero, σ⟩ := by
  simp [step, stepValue, isWs]

theorem step_value_digit (σ : List Bool) (d : Nat) (h1 : 49 ≤ d) (h2 : d ≤ 57) :
    step ⟨.value, σ⟩ d = some ⟨.int, σ⟩ := by
  have hw : isWs d = false := by simp [isWs]; omega
  have e1 : d ≠ 34 := by omega
  have e2 : d ≠ 123 := by omega
  have e3 : d ≠ 91 := by omega
  have e4 : d ≠ 45 := by omega
  have e5 : d ≠ 48 := by omega
  simp [step, hw, stepValue, e1, e2, e3, e4, e5, h1, h2]

/-- At the first byte of a value that is neither whitespace nor `]`, the scanner steps
after `[` as it does where a value is expected. -/
theorem step_arrFirst_eq (σ : List Bool) (b : Nat) (hw : isWs b = false) (hb : b ≠ 93) :
    step ⟨.arrFirst, σ⟩ b = step ⟨.value, σ⟩ b := by
  simp [step, hw, hb]

theorem run_arrFirst_eq (σ : List Bool) (b : Nat) (v : List Nat) (hw : isWs b = false)
    (hb : b ≠ 93) : run ⟨.arrFirst, σ⟩ (b :: v) = run ⟨.value, σ⟩ (b :: v) := by
  simp only [run, step_arrFirst_eq σ b hw hb]

/-- A text is a value text when it ends in a byte that calls for a separator, starts
with a byte that is neither whitespace nor `]`, and is scanned as a value. -/
theorem valueText_of (b c : Nat) (v : List Nat) (hlast : (b :: v).getLast? = some c)
    (hc : c ≠ 123 ∧ c ≠ 91 ∧ c ≠ 58 ∧ c ≠ 44 ∧ c ≠ 32) (hw : isWs b = false) (hb : b ≠ 93)
    (hrun : ∀ σ : List Bool, ∃ m : JMode, m.complete = true ∧
      run ⟨.value, σ⟩ (b :: v) = some ⟨m, σ⟩) : ValueText (b :: v) := by
  refine ⟨fun p => needsSeparator_of_getLast p _ c hlast hc, fun σ => ?_⟩
  obtain ⟨m, hm, hr⟩ := hrun σ
  exact ⟨m, hm, hr, by rw [run_arrFirst_eq σ b v hw hb]; exact hr⟩

theorem valueText_quoted (s : List Nat) : ValueText (quoted s) := by
  have hq : quoted s = 34 :: (escapeSpec s ++ [34]) := by simp [quoted]
  rw [hq]
  refine valueText_of 34 34 _ ?_ (by decide) (by decide) (by decide) (fun σ => ?_)
  · rw [← List.cons_append, List.getLast?_append]; simp
  · refine ⟨.after, rfl, ?_⟩
    have : step ⟨.value, σ⟩ 34 = some ⟨.str false, σ⟩ := by simp [step, stepValue, isWs]
    rw [run_cons_of this, run_quoted_body]
    rfl

theorem valueText_formatUint (n : Nat) : ValueText (formatUint n) := by
  refine ⟨fun p => needsSeparator_digits p _ (formatUint_ne_nil n) (formatUint_allDigits n),
    fun σ => ?_⟩
  obtain ⟨m, hm, hr⟩ := run_formatUint σ n ⟨.value, σ⟩ (step_value_digit0 σ)
    (step_value_digit σ)
  have hs0 : step ⟨.arrFirst, σ⟩ 48 = some ⟨.zero, σ⟩ := by
    rw [step_arrFirst_eq σ 48 (by decide) (by decide)]; exact step_value_digit0 σ
  have hs1 : ∀ d, 49 ≤ d → d ≤ 57 → step ⟨.arrFirst, σ⟩ d = some ⟨.int, σ⟩ := by
    intro d h1 h2
    rw [step_arrFirst_eq σ d (by simp [isWs]; omega) (by omega)]
    exact step_value_digit σ d h1 h2
  obtain ⟨m2, hm2, hr2⟩ := run_formatUint σ n ⟨.arrFirst, σ⟩ hs0 hs1
  have : m2 = m := by
    rcases Nat.eq_zero_or_pos n with rfl | h
    · rw [formatUint_zero] at hr hr2
      simp [run, hs0, step_value_digit0] at hr hr2
      rw [← hr, ← hr2]
    · obtain ⟨d, ds, he, hd1, hd2, hds⟩ := formatUint_pos n h
      rw [he, run_cons_of (step_value_digit σ d hd1 hd2), run_int_digits σ ds hds] at hr
      rw [he, run_cons_of (hs1 d hd1 hd2), run_int_digits σ ds hds] at hr2
      simp at hr hr2
      rw [← hr, ← hr2]
  subst this
  exact ⟨m2, by rcases hm with rfl | rfl <;> rfl, hr, hr2⟩

theorem valueText_formatInt (i : Int) : ValueText (formatInt i) := by
  unfold formatInt
  by_cases hi : i < 0
  · rw [if_pos hi]
    have hpos : 1 ≤ i.natAbs := by omega
    obtain ⟨d, ds, he, hd1, hd2, hds⟩ := formatUint_pos i.natAbs hpos
    obtain ⟨c, hc⟩ : ∃ c, (45 :: formatUint i.natAbs).getLast? = some c ∧ isDigit c = true := by
      rcases List.eq_nil_or_concat (formatUint i.natAbs) with h0 | ⟨l, c, h0⟩
      · exact absurd h0 (formatUint_ne_nil _)
      · rw [List.concat_eq_append] at h0
        refine ⟨c, ?_, ?_⟩
        · rw [h0, ← List.cons_append, List.getLast?_append]; simp
        · exact formatUint_allDigits i.natAbs c (by rw [h0]; simp)
    refine valueText_of 45 c _ hc.1 (digit_not_special c hc.2) (by decide) (by decide)
      (fun σ => ?_)
    refine ⟨.int, rfl, ?_⟩
    have h45 : step ⟨.value, σ⟩ 45 = some ⟨.minus, σ⟩ := by simp [step, stepValue, isWs]
    have hd : step ⟨.minus, σ⟩ d = some ⟨.int, σ⟩ := by
      have e5 : d ≠ 48 := by omega
      simp [step, e5, hd1, hd2]
    rw [run_cons_of h45, he, run_cons_of hd]
    exact run_int_digits σ ds hds
  · rw [if_neg hi]
    exact valueText_formatUint _

theorem valueText_formatBool (v : Bool) : ValueText (formatBool v) := by
  cases v
  · refine valueText_of 102 101 (bytes "alse") (by decide) (by decide) (by decide) (by decide)
      (fun σ => ⟨.after, rfl, ?_⟩)
    simp [run, step, stepValue, isWs, bytes]
  · refine valueText_of 116 101 (bytes "rue") (by decide) (by decide) (by decide) (by decide)
      (fun σ => ⟨.after, rfl, ?_⟩)
    simp [run, step, stepValue, isWs, bytes]

theorem run_str_plain (k : Bool) (σ : List Bool) : ∀ w : List Nat,
    (∀ c ∈ w, c ≠ 34 ∧ c ≠ 92 ∧ 0x20 ≤ c) → run ⟨.str k, σ⟩ w = some ⟨.str k, σ⟩
  | [], _ => rfl
  | b :: w, h => by
    obtain ⟨h1, h2, h3⟩ := h b (by simp)
    rw [run_cons_of (step_str_plain k σ b h1 h2 (by omega))]
    exact run_str_plain k σ w (fun c hc => h c (by simp [hc]))

theorem digit_plain (c : Nat) (h : isDigit c = true) : c ≠ 34 ∧ c ≠ 92 ∧ 0x20 ≤ c := by
  simp [isDigit] at h; omega

theorem fracDigits_allDigits (frac : List (Fin 10)) :
    ∀ c ∈ frac.map (fun d => 48 + d.val), isDigit c = true := by
  intro c hc
  obtain ⟨d, _, rfl⟩ := List.mem_map.1 hc
  have := d.isLt
  simp [isDigit]; omega

theorem formatFloat_plain (f : GoFloat) (bits : Nat) :
    ∀ c ∈ formatFloat f bits, c ≠ 34 ∧ c ≠ 92 ∧ 0x20 ≤ c := by
  cases f with
  | nan => show ∀ c ∈ bytes "NaN", c ≠ 34 ∧ c ≠ 92 ∧ 0x20 ≤ c; decide
  | posInf => show ∀ c ∈ bytes "+Inf", c ≠ 34 ∧ c ≠ 92 ∧ 0x20 ≤ c; decide
  | negInf => show ∀ c ∈ bytes "-Inf", c ≠ 34 ∧ c ≠ 92 ∧ 0x20 ≤ c; decide
  | finite neg whole frac =>
    intro c hc
    simp only [formatFloat, List.mem_append] at hc
    rcases hc with (hc | hc) | hc
    · cases neg <;> simp at hc
      omega
    · exact digit_plain c (formatUint_allDigits whole c hc)
    · by_cases hf : frac = []
      · simp [hf] at hc
      · rw [if_neg hf] at hc
        rcases List.mem_cons.mp hc with rfl | hc
        · decide
        · exact digit_plain c (fracDigits_allDigits frac c hc)

theorem run_arrFirst_eq_of (σ : List Bool) (t : List Nat) (b : Nat) (ht : t.head? = some b)
    (hw : isWs b = false) (hb : b ≠ 93) : run ⟨.arrFirst, σ⟩ t = run ⟨.value, σ⟩ t := by
  cases t with
  | nil => simp at ht
  | cons x v =>
    simp only [List.head?_cons, Option.some.injEq] at ht
    subst ht
    exact run_arrFirst_eq σ x v hw hb

/-- The scanner over the text of a finite float, from a mode that steps like the start
of a number. -/
theorem run_finite (σ : List Bool) (whole : Nat) (frac : List (Fin 10)) (s : JState)
    (h0 : step s 48 = some ⟨.zero, σ⟩)
    (h1 : ∀ d, 49 ≤ d → d ≤ 57 → step s d = some ⟨.int, σ⟩) :
    ∃ m : JMode, m.complete = true ∧
      run s (formatUint whole ++
        (if frac = [] then [] else 46 :: frac.map (fun d => 48 + d.val))) = some ⟨m, σ⟩ := by
  obtain ⟨m, hm, hr⟩ := run_formatUint σ whole s h0 h1
  rw [run_append_of hr]
  by_cases hf : frac = []
  · rw [if_pos hf]
    exact ⟨m, by rcases hm with rfl | rfl <;> rfl, rfl⟩
  · rw [if_neg hf]
    refine ⟨.frac, rfl, ?_⟩
    have hdot : step ⟨m, σ⟩ 46 = some ⟨.dot, σ⟩ := by
      rcases hm with rfl | rfl <;> simp [step, isDigit]
    rw [run_cons_of hdot]
    cases frac with
    | nil => exact absurd rfl hf
    | cons d ds =>
      have hd := d.isLt
      have hfirst : step ⟨.dot, σ⟩ (48 + d.val) = some ⟨.frac, σ⟩ := by
        have : isDigit (48 + d.val) = true := by simp [isDigit]; omega
        simp [step, this]
      simp only [List.map_cons]
      rw [run_cons_of hfirst]
      exact run_frac_digits σ _ (fracDigits_allDigits ds)

theorem finite_last (neg : Bool) (whole : Nat) (frac : List (Fin 10)) :
    ∃ c, (formatFloat (.finite neg whole frac) 0).getLast? = some c ∧ isDigit c = true := by
  have key : ∀ (pre v : List Nat), v ≠ [] → (∀ c ∈ v, isDigit c = true) →
      ∃ c, (pre ++ v).getLast? = some c ∧ isDigit c = true := by
    intro pre v hv h
    rcases List.eq_nil_or_concat v with h0 | ⟨l, c, h0⟩
    · exact absurd h0 hv
    · rw [List.concat_eq_append] at h0
      subst h0
      exact ⟨c, by rw [← List.append_assoc, List.getLast?_append]; simp, h c (by simp)⟩
  simp only [formatFloat]
  by_cases hf : frac = []
  · simp only [hf, if_true, List.append_nil]
    exact key _ _ (formatUint_ne_nil whole) (formatUint_allDigits whole)
  · rw [if_neg hf]
    cases frac with
    | nil => exact absurd rfl hf
    | cons d ds =>
      have := key ((if neg = true then [45] else []) ++ formatUint whole ++ [46])
        ((d :: ds).map (fun d => 48 + d.val)) (by simp) (fracDigits_allDigits _)
      simpa using this

theorem valueText_floatText (v : GoFloat) (bits : Nat) : ValueText (floatText v bits) := by
  cases v with
  | nan =>
    exact valueText_of 34 34 _ (by decide) (by decide) (by decide) (by decide)
      (fun σ => ⟨.after, rfl, by simp [run, step, stepValue, isWs]⟩)
  | posInf =>
    exact valueText_of 34 34 _ (by decide) (by decide) (by decide) (by decide)
      (fun σ => ⟨.after, rfl, by simp [run, step, stepValue, isWs]⟩)
  | negInf =>
    exact valueText_of 34 34 _ (by decide) (by decide) (by decide) (by decide)
      (fun σ => ⟨.after, rfl, by simp [run, step, stepValue, isWs]⟩)
  | finite neg whole frac =>
    obtain ⟨c, hc1, hc2⟩ := finite_last neg whole frac
    have htext : floatText (.finite neg whole frac) bits =
        formatFloat (.finite neg whole frac) 0 := rfl
    rw [htext]
    refine ⟨fun p => needsSeparator_of_getLast p _ c hc1 (digit_not_special c hc2), fun σ => ?_⟩
    have hmin0 : step ⟨.minus, σ⟩ 48 = some ⟨.zero, σ⟩ := by simp [step]
    have hmin1 : ∀ d, 49 ≤ d → d ≤ 57 → step ⟨.minus, σ⟩ d = some ⟨.int, σ⟩ := by
      intro d h1 h2
      have e5 : d ≠ 48 := by omega
      simp [step, e5, h1, h2]
    cases neg with
    | true =>
      obtain ⟨m, hm, hr⟩ := run_finite σ whole frac ⟨.minus, σ⟩ hmin0 hmin1
      have h45 : step ⟨.value, σ⟩ 45 = some ⟨.minus, σ⟩ := by simp [step, stepValue, isWs]
      have hv : run ⟨.value, σ⟩ (formatFloat (.finite true whole frac) 0) = some ⟨m, σ⟩ := by
        simp only [formatFloat, if_true, List.singleton_append, List.cons_append,
          List.append_assoc]
        rw [run_cons_of h45]
        simpa using hr
      refine ⟨m, hm, hv, ?_⟩
      rw [run_arrFirst_eq_of σ _ 45 (by simp [formatFloat]) (by decide) (by decide)]
      exact hv
    | false =>
      obtain ⟨m, hm, hr⟩ := run_finite σ whole frac ⟨.value, σ⟩ (step_value_digit0 σ)
        (step_value_digit σ)
      have hv : run ⟨.value, σ⟩ (formatFloat (.finite false whole frac) 0) = some ⟨m, σ⟩ := by
        simpa [formatFloat] using hr
      refine ⟨m, hm, hv, ?_⟩
      obtain ⟨b, hb1, hb2⟩ : ∃ b, (formatFloat (.finite false whole frac) 0).head? = some b ∧
          isDigit b = true := by
        cases hfu : formatUint whole with
        | nil => exact absurd hfu (formatUint_ne_nil whole)
        | cons b rest =>
          refine ⟨b, by simp [formatFloat, hfu], ?_⟩
          exact formatUint_allDigits whole b (by rw [hfu]; simp)
      have hb3 : 48 ≤ b ∧ b ≤ 57 := by simpa [isDigit] using hb2
      rw [run_arrFirst_eq_of σ _ b hb1 (by simp [isWs]; omega) (by omega)]
      exact hv

theorem valueText_complex (re im : GoFloat) :
    ValueText ([34] ++ formatFloat re 64 ++ [43] ++ formatFloat im 64 ++ [105, 34]) := by
  have e : [34] ++ formatFloat re 64 ++ [43] ++ formatFloat im 64 ++ [105, 34] =
      34 :: ((formatFloat re 64 ++ [43] ++ formatFloat im 64 ++ [105]) ++ [34]) := by simp
  rw [e]
  refine valueText_of 34 34 _ (by rw [← List.cons_append, List.getLast?_append]; simp)
    (by decide) (by decide) (by decide) (fun σ => ⟨.after, rfl, ?_⟩)
  have h34 : step ⟨.value, σ⟩ 34 = some ⟨.str false, σ⟩ := by simp [step, stepValue, isWs]
  rw [run_cons_of h34]
  have hbody : run ⟨.str false, σ⟩ (formatFloat re 64 ++ [43] ++ formatFloat im 64 ++ [105]) =
      some ⟨.str false, σ⟩ := by
    apply run_str_plain
    intro c hc
    simp only [List.mem_append, List.mem_singleton] at hc
    rcases hc with ((hc | rfl) | hc) | rfl
    · exact formatFloat_plain re 64 c hc
    · decide
    · exact formatFloat_plain im 64 c hc
    · decide
  rw [run_append_of hbody]
  simp [run, step]

theorem valueText_primText (c : PrimCall) : ValueText (primText c) := by
  cases c with
  | WriteBool v => exact valueText_formatBool v
  | WriteByteString v => exact valueText_quoted v
  | AppendComplex128 re im => exact valueText_complex re im
  | WriteFloat64 v => exact valueText_floatText v 64
  | WriteFloat32 v => exact valueText_floatText v 32
  | WriteInt64 v => exact valueText_formatInt v
  | WriteString v => exact valueText_quoted v
  | WriteUint64 v => exact valueText_formatUint v

/-! ## Keys and values at the scanner's positions -/

theorem step_complete_special (m : JMode) (σ : List Bool) (b : Nat) (hm : m.complete = true)
    (hb : b = 44 ∨ b = 125 ∨ b = 93 ∨ b = 32) : step ⟨m, σ⟩ b = stepAfter σ b := by
  cases m <;> simp [JMode.complete] at hm <;>
    rcases hb with rfl | rfl | rfl | rfl <;> simp [step, isDigit]

theorem needsSeparator_separator (sp : Bool) (p : List Nat) :
    needsSeparator (p ++ separator sp) = false := by
  cases sp <;> simp [needsSeparator, separator]

/-- A value written where a value may be written leaves the scanner after a complete
value with the same open brackets. -/
theorem write_value (sp : Bool) (s0 st : JState) (buf v : List Nat)
    (hrun : run s0 buf = some st) (hpos : ValuePos st buf) (hv : ValueText v) :
    ∃ m : JMode, m.complete = true ∧
      run s0 (buf ++ (sepText sp buf ++ v)) = some ⟨m, st.stack⟩ ∧
      needsSeparator (buf ++ (sepText sp buf ++ v)) = true := by
  obtain ⟨hlast, hscan⟩ := hv
  obtain ⟨m, hm, hval, harr⟩ := hscan st.stack
  refine ⟨m, hm, ?_, by rw [← List.append_assoc]; exact hlast _⟩
  rw [run_append_of hrun]
  rcases hpos with ⟨hmode, hns⟩ | ⟨hc, htop, hns⟩
  · simp only [sepText, hns, Bool.false_eq_true, if_false, List.nil_append]
    rcases hmode with h | h
    · have : st = ⟨.value, st.stack⟩ := by cases st; simp_all
      rw [this]; exact hval
    · have : st = ⟨.arrFirst, st.stack⟩ := by cases st; simp_all
      rw [this]; exact harr
  · simp only [sepText, hns, if_true]
    obtain ⟨mode, stack⟩ := st
    cases stack with
    | nil => simp at htop
    | cons t σ =>
      simp only [List.head?_cons, Option.some.injEq] at htop
      subst htop
      have hcomma : step ⟨mode, false :: σ⟩ 44 = some ⟨.value, false :: σ⟩ := by
        rw [step_complete_special mode _ 44 hc (Or.inl rfl)]
        simp [stepAfter, isWs]
      have hsp : step ⟨.value, false :: σ⟩ 32 = some ⟨.value, false :: σ⟩ := by
        simp [step, isWs]
      cases sp
      · simp only [separator, Bool.false_eq_true, if_false, List.singleton_append]
        rw [run_cons_of hcomma]; exact hval
      · simp only [separator, if_true, List.cons_append, List.nil_append]
        rw [run_cons_of hcomma, run_cons_of hsp]; exact hval

/-- A key written where a key may be written leaves the scanner where the value of
the key is expected. -/
theorem write_key (sp : Bool) (s0 st : JState) (buf key : List Nat)
    (hrun : run s0 buf = some st) (hslot : ObjSlot st buf) :
    run s0 (buf ++ keyText sp buf key) = some ⟨.value, st.stack⟩ ∧
      needsSeparator (buf ++ keyText sp buf key) = false := by
  refine ⟨?_, ?_⟩
  swap
  · have : buf ++ keyText sp buf key = (buf ++ sepText sp buf ++ quoted key) ++ keyColon sp := by
      simp [keyText]
    rw [this]; exact needsSeparator_keyColon sp _
  rw [run_append_of hrun]
  obtain ⟨mode, stack⟩ := st
  obtain ⟨htop, hcase⟩ := hslot
  cases stack with
  | nil => simp at htop
  | cons t σ =>
    simp only [List.head?_cons, Option.some.injEq] at htop
    subst htop
    have hcolon : ∀ s : JState, s.stack = true :: σ → (s.mode = .objFirst ∨ s.mode = .objKey) →
        run s (quoted key ++ keyColon sp) = some ⟨.value, true :: σ⟩ := by
      intro s hs hmode
      obtain ⟨m2, st2⟩ := s
      simp only at hs hmode
      subst hs
      have h34 : step ⟨m2, true :: σ⟩ 34 = some ⟨.str true, true :: σ⟩ := by
        rcases hmode with rfl | rfl <;> simp [step, isWs]
      have hq : quoted key ++ keyColon sp = 34 :: ((escapeSpec key ++ [34]) ++ keyColon sp) := by
        simp [quoted]
      rw [hq, run_cons_of h34, run_append_of (run_quoted_body true _ key)]
      cases sp <;> simp [keyColon, run, step, isWs]
    simp only at hcase
    rcases hcase with ⟨hm, hns⟩ | ⟨hm, hb⟩ | ⟨hc, hns⟩
    · simp only [keyText, sepText, hns, Bool.false_eq_true, if_false, List.nil_append]
      exact hcolon _ rfl (Or.inl hm)
    · subst hb
      have hns : needsSeparator ([] : List Nat) = false := rfl
      simp only [keyText, sepText, hns, Bool.false_eq_true, if_false, List.nil_append]
      exact hcolon _ rfl (Or.inr hm)
    · simp only [keyText, sepText, hns, if_true, List.append_assoc]
      have hcomma : step ⟨mode, true :: σ⟩ 44 = some ⟨.objKey, true :: σ⟩ := by
        rw [step_complete_special mode _ 44 hc (Or.inl rfl)]
        simp [stepAfter, isWs]
      have hsp : step ⟨.objKey, true :: σ⟩ 32 = some ⟨.objKey, true :: σ⟩ := by
        simp [step, isWs]
      cases sp
      · simp only [separator, Bool.false_eq_true, if_false, List.singleton_append]
        rw [run_cons_of hcomma]
        exact hcolon _ rfl (Or.inr rfl)
      · simp only [separator, if_true, List.cons_append, List.nil_append]
        rw [run_cons_of hcomma, run_cons_of hsp]
        exact hcolon _ rfl (Or.inr rfl)

/-- A key and its value written where a key may be written leave the scanner where
the next key may be written. -/
theorem write_pair (sp : Bool) (s0 st : JState) (buf key v : List Nat)
    (hrun : run s0 buf = some st) (hslot : ObjSlot st buf) (hv : ValueText v) :
    ∃ st1 : JState, run s0 (buf ++ (keyText sp buf key ++ v)) = some st1 ∧
      st1.stack = st.stack ∧ ObjSlot st1 (buf ++ (keyText sp buf key ++ v)) := by
  obtain ⟨hk, hkns⟩ := write_key sp s0 st buf key hrun hslot
  have hpos : ValuePos ⟨.value, st.stack⟩ (buf ++ keyText sp buf key) :=
    Or.inl ⟨Or.inl rfl, hkns⟩
  obtain ⟨m, hm, hr, hns⟩ := write_value sp s0 _ _ v hk hpos hv
  have hsep : sepText sp (buf ++ keyText sp buf key) = [] := sepText_keyText sp buf key
  rw [hsep, List.nil_append, List.append_assoc] at hr hns
  exact ⟨⟨m, st.stack⟩, hr, rfl, hslot.1, Or.inr (Or.inr ⟨hm, hns⟩)⟩

/-! ## Values encoded by the standard JSON encoder -/

theorem stepAfter_mono (τ σ : List Bool) (b : Nat) (s1 : JState)
    (h : stepAfter τ b = some s1) : stepAfter (τ ++ σ) b = some ⟨s1.mode, s1.stack ++ σ⟩ := by
  rcases τ with _ | ⟨_ | _, τ⟩ <;> simp only [stepAfter, List.cons_append, List.nil_append] at h ⊢ <;>
    split_ifs at h ⊢ <;> cases h <;> rfl

theorem stepValue_eq (τ : List Bool) (b : Nat) :
    stepValue τ b = (stepValue [] b).map (fun s => ⟨s.mode, s.stack ++ τ⟩) := by
  simp only [stepValue]
  split_ifs <;> rfl

theorem stepValue_mono (τ σ : List Bool) (b : Nat) (s1 : JState)
    (h : stepValue τ b = some s1) : stepValue (τ ++ σ) b = some ⟨s1.mode, s1.stack ++ σ⟩ := by
  rw [stepValue_eq] at h ⊢
  cases h0 : stepValue [] b with
  | none => simp [h0] at h
  | some s0 =>
    rw [h0] at h
    simp only [Option.map_some', Option.some.injEq] at h ⊢
    subst h
    simp

/-- The scanner does not look below the brackets it has seen opened. -/
theorem step_mono (s s1 : JState) (σ : List Bool) (b : Nat) (h : step s b = some s1) :
    step ⟨s.mode, s.stack ++ σ⟩ b = some ⟨s1.mode, s1.stack ++ σ⟩ := by
  obtain ⟨m, τ⟩ := s
  cases m
  case value =>
    simp only [step] at h ⊢
    split_ifs at h ⊢
    · cases h; rfl
    · exact stepValue_mono _ _ _ _ h
  case arrFirst =>
    simp only [step] at h ⊢
    split_ifs at h ⊢
    · cases h; rfl
    · rcases τ with _ | ⟨_ | _, τ⟩ <;> simp_all
      subst h; simp
    · exact stepValue_mono _ _ _ _ h
  case objFirst =>
    simp only [step] at h ⊢
    split_ifs at h ⊢
    · cases h; rfl
    · cases h; rfl
    · rcases τ with _ | ⟨_ | _, τ⟩ <;> simp_all
      subst h; simp
  case after => exact stepAfter_mono _ _ _ _ h
  case zero =>
    simp only [step] at h ⊢
    split_ifs at h ⊢
    · cases h; rfl
    · cases h; rfl
    · exact stepAfter_mono _ _ _ _ h
  case int =>
    simp only [step] at h ⊢
    split_ifs at h ⊢
    · cases h; rfl
    · cases h; rfl
    · cases h; rfl
    · exact stepAfter_mono _ _ _ _ h
  case frac =>
    simp only [step] at h ⊢
    split_ifs at h ⊢
    · cases h; rfl
    · cases h; rfl
    · exact stepAfter_mono _ _ _ _ h
  case exp =>
    simp only [step] at h ⊢
    split_ifs at h ⊢
    · cases h; rfl
    · exact stepAfter_mono _ _ _ _ h
  case lit rest =>
    cases rest with
    | nil => simp [step] at h
    | cons c cs =>
      simp only [step] at h ⊢
      split_ifs at h ⊢ <;> cases h <;> rfl
  all_goals
    simp only [step] at h ⊢
    split_ifs at h ⊢ <;> cases h <;> rfl

theorem run_mono (σ : List Bool) : ∀ (t : List Nat) (s s1 : JState), run s t = some s1 →
    run ⟨s.mode, s.stack ++ σ⟩ t = some ⟨s1.mode, s1.stack ++ σ⟩
  | [], s, s1, h => by
    simp only [run, Option.some.injEq] at h
    subst h; rfl
  | b :: t, s, s1, h => by
    simp only [run] at h ⊢
    cases hs : step s b with
    | none => simp [hs] at h
    | some s2 =>
      rw [hs] at h
      rw [step_mono s s2 σ b hs]
      exact run_mono σ t s2 s1 h

/-- Where a value is read, it is read as the first element of an array too. -/
theorem run_arrFirst_of_value (σ : List Bool) : ∀ (t : List Nat) (s : JState),
    run ⟨.value, σ⟩ t = some s → s.mode.complete = true → run ⟨.arrFirst, σ⟩ t = some s
  | [], s, h, hc => by
    simp only [run, Option.some.injEq] at h
    subst h; simp [JMode.complete] at hc
  | b :: t, s, h, hc => by
    by_cases hw : isWs b = true
    · have h1 : step ⟨.value, σ⟩ b = some ⟨.value, σ⟩ := by simp [step, hw]
      have h2 : step ⟨.arrFirst, σ⟩ b = some ⟨.arrFirst, σ⟩ := by simp [step, hw]
      rw [run_cons_of h1] at h
      rw [run_cons_of h2]
      exact run_arrFirst_of_value σ t s h hc
    · have hb : b ≠ 93 := by
        rintro rfl
        simp [run, step, stepValue, isWs] at h
      rw [run_arrFirst_eq σ b t (by simpa using hw) hb]
      exact h

theorem stepValue_litOK (σ : List Bool) (b : Nat) (s1 : JState) (h : stepValue σ b = some s1) :
    litOK s1.mode := by
  simp only [stepValue] at h
  split_ifs at h <;> cases h <;> simp [litOK]

theorem stepAfter_litOK (σ : List Bool) (b : Nat) (s1 : JState) (h : stepAfter σ b = some s1) :
    litOK s1.mode := by
  rcases σ with _ | ⟨_ | _, σ⟩ <;> simp only [stepAfter] at h <;>
    split_ifs at h <;> cases h <;> simp [litOK]

theorem step_litOK (s s1 : JState) (b : Nat) (hs : litOK s.mode) (h : step s b = some s1) :
    litOK s1.mode := by
  obtain ⟨m, τ⟩ := s
  cases m
  case value =>
    simp only [step] at h
    split_ifs at h
    · cases h; trivial
    · exact stepValue_litOK _ _ _ h
  case arrFirst =>
    simp only [step] at h
    split_ifs at h
    · cases h; trivial
    · rcases τ with _ | ⟨_ | _, τ⟩ <;> simp at h
      subst h; trivial
    · exact stepValue_litOK _ _ _ h
  case objFirst =>
    simp only [step] at h
    split_ifs at h
    · cases h; trivial
    · cases h; trivial
    · rcases τ with _ | ⟨_ | _, τ⟩ <;> simp at h
      subst h; trivial
  case after => exact stepAfter_litOK _ _ _ h
  case zero =>
    simp only [step] at h
    split_ifs at h
    · cases h; trivial
    · cases h; trivial
    · exact stepAfter_litOK _ _ _ h
  case int =>
    simp only [step] at h
    split_ifs at h
    · cases h; trivial
    · cases h; trivial
    · cases h; trivial
    · exact stepAfter_litOK _ _ _ h
  case frac =>
    simp only [step] at h
    split_ifs at h
    · cases h; trivial
    · cases h; trivial
    · exact stepAfter_litOK _ _ _ h
  case exp =>
    simp only [step] at h
    split_ifs at h
    · cases h; trivial
    · exact stepAfter_litOK _ _ _ h
  case lit rest =>
    cases rest with
    | nil => simp [step] at h
    | cons c cs =>
      cases cs with
      | nil =>
        simp [step] at h
        obtain ⟨_, rfl⟩ := h
        trivial
      | cons d ds =>
        simp only [step, List.isEmpty_cons, Bool.false_eq_true, if_false] at h
        split_ifs at h
        cases h
        intro x hx
        exact hs x (by simp [hx])
  case str k =>
    cases k <;> simp only [step] at h <;> split_ifs at h <;> cases h <;> trivial
  all_goals
    simp only [step] at h
    split_ifs at h <;> cases h <;> trivial

/-- No step ends a value on an opening bracket, a colon or a comma. -/
theorem step_complete_last (s s1 : JState) (b : Nat) (hs : litOK s.mode)
    (h : step s b = some s1) (hc : s1.mode.complete = true) :
    b ≠ 123 ∧ b ≠ 91 ∧ b ≠ 58 ∧ b ≠ 44 := by
  have hafter : ∀ (σ : List Bool), stepAfter σ b = some s1 → b ≠ 123 ∧ b ≠ 91 ∧ b ≠ 58 ∧ b ≠ 44 := by
    intro σ h
    rcases σ with _ | ⟨_ | _, σ⟩ <;> simp only [stepAfter] at h <;>
      split_ifs at h with h1 <;> cases h <;>
      first
        | (simp [JMode.complete] at hc; done)
        | (subst_vars; decide)
        | (simp [isWs] at h1; omega)
  have hvalue : ∀ (σ : List Bool), stepValue σ b = some s1 → b ≠ 123 ∧ b ≠ 91 ∧ b ≠ 58 ∧ b ≠ 44 := by
    intro σ h
    simp only [stepValue] at h
    split_ifs at h <;> cases h <;>
      first
        | (simp [JMode.complete] at hc; done)
        | omega
  obtain ⟨m, τ⟩ := s
  cases m
  case value =>
    simp only [step] at h
    split_ifs at h
    · cases h; simp [JMode.complete] at hc
    · exact hvalue _ h
  case arrFirst =>
    simp only [step] at h
    split_ifs at h
    · cases h; simp [JMode.complete] at hc
    · omega
    · exact hvalue _ h
  case objFirst =>
    simp only [step] at h
    split_ifs at h
    · cases h; simp [JMode.complete] at hc
    · cases h; simp [JMode.complete] at hc
    · omega
  case after => exact hafter _ h
  case zero =>
    simp only [step] at h
    split_ifs at h
    · cases h; simp [JMode.complete] at hc
    · cases h; simp [JMode.complete] at hc
    · exact hafter _ h
  case int =>
    simp only [step] at h
    split_ifs at h with h1
    · simp [isDigit] at h1; omega
    · cases h; simp [JMode.complete] at hc
    · cases h; simp [JMode.complete] at hc
    · exact hafter _ h
  case frac =>
    simp only [step] at h
    split_ifs at h with h1
    · simp [isDigit] at h1; omega
    · cases h; simp [JMode.complete] at hc
    · exact hafter _ h
  case exp =>
    simp only [step] at h
    split_ifs at h with h1
    · simp [isDigit] at h1; omega
    · exact hafter _ h
  case lit rest =>
    cases rest with
    | nil => simp [step] at h
    | cons c cs =>
      simp only [step] at h
      split_ifs at h with h1 <;> subst h1 <;> exact hs b (by simp)
  case str k =>
    simp only [step] at h
    split_ifs at h with h1 <;> cases h <;>
      first
        | omega
        | simp [JMode.complete] at hc
  all_goals
    simp only [step] at h
    split_ifs at h <;> cases h <;>
      first
        | (simp [JMode.complete] at hc; done)
        | omega
        | (simp only [isDigit, decide_eq_true_eq] at *; omega)

theorem run_complete_last : ∀ (t : List Nat) (s s1 : JState), litOK s.mode →
    run s t = some s1 → s1.mode.complete = true → s.mode.complete = false →
    ∃ b, t.getLast? = some b ∧ b ≠ 123 ∧ b ≠ 91 ∧ b ≠ 58 ∧ b ≠ 44
  | [], s, s1, _, h, hc, hn => by
    simp only [run, Option.some.injEq] at h
    subst h; rw [hc] at hn; cases hn
  | b :: t, s, s1, hs, h, hc, hn => by
    simp only [run] at h
    cases hst : step s b with
    | none => simp [hst] at h
    | some s2 =>
      rw [hst] at h
      simp only at h
      cases t with
      | nil =>
        simp only [run, Option.some.injEq] at h
        subst h
        exact ⟨b, rfl, step_complete_last s s2 b hs hst hc⟩
      | cons c t =>
        by_cases h2 : s2.mode.complete = true
        · -- the rest is scanned from a complete state: look at the very last step
          have : ∀ (u : List Nat) (x : Nat) (q : JState), litOK q.mode → run q (x :: u) = some s1 →
              ∃ b, (x :: u).getLast? = some b ∧ b ≠ 123 ∧ b ≠ 91 ∧ b ≠ 58 ∧ b ≠ 44 := by
            intro u
            induction u with
            | nil =>
              intro x q hq hr
              simp only [run] at hr
              cases hq2 : step q x with
              | none => simp [hq2] at hr
              | some q2 =>
                rw [hq2] at hr
                simp only [Option.some.injEq] at hr
                subst hr
                exact ⟨x, rfl, step_complete_last q q2 x hq hq2 hc⟩
            | cons y u ih =>
              intro x q hq hr
              simp only [run] at hr
              cases hq2 : step q x with
              | none => simp [hq2] at hr
              | some q2 =>
                rw [hq2] at hr
                obtain ⟨b, hb, hne⟩ := ih y q2 (step_litOK q q2 x hq hq2) (by simpa [run] using hr)
                exact ⟨b, by rw [List.getLast?_cons_cons]; exact hb, hne⟩
          obtain ⟨b1, hb1, hne⟩ := this t c s2 (step_litOK s s2 b hs hst) h
          exact ⟨b1, by rw [List.getLast?_cons_cons]; exact hb1, hne⟩
        · obtain ⟨b1, hb1, hne⟩ := run_complete_last (c :: t) s2 s1 (step_litOK s s2 b hs hst) h hc
            (by simpa using h2)
          exact ⟨b1, by rw [List.getLast?_cons_cons]; exact hb1, hne⟩

/-! ## The scanner over the writes of the encoder -/

theorem valueText_null : ValueText [110, 117, 108, 108] :=
  valueText_of 110 108 [117, 108, 108] (by decide) (by decide) (by decide) (by decide)
    (fun σ => ⟨.after, rfl, by simp [run, step, stepValue, isWs]⟩)

/-- A JSON text that does not end in a space is a value text. -/
theorem valueText_of_valid (t : List Nat) (hv : validJSON t = true)
    (hl : t.getLast? ≠ some 32) : ValueText t := by
  unfold validJSON at hv
  cases hr : run ⟨.value, []⟩ t with
  | none => simp [hr] at hv
  | some s =>
    rw [hr] at hv
    simp only [Bool.and_eq_true, List.isEmpty_iff] at hv
    obtain ⟨hc, hs⟩ := hv
    obtain ⟨b, hb, hne⟩ := run_complete_last t ⟨.value, []⟩ s trivial hr hc rfl
    refine ⟨fun p => needsSeparator_of_getLast p t b hb
      ⟨hne.1, hne.2.1, hne.2.2.1, hne.2.2.2, ?_⟩, fun σ => ?_⟩
    · rintro rfl; exact hl hb
    · have h1 := run_mono σ t _ _ hr
      simp only [hs, List.nil_append] at h1
      exact ⟨s.mode, hc, h1, run_arrFirst_of_value σ t _ h1 hc⟩

theorem encodeReflected_value (enc : jsonEncoder) (obj : Option Reflected) (v : List Nat)
    (hok : reflectedOK obj = true) (h : enc.encodeReflected obj = .ok v) : ValueText v := by
  cases obj with
  | none =>
    simp only [jsonEncoder.encodeReflected, Except.ok.injEq] at h
    rw [← h]; exact valueText_null
  | some r =>
    cases r with
    | fails err => simp [jsonEncoder.encodeReflected] at h
    | encodes w =>
      simp only [jsonEncoder.encodeReflected, Except.ok.injEq] at h
      simp only [reflectedOK, Bool.and_eq_true, Bool.not_eq_true', beq_eq_false_iff_ne,
        ne_eq] at hok
      rw [← h]
      exact valueText_of_valid _ hok.1 hok.2

theorem objInv_head {s0 : JState} {σ : List Bool} {e : jsonEncoder} (h : ObjInv s0 σ e) :
    σ.head? = some true := by
  obtain ⟨st, _, hs, hslot⟩ := h
  rw [← hs]; exact hslot.1

theorem arrInv_head {s0 : JState} {σ : List Bool} {e : jsonEncoder} (h : ArrInv s0 σ e) :
    σ.head? = some false := by
  obtain ⟨st, _, hs, hslot⟩ := h
  rw [← hs]; exact hslot.1

theorem doneInv_toObj {s0 : JState} {σ : List Bool} {e : jsonEncoder} (h : DoneInv s0 σ e)
    (hσ : σ.head? = some true) : ObjInv s0 σ e := by
  obtain ⟨m, hm, hr, hns⟩ := h
  exact ⟨⟨m, σ⟩, hr, rfl, hσ, Or.inr (Or.inr ⟨hm, hns⟩)⟩

theorem doneInv_toArr {s0 : JState} {σ : List Bool} {e : jsonEncoder} (h : DoneInv s0 σ e)
    (hσ : σ.head? = some false) : ArrInv s0 σ e := by
  obtain ⟨m, hm, hr, hns⟩ := h
  exact ⟨⟨m, σ⟩, hr, rfl, hσ, Or.inr ⟨hm, hns⟩⟩

theorem arrInv_val {s0 : JState} {σ : List Bool} {e : jsonEncoder} (h : ArrInv s0 σ e) :
    ValInv s0 σ e := by
  obtain ⟨st, hr, hs, htop, hcase⟩ := h
  refine ⟨st, hr, hs, ?_⟩
  rcases hcase with ⟨hm, hns⟩ | ⟨hc, hns⟩
  · exact Or.inl ⟨Or.inr hm, hns⟩
  · exact Or.inr ⟨hc, htop, hns⟩

theorem objInv_key {s0 : JState} {σ : List Bool} {e : jsonEncoder} (h : ObjInv s0 σ e)
    (key : List Nat) : ValInv s0 σ (e.addKey key) := by
  obtain ⟨st, hr, hs, hslot⟩ := h
  obtain ⟨hk, hns⟩ := write_key e.spaced s0 st e.buf key hr hslot
  rw [jsonEncoder.addKey_text]
  exact ⟨⟨.value, st.stack⟩, hk, hs, Or.inl ⟨Or.inl rfl, hns⟩⟩

theorem valInv_value {s0 : JState} {σ : List Bool} {e : jsonEncoder} (h : ValInv s0 σ e)
    {v : List Nat} (hv : ValueText v) :
    DoneInv s0 σ (e.bufWriteString (sepText e.spaced e.buf ++ v)) := by
  obtain ⟨st, hr, hs, hpos⟩ := h
  obtain ⟨m, hm, hrun, hns⟩ := write_value e.spaced s0 st e.buf v hr hpos hv
  rw [hs] at hrun
  exact ⟨m, hm, hrun, hns⟩

/-- The separator, where a value may be written, leaves the scanner where a value is
expected. -/
theorem run_sep (sp : Bool) (s0 st : JState) (buf : List Nat)
    (hrun : run s0 buf = some st) (hpos : ValuePos st buf) :
    ∃ m : JMode, (m = .value ∨ m = .arrFirst) ∧
      run s0 (buf ++ sepText sp buf) = some ⟨m, st.stack⟩ := by
  rw [run_append_of hrun]
  rcases hpos with ⟨hmode, hns⟩ | ⟨hc, htop, hns⟩
  · simp only [sepText, hns, Bool.false_eq_true, if_false]
    exact ⟨st.mode, hmode, rfl⟩
  · simp only [sepText, hns, if_true]
    obtain ⟨mode, stack⟩ := st
    cases stack with
    | nil => simp at htop
    | cons t σ =>
      simp only [List.head?_cons, Option.some.injEq] at htop
      subst htop
      have hcomma : step ⟨mode, false :: σ⟩ 44 = some ⟨.value, false :: σ⟩ := by
        rw [step_complete_special mode _ 44 hc (Or.inl rfl)]
        simp [stepAfter, isWs]
      have hsp : step ⟨.value, false :: σ⟩ 32 = some ⟨.value, false :: σ⟩ := by
        simp [step, isWs]
      refine ⟨.value, Or.inl rfl, ?_⟩
      cases sp
      · simp only [separator, Bool.false_eq_true, if_false]
        rw [run_cons_of hcomma]; rfl
      · simp only [separator, if_true]
        rw [run_cons_of hcomma, run_cons_of hsp]; rfl

theorem valInv_open_obj {s0 : JState} {σ : List Bool} {e : jsonEncoder} (h : ValInv s0 σ e) :
    ObjInv s0 (true :: σ) (e.addElementSeparator.bufWriteByte 123) := by
  obtain ⟨st, hr, hs, hpos⟩ := h
  obtain ⟨m, hm, hrun⟩ := run_sep e.spaced s0 st e.buf hr hpos
  rw [jsonEncoder.addElementSeparator_text]
  have h123 : step ⟨m, st.stack⟩ 123 = some ⟨.objFirst, true :: st.stack⟩ := by
    rcases hm with rfl | rfl <;> simp [step, stepValue, isWs]
  refine ⟨⟨.objFirst, true :: st.stack⟩, ?_, by simp [hs], rfl, Or.inl ⟨rfl, ?_⟩⟩
  · show run s0 ((e.buf ++ sepText e.spaced e.buf) ++ [123]) = _
    rw [run_append_of hrun, run_cons_of h123]; rfl
  · show needsSeparator ((e.buf ++ sepText e.spaced e.buf) ++ [123]) = false
    simp [needsSeparator]

theorem valInv_open_arr {s0 : JState} {σ : List Bool} {e : jsonEncoder} (h : ValInv s0 σ e) :
    ArrInv s0 (false :: σ) (e.addElementSeparator.bufWriteByte 91) := by
  obtain ⟨st, hr, hs, hpos⟩ := h
  obtain ⟨m, hm, hrun⟩ := run_sep e.spaced s0 st e.buf hr hpos
  rw [jsonEncoder.addElementSeparator_text]
  have h91 : step ⟨m, st.stack⟩ 91 = some ⟨.arrFirst, false :: st.stack⟩ := by
    rcases hm with rfl | rfl <;> simp [step, stepValue, isWs]
  refine ⟨⟨.arrFirst, false :: st.stack⟩, ?_, by simp [hs], rfl, Or.inl ⟨rfl, ?_⟩⟩
  · show run s0 ((e.buf ++ sepText e.spaced e.buf) ++ [91]) = _
    rw [run_append_of hrun, run_cons_of h91]; rfl
  · show needsSeparator ((e.buf ++ sepText e.spaced e.buf) ++ [91]) = false
    simp [needsSeparator]

theorem objInv_close {s0 : JState} {σ : List Bool} {e : jsonEncoder}
    (h : ObjInv s0 (true :: σ) e) (hne : e.buf ≠ []) : DoneInv s0 σ (e.bufWriteByte 125) := by
  obtain ⟨⟨mode, stack⟩, hr, hs, htop, hcase⟩ := h
  simp only at hs hcase
  subst hs
  have h125 : step ⟨mode, true :: σ⟩ 125 = some ⟨.after, σ⟩ := by
    rcases hcase with ⟨hm, _⟩ | ⟨_, hb⟩ | ⟨hc, _⟩
    · subst hm; simp [step, isWs]
    · exact absurd hb hne
    · rw [step_complete_special mode _ 125 hc (Or.inr (Or.inl rfl))]
      simp [stepAfter, isWs]
  refine ⟨.after, rfl, ?_, ?_⟩
  · show run s0 (e.buf ++ [125]) = _
    rw [run_append_of hr, run_cons_of h125]; rfl
  · show needsSeparator (e.buf ++ [125]) = true
    simp [needsSeparator]

theorem arrInv_close {s0 : JState} {σ : List Bool} {e : jsonEncoder}
    (h : ArrInv s0 (false :: σ) e) : DoneInv s0 σ (e.bufWriteByte 93) := by
  obtain ⟨⟨mode, stack⟩, hr, hs, htop, hcase⟩ := h
  simp only at hs hcase
  subst hs
  have h93 : step ⟨mode, false :: σ⟩ 93 = some ⟨.after, σ⟩ := by
    rcases hcase with ⟨hm, _⟩ | ⟨hc, _⟩
    · subst hm; simp [step, isWs]
    · rw [step_complete_special mode _ 93 hc (Or.inr (Or.inr (Or.inl rfl)))]
      simp [stepAfter, isWs]
  refine ⟨.after, rfl, ?_, ?_⟩
  · show run s0 (e.buf ++ [93]) = _
    rw [run_append_of hr, run_cons_of h93]; rfl
  · show needsSeparator (e.buf ++ [93]) = true
    simp [needsSeparator]

theorem extends_buf_ne_nil {a b : jsonEncoder} (h : Extends a b) (ha : a.buf ≠ []) :
    b.buf ≠ [] := by
  obtain ⟨_, _, ⟨t, ht⟩, _⟩ := h
  rw [ht]; simp [ha]

/-- What an encoder function that makes at most one call writes, or the fallback, is
one value. -/
theorem single_or_fallback (enc : jsonEncoder) (calls : List PrimCall)
    (hlen : calls.length ≤ 1) (fb : List Nat) (hfb : ValueText fb) (e : jsonEncoder)
    (h : (if enc.buf.length = (runPrims enc calls).buf.length then
          some ((runPrims enc calls).bufWriteString
            (sepText (runPrims enc calls).spaced (runPrims enc calls).buf ++ fb))
        else some (runPrims enc calls)) = some e) :
    ∃ v, ValueText v ∧ e = enc.bufWriteString (sepText enc.spaced enc.buf ++ v) := by
  match calls, hlen with
  | [], _ =>
    simp only [runPrims, if_true, Option.some.injEq] at h
    exact ⟨fb, hfb, h.symm⟩
  | [c], _ =>
    have hne := (runPrims_length_eq enc [c]).not.2 (by simp)
    rw [if_neg hne, runPrims_text] at h
    simp only [Option.some.injEq] at h
    exact ⟨primText c, valueText_primText c, by rw [← h]; simp [primsText]⟩
  | _ :: _ :: _, hl =>
    simp at hl

theorem AppendDuration_value {enc e : jsonEncoder} {val : Int} (hcfg : enc.cfg.singleValued)
    (h : enc.AppendDuration val = some e) :
    ∃ v, ValueText v ∧ e = enc.bufWriteString (sepText enc.spaced enc.buf ++ v) := by
  unfold jsonEncoder.AppendDuration at h
  cases hf : enc.cfg.EncodeDuration with
  | none => simp [hf] at h
  | some f =>
    simp only [hf, jsonEncoder.WriteInt64_text] at h
    exact single_or_fallback enc (f val) (hcfg.2.2.1 f hf val) _ (valueText_formatInt val) e h

theorem AppendTime_value {enc e : jsonEncoder} {val : Int} (hcfg : enc.cfg.singleValued)
    (h : enc.AppendTime val = some e) :
    ∃ v, ValueText v ∧ e = enc.bufWriteString (sepText enc.spaced enc.buf ++ v) := by
  unfold jsonEncoder.AppendTime at h
  cases hf : enc.cfg.EncodeTime with
  | none => simp [hf] at h
  | some f =>
    simp only [hf, jsonEncoder.WriteInt64_text] at h
    exact single_or_fallback enc (f val) (hcfg.2.1 f hf val) _ (valueText_formatInt val) e h

theorem sepText_addKey (sp : Bool) (enc : jsonEncoder) (key : List Nat) :
    sepText sp (enc.addKey key).buf = [] := by
  rw [jsonEncoder.addKey_text]
  show sepText sp (enc.buf ++ keyText enc.spaced enc.buf key) = []
  have : enc.buf ++ keyText enc.spaced enc.buf key =
      (enc.buf ++ sepText enc.spaced enc.buf ++ quoted key) ++ keyColon enc.spaced := by
    simp [keyText]
  rw [sepText, this, needsSeparator_keyColon]
  simp

theorem cfg_addKey (enc : jsonEncoder) (key : List Nat) : (enc.addKey key).cfg = enc.cfg := by
  rw [jsonEncoder.addKey_text]; rfl

theorem cfg_sep (enc : jsonEncoder) : enc.addElementSeparator.cfg = enc.cfg := by
  rw [jsonEncoder.addElementSeparator_text]; rfl

/-- A value written under a key where a key may be written. -/
theorem objInv_keyed {s0 : JState} {σ : List Bool} {enc : jsonEncoder} (h : ObjInv s0 σ enc)
    (key : List Nat) {v : List Nat} (hv : ValueText v) :
    ObjInv s0 σ ((enc.addKey key).bufWriteString
      (sepText (enc.addKey key).spaced (enc.addKey key).buf ++ v)) :=
  doneInv_toObj (valInv_value (objInv_key h key) hv) (objInv_head h)

theorem arrInv_value {s0 : JState} {σ : List Bool} {enc : jsonEncoder} (h : ArrInv s0 σ enc)
    {v : List Nat} (hv : ValueText v) :
    ArrInv s0 σ (enc.bufWriteString (sepText enc.spaced enc.buf ++ v)) :=
  doneInv_toArr (valInv_value (arrInv_val h) hv) (arrInv_head h)

mutual
theorem objectCall_scans : ∀ (c : ObjectCall) (enc e : jsonEncoder) (err : Option Error)
    (s0 : JState) (σ : List Bool), enc.cfg.singleValued → ObjectCall.wellBehaved c = true →
    ObjectCall.run enc c = some (e, err) → ObjInv s0 σ enc → ObjInv s0 σ e
  | .AddArray key arr, enc, e, err, s0, σ, hcfg, hwf, h, hinv => by
    simp only [ObjectCall.run] at h
    split at h
    · cases h
    · rename_i e1 err1 hm
      cases h
      have hc : ((enc.addKey key).addElementSeparator.bufWriteByte 91).cfg.singleValued := by
        show (enc.addKey key).addElementSeparator.cfg.singleValued
        rw [cfg_sep, cfg_addKey]; exact hcfg
      have h1 := ArrayMarshaler.MarshalLogArray_scans arr _ _ _ s0 (false :: σ) hc
        (by simpa [ObjectCall.wellBehaved] using hwf) hm (valInv_open_arr (objInv_key hinv key))
      exact doneInv_toObj (arrInv_close h1) (objInv_head hinv)
  | .AddObject key obj, enc, e, err, s0, σ, hcfg, hwf, h, hinv => by
    simp only [ObjectCall.run] at h
    split at h
    · cases h
    · rename_i e1 err1 hm
      cases h
      have hc : ((enc.addKey key).addElementSeparator.bufWriteByte 123).cfg.singleValued := by
        show (enc.addKey key).addElementSeparator.cfg.singleValued
        rw [cfg_sep, cfg_addKey]; exact hcfg
      have h1 := ObjectMarshaler.MarshalLogObject_scans obj _ _ _ s0 (true :: σ) hc
        (by simpa [ObjectCall.wellBehaved] using hwf) hm (valInv_open_obj (objInv_key hinv key))
      have hne : e1.buf ≠ [] :=
        extends_buf_ne_nil (ObjectMarshaler.MarshalLogObject_extends obj _ _ _ hm) (by simp)
      exact doneInv_toObj (objInv_close h1 hne) (objInv_head hinv)
  | .AddBinary key val, enc, e, err, s0, σ, hcfg, hwf, h, hinv => by
    simp only [ObjectCall.run, Option.some.injEq, Prod.mk.injEq] at h
    rw [← h.1, jsonEncoder.AddBinary, jsonEncoder.AddString, jsonEncoder.WriteString_text]
    exact objInv_keyed hinv key (valueText_quoted _)
  | .AddByteString key val, enc, e, err, s0, σ, hcfg, hwf, h, hinv => by
    simp only [ObjectCall.run, Option.some.injEq, Prod.mk.injEq] at h
    rw [← h.1, jsonEncoder.AddByteString, jsonEncoder.WriteByteString_text]
    exact objInv_keyed hinv key (valueText_quoted _)
  | .AddBool key val, enc, e, err, s0, σ, hcfg, hwf, h, hinv => by
    simp only [ObjectCall.run, Option.some.injEq, Prod.mk.injEq] at h
    rw [← h.1, jsonEncoder.AddBool, jsonEncoder.WriteBool_text]
    exact objInv_keyed hinv key (valueText_formatBool _)
  | .AddComplex128 key re im, enc, e, err, s0, σ, hcfg, hwf, h, hinv => by
    simp only [ObjectCall.run, Option.some.injEq, Prod.mk.injEq] at h
    rw [← h.1, jsonEncoder.AddComplex128, jsonEncoder.AppendComplex128_text]
    exact objInv_keyed hinv key (valueText_complex re im)
  | .AddDuration key val, enc, e, err, s0, σ, hcfg, hwf, h, hinv => by
    simp only [ObjectCall.run, Option.map_eq_some', Prod.mk.injEq] at h
    obtain ⟨e1, h1, rfl, _⟩ := h
    obtain ⟨v, hv, rfl⟩ := AppendDuration_value (by rw [cfg_addKey]; exact hcfg) h1
    exact objInv_keyed hinv key hv
  | .AddFloat64 key val, enc, e, err, s0, σ, hcfg, hwf, h, hinv => by
    simp only [ObjectCall.run, Option.some.injEq, Prod.mk.injEq] at h
    rw [← h.1, jsonEncoder.AddFloat64, jsonEncoder.WriteFloat64, jsonEncoder.appendFloat_text]
    exact objInv_keyed hinv key (valueText_floatText _ _)
  | .AddFloat32 key val, enc, e, err, s0, σ, hcfg, hwf, h, hinv => by
    simp only [ObjectCall.run, Option.some.injEq, Prod.mk.injEq] at h
    rw [← h.1, jsonEncoder.AddFloat32, jsonEncoder.AddFloat64, jsonEncoder.WriteFloat64,
      jsonEncoder.appendFloat_text]
    exact objInv_keyed hinv key (valueText_floatText _ _)
  | .AddInt64 key val, enc, e, err, s0, σ, hcfg, hwf, h, hinv => by
    simp only [ObjectCall.run, Option.some.injEq, Prod.mk.injEq] at h
    rw [← h.1, jsonEncoder.AddInt64, jsonEncoder.WriteInt64_text]
    exact objInv_keyed hinv key (valueText_formatInt _)
  | .AddReflected key obj, enc, e, err, s0, σ, hcfg, hwf, h, hinv => by
    simp only [ObjectCall.run, Option.some.injEq] at h
    unfold jsonEncoder.AddReflected at h
    cases hr : enc.encodeReflected obj with
    | error er =>
      rw [hr] at h
      simp only [Prod.mk.injEq] at h
      rw [← h.1]; exact hinv
    | ok v =>
      rw [hr] at h
      simp only [Prod.mk.injEq] at h
      have hv := encodeReflected_value enc obj v (by simpa [ObjectCall.wellBehaved] using hwf) hr
      have := objInv_keyed hinv key hv
      rw [sepText_addKey, List.nil_append] at this
      rw [← h.1]; exact this
  | .OpenNamespace key, enc, e, err, s0, σ, hcfg, hwf, h, hinv => by
    simp [ObjectCall.wellBehaved] at hwf
  | .AddString key val, enc, e, err, s0, σ, hcfg, hwf, h, hinv => by
    simp only [ObjectCall.run, Option.some.injEq, Prod.mk.injEq] at h
    rw [← h.1, jsonEncoder.AddString, jsonEncoder.WriteString_text]
    exact objInv_keyed hinv key (valueText_quoted _)
  | .AddTime key val, enc, e, err, s0, σ, hcfg, hwf, h, hinv => by
    simp only [ObjectCall.run, Option.map_eq_some', Prod.mk.injEq] at h
    obtain ⟨e1, h1, rfl, _⟩ := h
    obtain ⟨v, hv, rfl⟩ := AppendTime_value (by rw [cfg_addKey]; exact hcfg) h1
    exact objInv_keyed hinv key hv
  | .AddUint64 key val, enc, e, err, s0, σ, hcfg, hwf, h, hinv => by
    simp only [ObjectCall.run, Option.some.injEq, Prod.mk.injEq] at h
    rw [← h.1, jsonEncoder.AddUint64, jsonEncoder.WriteUint64_text]
    exact objInv_keyed hinv key (valueText_formatUint _)
theorem arrayCall_scans : ∀ (c : ArrayCall) (enc e : jsonEncoder) (err : Option Error)
    (s0 : JState) (σ : List Bool), enc.cfg.singleValued → ArrayCall.wellBehaved c = true →
    ArrayCall.run enc c = some (e, err) → ArrInv s0 σ enc → ArrInv s0 σ e
  | .AppendArray arr, enc, e, err, s0, σ, hcfg, hwf, h, hinv => by
    simp only [ArrayCall.run] at h
    split at h
    · cases h
    · rename_i e1 err1 hm
      cases h
      have hc : (enc.addElementSeparator.bufWriteByte 91).cfg.singleValued := by
        show enc.addElementSeparator.cfg.singleValued
        rw [cfg_sep]; exact hcfg
      have h1 := ArrayMarshaler.MarshalLogArray_scans arr _ _ _ s0 (false :: σ) hc
        (by simpa [ArrayCall.wellBehaved] using hwf) hm (valInv_open_arr (arrInv_val hinv))
      exact doneInv_toArr (arrInv_close h1) (arrInv_head hinv)
  | .AppendObject obj, enc, e, err, s0, σ, hcfg, hwf, h, hinv => by
    simp only [ArrayCall.run] at h
    split at h
    · cases h
    · rename_i e1 err1 hm
      cases h
      have hc : (enc.addElementSeparator.bufWriteByte 123).cfg.singleValued := by
        show enc.addElementSeparator.cfg.singleValued
        rw [cfg_sep]; exact hcfg
      have h1 := ObjectMarshaler.MarshalLogObject_scans obj _ _ _ s0 (true :: σ) hc
        (by simpa [ArrayCall.wellBehaved] using hwf) hm (valInv_open_obj (arrInv_val hinv))
      have hne : e1.buf ≠ [] :=
        extends_buf_ne_nil (ObjectMarshaler.MarshalLogObject_extends obj _ _ _ hm) (by simp)
      exact doneInv_toArr (objInv_close h1 hne) (arrInv_head hinv)
  | .AppendReflected obj, enc, e, err, s0, σ, hcfg, hwf, h, hinv => by
    simp only [ArrayCall.run, Option.some.injEq] at h
    unfold jsonEncoder.AppendReflected at h
    cases hr : enc.encodeReflected obj with
    | error er =>
      rw [hr] at h
      simp only [Prod.mk.injEq] at h
      rw [← h.1]; exact hinv
    | ok v =>
      rw [hr] at h
      simp only [Prod.mk.injEq] at h
      have hv := encodeReflected_value enc obj v (by simpa [ArrayCall.wellBehaved] using hwf) hr
      have := arrInv_value hinv hv
      rw [← h.1, jsonEncoder.addElementSeparator_text,
        jsonEncoder.bufWriteString_bufWriteString]
      exact this
  | .AppendDuration val, enc, e, err, s0, σ, hcfg, hwf, h, hinv => by
    simp only [ArrayCall.run, Option.map_eq_some', Prod.mk.injEq] at h
    obtain ⟨e1, h1, rfl, _⟩ := h
    obtain ⟨v, hv, rfl⟩ := AppendDuration_value hcfg h1
    exact arrInv_value hinv hv
  | .AppendTime val, enc, e, err, s0, σ, hcfg, hwf, h, hinv => by
    simp only [ArrayCall.run, Option.map_eq_some', Prod.mk.injEq] at h
    obtain ⟨e1, h1, rfl, _⟩ := h
    obtain ⟨v, hv, rfl⟩ := AppendTime_value hcfg h1
    exact arrInv_value hinv hv
  | .prim c, enc, e, err, s0, σ, hcfg, hwf, h, hinv => by
    simp only [ArrayCall.run, Option.some.injEq, Prod.mk.injEq] at h
    rw [← h.1, PrimCall.run_text]
    exact arrInv_value hinv (valueText_primText c)
theorem runObjectCalls_scans : ∀ (cs : List ObjectCall) (enc e : jsonEncoder)
    (s0 : JState) (σ : List Bool), enc.cfg.singleValued → wellBehavedObjectCalls cs = true →
    runObjectCalls enc cs = some e → ObjInv s0 σ enc → ObjInv s0 σ e
  | [], enc, e, s0, σ, hcfg, hwf, h, hinv => by
    simp only [runObjectCalls, Option.some.injEq] at h
    rw [← h]; exact hinv
  | c :: cs, enc, e, s0, σ, hcfg, hwf, h, hinv => by
    simp only [runObjectCalls] at h
    simp only [wellBehavedObjectCalls, Bool.and_eq_true] at hwf
    split at h
    · cases h
    · rename_i e1 err1 hc
      have hcfg1 : e1.cfg.singleValued := by
        rw [(objectCall_extends c _ _ _ hc).1]; exact hcfg
      exact runObjectCalls_scans cs e1 e s0 σ hcfg1 hwf.2 h
        (objectCall_scans c enc e1 err1 s0 σ hcfg hwf.1 hc hinv)
theorem runArrayCalls_scans : ∀ (cs : List ArrayCall) (enc e : jsonEncoder)
    (s0 : JState) (σ : List Bool), enc.cfg.singleValued → wellBehavedArrayCalls cs = true →
    runArrayCalls enc cs = some e → ArrInv s0 σ enc → ArrInv s0 σ e
  | [], enc, e, s0, σ, hcfg, hwf, h, hinv => by
    simp only [runArrayCalls, Option.some.injEq] at h
    rw [← h]; exact hinv
  | c :: cs, enc, e, s0, σ, hcfg, hwf, h, hinv => by
    simp only [runArrayCalls] at h
    simp only [wellBehavedArrayCalls, Bool.and_eq_true] at hwf
    split at h
    · cases h
    · rename_i e1 err1 hc
      have hcfg1 : e1.cfg.singleValued := by
        rw [(arrayCall_extends c _ _ _ hc).1]; exact hcfg
      exact runArrayCalls_scans cs e1 e s0 σ hcfg1 hwf.2 h
        (arrayCall_scans c enc e1 err1 s0 σ hcfg hwf.1 hc hinv)
theorem ObjectMarshaler.MarshalLogObject_scans : ∀ (m : ObjectMarshaler)
    (enc e : jsonEncoder) (err : Option Error) (s0 : JState) (σ : List Bool),
    enc.cfg.singleValued → ObjectMarshaler.wellBehaved m = true →
    ObjectMarshaler.MarshalLogObject enc m = some (e, err) → ObjInv s0 σ enc → ObjInv s0 σ e
  | .mk calls err0, enc, e, err, s0, σ, hcfg, hwf, h, hinv => by
    simp only [ObjectMarshaler.MarshalLogObject] at h
    split at h
    · cases h
    · rename_i e1 hc
      cases h
      exact runObjectCalls_scans calls enc _ s0 σ hcfg
        (by simpa [ObjectMarshaler.wellBehaved] using hwf) hc hinv
theorem ArrayMarshaler.MarshalLogArray_scans : ∀ (m : ArrayMarshaler)
    (enc e : jsonEncoder) (err : Option Error) (s0 : JState) (σ : List Bool),
    enc.cfg.singleValued → ArrayMarshaler.wellBehaved m = true →
    ArrayMarshaler.MarshalLogArray enc m = some (e, err) → ArrInv s0 σ enc → ArrInv s0 σ e
  | .mk calls err0, enc, e, err, s0, σ, hcfg, hwf, h, hinv => by
    simp only [ArrayMarshaler.MarshalLogArray] at h
    split at h
    · cases h
    · rename_i e1 hc
      cases h
      exact runArrayCalls_scans calls enc _ s0 σ hcfg
        (by simpa [ArrayMarshaler.wellBehaved] using hwf) hc hinv
end

/-! ## The scanner over an encoded entry -/

mutual
theorem objectCall_wb_opened : ∀ c : ObjectCall, ObjectCall.wellBehaved c = true →
    ObjectCall.opened c = 0
  | .AddArray _ arr, h => by
    simpa [ObjectCall.opened] using
      arrayMarshaler_wb_opened arr (by simpa [ObjectCall.wellBehaved] using h)
  | .AddObject _ obj, h => by
    simpa [ObjectCall.opened] using
      objectMarshaler_wb_opened obj (by simpa [ObjectCall.wellBehaved] using h)
  | .OpenNamespace _, h => by simp [ObjectCall.wellBehaved] at h
  | .AddBinary _ _, _ => rfl
  | .AddByteString _ _, _ => rfl
  | .AddBool _ _, _ => rfl
  | .AddComplex128 _ _ _, _ => rfl
  | .AddDuration _ _, _ => rfl
  | .AddFloat64 _ _, _ => rfl
  | .AddFloat32 _ _, _ => rfl
  | .AddInt64 _ _, _ => rfl
  | .AddReflected _ _, _ => rfl
  | .AddString _ _, _ => rfl
  | .AddTime _ _, _ => rfl
  | .AddUint64 _ _, _ => rfl
theorem arrayCall_wb_opened : ∀ c : ArrayCall, ArrayCall.wellBehaved c = true →
    ArrayCall.opened c = 0
  | .AppendArray arr, h => by
    simpa [ArrayCall.opened] using
      arrayMarshaler_wb_opened arr (by simpa [ArrayCall.wellBehaved] using h)
  | .AppendObject obj, h => by
    simpa [ArrayCall.opened] using
      objectMarshaler_wb_opened obj (by simpa [ArrayCall.wellBehaved] using h)
  | .AppendReflected _, _ => rfl
  | .AppendDuration _, _ => rfl
  | .AppendTime _, _ => rfl
  | .prim _, _ => rfl
theorem objectCalls_wb_opened : ∀ cs : List ObjectCall, wellBehavedObjectCalls cs = true →
    openedObjectCalls cs = 0
  | [], _ => rfl
  | c :: cs, h => by
    simp only [wellBehavedObjectCalls, Bool.and_eq_true] at h
    simp [openedObjectCalls, objectCall_wb_opened c h.1, objectCalls_wb_opened cs h.2]
theorem arrayCalls_wb_opened : ∀ cs : List ArrayCall, wellBehavedArrayCalls cs = true →
    openedArrayCalls cs = 0
  | [], _ => rfl
  | c :: cs, h => by
    simp only [wellBehavedArrayCalls, Bool.and_eq_true] at h
    simp [openedArrayCalls, arrayCall_wb_opened c h.1, arrayCalls_wb_opened cs h.2]
theorem objectMarshaler_wb_opened : ∀ m : ObjectMarshaler, ObjectMarshaler.wellBehaved m = true →
    ObjectMarshaler.opened m = 0
  | .mk calls _, h => by
    simpa [ObjectMarshaler.opened] using
      objectCalls_wb_opened calls (by simpa [ObjectMarshaler.wellBehaved] using h)
theorem arrayMarshaler_wb_opened : ∀ m : ArrayMarshaler, ArrayMarshaler.wellBehaved m = true →
    ArrayMarshaler.opened m = 0
  | .mk calls _, h => by
    simpa [ArrayMarshaler.opened] using
      arrayCalls_wb_opened calls (by simpa [ArrayMarshaler.wellBehaved] using h)
end

theorem objInv_of_buf {s0 : JState} {σ : List Bool} {e e1 : jsonEncoder} (hb : e1.buf = e.buf)
    (h : ObjInv s0 σ e) : ObjInv s0 σ e1 := by
  unfold ObjInv at *
  rw [hb]; exact h

theorem OpenNamespace_buf (enc : jsonEncoder) (key : List Nat) :
    (enc.OpenNamespace key).buf = ((enc.addKey key).addElementSeparator.bufWriteByte 123).buf := by
  rw [jsonEncoder.addElementSeparator_text]
  simp only [jsonEncoder.OpenNamespace, jsonEncoder.bufWriteByte_buf,
    jsonEncoder.bufWriteString_buf, jsonEncoder.bufWriteString_spaced, sepText_addKey,
    List.append_nil]

theorem OpenNamespace_open (enc : jsonEncoder) (key : List Nat) :
    (enc.OpenNamespace key).openNamespaces = enc.openNamespaces + 1 := by
  simp [jsonEncoder.OpenNamespace, jsonEncoder.addKey_text]

/-- The calls on the encoder itself: each `OpenNamespace` leaves one more object
open, every other call leaves the scanner where the next key may be written. -/
theorem runObjectCalls_scans_top : ∀ (cs : List ObjectCall) (enc e : jsonEncoder)
    (s0 : JState) (σ : List Bool), enc.cfg.singleValued →
    (∀ c ∈ cs, ObjectCall.acceptable c = true) → runObjectCalls enc cs = some e →
    ObjInv s0 σ enc →
    ∃ k, ObjInv s0 (List.replicate k true ++ σ) e ∧ e.openNamespaces = enc.openNamespaces + k
  | [], enc, e, s0, σ, _, _, h, hinv => by
    simp only [runObjectCalls, Option.some.injEq] at h
    subst h
    exact ⟨0, by simpa using hinv, rfl⟩
  | c :: cs, enc, e, s0, σ, hcfg, hacc, h, hinv => by
    simp only [runObjectCalls] at h
    split at h
    · cases h
    · rename_i e1 err1 hc
      have hcfg1 : e1.cfg.singleValued := by
        rw [(objectCall_extends c _ _ _ hc).1]; exact hcfg
      have hacc1 := hacc c (by simp)
      have hrest : ∀ c ∈ cs, ObjectCall.acceptable c = true := fun c hc => hacc c (by simp [hc])
      by_cases hns : ∃ key, c = .OpenNamespace key
      · obtain ⟨key, rfl⟩ := hns
        simp only [ObjectCall.run, Option.some.injEq, Prod.mk.injEq] at hc
        have hinv1 : ObjInv s0 (true :: σ) e1 := by
          refine objInv_of_buf ?_ (valInv_open_obj (objInv_key hinv key))
          rw [← hc.1]; exact OpenNamespace_buf enc key
        obtain ⟨k, hk, hopen⟩ := runObjectCalls_scans_top cs e1 e s0 (true :: σ) hcfg1 hrest h hinv1
        refine ⟨k + 1, ?_, ?_⟩
        · have : List.replicate (k + 1) true ++ σ = List.replicate k true ++ (true :: σ) := by
            rw [List.replicate_succ']; simp
          rw [this]; exact hk
        · rw [hopen, ← hc.1, OpenNamespace_open]; omega
      · have hwf : ObjectCall.wellBehaved c = true := by
          cases c <;> first | exact hacc1 | exact absurd ⟨_, rfl⟩ hns
        have hinv1 := objectCall_scans c enc e1 err1 s0 σ hcfg hwf hc hinv
        have hop := objectCall_opened c enc e1 err1 hc
        rw [objectCall_wb_opened c hwf] at hop
        obtain ⟨k, hk, hopen⟩ := runObjectCalls_scans_top cs e1 e s0 σ hcfg1 hrest h hinv1
        exact ⟨k, hk, by rw [hopen, hop]; rfl⟩

theorem errorCauses_wellBehaved (cs : List (List Nat)) :
    ArrayMarshaler.wellBehaved (errorCauses cs) = true := by
  simp only [errorCauses, ArrayMarshaler.wellBehaved]
  induction cs with
  | nil => rfl
  | cons m ms ih => simp [wellBehavedArrayCalls, ArrayCall.wellBehaved, ih]

theorem Field.calls_acceptable (f : Field) (cs : List ObjectCall)
    (hf : Field.acceptable f = true) (hc : f.calls = some cs) :
    ∀ c ∈ cs, ObjectCall.acceptable c = true := by
  cases f with
  | UnknownType key => simp [Field.calls] at hc
  | ArrayMarshalerType key arr =>
    simp only [Field.calls, Option.some.injEq] at hc
    subst hc
    simpa [ObjectCall.acceptable, ObjectCall.wellBehaved] using hf
  | ObjectMarshalerType key obj =>
    simp only [Field.calls, Option.some.injEq] at hc
    subst hc
    simpa [ObjectCall.acceptable, ObjectCall.wellBehaved] using hf
  | ReflectType key obj =>
    simp only [Field.calls, Option.some.injEq] at hc
    subst hc
    simpa [ObjectCall.acceptable, ObjectCall.wellBehaved] using hf
  | ErrorType key msg causes =>
    cases causes with
    | none =>
      simp only [Field.calls, Option.some.injEq] at hc
      subst hc
      simp [ObjectCall.acceptable, ObjectCall.wellBehaved]
    | some l =>
      simp only [Field.calls, Option.some.injEq] at hc
      subst hc
      simp [ObjectCall.acceptable, ObjectCall.wellBehaved, errorCauses_wellBehaved]
  | _ =>
    simp only [Field.calls, Option.some.injEq] at hc
    subst hc
    simp [ObjectCall.acceptable, ObjectCall.wellBehaved]

theorem addFields_scans : ∀ (fs : List Field) (enc e : jsonEncoder) (s0 : JState)
    (σ : List Bool), enc.cfg.singleValued → (∀ f ∈ fs, Field.acceptable f = true) →
    addFields enc fs = some e → ObjInv s0 σ enc →
    ∃ k, ObjInv s0 (List.replicate k true ++ σ) e ∧ e.openNamespaces = enc.openNamespaces + k
  | [], enc, e, s0, σ, _, _, h, hinv => by
    simp only [addFields, Option.some.injEq] at h
    subst h
    exact ⟨0, by simpa using hinv, rfl⟩
  | f :: fs, enc, e, s0, σ, hcfg, hacc, h, hinv => by
    simp only [addFields] at h
    split at h
    · cases h
    · rename_i e1 err1 hf
      have h1 := Field.AddTo_calls enc f
      rw [hf] at h1
      simp only [Option.map_some'] at h1
      cases hcs : f.calls with
      | none => simp [hcs] at h1
      | some cs =>
        rw [hcs] at h1
        simp only [Option.some_bind] at h1
        obtain ⟨k1, hk1, ho1⟩ := runObjectCalls_scans_top cs enc e1 s0 σ hcfg
          (Field.calls_acceptable f cs (hacc f (by simp)) hcs) h1.symm hinv
        have hcfg1 : e1.cfg.singleValued := by
          rw [(Field.AddTo_extends f _ _ _ hf).1]; exact hcfg
        obtain ⟨k2, hk2, ho2⟩ := addFields_scans fs e1 e s0 _ hcfg1
          (fun g hg => hacc g (by simp [hg])) h hk1
        refine ⟨k2 + k1, ?_, by rw [ho2, ho1]; omega⟩
        rw [List.replicate_add, List.append_assoc]; exact hk2

theorem head_replicate_true (k : Nat) (σ : List Bool) :
    (List.replicate k true ++ (true :: σ)).head? = some true := by
  cases k <;> simp [List.replicate_succ]

/-- One closing brace per open namespace closes them all. -/
theorem objInv_closers : ∀ (k : Nat) (e : jsonEncoder) (s0 : JState) (σ : List Bool),
    ObjInv s0 (List.replicate k true ++ (true :: σ)) e → e.buf ≠ [] →
    ObjInv s0 (true :: σ) (e.bufWriteString (List.replicate k 125))
  | 0, e, s0, σ, h, _ => by simpa using h
  | k + 1, e, s0, σ, h, hne => by
    have h1 : ObjInv s0 (true :: (List.replicate k true ++ (true :: σ))) e := by
      simpa [List.replicate_succ] using h
    have h2 := doneInv_toObj (objInv_close h1 hne) (head_replicate_true k σ)
    have h3 := objInv_closers k (e.bufWriteByte 125) s0 σ h2 (by simp)
    have : (e.bufWriteByte 125).bufWriteString (List.replicate k 125) =
        e.bufWriteString (List.replicate (k + 1) 125) := by
      rw [jsonEncoder.bufWriteByte_eq, jsonEncoder.bufWriteString_bufWriteString]
      simp [List.replicate_succ]
    rw [← this]; exact h3

theorem pairText_value (sp : Bool) (prev key : List Nat) (calls : List PrimCall)
    (fb : List Nat) (hlen : calls.length ≤ 1) (hfb : ValueText fb) :
    ∃ v, ValueText v ∧ pairText sp prev key calls fb = keyText sp prev key ++ v := by
  match calls, hlen with
  | [], _ => exact ⟨fb, hfb, rfl⟩
  | [c], _ =>
    exact ⟨primText c, valueText_primText c, by simp [pairText, primsText, sepText_keyText]⟩
  | _ :: _ :: _, hl => simp at hl

/-- A key and a value, as text after the buffer `p`. -/
theorem objInv_pair {s0 : JState} {σ : List Bool} (enc : jsonEncoder) (p key : List Nat)
    {v : List Nat} (h : ObjInv s0 σ (withBuf enc p)) (hv : ValueText v) :
    ObjInv s0 σ (withBuf enc (p ++ (keyText enc.spaced p key ++ v))) := by
  obtain ⟨st, hr, hs, hslot⟩ := h
  obtain ⟨st1, hr1, hs1, hslot1⟩ := write_pair enc.spaced s0 st p key v hr hslot hv
  exact ⟨st1, hr1, hs1.trans hs, hslot1⟩

theorem levelText_scans {s0 : JState} {σ : List Bool} (enc : jsonEncoder) (p lvl : List Nat)
    (ent : Entry) (hcfg : enc.cfg.singleValued)
    (h : levelText enc.cfg enc.spaced p ent = some lvl) (hinv : ObjInv s0 σ (withBuf enc p)) :
    ObjInv s0 σ (withBuf enc (p ++ lvl)) := by
  unfold levelText at h
  split_ifs at h
  · cases h; simpa using hinv
  · cases hf : enc.cfg.EncodeLevel with
    | none => simp [hf] at h
    | some f =>
      simp only [hf, Option.some.injEq] at h
      obtain ⟨v, hv, he⟩ := pairText_value enc.spaced p enc.cfg.LevelKey (f ent.Level)
        (quoted ent.Level.String) (hcfg.1 f hf _) (valueText_quoted _)
      rw [← h, he]; exact objInv_pair enc p _ hinv hv

theorem timeText_scans {s0 : JState} {σ : List Bool} (enc : jsonEncoder) (p tm : List Nat)
    (ent : Entry) (hcfg : enc.cfg.singleValued)
    (h : timeText enc.cfg enc.spaced p ent = some tm) (hinv : ObjInv s0 σ (withBuf enc p)) :
    ObjInv s0 σ (withBuf enc (p ++ tm)) := by
  unfold timeText at h
  split_ifs at h
  · cases h; simpa using hinv
  · cases hf : enc.cfg.EncodeTime with
    | none => simp [hf] at h
    | some f =>
      simp only [hf, Option.some.injEq] at h
      obtain ⟨v, hv, he⟩ := pairText_value enc.spaced p enc.cfg.TimeKey (f ent.Time)
        (formatInt ent.Time) (hcfg.2.1 f hf _) (valueText_formatInt _)
      rw [← h, he]; exact objInv_pair enc p _ hinv hv

theorem nameText_scans {s0 : JState} {σ : List Bool} (enc : jsonEncoder) (p : List Nat)
    (ent : Entry) (hcfg : enc.cfg.singleValued) (hinv : ObjInv s0 σ (withBuf enc p)) :
    ObjInv s0 σ (withBuf enc (p ++ nameText enc.cfg enc.spaced p ent)) := by
  unfold nameText
  split_ifs
  · simpa using hinv
  · cases hf : enc.cfg.EncodeName with
    | none =>
      obtain ⟨v, hv, he⟩ := pairText_value enc.spaced p enc.cfg.NameKey
        (FullNameEncoder ent.LoggerName) (quoted ent.LoggerName) (by simp [FullNameEncoder])
        (valueText_quoted _)
      simp only []
      rw [he]; exact objInv_pair enc p _ hinv hv
    | some f =>
      obtain ⟨v, hv, he⟩ := pairText_value enc.spaced p enc.cfg.NameKey
        (f ent.LoggerName) (quoted ent.LoggerName) (hcfg.2.2.2.2 f hf _) (valueText_quoted _)
      simp only []
      rw [he]; exact objInv_pair enc p _ hinv hv

theorem callerText_scans {s0 : JState} {σ : List Bool} (enc : jsonEncoder) (p clr : List Nat)
    (ent : Entry) (hcfg : enc.cfg.singleValued)
    (h : callerText enc.cfg enc.spaced p ent = some clr) (hinv : ObjInv s0 σ (withBuf enc p)) :
    ObjInv s0 σ (withBuf enc (p ++ clr)) := by
  unfold callerText at h
  split_ifs at h
  · cases h; simpa using hinv
  · cases hf : enc.cfg.EncodeCaller with
    | none => simp [hf] at h
    | some f =>
      simp only [hf, Option.some.injEq] at h
      obtain ⟨v, hv, he⟩ := pairText_value enc.spaced p enc.cfg.CallerKey (f ent.Caller)
        (quoted ent.Caller.String) (hcfg.2.2.2.1 f hf _) (valueText_quoted _)
      rw [← h, he]; exact objInv_pair enc p _ hinv hv

theorem messageText_scans {s0 : JState} {σ : List Bool} (enc : jsonEncoder) (p : List Nat)
    (ent : Entry) (hinv : ObjInv s0 σ (withBuf enc p)) :
    ObjInv s0 σ (withBuf enc (p ++ messageText enc.cfg enc.spaced p ent)) := by
  unfold messageText
  split_ifs
  · simpa using hinv
  · exact objInv_pair enc p _ hinv (valueText_quoted _)

theorem stackText_scans {s0 : JState} {σ : List Bool} (enc : jsonEncoder) (p : List Nat)
    (ent : Entry) (hinv : ObjInv s0 σ (withBuf enc p)) :
    ObjInv s0 σ (withBuf enc (p ++ stackText enc.cfg enc.spaced p ent)) := by
  unfold stackText
  split_ifs
  · simpa using hinv
  · exact objInv_pair enc p _ hinv (valueText_quoted _)

theorem needsSeparator_append_ne_nil (a b : List Nat) (hb : b ≠ []) :
    needsSeparator (a ++ b) = needsSeparator b := by
  rcases List.eq_nil_or_concat b with h | ⟨l, c, h⟩
  · exact absurd h hb
  · rw [List.concat_eq_append] at h
    subst h
    simp [needsSeparator, ← List.append_assoc]

/-- The separator, where a key may be written, leaves the scanner where a key is
expected. -/
theorem run_sep_obj (sp : Bool) (s0 st : JState) (p : List Nat)
    (hrun : run s0 p = some st) (hslot : ObjSlot st p) :
    ∃ m : JMode, (m = .objFirst ∨ m = .objKey) ∧
      run s0 (p ++ sepText sp p) = some ⟨m, st.stack⟩ := by
  rw [run_append_of hrun]
  obtain ⟨mode, stack⟩ := st
  obtain ⟨htop, hcase⟩ := hslot
  simp only at htop hcase
  rcases hcase with ⟨hm, hns⟩ | ⟨hm, hb⟩ | ⟨hc, hns⟩
  · simp only [sepText, hns, Bool.false_eq_true, if_false]
    exact ⟨mode, Or.inl hm, rfl⟩
  · subst hb
    exact ⟨mode, Or.inr hm, rfl⟩
  · simp only [sepText, hns, if_true]
    cases stack with
    | nil => simp at htop
    | cons t σ =>
      simp only [List.head?_cons, Option.some.injEq] at htop
      subst htop
      have hcomma : step ⟨mode, true :: σ⟩ 44 = some ⟨.objKey, true :: σ⟩ := by
        rw [step_complete_special mode _ 44 hc (Or.inl rfl)]
        simp [stepAfter, isWs]
      have hsp : step ⟨.objKey, true :: σ⟩ 32 = some ⟨.objKey, true :: σ⟩ := by
        simp [step, isWs]
      refine ⟨.objKey, Or.inr rfl, ?_⟩
      cases sp
      · simp only [separator, Bool.false_eq_true, if_false]
        rw [run_cons_of hcomma]; rfl
      · simp only [separator, if_true]
        rw [run_cons_of hcomma, run_cons_of hsp]; rfl

/-- The context accumulated in an encoder reached from `NewJSONEncoder`, written
after the buffer `p`, leaves the namespaces of the encoder open. -/
theorem contextText_scans {s0 : JState} {σ : List Bool} (cfg : EncoderConfig)
    (cs : List ObjectCall) (enc : jsonEncoder) (p : List Nat) (hcfg : cfg.singleValued)
    (hcs : ∀ c ∈ cs, ObjectCall.acceptable c = true)
    (henc : runObjectCalls (NewJSONEncoder cfg) cs = some enc)
    (hinv : ObjInv s0 (true :: σ) (withBuf enc p)) :
    ObjInv s0 (List.replicate enc.openNamespaces true ++ (true :: σ))
      (withBuf enc (p ++ contextText enc.spaced p enc.buf)) := by
  obtain ⟨st, hr, hs, hslot⟩ := hinv
  obtain ⟨m, hm, hsep⟩ := run_sep_obj enc.spaced s0 st p hr hslot
  have hstart : ObjInv ⟨m, st.stack⟩ (true :: σ) (NewJSONEncoder cfg) := by
    refine ⟨⟨m, st.stack⟩, rfl, hs, ?_, ?_⟩
    · show st.stack.head? = some true
      rw [hs]; rfl
    · rcases hm with rfl | rfl
      · exact Or.inl ⟨rfl, rfl⟩
      · exact Or.inr (Or.inl ⟨rfl, rfl⟩)
  obtain ⟨k, ⟨st1, hr1, hs1, hslot1⟩, hopen⟩ :=
    runObjectCalls_scans_top cs (NewJSONEncoder cfg) enc ⟨m, st.stack⟩ (true :: σ) hcfg hcs henc
      hstart
  have hk : enc.openNamespaces = k := by
    rw [hopen]; exact Nat.zero_add k
  rw [hk]
  by_cases hb : enc.buf = []
  · rw [hb] at hr1
    simp only [run, Option.some.injEq] at hr1
    have h0 : k = 0 := by
      have h1 : st1.stack = st.stack := by rw [← hr1]
      rw [hs1, hs] at h1
      have := congrArg List.length h1
      simp at this
      omega
    subst h0
    simp only [contextText, hb, if_true, List.append_nil, List.replicate_zero, List.nil_append]
    exact ⟨st, hr, hs, hslot⟩
  · simp only [contextText, hb, if_false]
    refine ⟨st1, ?_, hs1, hslot1.1, ?_⟩
    · show run s0 (p ++ (sepText enc.spaced p ++ enc.buf)) = some st1
      rw [← List.append_assoc, run_append_of hsep]; exact hr1
    · show (st1.mode = .objFirst ∧ needsSeparator (p ++ (sepText enc.spaced p ++ enc.buf)) = false) ∨
        (st1.mode = .objKey ∧ p ++ (sepText enc.spaced p ++ enc.buf) = []) ∨
        (st1.mode.complete = true ∧
          needsSeparator (p ++ (sepText enc.spaced p ++ enc.buf)) = true)
      rw [← List.append_assoc, needsSeparator_append_ne_nil _ _ hb]
      rcases hslot1.2 with h | ⟨_, h⟩ | h
      · exact Or.inl h
      · exact absurd h hb
      · exact Or.inr (Or.inr h)

/-- The entry written by an encoder reached from `NewJSONEncoder` by acceptable
calls, for acceptable fields and encoder functions that write at most one value, is
one JSON object followed by the line ending. -/
theorem entryLayout_valid (cfg : EncoderConfig) (cs : List ObjectCall) (enc : jsonEncoder)
    (ent : Entry) (fields : List Field) (out : List Nat) (hcfg : cfg.singleValued)
    (hcs : ∀ c ∈ cs, ObjectCall.acceptable c = true)
    (hfs : ∀ f ∈ fields, Field.acceptable f = true)
    (henc : runObjectCalls (NewJSONEncoder cfg) cs = some enc)
    (hout : entryLayout enc ent fields = some out) :
    ∃ body, out = body ++ lineEndingText cfg ∧ validJSONObject body = true := by
  have hc : enc.cfg = cfg := (runObjectCalls_extends cs _ _ henc).1
  have hcfg1 : enc.cfg.singleValued := by rw [hc]; exact hcfg
  have h0 : ObjInv ⟨.value, []⟩ [true] (withBuf enc [123]) :=
    ⟨⟨.objFirst, [true]⟩, by simp [withBuf, run, step, stepValue, isWs], rfl, rfl,
      Or.inl ⟨rfl, by simp [withBuf, needsSeparator]⟩⟩
  unfold entryLayout at hout
  simp only at hout
  cases hl : levelText enc.cfg enc.spaced [123] ent with
  | none => rw [hl] at hout; simp at hout
  | some lvl =>
    rw [hl] at hout
    simp only at hout
    have h1 := levelText_scans enc [123] lvl ent hcfg1 hl h0
    cases ht : timeText enc.cfg enc.spaced ([123] ++ lvl) ent with
    | none => rw [ht] at hout; simp at hout
    | some tm =>
      rw [ht] at hout
      simp only at hout
      have h2 := timeText_scans enc _ tm ent hcfg1 ht h1
      have h3 := nameText_scans enc _ ent hcfg1 h2
      cases hcl : callerText enc.cfg enc.spaced
          ([123] ++ lvl ++ tm ++ nameText enc.cfg enc.spaced ([123] ++ lvl ++ tm) ent) ent with
      | none => rw [hcl] at hout; simp at hout
      | some clr =>
        rw [hcl] at hout
        simp only at hout
        have h4 := callerText_scans enc _ clr ent hcfg1 hcl h3
        have h5 := messageText_scans enc _ ent h4
        have h6 := contextText_scans cfg cs enc _ hcfg hcs henc h5
        have hp4 : ∃ q, [123] ++ lvl ++ tm ++
            nameText enc.cfg enc.spaced ([123] ++ lvl ++ tm) ent ++ clr = 123 :: q :=
          ⟨lvl ++ tm ++ nameText enc.cfg enc.spaced ([123] ++ lvl ++ tm) ent ++ clr, by simp⟩
        revert hout h6 hp4
        generalize [123] ++ lvl ++ tm ++ nameText enc.cfg enc.spaced ([123] ++ lvl ++ tm) ent ++
          clr = p4
        generalize hp5 : p4 ++ messageText enc.cfg enc.spaced p4 ent = p5
        generalize hp6 : p5 ++ contextText enc.spaced p5 enc.buf = p6
        intro hout h6 hp4
        rw [fieldsText_wb] at hout
        cases h7 : addFields (withBuf enc p6) fields with
        | none => rw [h7] at hout; simp at hout
        | some e7 =>
          rw [h7] at hout
          simp only [Option.map_some', Option.some.injEq] at hout
          obtain ⟨hcfg7, hsp7, ⟨t, ht7⟩, _⟩ := addFields_extends _ _ _ h7
          have ht7b : e7.buf = p6 ++ t := ht7
          obtain ⟨k, hk, hopen⟩ := addFields_scans fields (withBuf enc p6) e7 _ _ hcfg1 hfs h7 h6
          have hopen2 : e7.openNamespaces = enc.openNamespaces + k := hopen
          have hk2 : ObjInv ⟨.value, []⟩
              (List.replicate e7.openNamespaces true ++ [true]) e7 := by
            rw [hopen2, Nat.add_comm, List.replicate_add, List.append_assoc]; exact hk
          obtain ⟨q, hq⟩ := hp4
          have hp6q : p6 = 123 :: (q ++ messageText enc.cfg enc.spaced p4 ent ++
              contextText enc.spaced p5 enc.buf) := by
            rw [← hp6, ← hp5, hq]; simp
          have hb7 : p6 ++ List.drop p6.length e7.buf = e7.buf := by
            rw [ht7b, List.drop_left]
          rw [hb7] at hout
          have hne7 : e7.buf ≠ [] := by rw [ht7b, hp6q]; simp
          have h8 : ObjInv ⟨.value, []⟩ [true]
              (withBuf enc (e7.buf ++ List.replicate e7.openNamespaces 125)) :=
            objInv_of_buf rfl (objInv_closers _ e7 _ [] hk2 hne7)
          have h9 := stackText_scans enc _ ent h8
          obtain ⟨m, hm, hrun, _⟩ := objInv_close h9 (by simp [withBuf, hne7])
          refine ⟨e7.buf ++ List.replicate e7.openNamespaces 125 ++
            stackText enc.cfg enc.spaced (e7.buf ++ List.replicate e7.openNamespaces 125) ent ++
            [125], ?_, ?_⟩
          · rw [← hout, hc]
          · have hrun2 : run ⟨.value, []⟩ (e7.buf ++ List.replicate e7.openNamespaces 125 ++
                stackText enc.cfg enc.spaced (e7.buf ++ List.replicate e7.openNamespaces 125) ent ++
                [125]) = some ⟨m, []⟩ := hrun
            have hhead : (e7.buf ++ List.replicate e7.openNamespaces 125 ++
                stackText enc.cfg enc.spaced (e7.buf ++ List.replicate e7.openNamespaces 125) ent ++
                [125]).head? = some 123 := by
              rw [ht7b, hp6q]; simp
            unfold validJSONObject validJSON
            rw [hrun2, hhead]
            simp [hm]

/-! ## The console line -/

theorem printElems_succ (fmtNum : PrimCall → List Nat) : ∀ (es : List PrimCall) (i : Nat)
    (line : List Nat),
    consoleEncoder.printElems fmtNum (i + 1) line es =
      line ++ (es.map (fun e => 9 :: Fprint fmtNum e)).flatten
  | [], i, line => by simp [consoleEncoder.printElems]
  | e :: es, i, line => by
    simp [consoleEncoder.printElems, printElems_succ fmtNum es (i + 1)]

theorem intercalate_tab : ∀ (x : List Nat) (xs : List (List Nat)),
    List.intercalate [9] (x :: xs) = x ++ (xs.map (fun t => 9 :: t)).flatten
  | x, [] => by simp [List.intercalate]
  | x, y :: ys => by
    have ih := intercalate_tab y ys
    simp only [List.intercalate, List.intersperse, List.flatten_cons, List.map_cons] at ih ⊢
    rw [ih]
    simp

/-- The loop over the elements writes them joined by single TABs. -/
theorem printElems_tabJoined (fmtNum : PrimCall → List Nat) (es : List PrimCall) :
    consoleEncoder.printElems fmtNum 0 [] es = tabJoined (es.map (Fprint fmtNum)) := by
  cases es with
  | nil => simp [consoleEncoder.printElems, tabJoined, List.intercalate]
  | cons e es =>
    simp only [consoleEncoder.printElems, tabJoined, List.map_cons, intercalate_tab,
      Nat.lt_irrefl, if_false, List.nil_append, gt_iff_lt, Nat.zero_add]
    rw [printElems_succ, List.map_map]
    rfl

theorem timeElems_elems (c : consoleEncoder) (arr : sliceArrayEncoder) (ent : Entry) :
    (c.timeElems arr ent).elems = arr.elems ++
      (if c.jsonEncoder.cfg.TimeKey = [] then []
        else match c.jsonEncoder.cfg.EncodeTime with
          | none => []
          | some f => f ent.Time) := by
  unfold consoleEncoder.timeElems
  split_ifs <;> cases c.jsonEncoder.cfg.EncodeTime <;> simp_all

theorem levelElems_elems (c : consoleEncoder) (arr : sliceArrayEncoder) (ent : Entry) :
    (c.levelElems arr ent).elems = arr.elems ++
      (if c.jsonEncoder.cfg.LevelKey = [] then []
        else match c.jsonEncoder.cfg.EncodeLevel with
          | none => []
          | some f => f ent.Level) := by
  unfold consoleEncoder.levelElems
  split_ifs <;> cases c.jsonEncoder.cfg.EncodeLevel <;> simp_all

theorem nameElems_elems (c : consoleEncoder) (arr : sliceArrayEncoder) (ent : Entry) :
    (c.nameElems arr ent).elems = arr.elems ++
      (if ent.LoggerName = [] ∨ c.jsonEncoder.cfg.NameKey = [] then []
        else (match c.jsonEncoder.cfg.EncodeName with
          | none => FullNameEncoder
          | some f => f) ent.LoggerName) := by
  unfold consoleEncoder.nameElems
  split_ifs <;> cases c.jsonEncoder.cfg.EncodeName <;> simp_all

theorem callerElems_elems (c : consoleEncoder) (arr : sliceArrayEncoder) (ent : Entry) :
    (c.callerElems arr ent).elems = arr.elems ++
      (if ent.Caller.Defined = false ∨ c.jsonEncoder.cfg.CallerKey = [] then []
        else match c.jsonEncoder.cfg.EncodeCaller with
          | none => []
          | some f => f ent.Caller) := by
  unfold consoleEncoder.callerElems
  split_ifs <;> cases c.jsonEncoder.cfg.EncodeCaller <;> simp_all

theorem metaValues_elems (c : consoleEncoder) (ent : Entry) :
    (c.callerElems (c.nameElems (c.levelElems (c.timeElems ⟨[]⟩ ent) ent) ent) ent).elems =
      metaValues c.jsonEncoder.cfg ent := by
  rw [callerElems_elems, nameElems_elems, levelElems_elems, timeElems_elems]
  simp only [metaValues, List.nil_append]

theorem Clone_eq (enc : jsonEncoder) : enc.Clone = enc := rfl

theorem writeContext_eq (c : consoleEncoder) (line : List Nat) (fields : List Field) :
    c.writeContext line fields = contextBlock c.jsonEncoder line fields := by
  unfold consoleEncoder.writeContext contextBlock fieldsText
  simp only [Clone_eq]
  have hc : (⟨c.jsonEncoder.cfg, c.jsonEncoder.buf, c.jsonEncoder.spaced,
      c.jsonEncoder.openNamespaces⟩ : jsonEncoder) = c.jsonEncoder := rfl
  rw [hc]
  cases h : addFields c.jsonEncoder fields with
  | none => rfl
  | some e =>
    obtain ⟨_, _, ⟨t, ht⟩, _⟩ := addFields_extends _ _ _ h
    simp only [Option.map_some', jsonEncoder.closeOpenNamespaces_text,
      jsonEncoder.bufWriteString_buf, ht, List.drop_left, List.length_eq_zero,
      consoleEncoder.addTabIfNecessary, tabbed]
    by_cases hb : c.jsonEncoder.buf ++ t ++ List.replicate e.openNamespaces 125 = []
    · simp [hb]
    · simp only [hb, if_false]
      by_cases hl : line = []
      · simp [hl]
      · have : line.length > 0 := List.length_pos.2 hl
        simp [hl, this]

theorem objectCall_buf_or_same (c : ObjectCall) (enc e : jsonEncoder) (err : Option Error)
    (h : ObjectCall.run enc c = some (e, err)) :
    e.buf ≠ [] ∨ e.openNamespaces = enc.openNamespaces := by
  have hop := objectCall_opened c enc e err h
  cases c with
  | AddArray key arr =>
    left
    simp only [ObjectCall.run] at h
    split at h
    · cases h
    · cases h; simp
  | AddObject key obj =>
    left
    simp only [ObjectCall.run] at h
    split at h
    · cases h
    · cases h; simp
  | OpenNamespace key =>
    left
    simp only [ObjectCall.run, Option.some.injEq, Prod.mk.injEq] at h
    rw [← h.1, OpenNamespace_buf]; simp
  | _ => right; simpa [ObjectCall.opened] using hop

/-- An encoder reached from a new one has no namespace open while its buffer is
empty. -/
theorem runObjectCalls_empty_closed : ∀ (cs : List ObjectCall) (enc e : jsonEncoder),
    runObjectCalls enc cs = some e → (enc.buf = [] → enc.openNamespaces = 0) →
    e.buf = [] → e.openNamespaces = 0
  | [], enc, e, h, hi, hb => by
    simp only [runObjectCalls, Option.some.injEq] at h
    subst h; exact hi hb
  | c :: cs, enc, e, h, hi, hb => by
    simp only [runObjectCalls] at h
    split at h
    · cases h
    · rename_i e1 err1 hc
      refine runObjectCalls_empty_closed cs e1 e h (fun hb1 => ?_) hb
      rcases objectCall_buf_or_same c enc e1 err1 hc with h1 | h1
      · exact absurd hb1 h1
      · obtain ⟨_, _, ⟨t, ht⟩, _⟩ := objectCall_extends c enc e1 err1 hc
        rw [h1]
        apply hi
        rw [ht] at hb1
        exact (List.append_eq_nil.1 hb1).1

theorem addTabIfNecessary_tabbed (c : consoleEncoder) (line : List Nat) :
    c.addTabIfNecessary line = tabbed line := by
  unfold consoleEncoder.addTabIfNecessary tabbed
  by_cases hl : line = []
  · simp [hl]
  · have : line.length > 0 := List.length_pos.2 hl
    simp [hl, this]

theorem console_EncodeEntry_layout (fmtNum : PrimCall → List Nat) (c : consoleEncoder)
    (ent : Entry) (fields : List Field) :
    c.EncodeEntry fmtNum ent fields =
      (consoleLayout fmtNum c ent fields).map (fun line => (line, none)) := by
  unfold consoleEncoder.EncodeEntry consoleLayout
  simp only [metaValues_elems, printElems_tabJoined, writeContext_eq]
  have hm : c.messageLine (tabJoined ((metaValues c.jsonEncoder.cfg ent).map (Fprint fmtNum))) ent =
      (if c.jsonEncoder.cfg.MessageKey = [] then
          tabJoined ((metaValues c.jsonEncoder.cfg ent).map (Fprint fmtNum))
        else tabbed (tabJoined ((metaValues c.jsonEncoder.cfg ent).map (Fprint fmtNum))) ++
          ent.Message) := by
    unfold consoleEncoder.messageLine
    rw [addTabIfNecessary_tabbed]
    split_ifs <;> simp_all
  rw [hm]
  cases contextBlock c.jsonEncoder _ fields with
  | none => rfl
  | some ctx =>
    simp only [Option.map_some', Option.some.injEq, Prod.mk.injEq, and_true,
      consoleEncoder.stackLine, consoleEncoder.lineEnding, lineEndingText, DefaultLineEnding]
    by_cases h1 : ent.Stack = [] <;> by_cases h2 : c.jsonEncoder.cfg.StacktraceKey = [] <;>
      by_cases h3 : c.jsonEncoder.cfg.LineEnding = [] <;> simp [h1, h2, h3]

/-! ## Clone -/

/-- The encoder at `p` is in memory: its struct, with a configuration, and its
buffer. -/
theorem view_some_iff (m : Memory) (p : Nat) (e : jsonEncoder) :
    m.view p = some e ↔ ∃ c b, m.encoders[p]? = some c ∧ c.cfg = some e.cfg ∧
      c.buf = some b ∧ m.buffers[b]? = some e.buf ∧ c.spaced = e.spaced ∧
      c.openNamespaces = e.openNamespaces := by
  unfold Memory.view Memory.bytesOf Memory.cell
  constructor
  · intro h
    cases hc : m.encoders[p]? with
    | none => simp [hc] at h
    | some c =>
      simp only [hc] at h
      cases hcfg : c.cfg with
      | none => simp [hcfg] at h
      | some cfg =>
        cases hb : c.buf with
        | none => simp [hcfg, hb] at h
        | some b =>
          cases hbs : m.buffers[b]? with
          | none => simp [hcfg, hb, hbs] at h
          | some bs =>
            simp only [hcfg, hb, hbs, Option.some.injEq] at h
            subst h
            exact ⟨c, b, rfl, hcfg, hb, hbs, rfl, rfl⟩
  · rintro ⟨c, b, hc, hcfg, hb, hbs, hsp, ho⟩
    simp only [hc, hcfg, hb, hbs, hsp, ho]

theorem set_last {α : Type} (l : List α) (x y : α) : (l ++ [x]).set l.length y = l ++ [y] := by
  induction l with
  | nil => rfl
  | cons a l ih => simp [List.set, ih]

theorem get_last {α : Type} (l : List α) (x : α) : (l ++ [x])[l.length]? = some x := by
  simp

theorem get_old {α : Type} (l : List α) (x : α) (i : Nat) (h : i < l.length) :
    (l ++ [x])[i]? = l[i]? := by
  rw [List.getElem?_append_left h]

theorem lt_of_get {α : Type} {l : List α} {i : Nat} {x : α} (h : l[i]? = some x) :
    i < l.length := by
  by_contra hn
  rw [List.getElem?_eq_none (by omega)] at h
  cases h

/-- What `Clone` leaves in memory: one more buffer, holding the bytes of the encoder,
and one more struct, with the fields of the encoder and that buffer. -/
theorem Clone_spec (m : Memory) (p : Nat) (e : jsonEncoder) (hv : m.view p = some e) :
    m.Clone p = some
      ({ buffers := m.buffers ++ [e.buf],
         encoders := m.encoders ++
           [⟨some e.cfg, some m.buffers.length, e.spaced, e.openNamespaces⟩] },
        m.encoders.length) := by
  obtain ⟨c, b, hc, hcfg, hb, hbs, hsp, ho⟩ := (view_some_iff m p e).1 hv
  have hp := lt_of_get hc
  have hbl := lt_of_get hbs
  have hne : p ≠ m.encoders.length := by omega
  simp only [Memory.Clone, Memory.clone, Memory.getJSONEncoder, Memory.cell, Memory.assign,
    Memory.bufferGet, Memory.bytesOf, Memory.bufWrite, get_old _ _ _ hp, hc, get_last, set_last,
    hcfg, hb, hsp, ho, get_old _ _ _ hbl, hbs, List.nil_append]

/-- A method on the encoder at `q` writes the struct at `q`, without changing its
buffer pointer, and the buffer of that struct, and nothing else. -/
theorem writeBack_frame (m : Memory) (q : Nat) (e : jsonEncoder) (cq : encoderCell) (bq : Nat)
    (hq : m.encoders[q]? = some cq) (hbq : cq.buf = some bq) :
    (∀ p, p ≠ q → (m.writeBack q e).encoders[p]? = m.encoders[p]?) ∧
      (∃ c, (m.writeBack q e).encoders[q]? = some c ∧ c.buf = some bq) ∧
      (∀ b, b ≠ bq → (m.writeBack q e).buffers[b]? = m.buffers[b]?) := by
  have hlt := lt_of_get hq
  simp only [Memory.writeBack, Memory.cell, hq, hbq]
  refine ⟨fun p hp => ?_, ⟨_, List.getElem?_set_self hlt, rfl⟩, fun b hb => ?_⟩
  · exact List.getElem?_set_ne (Ne.symm hp)
  · exact List.getElem?_set_ne (Ne.symm hb)

theorem call_frame (m m1 : Memory) (q : Nat) (c : ObjectCall) (err : Option Error)
    (cq : encoderCell) (bq : Nat) (hq : m.encoders[q]? = some cq) (hbq : cq.buf = some bq)
    (h : m.call q c = some (m1, err)) :
    (∀ p, p ≠ q → m1.encoders[p]? = m.encoders[p]?) ∧
      (∃ c, m1.encoders[q]? = some c ∧ c.buf = some bq) ∧
      (∀ b, b ≠ bq → m1.buffers[b]? = m.buffers[b]?) := by
  unfold Memory.call at h
  cases hv : m.view q with
  | none => simp [hv] at h
  | some enc =>
    simp only [hv] at h
    cases hr : ObjectCall.run enc c with
    | none => simp [hr] at h
    | some r =>
      obtain ⟨e, er⟩ := r
      simp only [hr, Option.some.injEq, Prod.mk.injEq] at h
      rw [← h.1]
      exact writeBack_frame m q e cq bq hq hbq

theorem calls_frame : ∀ (cs : List ObjectCall) (m m2 : Memory) (q : Nat) (cq : encoderCell)
    (bq : Nat), m.encoders[q]? = some cq → cq.buf = some bq → m.calls q cs = some m2 →
    (∀ p, p ≠ q → m2.encoders[p]? = m.encoders[p]?) ∧
      (∃ c, m2.encoders[q]? = some c ∧ c.buf = some bq) ∧
      (∀ b, b ≠ bq → m2.buffers[b]? = m.buffers[b]?)
  | [], m, m2, q, cq, bq, hq, hbq, h => by
    simp only [Memory.calls, Option.some.injEq] at h
    subst h
    exact ⟨fun _ _ => rfl, ⟨cq, hq, hbq⟩, fun _ _ => rfl⟩
  | c :: cs, m, m2, q, cq, bq, hq, hbq, h => by
    simp only [Memory.calls] at h
    cases hc : m.call q c with
    | none => simp [hc] at h
    | some r =>
      obtain ⟨m1, er⟩ := r
      simp only [hc] at h
      obtain ⟨f1, ⟨c1, hq1, hb1⟩, f3⟩ := call_frame m m1 q c er cq bq hq hbq hc
      obtain ⟨g1, g2, g3⟩ := calls_frame cs m1 m2 q c1 bq hq1 hb1 h
      exact ⟨fun p hp => (g1 p hp).trans (f1 p hp), g2, fun b hb => (g3 b hb).trans (f3 b hb)⟩

/-- The view of an encoder depends on its struct and on its buffer only. -/
theorem view_frame (m m2 : Memory) (p : Nat) (c : encoderCell) (b : Nat)
    (hp : m.encoders[p]? = some c) (hb : c.buf = some b)
    (h1 : m2.encoders[p]? = m.encoders[p]?) (h2 : m2.buffers[b]? = m.buffers[b]?) :
    m2.view p = m.view p := by
  simp only [Memory.view, Memory.bytesOf, Memory.cell, h1, hp, hb, h2]

theorem Clone_view (m : Memory) (p : Nat) (e : jsonEncoder) (hv : m.view p = some e) :
    ∃ m1 c b, m.Clone p = some (m1, m.encoders.length) ∧ m1.view m.encoders.length = some e ∧
      m1.view p = some e ∧ m1.encoders[p]? = some c ∧ c.buf = some b ∧ b < m.buffers.length ∧
      p < m.encoders.length ∧
      m1.encoders[m.encoders.length]? =
        some ⟨some e.cfg, some m.buffers.length, e.spaced, e.openNamespaces⟩ := by
  obtain ⟨c, b, hc, hcfg, hb, hbs, hsp, ho⟩ := (view_some_iff m p e).1 hv
  have hp := lt_of_get hc
  have hbl := lt_of_get hbs
  refine ⟨_, c, b, Clone_spec m p e hv, ?_, ?_, ?_, hb, hbl, hp, ?_⟩
  · rw [view_some_iff]
    exact ⟨_, _, get_last _ _, rfl, rfl, get_last _ _, rfl, rfl⟩
  · rw [view_some_iff]
    exact ⟨c, b, (get_old _ _ _ hp).trans hc, hcfg, hb, (get_old _ _ _ hbl).trans hbs, hsp, ho⟩
  · exact (get_old _ _ _ hp).trans hc
  · exact get_last _ _

namespace observer

/-! ## Slices and `append` -/

theorem elems_length (m : Heap) (s : FieldSlice) (hv : s.valid m) :
    (m.elems s).length = s.len := by
  obtain ⟨h1, h2⟩ := hv
  simp only [Heap.elems, List.length_take, List.length_drop]
  omega

/-- An allocation leaves every slice as it was. -/
theorem elems_alloc (m : Heap) (a : List Field) (t : FieldSlice) (hv : t.valid m) :
    ({ m with arrays := m.arrays ++ [a] } : Heap).elems t = m.elems t ∧
      t.valid ({ m with arrays := m.arrays ++ [a] } : Heap) := by
  obtain ⟨h1, h2⟩ := hv
  by_cases hlt : t.arr < m.arrays.length
  · have e : (m.arrays ++ [a]).getD t.arr [] = m.arrays.getD t.arr [] := by
      simp [List.getD_eq_getElem?_getD, List.getElem?_append_left hlt]
    simp only [Heap.elems, FieldSlice.valid, e]
    exact ⟨trivial, h1, h2⟩
  · have e0 : m.arrays.getD t.arr [] = [] := by
      simp [List.getD_eq_getElem?_getD, List.getElem?_eq_none (Nat.le_of_not_lt hlt)]
    rw [e0] at h2
    have hc : t.cap = 0 := by
      rcases h2 with h | h
      · exact h
      · simp only [List.length_nil] at h; omega
    have hl : t.len = 0 := by omega
    simp only [Heap.elems, FieldSlice.valid, hl, List.take_zero]
    exact ⟨trivial, by omega, Or.inl hc⟩

theorem inplace_window (a xs : List Field) (off len : Nat)
    (h : off + len + xs.length ≤ a.length) :
    ((a.take (off + len) ++ xs ++ a.drop (off + len + xs.length)).drop off).take
        (len + xs.length) = (a.drop off).take len ++ xs ∧
      (a.take (off + len) ++ xs ++ a.drop (off + len + xs.length)).length = a.length := by
  constructor
  · rw [List.take_add a off len, List.append_assoc, List.append_assoc,
      List.drop_left' (by simp; omega), ← List.append_assoc]
    exact List.take_left' (by simp; omega)
  · simp only [List.length_append, List.length_take, List.length_drop]
    omega

theorem getD_set_self (A : List (List Field)) (i j : Nat) :
    (A.set i (A.getD i [])).getD j [] = A.getD j [] := by
  by_cases hij : i = j
  · subst hij
    by_cases hlt : i < A.length
    · simp [List.getD_eq_getElem?_getD, List.getElem?_set_self hlt]
    · rw [List.set_eq_of_length_le (Nat.le_of_not_lt hlt)]
  · simp [List.getD_eq_getElem?_getD, List.getElem?_set_ne hij]

/-- Slices read the backing arrays only. -/
theorem elems_congr (m m1 : Heap) (t : FieldSlice)
    (h : m1.arrays.getD t.arr [] = m.arrays.getD t.arr []) :
    m1.elems t = m.elems t ∧ (t.valid m → t.valid m1) := by
  simp only [Heap.elems, FieldSlice.valid, h]
  exact ⟨trivial, id⟩

/-- An `append` that does not fit allocates: the new slice holds the fields of the old
one and the new fields, and every slice there was is as it was. -/
theorem append_grow (spare : Nat) (m : Heap) (s : FieldSlice) (xs : List Field)
    (hv : s.valid m) (hfit : ¬ s.len + xs.length ≤ s.cap) :
    (m.append spare s xs).1.elems (m.append spare s xs).2 = m.elems s ++ xs ∧
      (m.append spare s xs).2.valid (m.append spare s xs).1 ∧
      (m.append spare s xs).1.logs = m.logs ∧
      ∀ t : FieldSlice, t.valid m →
        (m.append spare s xs).1.elems t = m.elems t ∧ t.valid (m.append spare s xs).1 := by
  have hlen := elems_length m s hv
  simp only [Heap.append, hfit, if_false]
  refine ⟨?_, ?_, trivial, fun t ht => elems_alloc m _ t ht⟩
  · simp only [Heap.elems, List.getD_eq_getElem?_getD, List.getElem?_concat_length,
      Option.getD_some, List.drop_zero]
    rw [List.append_assoc]
    have : (((m.arrays[s.arr]?.getD []).drop s.off).take s.len ++ xs).length =
        s.len + xs.length := by
      have h2 := hlen
      simp only [Heap.elems, List.getD_eq_getElem?_getD] at h2
      simp [h2]
    rw [← List.append_assoc]
    exact List.take_left' this
  · refine ⟨by simp, Or.inr ?_⟩
    simp only [List.getD_eq_getElem?_getD, List.getElem?_concat_length, Option.getD_some,
      List.length_append, List.length_replicate, hlen]
    omega

/-- An `append` that fits writes in place: the slice grows by the new fields, the
arrays keep their lengths, and the slices on other arrays are as they were. -/
theorem append_fit (spare : Nat) (m : Heap) (s : FieldSlice) (xs : List Field)
    (hv : s.valid m) (hfit : s.len + xs.length ≤ s.cap) :
    (m.append spare s xs).1.elems (m.append spare s xs).2 = m.elems s ++ xs ∧
      (m.append spare s xs).2.valid (m.append spare s xs).1 ∧
      (m.append spare s xs).1.logs = m.logs ∧
      (∀ t : FieldSlice, t.valid m → t.valid (m.append spare s xs).1) ∧
      (∀ t : FieldSlice, t.arr ≠ s.arr → (m.append spare s xs).1.elems t = m.elems t) ∧
      (xs = [] → ∀ t : FieldSlice, (m.append spare s xs).1.elems t = m.elems t) := by
  obtain ⟨h1, h2⟩ := hv
  simp only [Heap.append, hfit, if_true, Heap.elems, FieldSlice.valid]
  generalize ha1 : List.take (s.off + s.len) (m.arrays.getD s.arr []) ++ xs ++
    List.drop (s.off + s.len + xs.length) (m.arrays.getD s.arr []) = a1
  by_cases hn : xs = []
  · subst hn
    have : a1 = m.arrays.getD s.arr [] := by
      rw [← ha1]
      simp only [List.append_nil, List.length_nil, Nat.add_zero, List.take_append_drop]
    subst this
    simp only [getD_set_self, List.length_nil, Nat.add_zero, List.append_nil]
    exact ⟨trivial, ⟨trivial, h2⟩, trivial, fun t ht => ht, fun _ _ => trivial, fun _ _ => trivial⟩
  · have hpos : 0 < xs.length := List.length_pos.2 hn
    have hcap : s.off + s.cap ≤ (m.arrays.getD s.arr []).length := by
      rcases h2 with h | h
      · omega
      · exact h
    have harr : s.arr < m.arrays.length := by
      by_contra hc
      have : m.arrays.getD s.arr [] = [] := by
        simp [List.getD_eq_getElem?_getD, List.getElem?_eq_none (Nat.le_of_not_lt hc)]
      rw [this] at hcap
      simp at hcap
      omega
    obtain ⟨w1, w2⟩ := inplace_window (m.arrays.getD s.arr []) xs s.off s.len (by omega)
    rw [ha1] at w1 w2
    have hget : (m.arrays.set s.arr a1).getD s.arr [] = a1 := by
      simp [List.getD_eq_getElem?_getD, List.getElem?_set_self harr]
    have hother : ∀ j, j ≠ s.arr → (m.arrays.set s.arr a1).getD j [] = m.arrays.getD j [] := by
      intro j hj
      simp [List.getD_eq_getElem?_getD, List.getElem?_set_ne (Ne.symm hj)]
    refine ⟨?_, ?_, trivial, fun t ht => ?_, fun t ht => ?_, fun h => absurd h hn⟩
    · rw [hget]; exact w1
    · refine ⟨trivial, Or.inr ?_⟩
      rw [hget, w2]
      exact hcap
    · obtain ⟨k1, k2⟩ := ht
      refine ⟨k1, ?_⟩
      by_cases hj : t.arr = s.arr
      · rw [hj, hget, w2]
        rw [hj] at k2
        exact k2
      · rw [hother t.arr hj]
        exact k2
    · rw [hother t.arr ht]

theorem elems_of_len_zero (m : Heap) (t : FieldSlice) (h : t.len = 0) : m.elems t = [] := by
  simp [Heap.elems, h]

/-- The method `With`: the context of the new core is the context of the old one
followed by the fields, and every slice there was is as it was. -/
theorem With_spec (spare : Nat) (m : Heap) (co : contextObserver) (F : List Field)
    (hv : co.context.valid m) :
    (co.With spare m F).1.elems (co.With spare m F).2.context = m.elems co.context ++ F ∧
      (co.With spare m F).2.context.valid (co.With spare m F).1 ∧
      (co.With spare m F).1.logs = m.logs ∧
      (co.With spare m F).2.logs = co.logs ∧
      (co.With spare m F).2.LevelEnabler = co.LevelEnabler ∧
      ∀ t : FieldSlice, t.valid m →
        (co.With spare m F).1.elems t = m.elems t ∧ t.valid (co.With spare m F).1 := by
  have hcv : co.context.capped.valid m := by
    obtain ⟨h1, h2⟩ := hv
    refine ⟨Nat.le_refl _, ?_⟩
    rcases h2 with h | h
    · left; show co.context.len = 0; omega
    · right
      show co.context.off + co.context.len ≤ (m.arrays.getD co.context.arr []).length
      omega
  have hce : m.elems co.context.capped = m.elems co.context := rfl
  simp only [contextObserver.With]
  by_cases hF : F = []
  · have hfit : co.context.capped.len + F.length ≤ co.context.capped.cap := by
      subst hF; exact Nat.le_refl _
    obtain ⟨a1, a2, a3, a4, _, a6⟩ := append_fit spare m co.context.capped F hcv hfit
    exact ⟨a1.trans (by rw [hce]), a2, a3, trivial, trivial, fun t ht => ⟨a6 hF t, a4 t ht⟩⟩
  · have hfit : ¬ co.context.capped.len + F.length ≤ co.context.capped.cap := by
      have : 0 < F.length := List.length_pos.2 hF
      show ¬ co.context.len + F.length ≤ co.context.len
      omega
    obtain ⟨a1, a2, a3, a4⟩ := append_grow spare m co.context.capped F hcv hfit
    exact ⟨a1.trans (by rw [hce]), a2, a3, trivial, trivial, a4⟩

/-- The method `Write`: a new slice holds the context followed by the fields, the
logged entry with that slice is appended to the observed logs of the core, and every
slice there was is as it was. -/
theorem Write_spec (spare : Nat) (m : Heap) (co : contextObserver) (ent : Entry)
    (F : List Field) (hv : co.context.valid m) (hl : co.logs < m.logs.length) :
    ∃ (m1 : Heap) (all : FieldSlice), co.Write spare m ent F = some (m1, none) ∧
      all.valid m1 ∧ m1.elems all = m.elems co.context ++ F ∧
      m1.logs = m.logs.set co.logs (m.logs.getD co.logs [] ++ [⟨ent, all⟩]) ∧
      ∀ t : FieldSlice, t.valid m → m1.elems t = m.elems t ∧ t.valid m1 := by
  -- make
  have hlen := elems_length m co.context hv
  let m0 : Heap := (m.make (F.length + co.context.len)).1
  let s0 : FieldSlice := (m.make (F.length + co.context.len)).2
  have hs0 : s0.valid m0 := by
    refine ⟨Nat.zero_le _, Or.inr ?_⟩
    show 0 + (F.length + co.context.len) ≤
      ((m.arrays ++ [List.replicate (F.length + co.context.len) zeroField]).getD
        m.arrays.length []).length
    simp [List.getD_eq_getElem?_getD]
  have he0 : m0.elems s0 = [] := elems_of_len_zero m0 s0 rfl
  have hold0 : ∀ t : FieldSlice, t.valid m → m0.elems t = m.elems t ∧ t.valid m0 :=
    fun t ht => elems_alloc m _ t ht
  have hfresh : ∀ t : FieldSlice, t.valid m → t.arr = m.arrays.length → t.len = 0 := by
    intro t ht harr
    obtain ⟨k1, k2⟩ := ht
    have : m.arrays.getD t.arr [] = [] := by
      simp [List.getD_eq_getElem?_getD, harr]
    rw [this] at k2
    simp only [List.length_nil] at k2
    omega
  -- append(all, co.context...)
  have hC : m0.elems co.context = m.elems co.context := (hold0 _ hv).1
  have hfit1 : s0.len + (m0.elems co.context).length ≤ s0.cap := by
    rw [hC, hlen]
    show 0 + co.context.len ≤ F.length + co.context.len
    omega
  obtain ⟨a1, a2, a3, a4, a5, _⟩ := append_fit spare m0 s0 (m0.elems co.context) hs0 hfit1
  generalize hr1 : m0.append spare s0 (m0.elems co.context) = r1 at a1 a2 a3 a4 a5
  have hr1len : r1.2.len = co.context.len := by
    rw [← hr1]
    simp only [Heap.append, hfit1, if_true]
    rw [hC, hlen]
    show 0 + co.context.len = co.context.len
    omega
  have hr1cap : r1.2.cap = F.length + co.context.len := by
    rw [← hr1]
    simp only [Heap.append, hfit1, if_true]
    rfl
  have hr1arr : r1.2.arr = m.arrays.length := by
    rw [← hr1]
    simp only [Heap.append, hfit1, if_true]
    rfl
  -- append(all, fields...)
  have hfit2 : r1.2.len + F.length ≤ r1.2.cap := by rw [hr1len, hr1cap]; omega
  obtain ⟨b1, b2, b3, b4, b5, _⟩ := append_fit spare r1.1 r1.2 F a2 hfit2
  generalize hr2 : r1.1.append spare r1.2 F = r2 at b1 b2 b3 b4 b5
  have hr2arr : r1.2.arr = m.arrays.length := hr1arr
  have hlogs : r2.1.logs = m.logs := b3.trans a3
  have hget : r2.1.logs[co.logs]? = some (m.logs.getD co.logs []) := by
    rw [hlogs]
    simp [List.getD_eq_getElem?_getD, List.getElem?_eq_getElem hl]
  have hold : ∀ t : FieldSlice, t.valid m → r2.1.elems t = m.elems t ∧ t.valid r2.1 := by
    intro t ht
    refine ⟨?_, b4 t (a4 t (hold0 t ht).2)⟩
    by_cases harr : t.arr = m.arrays.length
    · have h0 := hfresh t ht harr
      rw [elems_of_len_zero _ t h0, elems_of_len_zero _ t h0]
    · have e1 : r1.1.elems t = m0.elems t := a5 t harr
      have e2 : r2.1.elems t = r1.1.elems t := b5 t (by rw [hr1arr]; exact harr)
      rw [e2, e1]; exact (hold0 t ht).1
  refine ⟨{ r2.1 with logs := r2.1.logs.set co.logs (m.logs.getD co.logs [] ++ [⟨ent, r2.2⟩]) },
    r2.2, ?_, ?_, ?_, ?_, ?_⟩
  · have : co.Write spare m ent F =
        match ObservedLogs.add r2.1 co.logs ⟨ent, r2.2⟩ with
        | none => none
        | some m => some (m, none) := by
      rw [← hr2, ← hr1]; rfl
    rw [this]
    simp only [ObservedLogs.add, hget]
  · exact b2
  · show r2.1.elems r2.2 = _
    rw [b1, a1, he0, hC]; rfl
  · show r2.1.logs.set _ _ = _
    rw [hlogs]
  · exact hold

theorem getD_mem {α : Type} (l : List α) (i : Nat) (d : α) (h : i < l.length) :
    l.getD i d ∈ l := by
  rw [List.getD_eq_getElem?_getD, List.getElem?_eq_getElem h]
  exact List.getElem_mem h

theorem All_congr (m m1 : Heap) (L : List LoggedEntry)
    (h : ∀ le ∈ L, m1.elems le.Context = m.elems le.Context) :
    L.map (fun le => (le.Entry, m1.elems le.Context)) =
      L.map (fun le => (le.Entry, m.elems le.Context)) :=
  List.map_congr_left (fun le hle => by rw [h le hle])

/-- `Write` appends one entry to the observed logs of the core, with the context of
the core followed by the fields, and leaves every other entry as it was. -/
theorem Write_All (spare : Nat) (m : Heap) (co : contextObserver) (ent : Entry)
    (F : List Field) (hv : co.context.valid m) (hwf : m.wellFormed)
    (hl : co.logs < m.logs.length) :
    ∃ m1 : Heap, co.Write spare m ent F = some (m1, none) ∧
      ObservedLogs.All m1 co.logs =
        ObservedLogs.All m co.logs ++ [(ent, m.elems co.context ++ F)] ∧
      ObservedLogs.Len m1 co.logs = ObservedLogs.Len m co.logs + 1 ∧
      (∀ o, o ≠ co.logs → ObservedLogs.All m1 o = ObservedLogs.All m o) ∧
      m1.wellFormed ∧ m1.logs.length = m.logs.length ∧
      ∀ t : FieldSlice, t.valid m → m1.elems t = m.elems t ∧ t.valid m1 := by
  obtain ⟨m1, all, h1, h2, h3, h4, h5⟩ := Write_spec spare m co ent F hv hl
  have hL : m.logs.getD co.logs [] ∈ m.logs := getD_mem _ _ _ hl
  have hsame : ∀ l ∈ m.logs, ∀ le ∈ l, m1.elems le.Context = m.elems le.Context :=
    fun l hl le hle => (h5 _ (hwf l hl le hle)).1
  have hget : m1.logs.getD co.logs [] = m.logs.getD co.logs [] ++ [⟨ent, all⟩] := by
    rw [h4]
    simp [List.getD_eq_getElem?_getD, List.getElem?_set_self hl]
  refine ⟨m1, h1, ?_, ?_, ?_, ?_, by rw [h4]; simp, h5⟩
  · simp only [ObservedLogs.All, hget, List.map_append, List.map_cons, List.map_nil, h3]
    rw [All_congr m m1 _ (hsame _ hL)]
  · simp only [ObservedLogs.Len, hget, List.length_append, List.length_singleton]
  · intro o ho
    have hgo : m1.logs.getD o [] = m.logs.getD o [] := by
      rw [h4]
      simp [List.getD_eq_getElem?_getD, List.getElem?_set_ne (Ne.symm ho)]
    simp only [ObservedLogs.All, hgo]
    by_cases hlt : o < m.logs.length
    · exact All_congr m m1 _ (hsame _ (getD_mem _ _ _ hlt))
    · have : m.logs.getD o [] = [] := by
        simp [List.getD_eq_getElem?_getD, List.getElem?_eq_none (Nat.le_of_not_lt hlt)]
      rw [this]; rfl
  · intro l hl1 le hle
    rw [h4] at hl1
    rcases List.mem_or_eq_of_mem_set hl1 with hm | hm
    · exact (h5 _ (hwf l hm le hle)).2
    · subst hm
      rcases List.mem_append.1 hle with hm2 | hm2
      · exact (h5 _ (hwf _ hL le hm2)).2
      · simp only [List.mem_singleton] at hm2
        subst hm2
        exact h2

/-- The test `TestObserverWith`: the three entries carry the fields of their own core
only. -/
theorem TestObserverWith_logs :
    testWrites.map (fun m => ObservedLogs.All m 0) = some
      [(helloEntry, [intField "a" 1, intField "b" 2, intField "c" 3, intField "i" 0]),
       (helloEntry, [intField "a" 1, intField "b" 2, intField "c" 3, intField "d" 4,
          intField "i" 1]),
       (helloEntry, [intField "a" 1, intField "b" 2, intField "c" 3, intField "e" 5,
          intField "i" 2])] ∧
      sf2.2.context = ⟨1, 0, 3, 4⟩ := by
  constructor
  · rfl
  · rfl

/-- Without the full slice expression the two siblings would share the spare capacity
of the context of `sf2`: the field of the second overwrites the field of the first. -/
theorem append_shares_spare_capacity :
    (sf2.1.append 1 sf2.2.context [intField "d" 4]).1.elems
        (sf2.1.append 1 sf2.2.context [intField "d" 4]).2 =
        [intField "a" 1, intField "b" 2, intField "c" 3, intField "d" 4] ∧
      ((sf2.1.append 1 sf2.2.context [intField "d" 4]).1.append 1 sf2.2.context
          [intField "e" 5]).1.elems (sf2.1.append 1 sf2.2.context [intField "d" 4]).2 =
        [intField "a" 1, intField "b" 2, intField "c" 3, intField "e" 5] := by
  constructor
  · rfl
  · rfl

theorem sf_wellFormed : sf2.1.wellFormed ∧ sf4.1.wellFormed := by
  have h2 : sf2.1.logs = [[]] := rfl
  have h4 : sf4.1.logs = [[]] := rfl
  constructor
  · intro l hl le hle
    rw [h2] at hl
    simp only [List.mem_singleton] at hl
    subst hl
    simp at hle
  · intro l hl le hle
    rw [h4] at hl
    simp only [List.mem_singleton] at hl
    subst hl
    simp at hle

end observer

/-! ## Base64 text and the pairs of an object -/

theorem escapeSpec_plain : ∀ (s : List Nat),
    (∀ c ∈ s, 0x20 ≤ c ∧ c < 0x80 ∧ c ≠ 34 ∧ c ≠ 92) → escapeSpec s = s
  | [], _ => by simp [escapeSpec, escapeSpecAux]
  | b :: rest, h => by
    have hb := h b (List.mem_cons_self _ _)
    have hr := escapeSpec_plain rest (fun c hc => h c (List.mem_cons_of_mem _ hc))
    have h1 : b < 0x80 := hb.2.1
    have e : escapeByte b = [b] := by
      unfold escapeByte
      rw [if_neg (by omega), if_neg (by omega), if_neg (by omega), if_neg (by omega),
        if_neg (by omega)]
    unfold escapeSpec at hr ⊢
    simp only [escapeSpecAux, h1, if_true, e, hr, List.singleton_append]

theorem encodeStd_plain : ∀ j, j < 64 →
    0x20 ≤ encodeStd.getD j 65 ∧ encodeStd.getD j 65 < 0x80 ∧ encodeStd.getD j 65 ≠ 34 ∧
      encodeStd.getD j 65 ≠ 92 ∧ encodeStd.getD j 65 ∈ encodeStd := by
  decide

theorem encodeStdAt_plain (i : Nat) :
    0x20 ≤ encodeStdAt i ∧ encodeStdAt i < 0x80 ∧ encodeStdAt i ≠ 34 ∧ encodeStdAt i ≠ 92 ∧
      encodeStdAt i ∈ encodeStd :=
  encodeStd_plain (i % 64) (Nat.mod_lt _ (by decide))

/-- Every character of a base64 text is of the alphabet or the padding `=`. -/
theorem EncodeToString_alphabet : ∀ (n : Nat) (v : List Nat), v.length ≤ n →
    ∀ c ∈ EncodeToString v, c ∈ encodeStd ∨ c = 61
  | _, [], _ => by simp [EncodeToString]
  | _, [a], _ => by
    intro c hc
    simp only [EncodeToString, List.mem_cons, List.mem_singleton, List.not_mem_nil,
      or_false] at hc
    rcases hc with rfl | rfl | rfl | rfl
    · exact Or.inl (encodeStdAt_plain _).2.2.2.2
    · exact Or.inl (encodeStdAt_plain _).2.2.2.2
    · exact Or.inr rfl
    · exact Or.inr rfl
  | _, [a, b], _ => by
    intro c hc
    simp only [EncodeToString, List.mem_cons, List.mem_singleton, List.not_mem_nil,
      or_false] at hc
    rcases hc with rfl | rfl | rfl | rfl
    · exact Or.inl (encodeStdAt_plain _).2.2.2.2
    · exact Or.inl (encodeStdAt_plain _).2.2.2.2
    · exact Or.inl (encodeStdAt_plain _).2.2.2.2
    · exact Or.inr rfl
  | 0, a :: b :: c :: rest, h => by simp at h
  | n + 1, a :: b :: c :: rest, h => by
    intro x hx
    simp only [EncodeToString, List.mem_cons] at hx
    rcases hx with rfl | rfl | rfl | rfl | hx
    · exact Or.inl (encodeStdAt_plain _).2.2.2.2
    · exact Or.inl (encodeStdAt_plain _).2.2.2.2
    · exact Or.inl (encodeStdAt_plain _).2.2.2.2
    · exact Or.inl (encodeStdAt_plain _).2.2.2.2
    · exact EncodeToString_alphabet n rest (by simp at h; omega) x hx

theorem encodeStd_mem_plain : ∀ c ∈ encodeStd, 0x20 ≤ c ∧ c < 0x80 ∧ c ≠ 34 ∧ c ≠ 92 := by
  decide

theorem EncodeToString_plain (v : List Nat) :
    ∀ c ∈ EncodeToString v, 0x20 ≤ c ∧ c < 0x80 ∧ c ≠ 34 ∧ c ≠ 92 := by
  intro c hc
  rcases EncodeToString_alphabet v.length v (le_refl _) c hc with h | rfl
  · exact encodeStd_mem_plain c h
  · decide

theorem EncodeToString_length : ∀ (n : Nat) (v : List Nat), v.length ≤ n →
    (EncodeToString v).length = 4 * ((v.length + 2) / 3)
  | _, [], _ => by simp [EncodeToString]
  | _, [a], _ => by simp [EncodeToString]
  | _, [a, b], _ => by simp [EncodeToString]
  | 0, a :: b :: c :: rest, h => by simp at h
  | n + 1, a :: b :: c :: rest, h => by
    simp only [EncodeToString, List.length_cons]
    rw [EncodeToString_length n rest (by simp at h; omega)]
    omega

/-- The test vectors of RFC 4648, section 10. -/
theorem EncodeToString_vectors :
    EncodeToString (bytes "") = bytes "" ∧ EncodeToString (bytes "f") = bytes "Zg==" ∧
    EncodeToString (bytes "fo") = bytes "Zm8=" ∧ EncodeToString (bytes "foo") = bytes "Zm9v" ∧
    EncodeToString (bytes "foob") = bytes "Zm9vYg==" ∧
    EncodeToString (bytes "fooba") = bytes "Zm9vYmE=" ∧
    EncodeToString (bytes "foobar") = bytes "Zm9vYmFy" := by
  decide

theorem quoted_EncodeToString (v : List Nat) :
    quoted (EncodeToString v) = [34] ++ EncodeToString v ++ [34] := by
  rw [quoted, escapeSpec_plain _ (EncodeToString_plain v)]

/-- After a key the value is written with no separator. -/
theorem write_after_key (enc : jsonEncoder) (key v : List Nat) :
    (enc.addKey key).bufWriteString (sepText (enc.addKey key).spaced (enc.addKey key).buf ++ v) =
      enc.bufWriteString (keyText enc.spaced enc.buf key ++ v) := by
  rw [sepText_addKey, jsonEncoder.addKey_text]
  simp

/-- A call that adds one plain value writes the key and the text of the value. -/
theorem plainCall_text (enc : jsonEncoder) (c : ObjectCall) (v : List Nat)
    (h : c.plainValue = some v) :
    ObjectCall.run enc c = some (enc.bufWriteString (keyText enc.spaced enc.buf c.key ++ v), none) := by
  cases c with
  | AddArray key arr => simp [ObjectCall.plainValue] at h
  | AddObject key obj => simp [ObjectCall.plainValue] at h
  | AddDuration key val => simp [ObjectCall.plainValue] at h
  | OpenNamespace key => simp [ObjectCall.plainValue] at h
  | AddTime key val => simp [ObjectCall.plainValue] at h
  | AddBinary key val =>
    simp only [ObjectCall.plainValue, Option.some.injEq] at h
    subst h
    simp only [ObjectCall.run, ObjectCall.key, jsonEncoder.AddBinary, jsonEncoder.AddString,
      jsonEncoder.WriteString_text, write_after_key, quoted_EncodeToString]
  | AddByteString key val =>
    simp only [ObjectCall.plainValue, Option.some.injEq] at h
    subst h
    simp only [ObjectCall.run, ObjectCall.key, jsonEncoder.AddByteString,
      jsonEncoder.WriteByteString_text, write_after_key]
  | AddBool key val =>
    simp only [ObjectCall.plainValue, Option.some.injEq] at h
    subst h
    simp only [ObjectCall.run, ObjectCall.key, jsonEncoder.AddBool,
      jsonEncoder.WriteBool_text, write_after_key]
  | AddComplex128 key re im =>
    simp only [ObjectCall.plainValue, Option.some.injEq] at h
    subst h
    simp only [ObjectCall.run, ObjectCall.key, jsonEncoder.AddComplex128,
      jsonEncoder.AppendComplex128_text, write_after_key]
  | AddFloat64 key val =>
    simp only [ObjectCall.plainValue, Option.some.injEq] at h
    subst h
    simp only [ObjectCall.run, ObjectCall.key, jsonEncoder.AddFloat64, jsonEncoder.WriteFloat64,
      jsonEncoder.appendFloat_text, write_after_key]
  | AddFloat32 key val =>
    simp only [ObjectCall.plainValue, Option.some.injEq] at h
    subst h
    simp only [ObjectCall.run, ObjectCall.key, jsonEncoder.AddFloat32, jsonEncoder.AddFloat64,
      jsonEncoder.WriteFloat64, jsonEncoder.appendFloat_text, write_after_key]
  | AddInt64 key val =>
    simp only [ObjectCall.plainValue, Option.some.injEq] at h
    subst h
    simp only [ObjectCall.run, ObjectCall.key, jsonEncoder.AddInt64,
      jsonEncoder.WriteInt64_text, write_after_key]
  | AddString key val =>
    simp only [ObjectCall.plainValue, Option.some.injEq] at h
    subst h
    simp only [ObjectCall.run, ObjectCall.key, jsonEncoder.AddString,
      jsonEncoder.WriteString_text, write_after_key]
  | AddUint64 key val =>
    simp only [ObjectCall.plainValue, Option.some.injEq] at h
    subst h
    simp only [ObjectCall.run, ObjectCall.key, jsonEncoder.AddUint64,
      jsonEncoder.WriteUint64_text, write_after_key]
  | AddReflected key obj =>
    cases obj with
    | some r => simp [ObjectCall.plainValue] at h
    | none =>
      simp only [ObjectCall.plainValue, Option.some.injEq] at h
      subst h
      simp only [ObjectCall.run, ObjectCall.key, jsonEncoder.AddReflected,
        jsonEncoder.encodeReflected, jsonEncoder.addKey_text,
        jsonEncoder.bufWriteString_bufWriteString]

/-- The text of a plain value calls for a separator after it. -/
theorem plainValue_needsSeparator (c : ObjectCall) (v : List Nat) (h : c.plainValue = some v)
    (p : List Nat) : needsSeparator (p ++ v) = true := by
  have hv : ValueText v := by
    cases c with
    | AddArray key arr => simp [ObjectCall.plainValue] at h
    | AddObject key obj => simp [ObjectCall.plainValue] at h
    | AddDuration key val => simp [ObjectCall.plainValue] at h
    | OpenNamespace key => simp [ObjectCall.plainValue] at h
    | AddTime key val => simp [ObjectCall.plainValue] at h
    | AddBinary key val =>
      simp only [ObjectCall.plainValue, Option.some.injEq] at h
      rw [← h, ← quoted_EncodeToString]; exact valueText_quoted _
    | AddByteString key val =>
      simp only [ObjectCall.plainValue, Option.some.injEq] at h
      rw [← h]; exact valueText_quoted _
    | AddBool key val =>
      simp only [ObjectCall.plainValue, Option.some.injEq] at h
      rw [← h]; exact valueText_formatBool _
    | AddComplex128 key re im =>
      simp only [ObjectCall.plainValue, Option.some.injEq] at h
      rw [← h]; exact valueText_complex _ _
    | AddFloat64 key val =>
      simp only [ObjectCall.plainValue, Option.some.injEq] at h
      rw [← h]; exact valueText_floatText _ _
    | AddFloat32 key val =>
      simp only [ObjectCall.plainValue, Option.some.injEq] at h
      rw [← h]; exact valueText_floatText _ _
    | AddInt64 key val =>
      simp only [ObjectCall.plainValue, Option.some.injEq] at h
      rw [← h]; exact valueText_formatInt _
    | AddString key val =>
      simp only [ObjectCall.plainValue, Option.some.injEq] at h
      rw [← h]; exact valueText_quoted _
    | AddUint64 key val =>
      simp only [ObjectCall.plainValue, Option.some.injEq] at h
      rw [← h]; exact valueText_formatUint _
    | AddReflected key obj =>
      cases obj with
      | some r => simp [ObjectCall.plainValue] at h
      | none =>
        simp only [ObjectCall.plainValue, Option.some.injEq] at h
        rw [← h]; exact valueText_null
  exact hv.1 p

/-- What extends the encoder after `addKey` has the key in its buffer. -/
theorem key_in_buf {enc e : jsonEncoder} (key : List Nat) (h : Extends (enc.addKey key) e) :
    ∃ t, e.buf = enc.buf ++ keyText enc.spaced enc.buf key ++ t := by
  obtain ⟨_, _, ⟨t, ht⟩, _⟩ := h
  rw [jsonEncoder.addKey_text] at ht
  exact ⟨t, ht⟩

/-- Every call that adds to an object writes its key, after the separator the buffer
calls for, unless the reflection encoder fails and the call writes nothing. -/
theorem objectCall_key_written (c : ObjectCall) (enc e : jsonEncoder) (err : Option Error)
    (h : ObjectCall.run enc c = some (e, err)) :
    (∃ t, e.buf = enc.buf ++ keyText enc.spaced enc.buf c.key ++ t) ∨
      (e = enc ∧ ∃ key er, c = .AddReflected key (some (.fails er)) ∧ err = some er) := by
  cases c with
  | AddArray key arr =>
    left
    simp only [ObjectCall.run] at h
    split at h
    · cases h
    · rename_i e1 err1 hm
      cases h
      exact key_in_buf key ((Extends.sep _).trans ((Extends.writeByte _ 91).trans
        ((ArrayMarshaler.MarshalLogArray_extends arr _ _ _ hm).trans (Extends.writeByte _ 93))))
  | AddObject key obj =>
    left
    simp only [ObjectCall.run] at h
    split at h
    · cases h
    · rename_i e1 err1 hm
      cases h
      exact key_in_buf key ((Extends.sep _).trans ((Extends.writeByte _ 123).trans
        ((ObjectMarshaler.MarshalLogObject_extends obj _ _ _ hm).trans (Extends.writeByte _ 125))))
  | AddDuration key val =>
    left
    simp only [ObjectCall.run, Option.map_eq_some', Prod.mk.injEq] at h
    obtain ⟨e1, h1, rfl, _⟩ := h
    exact key_in_buf key (Extends.AppendDuration h1)
  | AddTime key val =>
    left
    simp only [ObjectCall.run, Option.map_eq_some', Prod.mk.injEq] at h
    obtain ⟨e1, h1, rfl, _⟩ := h
    exact key_in_buf key (Extends.AppendTime h1)
  | OpenNamespace key =>
    left
    simp only [ObjectCall.run, Option.some.injEq, Prod.mk.injEq] at h
    rw [← h.1]
    refine key_in_buf key ((Extends.writeByte _ 123).trans ?_)
    exact ⟨rfl, rfl, ⟨[], by simp [jsonEncoder.OpenNamespace]⟩, Nat.le_succ _⟩
  | AddReflected key obj =>
    simp only [ObjectCall.run, Option.some.injEq] at h
    unfold jsonEncoder.AddReflected at h
    cases obj with
    | none =>
      simp only [jsonEncoder.encodeReflected, Prod.mk.injEq] at h
      rw [← h.1]
      exact Or.inl (key_in_buf key (Extends.write _ _))
    | some r =>
      cases r with
      | encodes written =>
        simp only [jsonEncoder.encodeReflected, Prod.mk.injEq] at h
        rw [← h.1]
        exact Or.inl (key_in_buf key (Extends.write _ _))
      | fails er =>
        simp only [jsonEncoder.encodeReflected, Prod.mk.injEq] at h
        exact Or.inr ⟨h.1.symm, key, er, rfl, h.2.symm⟩
  | AddBinary key val =>
    rw [plainCall_text enc (.AddBinary key val) _ rfl] at h
    simp only [Option.some.injEq, Prod.mk.injEq] at h
    exact Or.inl ⟨_, by rw [← h.1]; simp [jsonEncoder.bufWriteString, ObjectCall.key]; rfl⟩
  | AddByteString key val =>
    rw [plainCall_text enc (.AddByteString key val) _ rfl] at h
    simp only [Option.some.injEq, Prod.mk.injEq] at h
    exact Or.inl ⟨_, by rw [← h.1]; simp [jsonEncoder.bufWriteString, ObjectCall.key]; rfl⟩
  | AddBool key val =>
    rw [plainCall_text enc (.AddBool key val) _ rfl] at h
    simp only [Option.some.injEq, Prod.mk.injEq] at h
    exact Or.inl ⟨_, by rw [← h.1]; simp [jsonEncoder.bufWriteString, ObjectCall.key]; rfl⟩
  | AddComplex128 key re im =>
    rw [plainCall_text enc (.AddComplex128 key re im) _ rfl] at h
    simp only [Option.some.injEq, Prod.mk.injEq] at h
    exact Or.inl ⟨_, by rw [← h.1]; simp [jsonEncoder.bufWriteString, ObjectCall.key]; rfl⟩
  | AddFloat64 key val =>
    rw [plainCall_text enc (.AddFloat64 key val) _ rfl] at h
    simp only [Option.some.injEq, Prod.mk.injEq] at h
    exact Or.inl ⟨_, by rw [← h.1]; simp [jsonEncoder.bufWriteString, ObjectCall.key]; rfl⟩
  | AddFloat32 key val =>
    rw [plainCall_text enc (.AddFloat32 key val) _ rfl] at h
    simp only [Option.some.injEq, Prod.mk.injEq] at h
    exact Or.inl ⟨_, by rw [← h.1]; simp [jsonEncoder.bufWriteString, ObjectCall.key]; rfl⟩
  | AddInt64 key val =>
    rw [plainCall_text enc (.AddInt64 key val) _ rfl] at h
    simp only [Option.some.injEq, Prod.mk.injEq] at h
    exact Or.inl ⟨_, by rw [← h.1]; simp [jsonEncoder.bufWriteString, ObjectCall.key]; rfl⟩
  | AddString key val =>
    rw [plainCall_text enc (.AddString key val) _ rfl] at h
    simp only [Option.some.injEq, Prod.mk.injEq] at h
    exact Or.inl ⟨_, by rw [← h.1]; simp [jsonEncoder.bufWriteString, ObjectCall.key]; rfl⟩
  | AddUint64 key val =>
    rw [plainCall_text enc (.AddUint64 key val) _ rfl] at h
    simp only [Option.some.injEq, Prod.mk.injEq] at h
    exact Or.inl ⟨_, by rw [← h.1]; simp [jsonEncoder.bufWriteString, ObjectCall.key]; rfl⟩

theorem intercalate_cons_eq (sep x : List Nat) : ∀ (xs : List (List Nat)),
    List.intercalate sep (x :: xs) = x ++ (xs.map (fun y => sep ++ y)).flatten
  | [] => by simp [List.intercalate]
  | y :: ys => by
    have ih := intercalate_cons_eq sep y ys
    simp only [List.intercalate, List.intersperse, List.flatten_cons, List.map_cons] at ih ⊢
    rw [ih]
    simp

/-- Plain calls on a compact encoder whose buffer calls for a separator: each writes
a comma and its pair. -/
theorem runPlain_sep : ∀ (cs : List ObjectCall) (enc : jsonEncoder),
    (∀ c ∈ cs, c.plainValue ≠ none) → enc.spaced = false → needsSeparator enc.buf = true →
    runObjectCalls enc cs =
      some (enc.bufWriteString ((cs.map (fun c => [44] ++ c.pair)).flatten))
  | [], enc, _, _, _ => by simp [runObjectCalls]
  | c :: cs, enc, h, hs, hn => by
    obtain ⟨v, hv⟩ := Option.ne_none_iff_exists'.mp (h c (List.mem_cons_self _ _))
    have hk : keyText false enc.buf c.key = [44] ++ quoted c.key ++ [58] := by
      simp [keyText, sepText, hn, separator, keyColon]
    simp only [runObjectCalls, plainCall_text enc c v hv, hs, hk]
    rw [runPlain_sep cs (enc.bufWriteString ([44] ++ quoted c.key ++ [58] ++ v))
      (fun c hc => h c (List.mem_cons_of_mem _ hc)) hs
      (by
        show needsSeparator (enc.buf ++ ([44] ++ quoted c.key ++ [58] ++ v)) = true
        rw [← List.append_assoc]
        exact plainValue_needsSeparator c v hv _)]
    simp [ObjectCall.pair, hv]

/-- Plain calls on a new compact encoder: the pairs, joined by commas. -/
theorem runPlain_new (cfg : EncoderConfig) (cs : List ObjectCall)
    (h : ∀ c ∈ cs, c.plainValue ≠ none) :
    runObjectCalls (NewJSONEncoder cfg) cs =
      some ((NewJSONEncoder cfg).bufWriteString
        (List.intercalate [44] (cs.map ObjectCall.pair))) := by
  cases cs with
  | nil => simp [runObjectCalls, List.intercalate]
  | cons c cs =>
    obtain ⟨v, hv⟩ := Option.ne_none_iff_exists'.mp (h c (List.mem_cons_self _ _))
    have hk : keyText false [] c.key = quoted c.key ++ [58] := by
      simp [keyText, sepText, needsSeparator, keyColon]
    have hb : (NewJSONEncoder cfg).buf = [] := rfl
    have hsp : (NewJSONEncoder cfg).spaced = false := rfl
    simp only [runObjectCalls, plainCall_text _ c v hv, hsp, hb, hk, List.map_cons]
    rw [runPlain_sep cs ((NewJSONEncoder cfg).bufWriteString (quoted c.key ++ [58] ++ v))
      (fun c hc => h c (List.mem_cons_of_mem _ hc)) rfl
      (by
        show needsSeparator ([] ++ (quoted c.key ++ [58] ++ v)) = true
        rw [← List.append_assoc]
        exact plainValue_needsSeparator c v hv _)]
    rw [intercalate_cons_eq]
    simp [ObjectCall.pair, hv, List.map_map, Function.comp_def]

/-! ## The observed logs -/

namespace observer

theorem Contains_iff : ∀ (s substr : List Nat), Contains s substr = true ↔ substr <:+: s
  | [], substr => by
    simp [Contains, List.infix_nil]
  | c :: s, substr => by
    rw [Contains, Bool.or_eq_true, Contains_iff s substr, List.infix_cons_iff,
      List.isPrefixOf_iff_prefix]

theorem filterLoop_eq (matchFn : LoggedEntry → Bool) : ∀ (l filtered : List LoggedEntry),
    ObservedLogs.filterLoop matchFn filtered l = filtered ++ l.filter matchFn
  | [], filtered => by simp [ObservedLogs.filterLoop]
  | entry :: rest, filtered => by
    by_cases h : matchFn entry = true
    · simp [ObservedLogs.filterLoop, h, filterLoop_eq matchFn rest]
    · simp [ObservedLogs.filterLoop, h, filterLoop_eq matchFn rest]

theorem getD_of_lt (L : List (List LoggedEntry)) (o : Nat) (h : o < L.length) :
    L[o]? = some (L.getD o []) := by
  simp [List.getD_eq_getElem?_getD, List.getElem?_eq_getElem h]

/-- The method `filter` makes a new collection of the entries that match, in their
order, and leaves every other collection as it was. -/
theorem filter_spec (m : Heap) (o : Nat) (matchFn : LoggedEntry → Bool)
    (hl : o < m.logs.length) :
    ∃ m1 : Heap, ObservedLogs.filter m o matchFn = some (m1, m.logs.length) ∧
      m1.arrays = m.arrays ∧
      m1.logs.getD m.logs.length [] = (m.logs.getD o []).filter matchFn ∧
      ∀ q, q < m.logs.length → m1.logs.getD q [] = m.logs.getD q [] := by
  refine ⟨{ m with logs := m.logs ++ [ObservedLogs.filterLoop matchFn [] (m.logs.getD o [])] },
    by rw [ObservedLogs.filter, getD_of_lt _ _ hl], rfl, ?_, ?_⟩
  · simp [List.getD_eq_getElem?_getD, filterLoop_eq]
  · intro q hq
    simp [List.getD_eq_getElem?_getD, List.getElem?_append_left hq]

/-- The logs of a filter whose predicate reads the values of the entries. -/
theorem filter_All (m : Heap) (o : Nat) (matchFn : LoggedEntry → Bool)
    (pred : Entry × List Field → Bool) (hp : ∀ le, matchFn le = pred (m.view le))
    (hl : o < m.logs.length) :
    ∃ m1 : Heap, ObservedLogs.filter m o matchFn = some (m1, m.logs.length) ∧
      ObservedLogs.All m1 m.logs.length = (ObservedLogs.All m o).filter pred ∧
      ∀ q, q < m.logs.length → ObservedLogs.All m1 q = ObservedLogs.All m q := by
  obtain ⟨m1, h1, h2, h3, h4⟩ := filter_spec m o matchFn hl
  refine ⟨m1, h1, ?_, ?_⟩
  · simp only [ObservedLogs.All, h3, Heap.elems, h2]
    have hf : matchFn = pred ∘ m.view := funext hp
    rw [hf, List.filter_map]
    rfl
  · intro q hq
    simp only [ObservedLogs.All, h4 q hq, Heap.elems, h2]

theorem TakeAll_spec (m : Heap) (o : Nat) (hl : o < m.logs.length) :
    ∃ m1 : Heap, ObservedLogs.TakeAll m o = some (m1, m.logs.getD o []) ∧
      m1.arrays = m.arrays ∧ m1.logs.getD o [] = [] ∧
      ∀ q, q ≠ o → m1.logs.getD q [] = m.logs.getD q [] := by
  refine ⟨{ m with logs := m.logs.set o [] },
    by rw [ObservedLogs.TakeAll, getD_of_lt _ _ hl], rfl, ?_, ?_⟩
  · simp [List.getD_eq_getElem?_getD, List.getElem?_set_self hl]
  · intro q hq
    simp [List.getD_eq_getElem?_getD, List.getElem?_set_ne (Ne.symm hq)]

/-- The test `TestFilters` on its first three entries: the entries with the message
`log a`, with the field `b=2` among these, with the snippet `log`, and with no
match. -/
theorem TestFilters_logs :
    (ObservedLogs.FilterMessage filterHeap 0 (bytes "log a")).map
        (fun r => ObservedLogs.All r.1 r.2) = some
        [(entryOf InfoLevel (bytes "log a"), [stringField "fStr" "1", intField "a" 1]),
         (entryOf InfoLevel (bytes "log a"), [stringField "fStr" "2", intField "b" 2])] ∧
      ((ObservedLogs.FilterMessage filterHeap 0 (bytes "log a")).bind
        (fun r => ObservedLogs.FilterField sameField r.1 r.2 (intField "b" 2))).map
        (fun r => ObservedLogs.All r.1 r.2) = some
        [(entryOf InfoLevel (bytes "log a"), [stringField "fStr" "2", intField "b" 2])] ∧
      (ObservedLogs.FilterMessageSnippet filterHeap 0 (bytes "log")).map
        (fun r => ObservedLogs.Len r.1 r.2) = some 3 ∧
      (ObservedLogs.FilterMessage filterHeap 0 (bytes "no match")).map
        (fun r => ObservedLogs.All r.1 r.2) = some [] := by
  refine ⟨rfl, rfl, rfl, rfl⟩

theorem filterHeap_logs :
    filterHeap.logs.length = 1 ∧ ObservedLogs.Len filterHeap 0 = 3 := by
  constructor
  · rfl
  · rfl

end observer

/-! ## The atomic level and the caller skip -/

theorem int8_int32 (l : Int) (h1 : -128 ≤ l) (h2 : l ≤ 127) : int32 l = l ∧ int8 (int32 l) = l := by
  have e : int32 l = l := by unfold int32; omega
  refine ⟨e, ?_⟩
  rw [e]; unfold int8; omega

/-- Every named level prints as its name, is read back from its name, and is a signed
8-bit value. -/
theorem levelNames_spec : ∀ p ∈ levelNames,
    Level.String p.1 = p.2 ∧ Level.UnmarshalText p.2 = .ok p.1 ∧ -128 ≤ p.1 ∧ p.1 ≤ 127 := by
  intro p hp
  simp only [levelNames, List.mem_cons, List.mem_singleton, List.not_mem_nil, or_false] at hp
  rcases hp with rfl | rfl | rfl | rfl | rfl | rfl | rfl <;>
    exact ⟨by decide, rfl, by decide, by decide⟩

/-- `SetLevel` on an allocated atomic level stores the level in its cell: the atomic
levels with the same pointer read it, the other cells are as they were. -/
theorem SetLevel_spec (m : Atomics) (a : AtomicLevel) (l : Level) (ha : a.allocated m)
    (h1 : -128 ≤ l) (h2 : l ≤ 127) :
    ∃ m1 : Atomics, a.SetLevel m l = some m1 ∧ m1.cells.length = m.cells.length ∧
      (∀ b : AtomicLevel, b.l = a.l → b.Level m1 = some l) ∧
      ∀ b : AtomicLevel, b.l ≠ a.l → b.Level m1 = b.Level m := by
  obtain ⟨p, hp, hlt⟩ := ha
  refine ⟨⟨m.cells.set p (int32 l)⟩, ?_, by simp, ?_, ?_⟩
  · simp [AtomicLevel.SetLevel, Atomics.Store, hp, hlt]
  · intro b hb
    simp only [AtomicLevel.Level, Atomics.Load, hb, hp]
    rw [List.getElem?_set_self hlt]
    simp [(int8_int32 l h1 h2).2]
  · intro b hb
    cases hq : b.l with
    | none => simp [AtomicLevel.Level, Atomics.Load, hq]
    | some q =>
      have hne : p ≠ q := by
        intro h
        apply hb
        rw [hq, hp, h]
      simp only [AtomicLevel.Level, Atomics.Load, hq]
      rw [List.getElem?_set_ne hne]

theorem NewAtomicLevel_spec (m : Atomics) :
    (NewAtomicLevel m).2.allocated (NewAtomicLevel m).1 ∧
      (NewAtomicLevel m).2.Level (NewAtomicLevel m).1 = some InfoLevel := by
  constructor
  · exact ⟨m.cells.length, rfl, by simp [NewAtomicLevel]⟩
  · simp only [AtomicLevel.Level, Atomics.Load, NewAtomicLevel]
    rw [List.getElem?_append_right (Nat.le_refl _)]
    simp
    decide

theorem pow_bits (bits : Nat) (hb : 0 < bits) : (2 : Int) ^ bits = 2 * 2 ^ (bits - 1) := by
  obtain ⟨k, rfl⟩ : ∃ k, bits = k + 1 := ⟨bits - 1, by omega⟩
  rw [pow_succ]
  simp
  ring

/-- Two wrapping sums are the wrapping sum of the total. -/
theorem wrapInt_add (bits : Nat) (y b : Int) :
    wrapInt bits (wrapInt bits y + b) = wrapInt bits (y + b) := by
  unfold wrapInt
  have e : (y + 2 ^ (bits - 1)) % 2 ^ bits - 2 ^ (bits - 1) + b + 2 ^ (bits - 1) =
      (y + 2 ^ (bits - 1)) % 2 ^ bits + b := by ring
  rw [e, Int.emod_add_emod]
  congr 2
  ring

/-- A value of the range of `int` is its own wrapping. -/
theorem wrapInt_id (bits : Nat) (x : Int) (hb : 0 < bits) (h1 : -(2 ^ (bits - 1)) ≤ x)
    (h2 : x < 2 ^ (bits - 1)) : wrapInt bits x = x := by
  unfold wrapInt
  rw [Int.emod_eq_of_lt (by omega) (by rw [pow_bits bits hb]; omega)]
  ring

/-! ## Trailing newlines, viper frames, stack traces -/

theorem trimRightByteLoop_eq (c : Nat) : ∀ (fuel : Nat) (s : List Nat), s.length ≤ fuel →
    trimRightByteLoop fuel s c = (s.reverse.dropWhile (fun b => b == c)).reverse
  | 0, s, h => by
    have : s = [] := List.length_eq_zero.mp (by omega)
    subst this
    simp [trimRightByteLoop]
  | fuel + 1, s, h => by
    rcases List.eq_nil_or_concat s with rfl | ⟨t, x, rfl⟩
    · simp [trimRightByteLoop]
    · rw [List.concat_eq_append] at h ⊢
      have hl : (t ++ [x]).length - 1 = t.length := by simp
      have hg : (t ++ [x]).getD t.length 0 = x := by
        simp [List.getD_eq_getElem?_getD]
      have ht : (t ++ [x]).take t.length = t := by simp
      simp only [trimRightByteLoop, hl, hg, ht]
      by_cases hx : x = c
      · subst hx
        rw [if_pos ⟨by simp, rfl⟩, trimRightByteLoop_eq x fuel t (by simp at h; omega)]
        simp
      · rw [if_neg (fun hh => hx hh.2)]
        simp [hx]

theorem trimRightByte_eq (s : List Nat) (c : Nat) :
    trimRightByte s c = (s.reverse.dropWhile (fun b => b == c)).reverse :=
  trimRightByteLoop_eq c s.length s (le_refl _)

/-- What is trimmed is a run of the byte, and what is left does not end in it. -/
theorem trimRightByte_spec (s : List Nat) (c : Nat) :
    (∃ k, s = trimRightByte s c ++ List.replicate k c) ∧ (trimRightByte s c).getLast? ≠ some c := by
  rw [trimRightByte_eq]
  constructor
  · have h := List.takeWhile_append_dropWhile (fun b => b == c) s.reverse
    have hall : ∀ b ∈ s.reverse.takeWhile (fun b => b == c), b = c := by
      intro b hb
      simpa using List.mem_takeWhile_imp hb
    refine ⟨(s.reverse.takeWhile (fun b => b == c)).length, ?_⟩
    have e : (s.reverse.takeWhile (fun b => b == c)).reverse =
        List.replicate (s.reverse.takeWhile (fun b => b == c)).length c :=
      List.eq_replicate_iff.mpr ⟨by simp, fun b hb => hall b (List.mem_reverse.mp hb)⟩
    have h2 := congrArg List.reverse h
    rw [List.reverse_append, List.reverse_reverse, e] at h2
    exact h2.symm
  · rw [List.getLast?_reverse]
    intro hh
    have := List.head?_dropWhile_not (fun b => b == c) s.reverse
    rw [hh] at this
    simp at this

theorem HasPrefix_iff (s pre : List Nat) : HasPrefix s pre = true ↔ pre <+: s := by
  unfold HasPrefix
  rw [List.prefix_iff_eq_take]
  simp only [ge_iff_le, Bool.and_eq_true, decide_eq_true_eq]
  constructor
  · rintro ⟨_, h⟩
    exact h.symm
  · intro h
    refine ⟨?_, h.symm⟩
    have := congrArg List.length h
    rw [List.length_take] at this
    omega

theorem viperPrefixes_eq :
    _viperStacktracePrefixes =
        [bytes "github.com/gottingen/viper.", bytes "github.com/gottingen/viper/"] ∧
      _viperStacktraceVendorContains =
        [bytes "/vendor/github.com/gottingen/viper.",
         bytes "/vendor/github.com/gottingen/viper/"] := by
  decide

theorem isViperFrame_iff (function : List Nat) :
    isViperFrame function = true ↔
      (bytes "github.com/gottingen/viper." <+: function ∨
        bytes "github.com/gottingen/viper/" <+: function ∨
        bytes "/vendor/github.com/gottingen/viper." <:+: function ∨
        bytes "/vendor/github.com/gottingen/viper/" <:+: function) := by
  unfold isViperFrame
  rw [viperPrefixes_eq.1, viperPrefixes_eq.2]
  simp only [anyHasPrefix, anyContains]
  have h1 := HasPrefix_iff function (bytes "github.com/gottingen/viper.")
  have h2 := HasPrefix_iff function (bytes "github.com/gottingen/viper/")
  have h3 := observer.Contains_iff function (bytes "/vendor/github.com/gottingen/viper.")
  have h4 := observer.Contains_iff function (bytes "/vendor/github.com/gottingen/viper/")
  rw [← h1, ← h2, ← h3, ← h4]
  cases HasPrefix function (bytes "github.com/gottingen/viper.") <;>
    cases HasPrefix function (bytes "github.com/gottingen/viper/") <;>
    cases observer.Contains function (bytes "/vendor/github.com/gottingen/viper.") <;>
    cases observer.Contains function (bytes "/vendor/github.com/gottingen/viper/") <;>
    simp

/-- The loop once a frame has been written: every frame but the last, each after a
newline. -/
theorem takeStacktraceLoop_written : ∀ (frames : List Frame) (i : Nat) (buf : List Nat),
    i ≠ 0 → takeStacktraceLoop frames i false buf =
      buf ++ (frames.dropLast.map (fun f => [10] ++ frameText f)).flatten
  | [], i, buf, _ => by simp [takeStacktraceLoop]
  | [_], i, buf, _ => by simp [takeStacktraceLoop]
  | frame :: next :: rest, i, buf, hi => by
    simp only [takeStacktraceLoop, Bool.false_and, Bool.false_eq_true, if_false, hi, ne_eq,
      not_false_eq_true, if_true]
    rw [takeStacktraceLoop_written (next :: rest) (i + 1) _ (by omega)]
    simp [frameText, List.dropLast]

/-- The loop once the viper frames at the top are behind. -/
theorem takeStacktraceLoop_kept : ∀ (frames : List Frame) (buf : List Nat),
    takeStacktraceLoop frames 0 false buf =
      buf ++ List.intercalate [10] (frames.dropLast.map frameText)
  | [], buf => by simp [takeStacktraceLoop, List.intercalate]
  | [_], buf => by simp [takeStacktraceLoop, List.intercalate]
  | frame :: next :: rest, buf => by
    simp only [takeStacktraceLoop, Bool.false_and, Bool.false_eq_true, if_false, ne_eq,
      not_true_eq_false]
    rw [takeStacktraceLoop_written (next :: rest) (0 + 1) _ (by omega)]
    have e : (frame :: next :: rest).dropLast = frame :: (next :: rest).dropLast := rfl
    rw [e, List.map_cons, intercalate_cons_eq]
    simp [frameText, List.map_map, Function.comp_def]

/-- The loop from the start. -/
theorem takeStacktraceLoop_skip : ∀ (frames : List Frame) (buf : List Nat),
    takeStacktraceLoop frames 0 true buf =
      buf ++ List.intercalate [10]
        ((frames.dropLast.dropWhile (fun f => isViperFrame f.Function)).map frameText)
  | [], buf => by simp [takeStacktraceLoop, List.intercalate]
  | [_], buf => by simp [takeStacktraceLoop, List.intercalate]
  | frame :: next :: rest, buf => by
    have e : (frame :: next :: rest).dropLast = frame :: (next :: rest).dropLast := rfl
    by_cases hv : isViperFrame frame.Function = true
    · simp only [takeStacktraceLoop, hv, Bool.and_self, if_true]
      rw [takeStacktraceLoop_skip (next :: rest) buf, e, List.dropWhile_cons]
      simp only [hv, if_true]
    · have h0 := takeStacktraceLoop_kept (frame :: next :: rest) buf
      simp only [takeStacktraceLoop, Bool.false_and, Bool.false_eq_true, if_false] at h0
      simp only [takeStacktraceLoop, hv, Bool.and_false, Bool.false_eq_true, if_false]
      rw [h0, e, List.dropWhile_cons]
      simp only [hv, Bool.false_eq_true, if_false]

/-- `Stripped` returns what its documentation describes exactly for the contents that
do not end in two newlines. -/
theorem Stripped_agrees_iff (s : List Nat) :
    Buffer.Stripped s = stripLastNewline s ↔ ¬ ∃ t, s = t ++ [10, 10] := by
  obtain ⟨⟨k, hk⟩, hlast⟩ := trimRightByte_spec s 10
  unfold Buffer.Stripped
  generalize trimRightByte s 10 = r at hk hlast
  subst hk
  rcases k with _ | _ | k
  · simp only [List.replicate_zero, List.append_nil, stripLastNewline, hlast, if_false,
      true_iff]
    rintro ⟨t, ht⟩
    apply hlast
    rw [ht]
    simp
  · have e : r ++ List.replicate (0 + 1) 10 = r ++ [10] := rfl
    rw [e]
    have hs : stripLastNewline (r ++ [10]) = r := by simp [stripLastNewline]
    rw [hs]
    simp only [true_iff]
    rintro ⟨t, ht⟩
    have e2 : t ++ [10, 10] = (t ++ [10]) ++ [10] := by simp
    rw [e2] at ht
    have := List.append_cancel_right ht
    apply hlast
    rw [this]
    simp
  · have e : r ++ List.replicate (k + 1 + 1) 10 = (r ++ List.replicate k 10) ++ [10, 10] := by
      rw [List.replicate_succ', List.replicate_succ']
      simp
    rw [e]
    have hs : stripLastNewline (r ++ List.replicate k 10 ++ [10, 10]) =
        r ++ List.replicate k 10 ++ [10] := by
      have e3 : r ++ List.replicate k 10 ++ [10, 10] = (r ++ List.replicate k 10 ++ [10]) ++ [10] := by
        simp
      rw [e3]
      simp [stripLastNewline]
    rw [hs]
    constructor
    · intro h
      have := congrArg List.length h
      simp at this
    · intro h
      exact absurd ⟨_, rfl⟩ h

/-! ## Escaping a concatenation -/

/-- The bytes that complete a sequence are read within `rest` when what follows
`rest` does not begin with a continuation byte. -/
theorem seqOK_append (sz lo hi : Nat) (rest b : List Nat) (h2 : 2 ≤ sz) (h4 : sz ≤ 4)
    (hlo : 0x80 ≤ lo) (hhi : hi ≤ 0xBF) (hb : ∀ x ∈ b.head?, isCont x = false) :
    seqOK sz lo hi (rest ++ b) ↔ seqOK sz lo hi rest := by
  rcases b with _ | ⟨x, b⟩
  · simp
  · have hx : ¬ (0x80 ≤ x ∧ x ≤ 0xBF) := by
      have := hb x (by simp)
      simpa [isCont] using this
    rcases rest with _ | ⟨r1, _ | ⟨r2, _ | ⟨r3, rest⟩⟩⟩ <;>
      simp only [seqOK, List.nil_append, List.cons_append, List.length_cons, List.length_nil,
        List.getD_cons_zero, List.getD_cons_succ, List.getD_nil, List.length_append] <;>
      constructor <;> intro h <;> omega

theorem multiByteLen_append (c : Nat) (rest b : List Nat) (hc : 0x80 ≤ c)
    (hb : ∀ x ∈ b.head?, isCont x = false) :
    multiByteLen (c :: (rest ++ b)) = multiByteLen (c :: rest) := by
  by_cases hinv : c < 0xC2 ∨ 0xF5 ≤ c
  · rw [multiByteLen_invalid c _ hc hinv, multiByteLen_invalid c _ hc hinv]
  · obtain ⟨sz, lo, hi, _, _, _, hsz2, hsz4, hlo, hcl⟩ := first_class c (by omega) (by omega)
    have hhi : hi ≤ 0xBF := by
      rcases hcl with h | h | h | h | h | h | h | h <;> omega
    have hA := multiByteLen_class c (rest ++ b) sz lo hi hcl
    have hB := multiByteLen_class c rest sz lo hi hcl
    have hiff := seqOK_append sz lo hi rest b hsz2 hsz4 hlo hhi hb
    by_cases hok : seqOK sz lo hi rest
    · rw [hA.1 (hiff.2 hok), hB.1 hok]
    · rw [hA.2 (fun h => hok (hiff.1 h)), hB.2 hok]

/-- A well-formed sequence begins with a byte from `C2` on. -/
theorem multiByteLen_lead (c : Nat) (rest : List Nat) (n : Nat) (hc : 0x80 ≤ c)
    (h : multiByteLen (c :: rest) = some n) : 0xC2 ≤ c := by
  by_contra hn
  rw [multiByteLen_invalid c rest hc (Or.inl (by omega))] at h
  cases h

/-- Valid UTF-8 does not begin with a continuation byte. -/
theorem validUTF8_head (b : List Nat) (h : validUTF8Aux 0 b = true) :
    ∀ x ∈ b.head?, isCont x = false := by
  intro x hx
  rcases b with _ | ⟨y, b⟩
  · simp at hx
  · simp only [List.head?_cons, Option.mem_def, Option.some.injEq] at hx
    subst hx
    by_cases hy : y < 0x80
    · simp [isCont]; omega
    · simp only [validUTF8Aux, if_neg hy] at h
      cases hm : multiByteLen (y :: b) with
      | none => simp [hm] at h
      | some n =>
        have := multiByteLen_lead y b n (by omega) hm
        simp [isCont]; omega

/-- The escaping of `a` followed by `b` is the escaping of `a` followed by the escaping
of `b`, when `b` does not begin with a continuation byte. -/
theorem escapeSpecAux_append (b : List Nat) (hb : ∀ x ∈ b.head?, isCont x = false) :
    ∀ (n : Nat) (a : List Nat), a.length ≤ n →
      escapeSpecAux 0 (a ++ b) = escapeSpecAux 0 a ++ escapeSpecAux 0 b
  | _, [], _ => by simp [escapeSpecAux]
  | 0, c :: rest, h => by simp at h
  | n + 1, c :: rest, h => by
    have hlen : rest.length ≤ n := by simpa using h
    by_cases hc : c < 0x80
    · simp only [List.cons_append, escapeSpecAux, if_pos hc, List.append_assoc, List.append_eq]
      rw [escapeSpecAux_append b hb n rest hlen]
    · simp only [List.cons_append, escapeSpecAux, if_neg hc, List.append_eq]
      rw [multiByteLen_append c rest b (by omega) hb]
      rcases decode_multi c rest (by omega) with ⟨hm, _⟩ | ⟨k, hm, _, hk2, hkl, _⟩
      · simp only [hm, List.append_assoc]
        rw [escapeSpecAux_append b hb n rest hlen]
        simp
      · obtain ⟨m, rfl⟩ : ∃ m, k = m + 1 := ⟨k - 1, by omega⟩
        have hml : m ≤ rest.length := by omega
        simp only [hm, Nat.add_sub_cancel]
        rw [escapeSpecAux_skip m (rest ++ b), escapeSpecAux_skip m rest,
          List.take_append_of_le_length hml, List.drop_append_of_le_length hml,
          escapeSpecAux_append b hb n (rest.drop m) (by simp; omega)]
        simp

theorem escapeSpec_append (a b : List Nat) (h : validUTF8 b = true) :
    escapeSpec (a ++ b) = escapeSpec a ++ escapeSpec b :=
  escapeSpecAux_append b (validUTF8_head b h) a.length a (le_refl _)

theorem AddObject_eq_run (enc : jsonEncoder) (key : List Nat) (obj : ObjectMarshaler) :
    enc.AddObject key obj = ObjectCall.run enc (.AddObject key obj) := by
  simp only [jsonEncoder.AddObject, jsonEncoder.AppendObject, ObjectCall.run]

/-! ## `EncodeEntry` in memory, `Open`, filters one after the other -/

namespace jsonEncoder

theorem EncodeEntry_eq_body (enc : jsonEncoder) (ent : Entry) (fields : List Field) :
    enc.EncodeEntry ent fields =
      (encodeBody enc enc.clone ent fields).map (fun f => (f.buf, none)) := by
  unfold EncodeEntry encodeBody
  simp only []
  cases (enc.clone.bufWriteByte 123).entryLevel ent with
  | none => rfl
  | some f1 =>
    simp only []
    cases f1.entryTime ent with
    | none => rfl
    | some f2 =>
      simp only []
      cases (f2.entryName ent).entryCaller ent with
      | none => rfl
      | some f3 =>
        simp only []
        cases addFields (entryContext enc (entryMessage enc f3 ent)) fields with
        | none => rfl
        | some f4 => rfl

end jsonEncoder

namespace Memory

/-- What `clone` leaves in memory: one more buffer, empty, and one more struct, with
the fields of the encoder and that buffer. -/
theorem clone_spec (m : Memory) (p : Nat) (e : jsonEncoder) (hv : m.view p = some e) :
    m.clone p = some
      ({ buffers := m.buffers ++ [[]],
         encoders := m.encoders ++
           [⟨some e.cfg, some m.buffers.length, e.spaced, e.openNamespaces⟩] },
        m.encoders.length) := by
  obtain ⟨c, b, hc, hcfg, hb, hbs, hsp, ho⟩ := (view_some_iff m p e).1 hv
  have hp := lt_of_get hc
  have hne : p ≠ m.encoders.length := by omega
  simp only [Memory.clone, Memory.getJSONEncoder, Memory.cell, Memory.assign,
    Memory.bufferGet, get_old _ _ _ hp, hc, get_last, set_last, hcfg, hsp, ho]

/-- `EncodeEntry` on the encoder at `p` leaves one more buffer, with the bytes of the
entry, and one more struct, zeroed; nothing else of the memory changes. -/
theorem EncodeEntry_spec (m : Memory) (p : Nat) (e : jsonEncoder) (ent : Entry)
    (fields : List Field) (hv : m.view p = some e) :
    m.EncodeEntry p ent fields =
      (e.EncodeEntry ent fields).map (fun r =>
        (({ buffers := m.buffers ++ [r.1],
            encoders := m.encoders ++ [⟨none, none, false, 0⟩] } : Memory),
          m.buffers.length, (none : Option Error))) := by
  obtain ⟨c, b, hc, hcfg, hb, hbs, hsp, ho⟩ := (view_some_iff m p e).1 hv
  have hp := lt_of_get hc
  have hbl := lt_of_get hbs
  have hv1 : Memory.view ⟨m.buffers ++ [[]], m.encoders ++
      [⟨some e.cfg, some m.buffers.length, e.spaced, e.openNamespaces⟩]⟩ p = some e := by
    rw [view_some_iff]
    exact ⟨c, b, by rw [get_old _ _ _ hp]; exact hc, hcfg, hb,
      by rw [get_old _ _ _ hbl]; exact hbs, hsp, ho⟩
  have hv2 : Memory.view ⟨m.buffers ++ [[]], m.encoders ++
      [⟨some e.cfg, some m.buffers.length, e.spaced, e.openNamespaces⟩]⟩ m.encoders.length =
      some e.clone := by
    rw [view_some_iff]
    exact ⟨_, _, get_last _ _, rfl, rfl, get_last _ _, rfl, rfl⟩
  rw [jsonEncoder.EncodeEntry_eq_body]
  simp only [Memory.EncodeEntry, clone_spec m p e hv, hv1, hv2]
  cases jsonEncoder.encodeBody e e.clone ent fields with
  | none => rfl
  | some f1 =>
    simp only [Option.map_some', Memory.writeBack, Memory.cell, get_last, set_last,
      Memory.putJSONEncoder, Memory.assign]

end Memory

/-- The loop of `open`: every path is given to `newSink`, the sinks are added to the
writers and to the closers, the failures to the error. -/
theorem openLoop_eq (newSink : List SinkEvent → List Nat → Except Error Nat)
    (quote : List Nat → List Nat) : ∀ (paths : List (List Nat)) (st : openState),
    openLoop newSink quote paths st =
      ⟨st.events ++ paths.map SinkEvent.newSink,
        st.writers ++ openedSinks (sinkOutcomes newSink st.events paths),
        st.closers ++ openedSinks (sinkOutcomes newSink st.events paths),
        st.openErr ++ (failedPaths (sinkOutcomes newSink st.events paths)).map
          (fun pe => openError quote pe.1 pe.2)⟩
  | [], st => by simp [openLoop, sinkOutcomes, openedSinks, failedPaths]
  | path :: paths, st => by
    cases hn : newSink st.events path with
    | error err =>
      simp only [openLoop, hn, sinkOutcomes, openedSinks, failedPaths]
      rw [openLoop_eq newSink quote paths]
      simp
    | ok sink =>
      simp only [openLoop, hn, sinkOutcomes, openedSinks, failedPaths]
      rw [openLoop_eq newSink quote paths]
      simp

theorem sinkOutcomes_paths (newSink : List SinkEvent → List Nat → Except Error Nat) :
    ∀ (paths : List (List Nat)) (events : List SinkEvent),
      (sinkOutcomes newSink events paths).map Prod.fst = paths
  | [], _ => rfl
  | path :: paths, events => by
    simp [sinkOutcomes, sinkOutcomes_paths newSink paths]

/-- Every outcome is a sink or a failure. -/
theorem outcomes_count : ∀ (outs : List (List Nat × Except Error Nat)),
    (openedSinks outs).length + (failedPaths outs).length = outs.length
  | [] => rfl
  | (_, .ok _) :: rest => by
    simp only [openedSinks, failedPaths, List.length_cons]
    have := outcomes_count rest
    omega
  | (_, .error _) :: rest => by
    simp only [openedSinks, failedPaths, List.length_cons]
    have := outcomes_count rest
    omega

namespace observer

/-- One filter: a new collection, after the others, with the entries the filter is
for. -/
theorem LogFilter.run_spec (equals : Field → Field → Bool) (m : Heap) (o : Nat) (p : LogFilter)
    (hl : o < m.logs.length) :
    ∃ m1 : Heap, p.run equals m o = some (m1, m.logs.length) ∧
      m.logs.length < m1.logs.length ∧
      ObservedLogs.All m1 m.logs.length = (ObservedLogs.All m o).filter (p.holds equals) ∧
      ∀ q, q < m.logs.length → ObservedLogs.All m1 q = ObservedLogs.All m q := by
  have key : ∀ matchFn : LoggedEntry → Bool,
      (∀ le, matchFn le = p.holds equals (m.view le)) →
      ∃ m1 : Heap, ObservedLogs.filter m o matchFn = some (m1, m.logs.length) ∧
        m.logs.length < m1.logs.length ∧
        ObservedLogs.All m1 m.logs.length = (ObservedLogs.All m o).filter (p.holds equals) ∧
        ∀ q, q < m.logs.length → ObservedLogs.All m1 q = ObservedLogs.All m q := by
    intro matchFn hp
    obtain ⟨m1, h1, h2, h3⟩ := filter_All m o matchFn (p.holds equals) hp hl
    refine ⟨m1, h1, ?_, h2, h3⟩
    rw [ObservedLogs.filter, getD_of_lt _ _ hl] at h1
    simp only [Option.some.injEq, Prod.mk.injEq, and_true] at h1
    rw [← h1]
    simp
  cases p with
  | byMessage msg => exact key _ (fun _ => rfl)
  | bySnippet snippet =>
    refine key _ (fun le => ?_)
    rw [Bool.eq_iff_iff, Contains_iff]
    simp [LogFilter.holds, Heap.view]
  | byField field => exact key _ (fun _ => rfl)

/-- Two filters, one after the other: the entries both are for, in their order. -/
theorem twoFilters_eq (equals : Field → Field → Bool) (m : Heap) (o : Nat) (p q : LogFilter)
    (hl : o < m.logs.length) :
    twoFilters equals m o p q =
      some ((ObservedLogs.All m o).filter (fun e => p.holds equals e && q.holds equals e)) := by
  obtain ⟨m1, h1, h2, h3, _⟩ := LogFilter.run_spec equals m o p hl
  obtain ⟨m2, k1, _, k3, _⟩ := LogFilter.run_spec equals m1 m.logs.length q h2
  simp only [twoFilters, h1, k1, k3, h3, List.filter_filter]
  congr 2
  funext e
  exact Bool.and_comm _ _

end observer

/-! ## `EncodeToString` against the base64 of RFC 4648 -/

theorem encodeStdAt_base64Char : ∀ i < 64, encodeStdAt i = base64Char i := by decide

theorem base64Value_base64Char : ∀ i < 64, base64Value (base64Char i) = some i := by decide

theorem base64Char_ne_pad : ∀ i < 64, base64Char i ≠ 61 := by decide

set_option maxRecDepth 100000 in
theorem and_three : ∀ a < 256, a &&& 3 = a % 4 := by decide

set_option maxRecDepth 100000 in
theorem and_fifteen : ∀ a < 256, a &&& 15 = a % 16 := by decide

set_option maxRecDepth 100000 in
theorem and_sixty_three : ∀ a < 256, a &&& 63 = a % 64 := by decide

theorem shift_four_or : ∀ x < 4, ∀ y < 16, (x <<< 4) ||| y = x * 16 + y := by decide

theorem shift_two_or : ∀ x < 16, ∀ y < 4, (x <<< 2) ||| y = x * 4 + y := by decide

theorem shift_four : ∀ x < 4, x <<< 4 = x * 16 := by decide

theorem shift_two : ∀ x < 16, x <<< 2 = x * 4 := by decide

/-- The digit indices of `EncodeToString`, in arithmetic. -/
theorem encode_indices (a b c : Nat) (ha : a < 256) (hb : b < 256) (hc : c < 256) :
    a >>> 2 = a / 4 ∧ ((a &&& 3) <<< 4) ||| (b >>> 4) = a % 4 * 16 + b / 16 ∧
      ((b &&& 15) <<< 2) ||| (c >>> 6) = b % 16 * 4 + c / 64 ∧ c &&& 63 = c % 64 ∧
      (a &&& 3) <<< 4 = a % 4 * 16 ∧ (b &&& 15) <<< 2 = b % 16 * 4 := by
  have h4 : b >>> 4 = b / 16 := by rw [Nat.shiftRight_eq_div_pow]
  have h6 : c >>> 6 = c / 64 := by rw [Nat.shiftRight_eq_div_pow]
  have h2 : a >>> 2 = a / 4 := by rw [Nat.shiftRight_eq_div_pow]
  rw [and_three a ha, and_fifteen b hb, and_sixty_three c hc, h4, h6, h2]
  refine ⟨rfl, shift_four_or _ (Nat.mod_lt _ (by decide)) _ (by omega),
    shift_two_or _ (Nat.mod_lt _ (by decide)) _ (by omega), rfl,
    shift_four _ (Nat.mod_lt _ (by decide)), shift_two _ (Nat.mod_lt _ (by decide))⟩

/-- On octets, `EncodeToString` is the standard padded base64 of RFC 4648. -/
theorem EncodeToString_eq_base64Spec :
    ∀ v : List Nat, (∀ b ∈ v, b < 256) → EncodeToString v = base64Spec v
  | [], _ => rfl
  | [a], h => by
    have ha : a < 256 := h a (by simp)
    obtain ⟨h1, -, -, -, h5, -⟩ := encode_indices a 0 0 ha (by decide) (by decide)
    simp only [EncodeToString, base64Spec, h1, h5]
    rw [encodeStdAt_base64Char _ (by omega), encodeStdAt_base64Char _ (by omega)]
    have e1 : a * 16 / 64 % 64 = a / 4 := by omega
    have e2 : a * 16 % 64 = a % 4 * 16 := by omega
    rw [e1, e2]
  | [a, b], h => by
    have ha : a < 256 := h a (by simp)
    have hb : b < 256 := h b (by simp)
    obtain ⟨h1, h2, -, -, -, h6⟩ := encode_indices a b 0 ha hb (by decide)
    simp only [EncodeToString, base64Spec, h1, h2, h6]
    rw [encodeStdAt_base64Char _ (by omega), encodeStdAt_base64Char _ (by omega),
      encodeStdAt_base64Char _ (by omega)]
    have e1 : (a * 256 + b) * 4 / 4096 % 64 = a / 4 := by omega
    have e2 : (a * 256 + b) * 4 / 64 % 64 = a % 4 * 16 + b / 16 := by omega
    have e3 : (a * 256 + b) * 4 % 64 = b % 16 * 4 := by omega
    rw [e1, e2, e3]
  | a :: b :: c :: rest, h => by
    have ha : a < 256 := h a (by simp)
    have hb : b < 256 := h b (by simp)
    have hc : c < 256 := h c (by simp)
    obtain ⟨h1, h2, h3, h4, -, -⟩ := encode_indices a b c ha hb hc
    have ih := EncodeToString_eq_base64Spec rest (fun x hx => h x (by simp [hx]))
    simp only [EncodeToString, base64Spec, h1, h2, h3, h4, ih]
    rw [encodeStdAt_base64Char _ (by omega), encodeStdAt_base64Char _ (by omega),
      encodeStdAt_base64Char _ (by omega), encodeStdAt_base64Char _ (by omega)]
    have e1 : (a * 65536 + b * 256 + c) / 262144 % 64 = a / 4 := by omega
    have e2 : (a * 65536 + b * 256 + c) / 4096 % 64 = a % 4 * 16 + b / 16 := by omega
    have e3 : (a * 65536 + b * 256 + c) / 64 % 64 = b % 16 * 4 + c / 64 := by omega
    have e4 : (a * 65536 + b * 256 + c) % 64 = c % 64 := by omega
    rw [e1, e2, e3, e4]

/-- Decoding the standard base64 of octets gives the octets back. -/
theorem base64Decode_base64Spec :
    ∀ v : List Nat, (∀ b ∈ v, b < 256) → base64Decode (base64Spec v) = some v
  | [], _ => rfl
  | [a], h => by
    have ha : a < 256 := h a (by simp)
    simp only [base64Spec, base64Decode, and_self, if_true,
      base64Value_base64Char _ (Nat.mod_lt _ (by decide : 0 < 64))]
    congr 2
    omega
  | [a, b], h => by
    have ha : a < 256 := h a (by simp)
    have hb : b < 256 := h b (by simp)
    have hp := base64Char_ne_pad ((a * 256 + b) * 4 % 64) (Nat.mod_lt _ (by decide))
    simp only [base64Spec, base64Decode, hp, false_and, if_false, and_self, if_true,
      base64Value_base64Char _ (Nat.mod_lt _ (by decide : 0 < 64))]
    congr 2
    · omega
    · congr 1
      omega
  | a :: b :: c :: rest, h => by
    have ha : a < 256 := h a (by simp)
    have hb : b < 256 := h b (by simp)
    have hc : c < 256 := h c (by simp)
    have ih := base64Decode_base64Spec rest (fun x hx => h x (by simp [hx]))
    have hp := base64Char_ne_pad ((a * 65536 + b * 256 + c) % 64) (Nat.mod_lt _ (by decide))
    simp only [base64Spec, base64Decode, hp, false_and, and_false, if_false, ih,
      base64Value_base64Char _ (Nat.mod_lt _ (by decide : 0 < 64))]
    congr 2
    · omega
    · congr 1
      · omega
      · congr 1
        omega

/-- The test vectors of RFC 4648, section 10, under the standard base64. -/
theorem base64Spec_vectors :
    base64Spec [] = [] ∧ base64Spec (bytes "f") = bytes "Zg==" ∧
      base64Spec (bytes "fo") = bytes "Zm8=" ∧ base64Spec (bytes "foo") = bytes "Zm9v" ∧
      base64Spec (bytes "foob") = bytes "Zm9vYg==" ∧
      base64Spec (bytes "fooba") = bytes "Zm9vYmE=" ∧
      base64Spec (bytes "foobar") = bytes "Zm9vYmFy" := by decide

/-! ## What a call writes does not depend on what was written before -/

theorem needsSeparator_sepState (b : Bool) : needsSeparator (sepState b) = b := by
  cases b <;> simp [sepState, needsSeparator]

theorem needsSeparator_append_congr (a b t : List Nat)
    (h : needsSeparator a = needsSeparator b) :
    needsSeparator (a ++ t) = needsSeparator (b ++ t) := by
  by_cases ht : t = []
  · simp [ht, h]
  · rw [needsSeparator_append_ne_nil a t ht, needsSeparator_append_ne_nil b t ht]

theorem sepText_congr (sp : Bool) (a b : List Nat) (h : needsSeparator a = needsSeparator b) :
    sepText sp a = sepText sp b := by
  simp [sepText, h]

theorem primsText_congr (sp : Bool) : ∀ (cs : List PrimCall) (a b : List Nat),
    needsSeparator a = needsSeparator b → primsText sp a cs = primsText sp b cs
  | [], _, _, _ => rfl
  | c :: cs, a, b, h => by
    simp only [primsText]
    rw [sepText_congr sp a b h,
      primsText_congr sp cs (a ++ (sepText sp b ++ primText c)) (b ++ (sepText sp b ++ primText c))
        (needsSeparator_append_congr a b _ h)]

theorem needsSeparator_keyText (sp : Bool) (p key : List Nat) :
    needsSeparator (p ++ keyText sp p key) = false := by
  have : p ++ keyText sp p key = (p ++ sepText sp p ++ quoted key) ++ keyColon sp := by
    simp [keyText]
  rw [this, needsSeparator_keyColon]

theorem needsSeparator_bracket (p : List Nat) :
    needsSeparator (p ++ [91]) = false ∧ needsSeparator (p ++ [123]) = false := by
  simp [needsSeparator]

theorem sepText_bracket (sp : Bool) (p : List Nat) :
    sepText sp (p ++ [91]) = [] ∧ sepText sp (p ++ [123]) = [] := by
  simp [sepText, needsSeparator_bracket]

theorem appendText_congr (sp : Bool) (a b : List Nat) (calls : List PrimCall) (fb : List Nat)
    (h : needsSeparator a = needsSeparator b) :
    appendText sp a calls fb = appendText sp b calls fb := by
  cases calls with
  | nil => simp [appendText, sepText_congr sp a b h]
  | cons c cs => simp only [appendText]; exact primsText_congr sp _ a b h

theorem appendText_ne_nil (sp : Bool) (p : List Nat) (calls : List PrimCall) (val : Int) :
    appendText sp p calls (formatInt val) ≠ [] := by
  cases calls with
  | nil =>
    have h := (valueText_formatInt val).1 []
    intro h0
    simp only [appendText, List.append_eq_nil] at h0
    rw [h0.2] at h
    simp [needsSeparator] at h
  | cons c cs => exact primsText_cons_ne_nil sp p c cs

theorem AppendDuration_at (cfg : EncoderConfig) (sp : Bool) (p : List Nat) (n : Nat) (val : Int)
    (f : Int → List PrimCall) (hf : cfg.EncodeDuration = some f) :
    (⟨cfg, p, sp, n⟩ : jsonEncoder).AppendDuration val =
      some ⟨cfg, p ++ appendText sp p (f val) (formatInt val), sp, n⟩ := by
  unfold jsonEncoder.AppendDuration
  simp only [hf]
  cases hc : f val with
  | nil => simp [runPrims, jsonEncoder.WriteInt64_text, appendText, jsonEncoder.bufWriteString]
  | cons c cs =>
    have h := primsText_cons_ne_nil sp p c cs
    rw [runPrims_text]
    simp [jsonEncoder.bufWriteString, appendText, h]

theorem AppendTime_at (cfg : EncoderConfig) (sp : Bool) (p : List Nat) (n : Nat) (val : Int)
    (f : Int → List PrimCall) (hf : cfg.EncodeTime = some f) :
    (⟨cfg, p, sp, n⟩ : jsonEncoder).AppendTime val =
      some ⟨cfg, p ++ appendText sp p (f val) (formatInt val), sp, n⟩ := by
  unfold jsonEncoder.AppendTime
  simp only [hf]
  cases hc : f val with
  | nil => simp [runPrims, jsonEncoder.WriteInt64_text, appendText, jsonEncoder.bufWriteString]
  | cons c cs =>
    have h := primsText_cons_ne_nil sp p c cs
    rw [runPrims_text]
    simp [jsonEncoder.bufWriteString, appendText, h]

theorem AppendDuration_nil (enc : jsonEncoder) (val : Int) (hf : enc.cfg.EncodeDuration = none) :
    enc.AppendDuration val = none := by
  unfold jsonEncoder.AppendDuration
  simp only [hf]

theorem AppendTime_nil (enc : jsonEncoder) (val : Int) (hf : enc.cfg.EncodeTime = none) :
    enc.AppendTime val = none := by
  unfold jsonEncoder.AppendTime
  simp only [hf]

theorem addKey_at (cfg : EncoderConfig) (sp : Bool) (p : List Nat) (n : Nat) (key : List Nat) :
    (⟨cfg, p, sp, n⟩ : jsonEncoder).addKey key = ⟨cfg, p ++ keyText sp p key, sp, n⟩ := by
  rw [jsonEncoder.addKey_text]
  rfl

theorem addElementSeparator_at (cfg : EncoderConfig) (sp : Bool) (p : List Nat) (n : Nat) :
    (⟨cfg, p, sp, n⟩ : jsonEncoder).addElementSeparator = ⟨cfg, p ++ sepText sp p, sp, n⟩ := by
  rw [jsonEncoder.addElementSeparator_text]
  rfl

theorem key_bracket_at (cfg : EncoderConfig) (sp : Bool) (p : List Nat) (n : Nat)
    (key : List Nat) (b : Nat) :
    (((⟨cfg, p, sp, n⟩ : jsonEncoder).addKey key).addElementSeparator).bufWriteByte b =
      ⟨cfg, p ++ keyText sp p key ++ [b], sp, n⟩ := by
  rw [addKey_at, addElementSeparator_at, sepText_keyText]
  simp [jsonEncoder.bufWriteByte]

theorem sep_bracket_at (cfg : EncoderConfig) (sp : Bool) (p : List Nat) (n : Nat) (b : Nat) :
    ((⟨cfg, p, sp, n⟩ : jsonEncoder).addElementSeparator).bufWriteByte b =
      ⟨cfg, p ++ sepText sp p ++ [b], sp, n⟩ := by
  rw [addElementSeparator_at]
  simp [jsonEncoder.bufWriteByte]

/-- A call that adds one plain value writes its key and that value wherever it is
made. -/
theorem plainCall_local (c : ObjectCall) (v : List Nat) (h : c.plainValue = some v)
    (cfg : EncoderConfig) (sp : Bool) :
    c.valueAlone cfg sp = some v ∧ v ≠ [] ∧
      ∀ p n, ObjectCall.run ⟨cfg, p, sp, n⟩ c =
        some (⟨cfg, p ++ (keyText sp p c.key ++ v), sp, n + 0⟩, none) := by
  refine ⟨?_, ?_, fun p n => plainCall_text _ c v h⟩
  · rw [← h]
    cases c with
    | AddArray key arr => simp [ObjectCall.plainValue] at h
    | AddObject key obj => simp [ObjectCall.plainValue] at h
    | AddDuration key val => simp [ObjectCall.plainValue] at h
    | OpenNamespace key => simp [ObjectCall.plainValue] at h
    | AddTime key val => simp [ObjectCall.plainValue] at h
    | AddReflected key obj =>
      cases obj with
      | some r => simp [ObjectCall.plainValue] at h
      | none => rfl
    | AddBinary key val => rfl
    | AddByteString key val => rfl
    | AddBool key val => rfl
    | AddComplex128 key re im => rfl
    | AddFloat64 key val => rfl
    | AddFloat32 key val => rfl
    | AddInt64 key val => rfl
    | AddString key val => rfl
    | AddUint64 key val => rfl
  · intro h0
    have := plainValue_needsSeparator c v h []
    rw [h0] at this
    simp [needsSeparator] at this

mutual
theorem objectCall_local : ∀ (c : ObjectCall) (cfg : EncoderConfig) (sp : Bool),
    (∀ p n, ObjectCall.run ⟨cfg, p, sp, n⟩ c = none) ∨
      (∃ key er, c = .AddReflected key (some (.fails er))) ∨
      ∃ v, c.valueAlone cfg sp = some v ∧
        (v = [] → ∃ key w, c = .AddReflected key (some (.encodes w))) ∧
        ∃ k err, ∀ p n, ObjectCall.run ⟨cfg, p, sp, n⟩ c =
          some (⟨cfg, p ++ (keyText sp p c.key ++ v), sp, n + k⟩, err)
  | .AddArray key arr, cfg, sp => by
    rcases marshalLogArray_local arr cfg sp with hn | ⟨T, k, err, h⟩
    · left
      intro p n
      simp only [ObjectCall.run, key_bracket_at, hn]
    · right; right
      refine ⟨[91] ++ T false ++ [93], ?_, fun h0 => by simp at h0, k, err, fun p n => ?_⟩
      · have h1 := h [91] 0
        simp only [needsSeparator_bracket, (needsSeparator_bracket []).1, List.nil_append] at h1
        have h2 : needsSeparator [91] = false := (needsSeparator_bracket []).1
        rw [h2] at h1
        simp [ObjectCall.valueAlone, newJSONEncoder, jsonEncoder.bufWriteByte, h1]
      · simp only [ObjectCall.run, key_bracket_at]
        rw [h, (needsSeparator_bracket _).1]
        simp [jsonEncoder.bufWriteByte, ObjectCall.key]
  | .AddObject key obj, cfg, sp => by
    rcases marshalLogObject_local obj cfg sp with hn | ⟨T, k, err, h⟩
    · left
      intro p n
      simp only [ObjectCall.run, key_bracket_at, hn]
    · right; right
      refine ⟨[123] ++ T false ++ [125], ?_, fun h0 => by simp at h0, k, err, fun p n => ?_⟩
      · have h1 := h [123] 0
        have h2 : needsSeparator [123] = false := (needsSeparator_bracket []).2
        rw [h2] at h1
        simp [ObjectCall.valueAlone, newJSONEncoder, jsonEncoder.bufWriteByte, h1]
      · simp only [ObjectCall.run, key_bracket_at]
        rw [h, (needsSeparator_bracket _).2]
        simp [jsonEncoder.bufWriteByte, ObjectCall.key]
  | .AddBinary key val, cfg, sp =>
    have h := plainCall_local (.AddBinary key val) _ rfl cfg sp
    Or.inr (Or.inr ⟨_, h.1, fun h0 => absurd h0 h.2.1, 0, none, h.2.2⟩)
  | .AddByteString key val, cfg, sp =>
    have h := plainCall_local (.AddByteString key val) _ rfl cfg sp
    Or.inr (Or.inr ⟨_, h.1, fun h0 => absurd h0 h.2.1, 0, none, h.2.2⟩)
  | .AddBool key val, cfg, sp =>
    have h := plainCall_local (.AddBool key val) _ rfl cfg sp
    Or.inr (Or.inr ⟨_, h.1, fun h0 => absurd h0 h.2.1, 0, none, h.2.2⟩)
  | .AddComplex128 key re im, cfg, sp =>
    have h := plainCall_local (.AddComplex128 key re im) _ rfl cfg sp
    Or.inr (Or.inr ⟨_, h.1, fun h0 => absurd h0 h.2.1, 0, none, h.2.2⟩)
  | .AddDuration key val, cfg, sp => by
    cases hf : cfg.EncodeDuration with
    | none =>
      left
      intro p n
      simp only [ObjectCall.run, jsonEncoder.AddDuration, addKey_at]
      rw [AppendDuration_nil _ _ hf]
      rfl
    | some f =>
      right; right
      refine ⟨appendText sp [] (f val) (formatInt val), ?_, fun h0 =>
        absurd h0 (appendText_ne_nil sp [] (f val) val), 0, none, fun p n => ?_⟩
      · simp only [ObjectCall.valueAlone, hf, Option.map_some']
        cases f val <;> simp [appendText, sepText, needsSeparator]
      · simp only [ObjectCall.run, jsonEncoder.AddDuration, addKey_at]
        rw [AppendDuration_at _ _ _ _ _ f hf,
          appendText_congr sp (p ++ keyText sp p key) [] _ _
            ((needsSeparator_keyText sp p key).trans (by simp [needsSeparator]))]
        simp [ObjectCall.key]
  | .AddFloat64 key val, cfg, sp =>
    have h := plainCall_local (.AddFloat64 key val) _ rfl cfg sp
    Or.inr (Or.inr ⟨_, h.1, fun h0 => absurd h0 h.2.1, 0, none, h.2.2⟩)
  | .AddFloat32 key val, cfg, sp =>
    have h := plainCall_local (.AddFloat32 key val) _ rfl cfg sp
    Or.inr (Or.inr ⟨_, h.1, fun h0 => absurd h0 h.2.1, 0, none, h.2.2⟩)
  | .AddInt64 key val, cfg, sp =>
    have h := plainCall_local (.AddInt64 key val) _ rfl cfg sp
    Or.inr (Or.inr ⟨_, h.1, fun h0 => absurd h0 h.2.1, 0, none, h.2.2⟩)
  | .AddReflected key none, cfg, sp =>
    have h := plainCall_local (.AddReflected key none) _ rfl cfg sp
    Or.inr (Or.inr ⟨_, h.1, fun h0 => absurd h0 h.2.1, 0, none, h.2.2⟩)
  | .AddReflected key (some (.fails er)), _, _ => Or.inr (Or.inl ⟨key, er, rfl⟩)
  | .AddReflected key (some (.encodes w)), cfg, sp => by
    right; right
    refine ⟨TrimNewline w, rfl, fun _ => ⟨key, w, rfl⟩, 0, none, fun p n => ?_⟩
    simp only [ObjectCall.run, jsonEncoder.AddReflected, jsonEncoder.encodeReflected, addKey_at]
    simp [jsonEncoder.bufWriteString, ObjectCall.key]
  | .OpenNamespace key, cfg, sp => by
    right; right
    refine ⟨[123], rfl, fun h0 => by simp at h0, 1, none, fun p n => ?_⟩
    simp only [ObjectCall.run, jsonEncoder.OpenNamespace, addKey_at]
    simp [jsonEncoder.bufWriteByte, ObjectCall.key]
  | .AddString key val, cfg, sp =>
    have h := plainCall_local (.AddString key val) _ rfl cfg sp
    Or.inr (Or.inr ⟨_, h.1, fun h0 => absurd h0 h.2.1, 0, none, h.2.2⟩)
  | .AddTime key val, cfg, sp => by
    cases hf : cfg.EncodeTime with
    | none =>
      left
      intro p n
      simp only [ObjectCall.run, jsonEncoder.AddTime, addKey_at]
      rw [AppendTime_nil _ _ hf]
      rfl
    | some f =>
      right; right
      refine ⟨appendText sp [] (f val) (formatInt val), ?_, fun h0 =>
        absurd h0 (appendText_ne_nil sp [] (f val) val), 0, none, fun p n => ?_⟩
      · simp only [ObjectCall.valueAlone, hf, Option.map_some']
        cases f val <;> simp [appendText, sepText, needsSeparator]
      · simp only [ObjectCall.run, jsonEncoder.AddTime, addKey_at]
        rw [AppendTime_at _ _ _ _ _ f hf,
          appendText_congr sp (p ++ keyText sp p key) [] _ _
            ((needsSeparator_keyText sp p key).trans (by simp [needsSeparator]))]
        simp [ObjectCall.key]
  | .AddUint64 key val, cfg, sp =>
    have h := plainCall_local (.AddUint64 key val) _ rfl cfg sp
    Or.inr (Or.inr ⟨_, h.1, fun h0 => absurd h0 h.2.1, 0, none, h.2.2⟩)
theorem arrayCall_local : ∀ (c : ArrayCall) (cfg : EncoderConfig) (sp : Bool),
    (∀ p n, ArrayCall.run ⟨cfg, p, sp, n⟩ c = none) ∨
      ∃ (T : Bool → List Nat) (k : Nat) (err : Option Error), ∀ p n,
        ArrayCall.run ⟨cfg, p, sp, n⟩ c =
          some (⟨cfg, p ++ T (needsSeparator p), sp, n + k⟩, err)
  | .AppendArray arr, cfg, sp => by
    rcases marshalLogArray_local arr cfg sp with hn | ⟨T, k, err, h⟩
    · left
      intro p n
      simp only [ArrayCall.run, sep_bracket_at, hn]
    · right
      refine ⟨fun b => (if b then separator sp else []) ++ [91] ++ T false ++ [93], k, err,
        fun p n => ?_⟩
      simp only [ArrayCall.run, sep_bracket_at]
      rw [h, (needsSeparator_bracket _).1]
      simp [jsonEncoder.bufWriteByte, sepText]
  | .AppendObject obj, cfg, sp => by
    rcases marshalLogObject_local obj cfg sp with hn | ⟨T, k, err, h⟩
    · left
      intro p n
      simp only [ArrayCall.run, sep_bracket_at, hn]
    · right
      refine ⟨fun b => (if b then separator sp else []) ++ [123] ++ T false ++ [125], k, err,
        fun p n => ?_⟩
      simp only [ArrayCall.run, sep_bracket_at]
      rw [h, (needsSeparator_bracket _).2]
      simp [jsonEncoder.bufWriteByte, sepText]
  | .AppendReflected none, cfg, sp => by
    right
    refine ⟨fun b => (if b then separator sp else []) ++ [110, 117, 108, 108], 0, none,
      fun p n => ?_⟩
    simp only [ArrayCall.run, jsonEncoder.AppendReflected, jsonEncoder.encodeReflected,
      addElementSeparator_at]
    simp [jsonEncoder.bufWriteString, sepText]
  | .AppendReflected (some (.fails er)), cfg, sp => by
    right
    refine ⟨fun _ => [], 0, some er, fun p n => ?_⟩
    simp [ArrayCall.run, jsonEncoder.AppendReflected, jsonEncoder.encodeReflected]
  | .AppendReflected (some (.encodes w)), cfg, sp => by
    right
    refine ⟨fun b => (if b then separator sp else []) ++ TrimNewline w, 0, none, fun p n => ?_⟩
    simp only [ArrayCall.run, jsonEncoder.AppendReflected, jsonEncoder.encodeReflected,
      addElementSeparator_at]
    simp [jsonEncoder.bufWriteString, sepText]
  | .AppendDuration val, cfg, sp => by
    cases hf : cfg.EncodeDuration with
    | none =>
      left
      intro p n
      simp only [ArrayCall.run]
      rw [AppendDuration_nil _ _ hf]
      rfl
    | some f =>
      right
      refine ⟨fun b => appendText sp (sepState b) (f val) (formatInt val), 0, none,
        fun p n => ?_⟩
      simp only [ArrayCall.run]
      rw [AppendDuration_at _ _ _ _ _ f hf,
        appendText_congr sp p (sepState (needsSeparator p)) _ _
          (needsSeparator_sepState _).symm]
      simp
  | .AppendTime val, cfg, sp => by
    cases hf : cfg.EncodeTime with
    | none =>
      left
      intro p n
      simp only [ArrayCall.run]
      rw [AppendTime_nil _ _ hf]
      rfl
    | some f =>
      right
      refine ⟨fun b => appendText sp (sepState b) (f val) (formatInt val), 0, none,
        fun p n => ?_⟩
      simp only [ArrayCall.run]
      rw [AppendTime_at _ _ _ _ _ f hf,
        appendText_congr sp p (sepState (needsSeparator p)) _ _
          (needsSeparator_sepState _).symm]
      simp
  | .prim c, cfg, sp => by
    right
    refine ⟨fun b => (if b then separator sp else []) ++ primText c, 0, none, fun p n => ?_⟩
    simp only [ArrayCall.run, PrimCall.run_text]
    simp [jsonEncoder.bufWriteString, sepText]
theorem runObjectCalls_local : ∀ (cs : List ObjectCall) (cfg : EncoderConfig) (sp : Bool),
    (∀ p n, runObjectCalls ⟨cfg, p, sp, n⟩ cs = none) ∨
      ∃ (T : Bool → List Nat) (k : Nat), ∀ p n,
        runObjectCalls ⟨cfg, p, sp, n⟩ cs = some ⟨cfg, p ++ T (needsSeparator p), sp, n + k⟩
  | [], cfg, sp => Or.inr ⟨fun _ => [], 0, fun p n => by simp [runObjectCalls]⟩
  | c :: cs, cfg, sp => by
    rcases objectCall_local c cfg sp with hn | ⟨key, er, rfl⟩ | ⟨v, -, -, k, err, h⟩
    · left
      intro p n
      simp only [runObjectCalls, hn]
    · rcases runObjectCalls_local cs cfg sp with hn2 | ⟨T2, k2, h2⟩
      · left
        intro p n
        simp only [runObjectCalls, ObjectCall.run, jsonEncoder.AddReflected,
          jsonEncoder.encodeReflected, hn2]
      · right
        refine ⟨T2, k2, fun p n => ?_⟩
        simp only [runObjectCalls, ObjectCall.run, jsonEncoder.AddReflected,
          jsonEncoder.encodeReflected, h2]
    · rcases runObjectCalls_local cs cfg sp with hn2 | ⟨T2, k2, h2⟩
      · left
        intro p n
        simp only [runObjectCalls, h, hn2]
      · right
        refine ⟨fun b => ((if b then separator sp else []) ++ quoted c.key ++ keyColon sp ++ v) ++
          T2 (needsSeparator (keyColon sp ++ v)), k + k2, fun p n => ?_⟩
        simp only [runObjectCalls, h, h2]
        have e : needsSeparator (p ++ (keyText sp p c.key ++ v)) =
            needsSeparator (keyColon sp ++ v) := by
          have : p ++ (keyText sp p c.key ++ v) =
              (p ++ sepText sp p ++ quoted c.key) ++ (keyColon sp ++ v) := by
            simp [keyText]
          rw [this]
          exact needsSeparator_append_ne_nil _ _ (by cases sp <;> simp [keyColon])
        rw [e]
        simp [keyText, sepText, Nat.add_assoc]
theorem runArrayCalls_local : ∀ (cs : List ArrayCall) (cfg : EncoderConfig) (sp : Bool),
    (∀ p n, runArrayCalls ⟨cfg, p, sp, n⟩ cs = none) ∨
      ∃ (T : Bool → List Nat) (k : Nat), ∀ p n,
        runArrayCalls ⟨cfg, p, sp, n⟩ cs = some ⟨cfg, p ++ T (needsSeparator p), sp, n + k⟩
  | [], cfg, sp => Or.inr ⟨fun _ => [], 0, fun p n => by simp [runArrayCalls]⟩
  | c :: cs, cfg, sp => by
    rcases arrayCall_local c cfg sp with hn | ⟨T, k, err, h⟩
    · left
      intro p n
      simp only [runArrayCalls, hn]
    · rcases runArrayCalls_local cs cfg sp with hn2 | ⟨T2, k2, h2⟩
      · left
        intro p n
        simp only [runArrayCalls, h, hn2]
      · right
        refine ⟨fun b => T b ++ T2 (needsSeparator (sepState b ++ T b)), k + k2, fun p n => ?_⟩
        simp only [runArrayCalls, h, h2]
        rw [needsSeparator_append_congr p (sepState (needsSeparator p)) _
          (needsSeparator_sepState _).symm]
        simp [Nat.add_assoc]
theorem marshalLogObject_local : ∀ (m : ObjectMarshaler) (cfg : EncoderConfig) (sp : Bool),
    (∀ p n, ObjectMarshaler.MarshalLogObject ⟨cfg, p, sp, n⟩ m = none) ∨
      ∃ (T : Bool → List Nat) (k : Nat) (err : Option Error), ∀ p n,
        ObjectMarshaler.MarshalLogObject ⟨cfg, p, sp, n⟩ m =
          some (⟨cfg, p ++ T (needsSeparator p), sp, n + k⟩, err)
  | .mk calls err0, cfg, sp => by
    rcases runObjectCalls_local calls cfg sp with hn | ⟨T, k, h⟩
    · left
      intro p n
      simp only [ObjectMarshaler.MarshalLogObject, hn]
    · right
      refine ⟨T, k, err0, fun p n => ?_⟩
      simp only [ObjectMarshaler.MarshalLogObject, h]
theorem marshalLogArray_local : ∀ (m : ArrayMarshaler) (cfg : EncoderConfig) (sp : Bool),
    (∀ p n, ArrayMarshaler.MarshalLogArray ⟨cfg, p, sp, n⟩ m = none) ∨
      ∃ (T : Bool → List Nat) (k : Nat) (err : Option Error), ∀ p n,
        ArrayMarshaler.MarshalLogArray ⟨cfg, p, sp, n⟩ m =
          some (⟨cfg, p ++ T (needsSeparator p), sp, n + k⟩, err)
  | .mk calls err0, cfg, sp => by
    rcases runArrayCalls_local calls cfg sp with hn | ⟨T, k, h⟩
    · left
      intro p n
      simp only [ArrayMarshaler.MarshalLogArray, hn]
    · right
      refine ⟨T, k, err0, fun p n => ?_⟩
      simp only [ArrayMarshaler.MarshalLogArray, h]
end

/-! ## Calls one after the other -/

theorem keyText_nil (sp : Bool) (key : List Nat) :
    keyText sp [] key = quoted key ++ keyColon sp := by
  simp [keyText, sepText, needsSeparator]

theorem pair_ne_nil (sp : Bool) (key v : List Nat) : quoted key ++ keyColon sp ++ v ≠ [] := by
  simp [quoted]

/-- A call panics wherever it is made; or it is an `AddReflected` of a value the
reflection encoder fails on, and writes nothing; or it writes, after the separator the
buffer calls for, the pair it writes when made alone: its key, the colon and its value,
which do not depend on the buffer. -/
theorem pairAlone_spec (c : ObjectCall) (cfg : EncoderConfig) (sp : Bool) :
    (c.pairAlone cfg sp = none ∧ ∀ p n, ObjectCall.run ⟨cfg, p, sp, n⟩ c = none) ∨
      ((∃ key er, c = .AddReflected key (some (.fails er))) ∧ c.pairAlone cfg sp = some [] ∧
        c.valueAlone cfg sp = none ∧
        ∃ err, ∀ p n, ObjectCall.run ⟨cfg, p, sp, n⟩ c = some (⟨cfg, p, sp, n⟩, err)) ∨
      ∃ v, c.valueAlone cfg sp = some v ∧
        (v = [] → ∃ key w, c = .AddReflected key (some (.encodes w))) ∧
        c.pairAlone cfg sp = some (quoted c.key ++ keyColon sp ++ v) ∧
        ∃ k err, ∀ p n, ObjectCall.run ⟨cfg, p, sp, n⟩ c =
          some (⟨cfg, p ++ (sepText sp p ++ (quoted c.key ++ keyColon sp ++ v)), sp, n + k⟩, err) := by
  rcases objectCall_local c cfg sp with hn | ⟨key, er, rfl⟩ | ⟨v, hv, hne, k, err, h⟩
  · left
    exact ⟨by simp [ObjectCall.pairAlone, newJSONEncoder, hn], hn⟩
  · right; left
    refine ⟨⟨key, er, rfl⟩, rfl, rfl, some er, fun p n => rfl⟩
  · right; right
    refine ⟨v, hv, hne, ?_, k, err, fun p n => ?_⟩
    · simp [ObjectCall.pairAlone, newJSONEncoder, h, keyText_nil]
    · rw [h]
      simp [keyText]

/-- When each call of a list returns when made alone, the list returns on every
encoder of the configuration and the mode, and it appends the pairs of the calls in the
order of the calls. -/
theorem runObjectCalls_joinPairs (cfg : EncoderConfig) (sp : Bool) :
    ∀ (cs : List ObjectCall) (ts : List (List Nat)) (p : List Nat) (n : Nat),
      cs.map (ObjectCall.pairAlone cfg sp) = ts.map some →
      ∃ k, runObjectCalls ⟨cfg, p, sp, n⟩ cs = some ⟨cfg, p ++ joinPairs sp p ts, sp, k⟩
  | [], ts, p, n, h => by
    cases ts with
    | nil => exact ⟨n, by simp [runObjectCalls, joinPairs]⟩
    | cons t ts => simp at h
  | c :: cs, ts, p, n, h => by
    cases ts with
    | nil => simp at h
    | cons t ts =>
      simp only [List.map_cons, List.cons.injEq] at h
      obtain ⟨ht, hts⟩ := h
      rcases pairAlone_spec c cfg sp with ⟨hn, -⟩ | ⟨-, h0, -, err, hr⟩ | ⟨v, -, -, hp, k, err, hr⟩
      · rw [hn] at ht
        cases ht
      · rw [h0] at ht
        cases ht
        obtain ⟨k, hk⟩ := runObjectCalls_joinPairs cfg sp cs ts p n hts
        exact ⟨k, by simp only [runObjectCalls, hr, hk, joinPairs, if_true]⟩
      · rw [hp] at ht
        cases ht
        obtain ⟨k2, hk⟩ := runObjectCalls_joinPairs cfg sp cs ts
          (p ++ (sepText sp p ++ (quoted c.key ++ keyColon sp ++ v))) (n + k) hts
        refine ⟨k2, ?_⟩
        simp only [runObjectCalls, hr, hk, joinPairs, pair_ne_nil, if_false]
        simp

/-- When a list of calls returns, each of its calls returns when made alone. -/
theorem runObjectCalls_pairAlone (cfg : EncoderConfig) (sp : Bool) :
    ∀ (cs : List ObjectCall) (p : List Nat) (n : Nat) (e : jsonEncoder),
      runObjectCalls ⟨cfg, p, sp, n⟩ cs = some e →
      ∃ ts : List (List Nat), cs.map (ObjectCall.pairAlone cfg sp) = ts.map some
  | [], _, _, _, _ => ⟨[], rfl⟩
  | c :: cs, p, n, e, h => by
    rcases pairAlone_spec c cfg sp with ⟨-, hn⟩ | ⟨-, h0, -, err, hr⟩ | ⟨v, -, -, hp, k, err, hr⟩
    · simp [runObjectCalls, hn] at h
    · simp only [runObjectCalls, hr] at h
      obtain ⟨ts, hts⟩ := runObjectCalls_pairAlone cfg sp cs p n e h
      exact ⟨[] :: ts, by simp [h0, hts]⟩
    · simp only [runObjectCalls, hr] at h
      obtain ⟨ts, hts⟩ := runObjectCalls_pairAlone cfg sp cs _ _ e h
      exact ⟨(quoted c.key ++ keyColon sp ++ v) :: ts, by simp [hp, hts]⟩

/-! ## The claims on escaping and separators -/

/-- C2: for every input string, `safeAddString` appends exactly the escaping of the
specification, read left to right: an ASCII byte from 0x20 on other than backslash
and double quote as it is, a backslash before a backslash or a double quote, the
escapes of newline, carriage return and tab, `\u00` and two lowercase hex digits for
any other byte below 0x20, the bytes of a well-formed multi-byte UTF-8 sequence
unchanged, and `�` for a single byte at which decoding fails, the escaping then
resuming at the next byte; nothing else of the encoder changes. -/
theorem safeAddString_appends_escapeSpec (enc : jsonEncoder) (s : List Nat) :
    enc.safeAddString s = { enc with buf := enc.buf ++ escapeSpec s } :=
  jsonEncoder.safeAddString_eq enc s

/-- C3: for every valid UTF-8 string `s`, the bytes `safeAddString` appends for `s`,
between two double quotes, are a JSON string literal whose decoded value is `s`, with
no raw byte below 0x20; `WriteString` writes that literal as a value and `addKey`
writes it as a key, followed by the colon. -/
theorem escaped_decodes (enc : jsonEncoder) (s : List Nat) (h : validUTF8 s = true) :
    jsonDecodeString ([34] ++ escaped s ++ [34]) = some s ∧
    (∀ c ∈ escaped s, 0x20 ≤ c) ∧
    enc.WriteString s = enc.addElementSeparator.bufWriteString ([34] ++ escaped s ++ [34]) ∧
    enc.addKey s = enc.addElementSeparator.bufWriteString
      ([34] ++ escaped s ++ [34] ++ keyColon enc.spaced) := by
  refine ⟨?_, ?_, ?_, ?_⟩
  · rw [jsonEncoder.escaped_eq]
    simpa [jsonDecodeString, escapeSpec] using unquote_escapeSpec s.length s (le_refl _) h
  · rw [jsonEncoder.escaped_eq]
    exact escapeSpec_ge s.length s (le_refl _)
  · simp [jsonEncoder.WriteString, jsonEncoder.safeAddString_eq, jsonEncoder.escaped_eq,
      jsonEncoder.bufWriteByte_eq]
  · cases hs : enc.spaced <;>
      simp [jsonEncoder.addKey, jsonEncoder.safeAddString_eq, jsonEncoder.escaped_eq,
        jsonEncoder.bufWriteByte_eq, keyColon, jsonEncoder.addElementSeparator_eq, hs]

/-- C3, at the string of a CJK character, a double quote, a newline, a control byte
and a backslash. -/
theorem escaped_decodes_witness :
    validUTF8 [0xE4, 0xBD, 0xA0, 34, 10, 1, 92] = true ∧
    jsonDecodeString ([34] ++ escaped [0xE4, 0xBD, 0xA0, 34, 10, 1, 92] ++ [34]) =
      some [0xE4, 0xBD, 0xA0, 34, 10, 1, 92] :=
  ⟨by decide, (escaped_decodes (newJSONEncoder zeroConfig false) _ (by decide)).1⟩

/-- C7: `addElementSeparator` appends a separator (a comma, and then a space in
spaced mode) if and only if the buffer is non-empty and its last byte is none of
`{`, `[`, `:`, `,` and space; in every other case it appends nothing and the
encoder is unchanged. -/
theorem addElementSeparator_iff_needed (enc : jsonEncoder) :
    enc.addElementSeparator =
      (if needsSeparator enc.buf then { enc with buf := enc.buf ++ separator enc.spaced }
       else enc) ∧
    0 < (separator enc.spaced).length ∧
    (needsSeparator enc.buf = true ↔
      ∃ l c, enc.buf = l ++ [c] ∧ c ≠ 123 ∧ c ≠ 91 ∧ c ≠ 58 ∧ c ≠ 44 ∧ c ≠ 32) := by
  refine ⟨?_, ?_, ?_⟩
  · rw [jsonEncoder.addElementSeparator_eq]
    cases needsSeparator enc.buf <;> simp [jsonEncoder.bufWriteString]
  · cases enc.spaced <;> simp [separator]
  · rcases List.eq_nil_or_concat enc.buf with h | ⟨l, c, h⟩
    · simp [needsSeparator, h]
    · rw [List.concat_eq_append] at h
      have hl : enc.buf.getLast? = some c := by simp [h]
      simp only [needsSeparator, hl, h]
      constructor
      · intro hn
        refine ⟨l, c, rfl, ?_⟩
        simpa [and_assoc] using hn
      · rintro ⟨l2, c2, he, hc⟩
        have : c = c2 := by
          have := congrArg List.getLast? he
          simpa using this
        subst this
        simpa [and_assoc] using hc

/-! ## The claims on the encoded entry -/

theorem addFields_append : ∀ (fs1 fs2 : List Field) (e : jsonEncoder),
    addFields e (fs1 ++ fs2) = (addFields e fs1).bind (fun e1 => addFields e1 fs2)
  | [], fs2, e => by simp [addFields]
  | f :: fs1, fs2, e => by
    simp only [List.cons_append, addFields]
    split
    · rfl
    · exact addFields_append fs1 fs2 _

/-- C4: the output of the JSON `EncodeEntry` is, in this order, `{`, the level pair,
the time pair, the logger-name pair (only for a non-empty logger name), the caller
pair (only for a defined caller), the message pair, the bytes accumulated in the
encoder, the per-call fields in the order given, one `}` per open namespace, the
stacktrace pair (only for a non-empty stack), `}` and the line ending (a newline when
`LineEnding` is empty); it panics exactly when the layout is undefined (a nil encoder
function is called, or a field panics). At level key `level`, message key `msg` and no
time key, `Info("hello", String("k","v"))` gives `{"level":"info","msg":"hello","k":"v"}`
and a newline. -/
theorem EncodeEntry_in_order (enc : jsonEncoder) (ent : Entry) (fields : List Field) :
    enc.EncodeEntry ent fields = (entryLayout enc ent fields).map (fun out => (out, none)) ∧
    (∀ (fs1 fs2 : List Field) (e : jsonEncoder),
      addFields e (fs1 ++ fs2) = (addFields e fs1).bind (fun e1 => addFields e1 fs2)) ∧
    (NewJSONEncoder basicConfig).EncodeEntry (entryOf InfoLevel (bytes "hello"))
        [.StringType (bytes "k") (bytes "v")] =
      some (bytes "\x7b\"level\":\"info\",\"msg\":\"hello\",\"k\":\"v\"\x7d\n", none) :=
  ⟨EncodeEntry_layout enc ent fields, addFields_append, by decide⟩

/-- C9: when the configured `EncodeDuration` function leaves the buffer length
unchanged, `AppendDuration` appends the base-10 integer of the nanoseconds, after a
separator when one is called for; when the function wrote at least one byte, nothing
further is appended; and the same holds of `AppendTime` with the configured
`EncodeTime` function. Each method reads its own function only, and calling a nil
function panics. -/
theorem AppendDuration_AppendTime_fallback (enc : jsonEncoder) (d t : Int) :
    (∀ fd : Int → List PrimCall, enc.cfg.EncodeDuration = some fd →
      enc.AppendDuration d =
        some (if (runPrims enc (fd d)).buf.length = enc.buf.length then
            enc.bufWriteString (sepText enc.spaced enc.buf ++ formatInt d)
          else runPrims enc (fd d))) ∧
    (∀ ft : Int → List PrimCall, enc.cfg.EncodeTime = some ft →
      enc.AppendTime t =
        some (if (runPrims enc (ft t)).buf.length = enc.buf.length then
            enc.bufWriteString (sepText enc.spaced enc.buf ++ formatInt t)
          else runPrims enc (ft t))) ∧
    (enc.cfg.EncodeDuration = none → enc.AppendDuration d = none) ∧
    (enc.cfg.EncodeTime = none → enc.AppendTime t = none) := by
  refine ⟨fun fd hd => ?_, fun ft ht => ?_, fun hd => ?_, fun ht => ?_⟩
  · unfold jsonEncoder.AppendDuration
    simp only [hd]
    by_cases h : enc.buf.length = (runPrims enc (fd d)).buf.length
    · have hnil := (runPrims_length_eq enc (fd d)).1 h
      simp [hnil, runPrims, jsonEncoder.WriteInt64_text]
    · have h2 : ¬ (runPrims enc (fd d)).buf.length = enc.buf.length := fun e => h e.symm
      simp [h, h2]
  · unfold jsonEncoder.AppendTime
    simp only [ht]
    by_cases h : enc.buf.length = (runPrims enc (ft t)).buf.length
    · have hnil := (runPrims_length_eq enc (ft t)).1 h
      simp [hnil, runPrims, jsonEncoder.WriteInt64_text]
    · have h2 : ¬ (runPrims enc (ft t)).buf.length = enc.buf.length := fun e => h e.symm
      simp [h, h2]
  · unfold jsonEncoder.AppendDuration
    simp only [hd]
  · unfold jsonEncoder.AppendTime
    simp only [ht]

/-- C9, at a duration of 1.5 seconds and a time of 7 nanoseconds: the no-op duration
encoder falls back to `1500000000`, the time encoder's string is kept as it is; and
at an encoder whose time function is nil and whose duration function writes nothing,
where the duration still falls back. -/
theorem AppendDuration_AppendTime_fallback_witness :
    (fallbackExample.AppendDuration 1500000000).map (fun e => e.buf) =
      some (bytes "\"d\":1500000000") ∧
    (fallbackExample.AppendTime 7).map (fun e => e.buf) = some (bytes "\"d\":\"now\"") ∧
    (durationOnlyExample.AppendDuration 1500000000).map (fun e => e.buf) =
      some (bytes "\"d\":1500000000") ∧
    (durationOnlyExample.AppendTime 7).map (fun e => e.buf) = none := by
  have h := AppendDuration_AppendTime_fallback fallbackExample 1500000000 7
  have g := AppendDuration_AppendTime_fallback durationOnlyExample 1500000000 7
  rw [h.1 noop rfl, h.2.1 (fun _ => [.WriteString (bytes "now")]) rfl, g.1 noop rfl,
    g.2.2.2 rfl]
  refine ⟨?_, ?_, ?_, rfl⟩ <;> decide

/-- C5: in the JSON and in the console `EncodeEntry`, when the key of an element (level,
time, logger name, caller, message, stacktrace) is the empty string, the block of that
element leaves the encoder (or the line) as it is, whatever the entry holds and even
when the encoder function is nil, and the encoded entry does not depend on that
element of the entry. A JSON encoder built from the zero-value configuration encodes
every entry with no fields as `{}` and a newline. -/
theorem empty_key_suppresses (fmtNum : PrimCall → List Nat) (enc final : jsonEncoder)
    (c : consoleEncoder) (arr : sliceArrayEncoder) (line : List Nat) (ent ent2 : Entry)
    (fields : List Field) :
    (final.cfg.LevelKey = [] → final.entryLevel ent = some final) ∧
    (final.cfg.TimeKey = [] → final.entryTime ent = some final) ∧
    (final.cfg.NameKey = [] → final.entryName ent = final) ∧
    (final.cfg.CallerKey = [] → final.entryCaller ent = some final) ∧
    (final.cfg.MessageKey = [] → jsonEncoder.entryMessage enc final ent = final) ∧
    (final.cfg.StacktraceKey = [] → final.entryStack ent = final) ∧
    (c.jsonEncoder.cfg.TimeKey = [] → c.timeElems arr ent = arr) ∧
    (c.jsonEncoder.cfg.LevelKey = [] → c.levelElems arr ent = arr) ∧
    (c.jsonEncoder.cfg.NameKey = [] → c.nameElems arr ent = arr) ∧
    (c.jsonEncoder.cfg.CallerKey = [] → c.callerElems arr ent = arr) ∧
    (c.jsonEncoder.cfg.MessageKey = [] → c.messageLine line ent = line) ∧
    (c.jsonEncoder.cfg.StacktraceKey = [] → c.stackLine line ent = line) ∧
    (enc.cfg.LevelKey = [] →
      enc.EncodeEntry { ent with Level := ent2.Level } fields = enc.EncodeEntry ent fields) ∧
    (enc.cfg.TimeKey = [] →
      enc.EncodeEntry { ent with Time := ent2.Time } fields = enc.EncodeEntry ent fields) ∧
    (enc.cfg.NameKey = [] →
      enc.EncodeEntry { ent with LoggerName := ent2.LoggerName } fields =
        enc.EncodeEntry ent fields) ∧
    (enc.cfg.CallerKey = [] →
      enc.EncodeEntry { ent with Caller := ent2.Caller } fields = enc.EncodeEntry ent fields) ∧
    (enc.cfg.MessageKey = [] →
      enc.EncodeEntry { ent with Message := ent2.Message } fields =
        enc.EncodeEntry ent fields) ∧
    (enc.cfg.StacktraceKey = [] →
      enc.EncodeEntry { ent with Stack := ent2.Stack } fields = enc.EncodeEntry ent fields) ∧
    (c.jsonEncoder.cfg.LevelKey = [] →
      c.EncodeEntry fmtNum { ent with Level := ent2.Level } fields =
        c.EncodeEntry fmtNum ent fields) ∧
    (c.jsonEncoder.cfg.TimeKey = [] →
      c.EncodeEntry fmtNum { ent with Time := ent2.Time } fields =
        c.EncodeEntry fmtNum ent fields) ∧
    (c.jsonEncoder.cfg.NameKey = [] →
      c.EncodeEntry fmtNum { ent with LoggerName := ent2.LoggerName } fields =
        c.EncodeEntry fmtNum ent fields) ∧
    (c.jsonEncoder.cfg.CallerKey = [] →
      c.EncodeEntry fmtNum { ent with Caller := ent2.Caller } fields =
        c.EncodeEntry fmtNum ent fields) ∧
    (c.jsonEncoder.cfg.MessageKey = [] →
      c.EncodeEntry fmtNum { ent with Message := ent2.Message } fields =
        c.EncodeEntry fmtNum ent fields) ∧
    (c.jsonEncoder.cfg.StacktraceKey = [] →
      c.EncodeEntry fmtNum { ent with Stack := ent2.Stack } fields =
        c.EncodeEntry fmtNum ent fields) ∧
    (NewJSONEncoder zeroConfig).EncodeEntry ent [] = some ([123, 125, 10], none) := by
  refine ⟨?_, ?_, ?_, ?_, ?_, ?_, ?_, ?_, ?_, ?_, ?_, ?_, ?_, ?_, ?_, ?_, ?_, ?_, ?_, ?_, ?_,
    ?_, ?_, ?_, ?_⟩
  · intro h; simp [jsonEncoder.entryLevel, h]
  · intro h; simp [jsonEncoder.entryTime, h]
  · intro h; simp [jsonEncoder.entryName, h]
  · intro h; simp [jsonEncoder.entryCaller, h]
  · intro h; simp [jsonEncoder.entryMessage, h]
  · intro h; simp [jsonEncoder.entryStack, h]
  · intro h; simp [consoleEncoder.timeElems, h]
  · intro h; simp [consoleEncoder.levelElems, h]
  · intro h; simp [consoleEncoder.nameElems, h]
  · intro h; simp [consoleEncoder.callerElems, h]
  · intro h; simp [consoleEncoder.messageLine, h]
  · intro h; simp [consoleEncoder.stackLine, h]
  · intro h
    simp only [EncodeEntry_layout, entryLayout, levelText, h, if_true]
    rfl
  · intro h
    simp only [EncodeEntry_layout, entryLayout, timeText, h, if_true]
    rfl
  · intro h
    simp only [EncodeEntry_layout, entryLayout, nameText, h, or_true, if_true]
    rfl
  · intro h
    simp only [EncodeEntry_layout, entryLayout, callerText, h, or_true, if_true]
    rfl
  · intro h
    simp only [EncodeEntry_layout, entryLayout, messageText, h, if_true]
    rfl
  · intro h
    simp only [EncodeEntry_layout, entryLayout, stackText, h, or_true, if_true]
    rfl
  · intro h
    simp only [consoleEncoder.EncodeEntry, consoleEncoder.levelElems, h, ne_eq, not_true,
      if_false]
    rfl
  · intro h
    simp only [consoleEncoder.EncodeEntry, consoleEncoder.timeElems, h, ne_eq, not_true,
      if_false]
    rfl
  · intro h
    simp only [consoleEncoder.EncodeEntry, consoleEncoder.nameElems, h, ne_eq, not_true,
      and_false, if_false]
    rfl
  · intro h
    simp only [consoleEncoder.EncodeEntry, consoleEncoder.callerElems, h, ne_eq, not_true,
      and_false, if_false]
    rfl
  · intro h
    simp only [consoleEncoder.EncodeEntry, consoleEncoder.messageLine, h, ne_eq, not_true,
      if_false]
    rfl
  · intro h
    simp only [consoleEncoder.EncodeEntry, consoleEncoder.stackLine, h, ne_eq, not_true,
      and_false, if_false]
    rfl
  · simp [jsonEncoder.EncodeEntry, NewJSONEncoder, newJSONEncoder, zeroConfig,
      jsonEncoder.entryLevel, jsonEncoder.entryTime, jsonEncoder.entryName,
      jsonEncoder.entryCaller, jsonEncoder.entryMessage, jsonEncoder.entryContext,
      jsonEncoder.entryStack, jsonEncoder.entryLineEnding, jsonEncoder.clone, addFields,
      jsonEncoder.closeOpenNamespaces, jsonEncoder.closeOpenNamespacesLoop,
      jsonEncoder.bufWriteByte, jsonEncoder.bufWriteString, DefaultLineEnding]

/-! ## The claims on separators, fallbacks and namespaces -/

theorem console_context_example (cfg : EncoderConfig) :
    (NewConsoleEncoder cfg).writeContext []
        [.StringType (bytes "k") (bytes "v"), .IntType (bytes "a") 1] =
      some (bytes "\x7b\"k\": \"v\", \"a\": 1\x7d") := by
  have e1 : escapeSpec [107] = [107] := by decide
  have e2 : escapeSpec [118] = [118] := by decide
  have e3 : escapeSpec [97] = [97] := by decide
  have b1 : bytes "k" = [107] := by decide
  have b2 : bytes "v" = [118] := by decide
  have b3 : bytes "a" = [97] := by decide
  have f1 : formatInt 1 = [49] := by decide
  have r : bytes "\x7b\"k\": \"v\", \"a\": 1\x7d" =
    [123, 34, 107, 34, 58, 32, 34, 118, 34, 44, 32, 34, 97, 34, 58, 32, 49, 125] := by decide
  simp [consoleEncoder.writeContext, NewConsoleEncoder, newJSONEncoder, jsonEncoder.Clone,
    jsonEncoder.clone, addFields, Field.AddTo, jsonEncoder.AddString, jsonEncoder.AddInt64,
    jsonEncoder.addKey_text, jsonEncoder.WriteString_text, jsonEncoder.WriteInt64_text,
    jsonEncoder.closeOpenNamespaces_text, keyText, quoted, sepText, needsSeparator, keyColon,
    separator, e1, e2, e3, b1, b2, b3, f1, r, consoleEncoder.addTabIfNecessary]

theorem OpenNamespace_text (enc : jsonEncoder) (key : List Nat) :
    enc.OpenNamespace key =
      { enc with buf := enc.buf ++ (keyText enc.spaced enc.buf key ++ [123]),
                 openNamespaces := enc.openNamespaces + 1 } := by
  simp [jsonEncoder.OpenNamespace, jsonEncoder.addKey_text, jsonEncoder.bufWriteByte_eq,
    jsonEncoder.bufWriteString]

/-- C8: in spaced mode the separator is a comma and one space and a key is followed
by a colon and one space; otherwise the separator is a single comma and the key is
followed by a colon only. `NewJSONEncoder` builds a non-spaced encoder and
`NewConsoleEncoder` a spaced one, so the console context of `String("k","v")`,
`Int("a",1)` is rendered as `"k": "v", "a": 1`. -/
theorem spaced_mode_layout (cfg : EncoderConfig) (enc : jsonEncoder) (key : List Nat) :
    enc.addElementSeparator =
      (if needsSeparator enc.buf then
        enc.bufWriteString (if enc.spaced then [44, 32] else [44])
       else enc) ∧
    enc.addKey key = enc.addElementSeparator.bufWriteString
      ([34] ++ escaped key ++ [34] ++ (if enc.spaced then [58, 32] else [58])) ∧
    (NewJSONEncoder cfg).spaced = false ∧
    (NewConsoleEncoder cfg).jsonEncoder.spaced = true ∧
    (NewConsoleEncoder cfg).writeContext []
        [.StringType (bytes "k") (bytes "v"), .IntType (bytes "a") 1] =
      some (bytes "\x7b\"k\": \"v\", \"a\": 1\x7d") := by
  refine ⟨?_, ?_, rfl, rfl, ?_⟩
  · rw [jsonEncoder.addElementSeparator_eq]
    cases needsSeparator enc.buf <;> simp [separator]
  · cases hs : enc.spaced <;>
      simp [jsonEncoder.addKey, jsonEncoder.safeAddString_eq, jsonEncoder.escaped_eq,
        jsonEncoder.bufWriteByte_eq, jsonEncoder.addElementSeparator_eq, hs]
  · exact console_context_example cfg

/-- C10: in the JSON `EncodeEntry`, when the configured `EncodeLevel`, `EncodeName` or
`EncodeCaller` function writes nothing (the buffer length is unchanged) for an element
whose key is non-empty, the value is written as a quoted, escaped string: the level's
`String()`, the logger name, the caller's `String()`; when `EncodeName` is nil the
`FullNameEncoder` is used in its place; and whenever the block of a non-empty key
returns, the key is followed by a non-empty value. With every encoder function
writing nothing the entry at level warn is
`{"level":"warn","ts":1700000000000000000,"logger":"main","caller":"a.go:3","msg":"m","stack":"s"}`. -/
theorem entry_fallbacks (final : jsonEncoder) (ent : Entry) (fl : Level → List PrimCall)
    (fn : List Nat → List PrimCall) (fc : EntryCaller → List PrimCall) :
    (final.cfg.LevelKey ≠ [] → final.cfg.EncodeLevel = some fl →
      (runPrims (final.addKey final.cfg.LevelKey) (fl ent.Level)).buf.length =
        (final.addKey final.cfg.LevelKey).buf.length →
      final.entryLevel ent = some (final.bufWriteString
        (keyText final.spaced final.buf final.cfg.LevelKey ++ quoted ent.Level.String))) ∧
    (ent.LoggerName ≠ [] → final.cfg.NameKey ≠ [] → final.cfg.EncodeName = some fn →
      (runPrims (final.addKey final.cfg.NameKey) (fn ent.LoggerName)).buf.length =
        (final.addKey final.cfg.NameKey).buf.length →
      final.entryName ent = final.bufWriteString
        (keyText final.spaced final.buf final.cfg.NameKey ++ quoted ent.LoggerName)) ∧
    (ent.LoggerName ≠ [] → final.cfg.NameKey ≠ [] → final.cfg.EncodeName = none →
      final.entryName ent =
        runPrims (final.addKey final.cfg.NameKey) (FullNameEncoder ent.LoggerName) ∧
      final.entryName ent = final.bufWriteString
        (keyText final.spaced final.buf final.cfg.NameKey ++ quoted ent.LoggerName)) ∧
    (ent.Caller.Defined = true → final.cfg.CallerKey ≠ [] → final.cfg.EncodeCaller = some fc →
      (runPrims (final.addKey final.cfg.CallerKey) (fc ent.Caller)).buf.length =
        (final.addKey final.cfg.CallerKey).buf.length →
      final.entryCaller ent = some (final.bufWriteString
        (keyText final.spaced final.buf final.cfg.CallerKey ++ quoted ent.Caller.String))) ∧
    (final.cfg.LevelKey ≠ [] → ∀ e, final.entryLevel ent = some e →
      ∃ v, v ≠ [] ∧ e = final.bufWriteString
        (keyText final.spaced final.buf final.cfg.LevelKey ++ v)) ∧
    (ent.LoggerName ≠ [] → final.cfg.NameKey ≠ [] →
      ∃ v, v ≠ [] ∧ final.entryName ent = final.bufWriteString
        (keyText final.spaced final.buf final.cfg.NameKey ++ v)) ∧
    (ent.Caller.Defined = true → final.cfg.CallerKey ≠ [] → ∀ e, final.entryCaller ent = some e →
      ∃ v, v ≠ [] ∧ e = final.bufWriteString
        (keyText final.spaced final.buf final.cfg.CallerKey ++ v)) ∧
    (NewJSONEncoder noopConfig).EncodeEntry fullEntry [] =
      some (bytes ("\x7b\"level\":\"warn\",\"ts\":1700000000000000000,\"logger\":\"main\"," ++
        "\"caller\":\"a.go:3\",\"msg\":\"m\",\"stack\":\"s\"\x7d\n"), none) := by
  have hv : ∀ (sp : Bool) (p k : List Nat) (cs : List PrimCall) (fb : List Nat), fb ≠ [] →
      ∃ v, v ≠ [] ∧ pairText sp p k cs fb = keyText sp p k ++ v := by
    intro sp p k cs fb hfb
    cases cs with
    | nil => exact ⟨fb, hfb, rfl⟩
    | cons c cs => exact ⟨_, primsText_cons_ne_nil sp _ c cs, rfl⟩
  have hq : ∀ s : List Nat, quoted s ≠ [] := by intro s; simp [quoted]
  refine ⟨?_, ?_, ?_, ?_, ?_, ?_, ?_, ?_⟩
  · intro hk hf hlen
    have hnil := (runPrims_length_eq _ _).1 hlen.symm
    simp [jsonEncoder.entryLevel_text, levelText, hk, hf, hnil, pairText]
  · intro hn hk hf hlen
    have hnil := (runPrims_length_eq _ _).1 hlen.symm
    simp [jsonEncoder.entryName_text, nameText, hn, hk, hf, hnil, pairText]
  · intro hn hk hf
    constructor
    · rw [jsonEncoder.entryName_text, runPrims_text]
      simp [nameText, hn, hk, hf, pairText, FullNameEncoder, jsonEncoder.addKey_text]
    · simp [jsonEncoder.entryName_text, nameText, hn, hk, hf, pairText, FullNameEncoder,
        primsText, primText, sepText_keyText]
  · intro hd hk hf hlen
    have hnil := (runPrims_length_eq _ _).1 hlen.symm
    simp [jsonEncoder.entryCaller_text, callerText, hd, hk, hf, hnil, pairText]
  · intro hk e he
    rw [jsonEncoder.entryLevel_text] at he
    simp only [levelText, hk, if_false] at he
    cases hf : final.cfg.EncodeLevel with
    | none => simp [hf] at he
    | some f =>
      simp only [hf, Option.map_some', Option.some.injEq] at he
      obtain ⟨v, hv1, hv2⟩ := hv final.spaced final.buf final.cfg.LevelKey (f ent.Level) _
        (hq ent.Level.String)
      exact ⟨v, hv1, by rw [← he, hv2]⟩
  · intro hn hk
    rw [jsonEncoder.entryName_text]
    have : ¬ (ent.LoggerName = [] ∨ final.cfg.NameKey = []) := by tauto
    simp only [nameText, this, if_false]
    cases final.cfg.EncodeName with
    | none =>
      obtain ⟨v, hv1, hv2⟩ := hv final.spaced final.buf final.cfg.NameKey
        (FullNameEncoder ent.LoggerName) _ (hq ent.LoggerName)
      exact ⟨v, hv1, by rw [← hv2]⟩
    | some f =>
      obtain ⟨v, hv1, hv2⟩ := hv final.spaced final.buf final.cfg.NameKey
        (f ent.LoggerName) _ (hq ent.LoggerName)
      exact ⟨v, hv1, by rw [← hv2]⟩
  · intro hd hk e he
    rw [jsonEncoder.entryCaller_text] at he
    have : ¬ (ent.Caller.Defined = false ∨ final.cfg.CallerKey = []) := by simp [hd, hk]
    simp only [callerText, this, if_false] at he
    cases hf : final.cfg.EncodeCaller with
    | none => simp [hf] at he
    | some f =>
      simp only [hf, Option.map_some', Option.some.injEq] at he
      obtain ⟨v, hv1, hv2⟩ := hv final.spaced final.buf final.cfg.CallerKey (f ent.Caller) _
        (hq ent.Caller.String)
      exact ⟨v, hv1, by rw [← he, hv2]⟩
  · decide

/-- C6: `OpenNamespace(key)` appends the key (after a separator when one is called for),
the colon and `{`, and increases the open-namespace count by one; for fields none of
whose marshalers calls `OpenNamespace`, the number of `}` that `EncodeEntry` writes
after the fields is the `n` of the encoder plus the number `m` of namespace fields,
and `Info("m", Namespace("ns"), Int("x",1))` contains `"ns":{"x":1}`. At the fields
`Object("o", obj)`, `Int("y",1)`, where `obj` opens the namespace `x`, there is no
namespace field and no namespace in the context, yet the count after the fields is 1
and not 0: the `}` of `AppendObject` closes `x`, and `y` is written inside `o`. -/
theorem namespaces_closed (enc : jsonEncoder) (key : List Nat) (fields : List Field) :
    enc.OpenNamespace key =
      { enc with buf := enc.buf ++ (keyText enc.spaced enc.buf key ++ [123]),
                 openNamespaces := enc.openNamespaces + 1 } ∧
    ((∀ f ∈ fields, f.marshalerOpened = 0) → ∀ p flds opened,
      fieldsText enc.cfg enc.spaced enc.openNamespaces p fields = some (flds, opened) →
        opened = enc.openNamespaces + countNamespaces fields) ∧
    (NewJSONEncoder messageOnlyConfig).EncodeEntry (entryOf InfoLevel (bytes "m"))
        [.NamespaceType (bytes "ns"), .IntType (bytes "x") 1] =
      some (bytes "\x7b\"msg\":\"m\",\"ns\":\x7b\"x\":1\x7d\x7d\n", none) ∧
    countNamespaces [.ObjectMarshalerType (bytes "o") openingMarshaler, .IntType (bytes "y") 1]
      = 0 ∧
    fieldsText messageOnlyConfig false 0 (bytes "\x7b\"msg\":\"m\"")
        [.ObjectMarshalerType (bytes "o") openingMarshaler, .IntType (bytes "y") 1] =
      some (bytes ",\"o\":\x7b\"x\":\x7b\x7d,\"y\":1", 1) ∧
    (NewJSONEncoder messageOnlyConfig).EncodeEntry (entryOf InfoLevel (bytes "m"))
        [.ObjectMarshalerType (bytes "o") openingMarshaler, .IntType (bytes "y") 1] =
      some (bytes "\x7b\"msg\":\"m\",\"o\":\x7b\"x\":\x7b\x7d,\"y\":1\x7d\x7d\n", none) := by
  refine ⟨OpenNamespace_text enc key, ?_, by decide, by decide, by decide, by decide⟩
  intro hm p flds opened h
  simp only [fieldsText, Option.map_eq_some', Prod.mk.injEq] at h
  obtain ⟨e, he, _, rfl⟩ := h
  have := addFields_opened fields _ _ he
  have hz : (fields.map Field.marshalerOpened).sum = 0 := by
    apply List.sum_eq_zero
    intro x hx
    obtain ⟨f, hf, rfl⟩ := List.mem_map.1 hx
    exact hm f hf
  simpa [hz] using this

/-! ## The encoded entry is a JSON object -/

/-- C1, counterexample: with a level encoder that writes two strings the entry is
`{"level":"a","b"}`, which is not a JSON object. -/
theorem two_values_not_json :
    (NewJSONEncoder twoValueConfig).EncodeEntry (entryOf InfoLevel []) [] =
        some (bytes "\x7b\"level\":\"a\",\"b\"\x7d\n", none) ∧
      validJSONObject (bytes "\x7b\"level\":\"a\",\"b\"\x7d") = false := by
  decide

/-- An object in an array whose marshaler opens a namespace: the array is closed
while the object is still open, and the entry is not a JSON object. -/
theorem namespace_in_array_not_json :
    (NewJSONEncoder messageOnlyConfig).EncodeEntry (entryOf InfoLevel (bytes "m"))
        [.ArrayMarshalerType (bytes "a") openingArray] =
        some (bytes "\x7b\"msg\":\"m\",\"a\":[\x7b\"x\":\x7b\x7d]\x7d\x7d\n", none) ∧
      validJSONObject (bytes "\x7b\"msg\":\"m\",\"a\":[\x7b\"x\":\x7b\x7d]\x7d\x7d") = false := by
  decide

/-- C1 (amended): for every JSON encoder reached from `NewJSONEncoder` by calls that
are `OpenNamespace` or well behaved (their marshalers open no namespace, their
reflected values are encoded as JSON), every entry and all fields that are acceptable
in the same sense, when every encoder function of the configuration writes at most
one value (in particular when it writes nothing), the bytes `EncodeEntry` returns are
one JSON object followed by the line ending. -/
theorem EncodeEntry_valid_json (cfg : EncoderConfig) (cs : List ObjectCall) (enc : jsonEncoder)
    (ent : Entry) (fields : List Field) (out : List Nat) (err : Option Error)
    (hcfg : cfg.singleValued)
    (hcs : ∀ c ∈ cs, ObjectCall.acceptable c = true)
    (hfs : ∀ f ∈ fields, Field.acceptable f = true)
    (henc : runObjectCalls (NewJSONEncoder cfg) cs = some enc)
    (hout : enc.EncodeEntry ent fields = some (out, err)) :
    ∃ body, out = body ++ lineEndingText cfg ∧ validJSONObject body = true := by
  rw [EncodeEntry_layout] at hout
  simp only [Option.map_eq_some', Prod.mk.injEq] at hout
  obtain ⟨o, ho, rfl, _⟩ := hout
  exact entryLayout_valid cfg cs enc ent fields o hcfg hcs hfs henc ho

set_option maxRecDepth 100000 in
/-- The amended C1 at a context with an open namespace, an entry with every element
set, fields of several kinds and encoder functions that write nothing. -/
theorem EncodeEntry_valid_json_witness :
    ∃ body,
      bytes ("\x7b\"level\":\"warn\",\"ts\":1700000000000000000,\"logger\":\"main\"," ++
          "\"caller\":\"a.go:3\",\"msg\":\"m\",\"k\":\"v\",\"ns\":\x7b\"n\":-3," ++
          "\"o\":\x7b\"b\":true\x7d,\"a\":[7,\x7b\x7d],\"r\":null," ++
          "\"in\":\x7b\"f\":\"NaN\"\x7d\x7d,\"stack\":\"s\"\x7d\n") =
        body ++ lineEndingText noopConfig ∧ validJSONObject body = true :=
  EncodeEntry_valid_json noopConfig contextCalls contextEncoder fullEntry sampleFields _ none
    (by simp [EncoderConfig.singleValued, noopConfig, noop]) (by decide) (by decide) rfl
    (by decide)

/-! ## Errors, floats and byte strings -/

/-- C11, counterexample: the object marshaler of the field returns an error, which
`AddObject` returns, and `EncodeEntry` returns a nil error. -/
theorem marshaler_error_not_returned :
    ((NewJSONEncoder messageOnlyConfig).AddObject (bytes "o") failingMarshaler).map Prod.snd =
        some (some (bytes "boom")) ∧
      ((NewJSONEncoder messageOnlyConfig).EncodeEntry (entryOf InfoLevel (bytes "m"))
        [.ObjectMarshalerType (bytes "o") failingMarshaler]).map Prod.snd = some none := by
  decide

/-- C11 (amended): the error a user-supplied marshaler returns is returned by
`AppendArray` and `AppendObject` (so by `AddArray` and `AddObject`), after the closing
bracket has been written; the JSON `EncodeEntry` does not propagate it: whenever it
returns, its error is nil. -/
theorem EncodeEntry_error_nil (enc : jsonEncoder) (ent : Entry) (fields : List Field)
    (key : List Nat) (acalls : List ArrayCall) (ocalls : List ObjectCall) (err : Option Error) :
    enc.AppendArray (.mk acalls err) =
        (runArrayCalls (enc.addElementSeparator.bufWriteByte 91) acalls).map
          (fun e => (e.bufWriteByte 93, err)) ∧
      enc.AppendObject (.mk ocalls err) =
        (runObjectCalls (enc.addElementSeparator.bufWriteByte 123) ocalls).map
          (fun e => (e.bufWriteByte 125, err)) ∧
      enc.AddArray key (.mk acalls err) = (enc.addKey key).AppendArray (.mk acalls err) ∧
      enc.AddObject key (.mk ocalls err) = (enc.addKey key).AppendObject (.mk ocalls err) ∧
      (enc.EncodeEntry ent fields).map Prod.snd =
        (enc.EncodeEntry ent fields).map (fun _ => none) := by
  refine ⟨?_, ?_, rfl, rfl, ?_⟩
  · simp only [jsonEncoder.AppendArray, ArrayMarshaler.MarshalLogArray]
    cases runArrayCalls (enc.addElementSeparator.bufWriteByte 91) acalls <;> rfl
  · simp only [jsonEncoder.AppendObject, ObjectMarshaler.MarshalLogObject]
    cases runObjectCalls (enc.addElementSeparator.bufWriteByte 123) ocalls <;> rfl
  · rw [EncodeEntry_layout]
    cases entryLayout enc ent fields <;> rfl

/-- C12: `WriteFloat64` and `WriteFloat32` (and so `AddFloat64` and `AddFloat32`) write,
after the separator, NaN as `"NaN"`, positive infinity as `"+Inf"` and negative
infinity as `"-Inf"`, the double quotes included, and a finite value as the bare text
of the number: a JSON number with no double quote in it. -/
theorem float_text (enc : jsonEncoder) (key : List Nat) (v : GoFloat) (neg : Bool)
    (whole : Nat) (frac : List (Fin 10)) (bits : Nat) :
    enc.appendFloat .nan bits = enc.addElementSeparator.bufWriteString (bytes "\"NaN\"") ∧
      enc.appendFloat .posInf bits =
        enc.addElementSeparator.bufWriteString (bytes "\"+Inf\"") ∧
      enc.appendFloat .negInf bits =
        enc.addElementSeparator.bufWriteString (bytes "\"-Inf\"") ∧
      enc.appendFloat (.finite neg whole frac) bits =
        enc.addElementSeparator.bufWriteString (formatFloat (.finite neg whole frac) bits) ∧
      34 ∉ formatFloat (.finite neg whole frac) bits ∧
      validJSON (formatFloat (.finite neg whole frac) bits) = true ∧
      (∃ d, (formatFloat (.finite neg whole frac) bits).getLast? = some d ∧ isDigit d = true) ∧
      enc.WriteFloat64 v = enc.appendFloat v 64 ∧
      enc.WriteFloat32 v = enc.appendFloat v 32 ∧
      enc.AddFloat64 key v = (enc.addKey key).WriteFloat64 v ∧
      enc.AddFloat32 key v = enc.AddFloat64 key v := by
  refine ⟨rfl, rfl, rfl, rfl, ?_, ?_, finite_last neg whole frac, rfl, rfl, rfl, rfl⟩
  · intro h
    exact (formatFloat_plain _ bits 34 h).1 rfl
  · obtain ⟨_, hscan⟩ := valueText_floatText (.finite neg whole frac) bits
    obtain ⟨m, hm, hr, _⟩ := hscan []
    have hr2 : run ⟨.value, []⟩ (formatFloat (.finite neg whole frac) bits) = some ⟨m, []⟩ := hr
    unfold validJSON
    rw [hr2]
    simp [hm]

/-- C15: `safeAddByteString` appends the same bytes as `safeAddString` on the string of
the same bytes, namely the escaped bytes of the whole input; hence `WriteByteString`
and `WriteString`, and `AddByteString` and `AddString`, append the same output. -/
theorem safeAddByteString_same (enc : jsonEncoder) (key b : List Nat) :
    enc.safeAddByteString b = enc.safeAddString b ∧
      enc.safeAddByteString b = enc.bufWriteString (escapeSpec b) ∧
      enc.WriteByteString b = enc.WriteString b ∧
      enc.AddByteString key b = enc.AddString key b := by
  have h : ∀ e : jsonEncoder, e.safeAddByteString b = e.safeAddString b := fun e => by
    rw [jsonEncoder.safeAddByteString_eq, jsonEncoder.safeAddString_eq]
  refine ⟨h enc, jsonEncoder.safeAddByteString_eq enc b, ?_, ?_⟩
  · simp only [jsonEncoder.WriteByteString, jsonEncoder.WriteString, h]
  · simp only [jsonEncoder.AddByteString, jsonEncoder.AddString, jsonEncoder.WriteByteString,
      jsonEncoder.WriteString, h]

/-! ## The claims on the console encoder -/

/-- C16: the line of the console `EncodeEntry` is the values emitted by the time,
level, logger-name and caller encoder functions, in that order, printed unquoted and
joined by single TABs; then, when `MessageKey` is not empty, a TAB if and only if the
line is not empty so far, and the raw message; then the context block; then, when the
stack and `StacktraceKey` are not empty, a newline and the stack; then `LineEnding`,
or a newline when it is empty. -/
theorem console_line_layout (fmtNum : PrimCall → List Nat) (c : consoleEncoder)
    (ent : Entry) (fields : List Field) :
    c.EncodeEntry fmtNum ent fields =
        (consoleLayout fmtNum c ent fields).map (fun line => (line, none)) ∧
      consoleEncoder.printElems fmtNum 0 [] (metaValues c.jsonEncoder.cfg ent) =
        List.intercalate [9] ((metaValues c.jsonEncoder.cfg ent).map (Fprint fmtNum)) ∧
      (NewConsoleEncoder consoleConfig).EncodeEntry (fun _ => []) fullEntry
          [.StringType (bytes "k") (bytes "v")] =
        some (bytes "1700000000000000000\twarn\tmain\ta.go:3\tm\t\x7b\"k\": \"v\"\x7d\ns\n",
          none) ∧
      (NewConsoleEncoder messageOnlyConfig).EncodeEntry (fun _ => [])
          (entryOf InfoLevel (bytes "hello")) [] = some (bytes "hello\n", none) :=
  ⟨console_EncodeEntry_layout fmtNum c ent fields, printElems_tabJoined fmtNum _, by decide,
    by decide⟩

/-- C17: the context block of the console encoder is written only when the
accumulated context, the per-call fields and the closing braces of the open
namespaces render to at least one byte; it is then a TAB (if the line is not empty),
`{`, the accumulated context, the per-call fields as JSON pairs, one `}` per open
namespace, and `}`. With no accumulated context and no per-call fields nothing is
written. -/
theorem console_context_block (c : consoleEncoder) (line : List Nat) (fields : List Field)
    (cfg : EncoderConfig) (cs : List ObjectCall) (enc : jsonEncoder) :
    c.writeContext line fields = contextBlock c.jsonEncoder line fields ∧
      (runObjectCalls (NewConsoleEncoder cfg).jsonEncoder cs = some enc → enc.buf = [] →
        consoleEncoder.writeContext ⟨enc⟩ line [] = some line) ∧
      (NewConsoleEncoder cfg).writeContext line [] = some line ∧
      (NewConsoleEncoder consoleConfig).writeContext (bytes "m")
          [.NamespaceType (bytes "ns"), .IntType (bytes "n") 1] =
        some (bytes "m\t\x7b\"ns\": \x7b\"n\": 1\x7d\x7d") ∧
      (NewConsoleEncoder consoleConfig).writeContext []
          [.StringType (bytes "k") (bytes "v")] = some (bytes "\x7b\"k\": \"v\"\x7d") := by
  have hempty : ∀ e : jsonEncoder, e.buf = [] → e.openNamespaces = 0 →
      consoleEncoder.writeContext ⟨e⟩ line [] = some line := by
    intro e hb ho
    rw [writeContext_eq]
    simp [contextBlock, fieldsText, addFields, hb, ho]
  refine ⟨writeContext_eq c line fields, ?_, hempty _ rfl rfl, by decide, by decide⟩
  intro h hb
  exact hempty enc hb (runObjectCalls_empty_closed cs _ enc h (fun _ => rfl) hb)

/-! ## The claims on `Clone` -/

/-- C13: `Clone` of the encoder at `p` is an encoder at another address whose buffer
is another buffer, holding exactly the bytes accumulated in the encoder at `p`, with
the same open-namespace count, the same spaced flag and the same configuration; the
encoder at `p` is as it was. -/
theorem Clone_copies (m : Memory) (p : Nat) (e : jsonEncoder) (hv : m.view p = some e) :
    ∃ m1 q cp cq bp bq, m.Clone p = some (m1, q) ∧ q ≠ p ∧
      m1.cell p = some cp ∧ cp.buf = some bp ∧ m1.cell q = some cq ∧ cq.buf = some bq ∧
      bq ≠ bp ∧ m1.bytesOf q = some e.buf ∧ cq.openNamespaces = e.openNamespaces ∧
      cq.spaced = e.spaced ∧ cq.cfg = some e.cfg ∧ m1.view q = some e ∧ m1.view p = some e ∧
      e.Clone = e := by
  obtain ⟨m1, c, b, h1, h2, h3, h4, h5, h6, h7, h8⟩ := Clone_view m p e hv
  refine ⟨m1, _, c, _, b, _, h1, by omega, h4, h5, h8, rfl, by omega, ?_, rfl, rfl, rfl, h2, h3,
    rfl⟩
  obtain ⟨c2, b2, k1, k2, k3, k4, _, _⟩ := (view_some_iff _ _ _).1 h2
  simp only [Memory.bytesOf, Memory.cell, k1, k3, k4]

/-- C13 at `sampleMemory`. -/
theorem Clone_copies_witness :
    ∃ m1 q cp cq bp bq, sampleMemory.Clone 0 = some (m1, q) ∧ q ≠ 0 ∧
      m1.cell 0 = some cp ∧ cp.buf = some bp ∧ m1.cell q = some cq ∧ cq.buf = some bq ∧
      bq ≠ bp ∧ m1.bytesOf q = some sampleEncoder.buf ∧
      cq.openNamespaces = sampleEncoder.openNamespaces ∧
      cq.spaced = sampleEncoder.spaced ∧ cq.cfg = some sampleEncoder.cfg ∧
      m1.view q = some sampleEncoder ∧ m1.view 0 = some sampleEncoder ∧
      sampleEncoder.Clone = sampleEncoder :=
  Clone_copies sampleMemory 0 sampleEncoder rfl

/-- C14: after `c = e.Clone()`, any sequence of `Add*` and `OpenNamespace` calls on
`c` leaves the bytes of the buffer of `e` and its open-namespace count unchanged, and
any such sequence on `e` leaves those of `c` unchanged; the same holds of the clone of
a console encoder, which is the clone of its JSON encoder. -/
theorem Clone_independent (m m1 m2 m3 : Memory) (p q : Nat) (e : jsonEncoder)
    (cs1 cs2 : List ObjectCall) (hv : m.view p = some e) (hc : m.Clone p = some (m1, q))
    (h2 : m1.calls q cs1 = some m2) (h3 : m1.calls p cs2 = some m3) :
    m1.view p = some e ∧ m1.view q = some e ∧ m2.view p = some e ∧ m3.view q = some e ∧
      consoleEncoderRef.Clone m ⟨p⟩ = some (m1, ⟨q⟩) := by
  obtain ⟨m1a, c, b, k1, k2, k3, k4, k5, k6, k7, k8⟩ := Clone_view m p e hv
  rw [k1] at hc
  simp only [Option.some.injEq, Prod.mk.injEq] at hc
  obtain ⟨rfl, rfl⟩ := hc
  have hne : p ≠ m.encoders.length := by omega
  refine ⟨k3, k2, ?_, ?_, by simp [consoleEncoderRef.Clone, k1]⟩
  · obtain ⟨f1, _, f3⟩ := calls_frame cs1 m1a m2 _ _ _ k8 rfl h2
    rw [← k3]
    exact view_frame m1a m2 p c b k4 k5 (f1 p hne) (f3 b (by omega))
  · obtain ⟨f1, _, f3⟩ := calls_frame cs2 m1a m3 _ _ _ k4 k5 h3
    rw [← k2]
    exact view_frame m1a m3 _ _ _ k8 rfl (f1 _ (Ne.symm hne)) (f3 _ (by omega))

/-- C14 at `sampleMemory`, with the calls `AddInt64("n", 1)`, `OpenNamespace("in")` on
the clone and on the encoder. -/
theorem Clone_independent_witness :
    clonedMemory.view 0 = some sampleEncoder ∧ clonedMemory.view 1 = some sampleEncoder ∧
      (afterCalls 1).view 0 = some sampleEncoder ∧ (afterCalls 0).view 1 = some sampleEncoder ∧
      consoleEncoderRef.Clone sampleMemory ⟨0⟩ = some (clonedMemory, ⟨1⟩) :=
  Clone_independent sampleMemory clonedMemory (afterCalls 1) (afterCalls 0) 0 1 sampleEncoder
    [.AddInt64 (bytes "n") 1, .OpenNamespace (bytes "in")]
    [.AddInt64 (bytes "n") 1, .OpenNamespace (bytes "in")] rfl rfl rfl rfl

/-- The calls of the example do write: the buffer of the encoder they are made on
grows and one more namespace is open. -/
theorem afterCalls_written :
    (afterCalls 1).bytesOf 1 = some (bytes "\"k\":\"v\",\"ns\":\x7b\"n\":1,\"in\":\x7b") ∧
      ((afterCalls 1).cell 1).map (fun c => c.openNamespaces) = some 2 ∧
      (afterCalls 1).bytesOf 0 = some (bytes "\"k\":\"v\",\"ns\":\x7b") ∧
      ((afterCalls 1).cell 0).map (fun c => c.openNamespaces) = some 1 := by
  decide

/-! ## The claims on the observer core -/

namespace observer

/-- C18: for an observer core with context `C` and field slices `F1`, `F2`, the core
`With(F1)` has the context `C` followed by `F1`, the core `With(F2)` the context `C`
followed by `F2`, and the context of the core itself is still `C`, whatever capacity
the slices have; an entry written through one sibling carries the fields of that
sibling only. -/
theorem With_copy_on_write (s1 s2 s3 s4 : Nat) (m : Heap) (co : contextObserver)
    (F1 F2 G1 G2 : List Field) (e1 e2 : Entry) (hv : co.context.valid m)
    (hwf : m.wellFormed) (hl : co.logs < m.logs.length) :
    ∃ (m1 m2 m3 m4 : Heap) (c1 c2 : contextObserver),
      co.With s1 m F1 = (m1, c1) ∧ co.With s2 m1 F2 = (m2, c2) ∧
      m2.elems c1.context = m.elems co.context ++ F1 ∧
      m2.elems c2.context = m.elems co.context ++ F2 ∧
      m2.elems co.context = m.elems co.context ∧
      c1.Write s3 m2 e1 G1 = some (m3, none) ∧ c2.Write s4 m3 e2 G2 = some (m4, none) ∧
      ObservedLogs.All m4 co.logs = ObservedLogs.All m co.logs ++
        [(e1, m.elems co.context ++ F1 ++ G1), (e2, m.elems co.context ++ F2 ++ G2)] ∧
      m4.elems c1.context = m.elems co.context ++ F1 ∧
      m4.elems c2.context = m.elems co.context ++ F2 ∧
      m4.elems co.context = m.elems co.context := by
  obtain ⟨a1, a2, a3, a4, _, a6⟩ := With_spec s1 m co F1 hv
  generalize hr1 : co.With s1 m F1 = r1 at a1 a2 a3 a4 a6
  obtain ⟨m1, c1⟩ := r1
  simp only at a1 a2 a3 a4 a6
  have hv1 : co.context.valid m1 := (a6 _ hv).2
  obtain ⟨b1, b2, b3, b4, _, b6⟩ := With_spec s2 m1 co F2 hv1
  generalize hr2 : co.With s2 m1 F2 = r2 at b1 b2 b3 b4 b6
  obtain ⟨m2, c2⟩ := r2
  simp only at b1 b2 b3 b4 b6
  have hwf2 : m2.wellFormed := by
    intro l hl1 le hle
    rw [b3, a3] at hl1
    exact (b6 _ (a6 _ (hwf l hl1 le hle)).2).2
  have hAll2 : ∀ o, ObservedLogs.All m2 o = ObservedLogs.All m o := by
    intro o
    simp only [ObservedLogs.All, b3, a3]
    by_cases hlt : o < m.logs.length
    · refine List.map_congr_left (fun le hle => ?_)
      have hvle := hwf _ (getD_mem _ _ _ hlt) le hle
      rw [(b6 _ (a6 _ hvle).2).1, (a6 _ hvle).1]
    · have : m.logs.getD o [] = [] := by
        simp [List.getD_eq_getElem?_getD, List.getElem?_eq_none (Nat.le_of_not_lt hlt)]
      rw [this]; rfl
  have hc1 : m2.elems c1.context = m.elems co.context ++ F1 := by
    rw [(b6 _ a2).1, a1]
  have hco : m2.elems co.context = m.elems co.context := by
    rw [(b6 _ hv1).1, (a6 _ hv).1]
  have hc2 : m2.elems c2.context = m.elems co.context ++ F2 := by
    rw [b1, (a6 _ hv).1]
  have hl2 : c1.logs < m2.logs.length := by rw [a4, b3, a3]; exact hl
  obtain ⟨m3, w1, w2, _, _, w5, w6, w7⟩ := Write_All s3 m2 c1 e1 G1 (b6 _ a2).2 hwf2 hl2
  have hl3 : c2.logs < m3.logs.length := by rw [b4, w6, b3, a3]; exact hl
  obtain ⟨m4, x1, x2, _, _, _, _, x7⟩ := Write_All s4 m3 c2 e2 G2 (w7 _ b2).2 w5 hl3
  refine ⟨m1, m2, m3, m4, c1, c2, rfl, hr2, hc1, hc2, hco, w1, x1, ?_, ?_, ?_, ?_⟩
  · rw [b4] at x2
    rw [a4] at w2
    rw [x2, w2, hAll2, (w7 _ b2).1, hc2, hc1, List.append_assoc]
    rfl
  · rw [(x7 _ (w7 _ (b6 _ a2).2).2).1, (w7 _ (b6 _ a2).2).1, hc1]
  · rw [(x7 _ (w7 _ b2).2).1, (w7 _ b2).1, hc2]
  · rw [(x7 _ (w7 _ (b6 _ hv1).2).2).1, (w7 _ (b6 _ hv1).2).1, hco]

/-- C18 at the cores of `TestObserverWith`: the siblings `With(d)` and `With(e)` of
`sf2`, whose context `[a, b, c]` has spare capacity. -/
theorem With_copy_on_write_witness :
    ∃ (m1 m2 m3 m4 : Heap) (c1 c2 : contextObserver),
      sf2.2.With 1 sf2.1 [intField "d" 4] = (m1, c1) ∧
      sf2.2.With 1 m1 [intField "e" 5] = (m2, c2) ∧
      m2.elems c1.context = sf2.1.elems sf2.2.context ++ [intField "d" 4] ∧
      m2.elems c2.context = sf2.1.elems sf2.2.context ++ [intField "e" 5] ∧
      m2.elems sf2.2.context = sf2.1.elems sf2.2.context ∧
      c1.Write 0 m2 helloEntry [intField "i" 1] = some (m3, none) ∧
      c2.Write 0 m3 helloEntry [intField "i" 2] = some (m4, none) ∧
      ObservedLogs.All m4 sf2.2.logs = ObservedLogs.All sf2.1 sf2.2.logs ++
        [(helloEntry, sf2.1.elems sf2.2.context ++ [intField "d" 4] ++ [intField "i" 1]),
         (helloEntry, sf2.1.elems sf2.2.context ++ [intField "e" 5] ++ [intField "i" 2])] ∧
      m4.elems c1.context = sf2.1.elems sf2.2.context ++ [intField "d" 4] ∧
      m4.elems c2.context = sf2.1.elems sf2.2.context ++ [intField "e" 5] ∧
      m4.elems sf2.2.context = sf2.1.elems sf2.2.context :=
  With_copy_on_write 1 1 0 0 sf2.1 sf2.2 [intField "d" 4] [intField "e" 5] [intField "i" 1]
    [intField "i" 2] helloEntry helloEntry (by unfold FieldSlice.valid; decide)
    sf_wellFormed.1 (by decide)

/-- C19: `Write` of an observer core with context `C` returns nil and appends exactly
one entry at the end of the observed logs; the earlier entries are as they were, and
the new entry holds the entry written and the context `C` followed by the fields, in
the order given: the fields of `With` come before the fields of the call. -/
theorem Write_appends_entry (spare s1 : Nat) (m : Heap) (co : contextObserver) (ent : Entry)
    (W F : List Field) (hv : co.context.valid m) (hwf : m.wellFormed)
    (hl : co.logs < m.logs.length) :
    (∃ m1 : Heap, co.Write spare m ent F = some (m1, none) ∧
      ObservedLogs.All m1 co.logs =
        ObservedLogs.All m co.logs ++ [(ent, m.elems co.context ++ F)] ∧
      ObservedLogs.Len m1 co.logs = ObservedLogs.Len m co.logs + 1 ∧
      ∀ o, o ≠ co.logs → ObservedLogs.All m1 o = ObservedLogs.All m o) ∧
    ∃ m2 : Heap,
      (co.With s1 m W).2.Write spare (co.With s1 m W).1 ent F = some (m2, none) ∧
      ObservedLogs.All m2 co.logs =
        ObservedLogs.All m co.logs ++ [(ent, m.elems co.context ++ W ++ F)] := by
  constructor
  · obtain ⟨m1, h1, h2, h3, h4, _⟩ := Write_All spare m co ent F hv hwf hl
    exact ⟨m1, h1, h2, h3, h4⟩
  · obtain ⟨a1, a2, a3, a4, _, a6⟩ := With_spec s1 m co W hv
    have hwf1 : (co.With s1 m W).1.wellFormed := by
      intro l hl1 le hle
      rw [a3] at hl1
      exact (a6 _ (hwf l hl1 le hle)).2
    obtain ⟨m2, h1, h2, _⟩ := Write_All spare _ (co.With s1 m W).2 ent F a2 hwf1
      (by rw [a4, a3]; exact hl)
    refine ⟨m2, h1, ?_⟩
    rw [a4] at h2
    rw [h2, a1]
    congr 1
    simp only [ObservedLogs.All, a3]
    refine List.map_congr_left (fun le hle => ?_)
    rw [(a6 _ (hwf _ (getD_mem _ _ _ hl) le hle)).1]

/-- C19 at the core `sf3` of `TestObserverWith`. -/
theorem Write_appends_entry_witness :
    (∃ m1 : Heap, sf3.2.Write 0 sf4.1 helloEntry [intField "i" 1] = some (m1, none) ∧
      ObservedLogs.All m1 sf3.2.logs =
        ObservedLogs.All sf4.1 sf3.2.logs ++
          [(helloEntry, sf4.1.elems sf3.2.context ++ [intField "i" 1])] ∧
      ObservedLogs.Len m1 sf3.2.logs = ObservedLogs.Len sf4.1 sf3.2.logs + 1 ∧
      ∀ o, o ≠ sf3.2.logs → ObservedLogs.All m1 o = ObservedLogs.All sf4.1 o) ∧
    ∃ m2 : Heap,
      (sf3.2.With 1 sf4.1 [intField "w" 9]).2.Write 0 (sf3.2.With 1 sf4.1 [intField "w" 9]).1
        helloEntry [intField "i" 1] = some (m2, none) ∧
      ObservedLogs.All m2 sf3.2.logs =
        ObservedLogs.All sf4.1 sf3.2.logs ++
          [(helloEntry, sf4.1.elems sf3.2.context ++ [intField "w" 9] ++ [intField "i" 1])] :=
  Write_appends_entry 0 1 sf4.1 sf3.2 helloEntry [intField "w" 9] [intField "i" 1]
    (by unfold FieldSlice.valid; decide) sf_wellFormed.2 (by decide)

/-- C20, counterexample: the observer at `WarnLevel` rejects the level of an `Info`
entry and `Check` returns nil, yet `Write` of that entry adds it to the observed
logs. -/
theorem Write_ignores_level :
    warnObserver.2.1.LevelEnabler helloEntry.Level = false ∧
      (warnObserver.2.1.Check helloEntry none).isNone = true ∧
      ObservedLogs.Len warnObserver.1 warnObserver.2.2 = 0 ∧
      (warnObserver.2.1.Write 0 warnObserver.1 helloEntry []).map
        (fun r => (ObservedLogs.Len r.1 warnObserver.2.2, r.2)) = some (1, none) := by
  decide

/-- C20 (amended): when the level enabler of an observer core rejects the level of
the entry, `Check` returns the checked entry it was given, nil for nil, so that
nothing is written through the checked entry; `Write` itself does not consult the
level: it appends the entry to the observed logs whatever the enabler says. -/
theorem Check_rejects_disabled (spare : Nat) (m : Heap) (co : contextObserver) (ent : Entry)
    (ce : Option CheckedEntry) (F : List Field) :
    (co.LevelEnabler ent.Level = false →
      co.Check ent none = none ∧ co.Check ent ce = ce ∧
        dispatch spare m (co.Check ent none) F = some m) ∧
    (co.LevelEnabler ent.Level = true →
      dispatch spare m (co.Check ent none) F = (co.Write spare m ent F).map Prod.fst) ∧
    (∀ enab : Level → Bool,
      contextObserver.Write spare m ⟨enab, co.logs, co.context⟩ ent F =
        co.Write spare m ent F) ∧
    (co.context.valid m → m.wellFormed → co.logs < m.logs.length →
      ∃ m1 : Heap, co.Write spare m ent F = some (m1, none) ∧
        ObservedLogs.Len m1 co.logs = ObservedLogs.Len m co.logs + 1) := by
  refine ⟨fun h => ?_, fun h => ?_, fun _ => rfl, fun hv hwf hl => ?_⟩
  · simp [contextObserver.Check, h, dispatch]
  · simp [contextObserver.Check, h, dispatch, CheckedEntry.AddCore]
  · obtain ⟨m1, h1, _, h3, _⟩ := Write_All spare m co ent F hv hwf hl
    exact ⟨m1, h1, h3⟩

end observer

/-! ## Binary values, nil reflected values, repeated keys -/

/-- C28: for every key and byte slice `v`, `AddBinary(key, v)` appends the key, then
the standard padded base64 of `v` as RFC 4648 defines it, between two double quotes.
The text between the quotes is that of `EncodeToString`, it decodes back to `v`, and no
character of it is altered or escaped, each being of the base64 alphabet or the padding
`=`; it has four characters for every three bytes begun, and on the test vectors of
RFC 4648 the standard base64 is the text the RFC lists. -/
theorem AddBinary_base64 (enc : jsonEncoder) (key v : List Nat) (hv : ∀ b ∈ v, b < 256) :
    enc.AddBinary key v =
        enc.bufWriteString (keyText enc.spaced enc.buf key ++ [34] ++ base64Spec v ++ [34]) ∧
      EncodeToString v = base64Spec v ∧
      base64Decode (base64Spec v) = some v ∧
      escapeSpec (base64Spec v) = base64Spec v ∧
      (∀ c ∈ base64Spec v, c ∈ encodeStd ∨ c = 61) ∧
      (base64Spec v).length = 4 * ((v.length + 2) / 3) ∧
      (base64Spec [] = [] ∧ base64Spec (bytes "f") = bytes "Zg==" ∧
        base64Spec (bytes "fo") = bytes "Zm8=" ∧ base64Spec (bytes "foo") = bytes "Zm9v" ∧
        base64Spec (bytes "foob") = bytes "Zm9vYg==" ∧
        base64Spec (bytes "fooba") = bytes "Zm9vYmE=" ∧
        base64Spec (bytes "foobar") = bytes "Zm9vYmFy") := by
  have he := EncodeToString_eq_base64Spec v hv
  refine ⟨?_, he, base64Decode_base64Spec v hv, ?_, ?_, ?_, base64Spec_vectors⟩
  · rw [← he, jsonEncoder.AddBinary, jsonEncoder.AddString, jsonEncoder.WriteString_text,
      write_after_key, quoted_EncodeToString]
    simp
  · rw [← he]
    exact escapeSpec_plain _ (EncodeToString_plain v)
  · rw [← he]
    exact EncodeToString_alphabet v.length v (le_refl _)
  · rw [← he]
    exact EncodeToString_length v.length v (le_refl _)

/-- C28, at the key `k` and the bytes of `foo` on a new encoder: the buffer holds the
key and the quoted text `Zm9v`. -/
theorem AddBinary_base64_witness :
    (∀ b ∈ bytes "foo", b < 256) ∧
      ((NewJSONEncoder zeroConfig).AddBinary (bytes "k") (bytes "foo")).buf =
        bytes "\"k\":\"Zm9v\"" := by
  have hv : ∀ b ∈ bytes "foo", b < 256 := by decide
  refine ⟨hv, ?_⟩
  rw [(AddBinary_base64 (NewJSONEncoder zeroConfig) (bytes "k") (bytes "foo") hv).1]
  decide

/-- C29: for every key, `AddReflected(key, nil)` returns no error and appends the key
followed by `null`, and `AppendReflected(nil)` returns no error and appends `null`
after the separator the buffer calls for; `encodeReflected(nil)` is the literal
`null`, whatever the reflection encoder would do. -/
theorem reflected_nil (enc : jsonEncoder) (key : List Nat) :
    enc.AddReflected key none =
        (enc.bufWriteString (keyText enc.spaced enc.buf key ++ bytes "null"), none) ∧
      enc.AppendReflected none =
        (enc.bufWriteString (sepText enc.spaced enc.buf ++ bytes "null"), none) ∧
      enc.encodeReflected none = .ok (bytes "null") := by
  refine ⟨?_, ?_, rfl⟩
  · simp only [jsonEncoder.AddReflected, jsonEncoder.encodeReflected, jsonEncoder.addKey_text,
      jsonEncoder.bufWriteString_bufWriteString]
    rfl
  · simp only [jsonEncoder.AppendReflected, jsonEncoder.encodeReflected,
      jsonEncoder.addElementSeparator_text, jsonEncoder.bufWriteString_bufWriteString]
    rfl

/-- C30, counterexample: `AddReflected` of a value the reflection encoder fails on
returns the error and leaves the buffer as it was, so that the three calls leave two
pairs. -/
theorem failed_reflection_adds_no_pair :
    (NewJSONEncoder zeroConfig).AddReflected (bytes "k")
        (some (.fails (bytes "unsupported type"))) =
        (NewJSONEncoder zeroConfig, some (bytes "unsupported type")) ∧
      (runObjectCalls (NewJSONEncoder zeroConfig) failedReflectionCalls).map (fun e => e.buf) =
        some (bytes "\"foo\":\"bar\",\"foo\":\"baz\"") := by
  constructor
  · rfl
  · decide

set_option maxRecDepth 100000 in
/-- C30 (amended): the JSON encoder does not deduplicate keys. `AddString("foo", "bar")`
then `AddString("foo", "baz")` on a new encoder leave `"foo":"bar","foo":"baz"` in the
buffer, and the entry with these two fields is encoded as the object
`{"foo":"bar","foo":"baz"}`; the calls that add a plain value (a string, a number, a
boolean, `null`) to a new encoder leave their pairs in call order, joined by commas,
whatever the keys; and every call `Add*` that returns writes its own key after what
the buffer holds, followed by its value, except `AddReflected` of a value the
reflection encoder fails on, which returns the error and writes nothing.

For every sequence of calls `Add*` of any kind, on any encoder, compact or spaced,
whatever its buffer holds: when each call returns when made alone on a new encoder, the
sequence returns and appends to the buffer the pairs the calls write alone, in call
order, each after the separator the buffer before it calls for; and when the sequence
returns, each call returns alone and the buffer is that one. The pair a call writes
alone is nothing for `AddReflected` of a value the reflection encoder fails on, and
otherwise the quoted key, the colon and the value of the call: the text of a plain
value, the brackets around what the array or object marshaler writes, what the duration
or time encoder writes or else the integer, the trimmed text of the reflection encoder,
the opening brace of a namespace; the value is never empty but for a reflected value
whose text is. Six calls of six kinds under the one key `k` leave six pairs. -/
theorem keys_not_deduplicated :
    runObjectCalls (NewJSONEncoder zeroConfig) sameKeyCalls =
        some ((NewJSONEncoder zeroConfig).bufWriteString
          (bytes "\"foo\":\"bar\",\"foo\":\"baz\"")) ∧
      (NewJSONEncoder zeroConfig).EncodeEntry (entryOf InfoLevel []) sameKeyFields =
        some (bytes "\x7b\"foo\":\"bar\",\"foo\":\"baz\"\x7d\n", none) ∧
      (∀ (cfg : EncoderConfig) (cs : List ObjectCall), (∀ c ∈ cs, c.plainValue ≠ none) →
        runObjectCalls (NewJSONEncoder cfg) cs =
          some ((NewJSONEncoder cfg).bufWriteString
            (List.intercalate [44] (cs.map ObjectCall.pair)))) ∧
      (∀ (enc e : jsonEncoder) (c : ObjectCall) (err : Option Error),
        ObjectCall.run enc c = some (e, err) →
          (∃ t, e.buf = enc.buf ++ keyText enc.spaced enc.buf c.key ++ t) ∨
            (e = enc ∧ ∃ key er, c = .AddReflected key (some (.fails er)) ∧ err = some er)) ∧
      (∀ (enc : jsonEncoder) (cs : List ObjectCall) (ts : List (List Nat)),
        cs.map (ObjectCall.pairAlone enc.cfg enc.spaced) = ts.map some →
          ∃ e, runObjectCalls enc cs = some e ∧
            e.buf = enc.buf ++ joinPairs enc.spaced enc.buf ts) ∧
      (∀ (enc e : jsonEncoder) (cs : List ObjectCall), runObjectCalls enc cs = some e →
        ∃ ts : List (List Nat), cs.map (ObjectCall.pairAlone enc.cfg enc.spaced) = ts.map some ∧
          e.buf = enc.buf ++ joinPairs enc.spaced enc.buf ts) ∧
      (∀ (cfg : EncoderConfig) (sp : Bool) (c : ObjectCall) (t : List Nat),
        c.pairAlone cfg sp = some t →
          (t = [] ∧ c.valueAlone cfg sp = none ∧
              ∃ key er, c = .AddReflected key (some (.fails er))) ∨
            ∃ v, c.valueAlone cfg sp = some v ∧ t = quoted c.key ++ keyColon sp ++ v ∧
              (v = [] → ∃ key w, c = .AddReflected key (some (.encodes w)))) ∧
      (runObjectCalls mixedExample mixedCalls).map (fun e => e.buf) =
        some (bytes ("\"k\": [1, 2], \"k\": \x7b\"a\": true\x7d, \"k\": 5, " ++
          "\"k\": \"now\", \"k\": [1], \"k\": \"v\"")) := by
  refine ⟨?_, by decide, runPlain_new, fun enc e c err h => objectCall_key_written c enc e err h,
    fun enc cs ts h => ?_, fun enc e cs h => ?_, fun cfg sp c t h => ?_, by decide⟩
  · have e : List.intercalate [44] (sameKeyCalls.map ObjectCall.pair) =
        bytes "\"foo\":\"bar\",\"foo\":\"baz\"" := by decide
    rw [runPlain_new zeroConfig sameKeyCalls (by decide), e]
  · obtain ⟨k, hk⟩ := runObjectCalls_joinPairs enc.cfg enc.spaced cs ts enc.buf
      enc.openNamespaces h
    exact ⟨_, hk, rfl⟩
  · obtain ⟨ts, hts⟩ := runObjectCalls_pairAlone enc.cfg enc.spaced cs enc.buf
      enc.openNamespaces e h
    obtain ⟨k, hk⟩ := runObjectCalls_joinPairs enc.cfg enc.spaced cs ts enc.buf
      enc.openNamespaces hts
    have he : some e = some _ := h.symm.trans hk
    cases he
    exact ⟨ts, hts, rfl⟩
  · rcases pairAlone_spec c cfg sp with ⟨hn, -⟩ | ⟨hf, h0, hv, -⟩ | ⟨v, hv, hne, hp, -⟩
    · rw [hn] at h
      cases h
    · rw [h0] at h
      cases h
      exact Or.inl ⟨rfl, hv, hf⟩
    · rw [hp] at h
      cases h
      exact Or.inr ⟨v, hv, rfl, hne⟩

/-! ## The claims on the observed logs -/

namespace observer

/-- C21: for every observer core `c`, field slice `F` and level `l`, the core
`c.With(F)` enables `l` exactly when `c` does, and it records into the observed logs
of `c`: it holds the same pointer, and an entry written through it is added to that
collection and to no other. -/
theorem With_keeps_enabler_and_logs (spare s1 : Nat) (m : Heap) (co : contextObserver)
    (ent : Entry) (F G : List Field) (hv : co.context.valid m) (hwf : m.wellFormed)
    (hl : co.logs < m.logs.length) :
    (∀ l : Level, (co.With s1 m F).2.LevelEnabler l = co.LevelEnabler l) ∧
      (co.With s1 m F).2.logs = co.logs ∧
      (∀ o, ObservedLogs.All (co.With s1 m F).1 o = ObservedLogs.All m o) ∧
      ∃ m2 : Heap,
        (co.With s1 m F).2.Write spare (co.With s1 m F).1 ent G = some (m2, none) ∧
        ObservedLogs.All m2 co.logs =
          ObservedLogs.All m co.logs ++ [(ent, m.elems co.context ++ F ++ G)] ∧
        ObservedLogs.Len m2 co.logs = ObservedLogs.Len m co.logs + 1 ∧
        ∀ o, o ≠ co.logs → ObservedLogs.All m2 o = ObservedLogs.All m o := by
  obtain ⟨a1, a2, a3, a4, a5, a6⟩ := With_spec s1 m co F hv
  have hwf1 : (co.With s1 m F).1.wellFormed := by
    intro l hl1 le hle
    rw [a3] at hl1
    exact (a6 _ (hwf l hl1 le hle)).2
  have hAll : ∀ o, ObservedLogs.All (co.With s1 m F).1 o = ObservedLogs.All m o := by
    intro o
    simp only [ObservedLogs.All, a3]
    by_cases hlt : o < m.logs.length
    · refine List.map_congr_left (fun le hle => ?_)
      rw [(a6 _ (hwf _ (getD_mem _ _ _ hlt) le hle)).1]
    · have : m.logs.getD o [] = [] := by
        simp [List.getD_eq_getElem?_getD, List.getElem?_eq_none (Nat.le_of_not_lt hlt)]
      rw [this]; rfl
  obtain ⟨m2, h1, h2, h3, h4, _⟩ := Write_All spare _ (co.With s1 m F).2 ent G a2 hwf1
    (by rw [a4, a3]; exact hl)
  refine ⟨fun l => by rw [a5], a4, hAll, m2, h1, ?_, ?_, ?_⟩
  · rw [a4] at h2
    rw [h2, a1, hAll]
  · rw [a4] at h3
    rw [h3]
    simp only [ObservedLogs.Len, a3]
  · intro o ho
    rw [a4] at h4
    rw [h4 o ho, hAll]

/-- C21 at the core `sf2` of `TestObserverWith`. -/
theorem With_keeps_enabler_and_logs_witness :
    (∀ l : Level, (sf2.2.With 1 sf2.1 [intField "d" 4]).2.LevelEnabler l =
        sf2.2.LevelEnabler l) ∧
      (sf2.2.With 1 sf2.1 [intField "d" 4]).2.logs = sf2.2.logs ∧
      (∀ o, ObservedLogs.All (sf2.2.With 1 sf2.1 [intField "d" 4]).1 o =
        ObservedLogs.All sf2.1 o) ∧
      ∃ m2 : Heap,
        (sf2.2.With 1 sf2.1 [intField "d" 4]).2.Write 0 (sf2.2.With 1 sf2.1 [intField "d" 4]).1
          helloEntry [intField "i" 1] = some (m2, none) ∧
        ObservedLogs.All m2 sf2.2.logs =
          ObservedLogs.All sf2.1 sf2.2.logs ++
            [(helloEntry, sf2.1.elems sf2.2.context ++ [intField "d" 4] ++ [intField "i" 1])] ∧
        ObservedLogs.Len m2 sf2.2.logs = ObservedLogs.Len sf2.1 sf2.2.logs + 1 ∧
        ∀ o, o ≠ sf2.2.logs → ObservedLogs.All m2 o = ObservedLogs.All sf2.1 o :=
  With_keeps_enabler_and_logs 0 1 sf2.1 sf2.2 helloEntry [intField "d" 4] [intField "i" 1]
    (by unfold FieldSlice.valid; decide) sf_wellFormed.1 (by decide)

/-- C22: for the observed logs at `o`, `Len` is the length of `All`; `TakeAll` returns
the entries of `All`, in the same order, and afterwards `Len` is 0 and `All` is the
empty list, the other collections and the backing arrays being as they were. `All`
and `Len` read the heap only. -/
theorem TakeAll_empties (m : Heap) (o : Nat) (hl : o < m.logs.length) :
    ObservedLogs.Len m o = (ObservedLogs.All m o).length ∧
      ∃ (m1 : Heap) (ret : List LoggedEntry),
        ObservedLogs.TakeAll m o = some (m1, ret) ∧
        ret.map m1.view = ObservedLogs.All m o ∧
        ObservedLogs.Len m1 o = 0 ∧ ObservedLogs.All m1 o = [] ∧
        m1.arrays = m.arrays ∧
        ∀ q, q ≠ o → ObservedLogs.All m1 q = ObservedLogs.All m q := by
  obtain ⟨m1, h1, h2, h3, h4⟩ := TakeAll_spec m o hl
  refine ⟨by simp [ObservedLogs.Len, ObservedLogs.All], m1, _, h1, ?_, ?_, ?_, h2, ?_⟩
  · refine List.map_congr_left (fun le _ => ?_)
    simp only [Heap.view, Heap.elems, h2]
  · rw [ObservedLogs.Len, h3]; rfl
  · rw [ObservedLogs.All, h3]; rfl
  · intro q hq
    simp only [ObservedLogs.All, h4 q hq, Heap.elems, h2]

/-- C22 at the observed logs of `TestFilters`, which hold three entries. -/
theorem TakeAll_empties_witness :
    ObservedLogs.Len filterHeap 0 = (ObservedLogs.All filterHeap 0).length ∧
      ∃ (m1 : Heap) (ret : List LoggedEntry),
        ObservedLogs.TakeAll filterHeap 0 = some (m1, ret) ∧
        ret.map m1.view = ObservedLogs.All filterHeap 0 ∧
        ObservedLogs.Len m1 0 = 0 ∧ ObservedLogs.All m1 0 = [] ∧
        m1.arrays = filterHeap.arrays ∧
        ∀ q, q ≠ 0 → ObservedLogs.All m1 q = ObservedLogs.All filterHeap q :=
  TakeAll_empties filterHeap 0 (by decide)

/-- C23: for the observed logs at `o`, `FilterMessage(msg)`, `FilterMessageSnippet(s)`
and `FilterField(f)` each return a new collection whose entries are those of the
original, in their order, whose message is `msg`, whose message contains `s`, whose
context holds a field equal to `f`; the original and every other collection are as
they were, and the new collection is empty when no entry matches. -/
theorem filters_select (equals : Field → Field → Bool) (m : Heap) (o : Nat)
    (msg snippet : List Nat) (field : Field) (hl : o < m.logs.length) :
    (∃ m1 : Heap, ObservedLogs.FilterMessage m o msg = some (m1, m.logs.length) ∧
      ObservedLogs.All m1 m.logs.length =
        (ObservedLogs.All m o).filter (fun e => decide (e.1.Message = msg)) ∧
      ((∀ e ∈ ObservedLogs.All m o, e.1.Message ≠ msg) →
        ObservedLogs.All m1 m.logs.length = []) ∧
      ∀ q, q < m.logs.length → ObservedLogs.All m1 q = ObservedLogs.All m q) ∧
    (∃ m1 : Heap, ObservedLogs.FilterMessageSnippet m o snippet = some (m1, m.logs.length) ∧
      ObservedLogs.All m1 m.logs.length =
        (ObservedLogs.All m o).filter (fun e => decide (snippet <:+: e.1.Message)) ∧
      ((∀ e ∈ ObservedLogs.All m o, ¬ snippet <:+: e.1.Message) →
        ObservedLogs.All m1 m.logs.length = []) ∧
      ∀ q, q < m.logs.length → ObservedLogs.All m1 q = ObservedLogs.All m q) ∧
    (∃ m1 : Heap, ObservedLogs.FilterField equals m o field = some (m1, m.logs.length) ∧
      ObservedLogs.All m1 m.logs.length =
        (ObservedLogs.All m o).filter (fun e => e.2.any (fun ctxField => equals ctxField field)) ∧
      ((∀ e ∈ ObservedLogs.All m o, ∀ ctxField ∈ e.2, equals ctxField field = false) →
        ObservedLogs.All m1 m.logs.length = []) ∧
      ∀ q, q < m.logs.length → ObservedLogs.All m1 q = ObservedLogs.All m q) := by
  refine ⟨?_, ?_, ?_⟩
  · obtain ⟨m1, h1, h2, h3⟩ := filter_All m o (fun e => decide (e.Entry.Message = msg))
      (fun e => decide (e.1.Message = msg)) (fun _ => rfl) hl
    refine ⟨m1, h1, h2, fun hn => ?_, h3⟩
    rw [h2, List.filter_eq_nil_iff]
    intro e he
    simpa using hn e he
  · obtain ⟨m1, h1, h2, h3⟩ := filter_All m o (fun e => Contains e.Entry.Message snippet)
      (fun e => decide (snippet <:+: e.1.Message))
      (fun le => by
        rw [Bool.eq_iff_iff, Contains_iff]
        simp [Heap.view]) hl
    refine ⟨m1, h1, h2, fun hn => ?_, h3⟩
    rw [h2, List.filter_eq_nil_iff]
    intro e he
    simpa using hn e he
  · obtain ⟨m1, h1, h2, h3⟩ := filter_All m o
      (fun e => (m.elems e.Context).any (fun ctxField => equals ctxField field))
      (fun e => e.2.any (fun ctxField => equals ctxField field)) (fun _ => rfl) hl
    refine ⟨m1, h1, h2, fun hn => ?_, h3⟩
    rw [h2, List.filter_eq_nil_iff]
    intro e he
    simpa using hn e he

/-- C23 at the observed logs of `TestFilters`, with the message `log a`, the snippet
`log` and the field `b=2`. -/
theorem filters_select_witness :
    (∃ m1 : Heap,
      ObservedLogs.FilterMessage filterHeap 0 (bytes "log a") =
        some (m1, filterHeap.logs.length) ∧
      ObservedLogs.All m1 filterHeap.logs.length =
        (ObservedLogs.All filterHeap 0).filter (fun e => decide (e.1.Message = bytes "log a")) ∧
      ((∀ e ∈ ObservedLogs.All filterHeap 0, e.1.Message ≠ bytes "log a") →
        ObservedLogs.All m1 filterHeap.logs.length = []) ∧
      ∀ q, q < filterHeap.logs.length →
        ObservedLogs.All m1 q = ObservedLogs.All filterHeap q) ∧
    (∃ m1 : Heap,
      ObservedLogs.FilterMessageSnippet filterHeap 0 (bytes "log") =
        some (m1, filterHeap.logs.length) ∧
      ObservedLogs.All m1 filterHeap.logs.length =
        (ObservedLogs.All filterHeap 0).filter
          (fun e => decide (bytes "log" <:+: e.1.Message)) ∧
      ((∀ e ∈ ObservedLogs.All filterHeap 0, ¬ bytes "log" <:+: e.1.Message) →
        ObservedLogs.All m1 filterHeap.logs.length = []) ∧
      ∀ q, q < filterHeap.logs.length →
        ObservedLogs.All m1 q = ObservedLogs.All filterHeap q) ∧
    (∃ m1 : Heap,
      ObservedLogs.FilterField sameField filterHeap 0 (intField "b" 2) =
        some (m1, filterHeap.logs.length) ∧
      ObservedLogs.All m1 filterHeap.logs.length =
        (ObservedLogs.All filterHeap 0).filter
          (fun e => e.2.any (fun ctxField => sameField ctxField (intField "b" 2))) ∧
      ((∀ e ∈ ObservedLogs.All filterHeap 0, ∀ ctxField ∈ e.2,
          sameField ctxField (intField "b" 2) = false) →
        ObservedLogs.All m1 filterHeap.logs.length = []) ∧
      ∀ q, q < filterHeap.logs.length →
        ObservedLogs.All m1 q = ObservedLogs.All filterHeap q) :=
  filters_select sameField filterHeap 0 (bytes "log a") (bytes "log") (intField "b" 2)
    (by decide)

end observer

/-! ## The claims on the atomic level and the logger options -/

/-- C24: for each of the seven named levels, `MarshalText` of an atomic level set to
that level gives the lowercase name and no error, and `UnmarshalText` of that name
into any atomic level, the zero value included, returns no error and sets it to the
same level; an atomic level that had a pointer keeps it. -/
theorem level_text_round_trip (m : Atomics) (a b : AtomicLevel) (l : Level) (name : List Nat)
    (hn : (l, name) ∈ levelNames) (ha : a.allocated m) (hb : b.l = none ∨ b.allocated m) :
    ∃ m1 : Atomics, a.SetLevel m l = some m1 ∧ a.MarshalText m1 = some (name, none) ∧
      ∃ (m2 : Atomics) (b2 : AtomicLevel),
        b.UnmarshalText m1 name = some (m2, b2, none) ∧ b2.Level m2 = some l ∧
        b2.MarshalText m2 = some (name, none) ∧ (b.l ≠ none → b2 = b) := by
  obtain ⟨hs, hu, h1, h2⟩ := levelNames_spec (l, name) hn
  simp only at hs hu h1 h2
  obtain ⟨m1, s1, s2, s3, _⟩ := SetLevel_spec m a l ha h1 h2
  have hm : ∀ (mm : Atomics) (c : AtomicLevel), c.Level mm = some l →
      c.MarshalText mm = some (name, none) := by
    intro mm c hc
    simp [AtomicLevel.MarshalText, hc, Level.MarshalText, hs]
  refine ⟨m1, s1, hm _ _ (s3 a rfl), ?_⟩
  cases hq : b.l with
  | none =>
    have hall : AtomicLevel.allocated ⟨m1.cells ++ [0]⟩ ⟨some m1.cells.length⟩ :=
      ⟨m1.cells.length, rfl, by simp⟩
    obtain ⟨m2, t1, _, t3, _⟩ := SetLevel_spec _ _ l hall h1 h2
    refine ⟨m2, ⟨some m1.cells.length⟩, ?_, t3 _ rfl, hm _ _ (t3 _ rfl), fun h => absurd rfl h⟩
    simp only [AtomicLevel.UnmarshalText, hq, hu, t1, Option.map_some']
  | some p =>
    have hall : b.allocated m1 := by
      rcases hb with h | ⟨q, hq1, hq2⟩
      · rw [hq] at h; cases h
      · exact ⟨q, hq1, by rw [s2]; exact hq2⟩
    obtain ⟨m2, t1, _, t3, _⟩ := SetLevel_spec _ _ l hall h1 h2
    refine ⟨m2, b, ?_, t3 _ rfl, hm _ _ (t3 _ rfl), fun _ => rfl⟩
    simp only [AtomicLevel.UnmarshalText, hq, hu, t1, Option.map_some']

/-- C24 at the level `dpanic`, marshalled from a new atomic level and unmarshalled
into the zero value. -/
theorem level_text_round_trip_witness :
    ∃ m1 : Atomics,
      (NewAtomicLevel ⟨[]⟩).2.SetLevel (NewAtomicLevel ⟨[]⟩).1 DPanicLevel = some m1 ∧
      (NewAtomicLevel ⟨[]⟩).2.MarshalText m1 = some (bytes "dpanic", none) ∧
      ∃ (m2 : Atomics) (b2 : AtomicLevel),
        AtomicLevel.UnmarshalText m1 ⟨none⟩ (bytes "dpanic") = some (m2, b2, none) ∧
        b2.Level m2 = some DPanicLevel ∧ b2.MarshalText m2 = some (bytes "dpanic", none) ∧
        ((⟨none⟩ : AtomicLevel).l ≠ none → b2 = ⟨none⟩) :=
  level_text_round_trip (NewAtomicLevel ⟨[]⟩).1 (NewAtomicLevel ⟨[]⟩).2 ⟨none⟩ DPanicLevel
    (bytes "dpanic") (by decide) ⟨0, rfl, by decide⟩ (Or.inl rfl)

/-- C25: for all levels `s` and `l`, after `SetLevel(s)` on an atomic level,
`Enabled(l)` is true exactly when `s <= l`, and `Level()` is `s`, for every copy of
the atomic level: the copies hold the same pointer. -/
theorem SetLevel_then_Enabled (m : Atomics) (a : AtomicLevel) (s l : Level)
    (ha : a.allocated m) (h1 : -128 ≤ s) (h2 : s ≤ 127) :
    ∃ m1 : Atomics, a.SetLevel m s = some m1 ∧
      ∀ b : AtomicLevel, b.l = a.l →
        b.Enabled m1 l = some (decide (s ≤ l)) ∧ b.Level m1 = some s := by
  obtain ⟨m1, s1, _, s3, _⟩ := SetLevel_spec m a s ha h1 h2
  refine ⟨m1, s1, fun b hb => ⟨?_, s3 b hb⟩⟩
  simp [AtomicLevel.Enabled, s3 b hb, Level.Enabled]

/-- C25 at the levels of `TestLoggerAtomicLevel`: set `Info`, test `Debug`: false;
set `Warn`, test `Panic`: true. -/
theorem SetLevel_then_Enabled_witness :
    (∃ m1 : Atomics,
      (NewAtomicLevel ⟨[]⟩).2.SetLevel (NewAtomicLevel ⟨[]⟩).1 InfoLevel = some m1 ∧
      ∀ b : AtomicLevel, b.l = (NewAtomicLevel ⟨[]⟩).2.l →
        b.Enabled m1 DebugLevel = some (decide (InfoLevel ≤ DebugLevel)) ∧
          b.Level m1 = some InfoLevel) ∧
    (∃ m1 : Atomics,
      (NewAtomicLevel ⟨[]⟩).2.SetLevel (NewAtomicLevel ⟨[]⟩).1 WarnLevel = some m1 ∧
      ∀ b : AtomicLevel, b.l = (NewAtomicLevel ⟨[]⟩).2.l →
        b.Enabled m1 PanicLevel = some (decide (WarnLevel ≤ PanicLevel)) ∧
          b.Level m1 = some WarnLevel) ∧
    decide (InfoLevel ≤ DebugLevel) = false ∧ decide (WarnLevel ≤ PanicLevel) = true ∧
    ((NewAtomicLevel ⟨[]⟩).2.SetLevel (NewAtomicLevel ⟨[]⟩).1 InfoLevel).bind
        (fun m1 => (NewAtomicLevel ⟨[]⟩).2.Enabled m1 DebugLevel) = some false ∧
    ((NewAtomicLevel ⟨[]⟩).2.SetLevel (NewAtomicLevel ⟨[]⟩).1 WarnLevel).bind
        (fun m1 => (NewAtomicLevel ⟨[]⟩).2.Enabled m1 PanicLevel) = some true :=
  ⟨SetLevel_then_Enabled (NewAtomicLevel ⟨[]⟩).1 (NewAtomicLevel ⟨[]⟩).2 InfoLevel DebugLevel
      ⟨0, rfl, by decide⟩ (by decide) (by decide),
    SetLevel_then_Enabled (NewAtomicLevel ⟨[]⟩).1 (NewAtomicLevel ⟨[]⟩).2 WarnLevel PanicLevel
      ⟨0, rfl, by decide⟩ (by decide) (by decide),
    by decide, by decide, by decide, by decide⟩

/-- C26: for every signed 8-bit level `l`, named or not, `NewAtomicLevelAt(l).Level()`
is `l`: the conversion to 32 bits keeps the value and the conversion back to 8 bits
returns it; and `NewAtomicLevel().Level()` is `InfoLevel`. -/
theorem NewAtomicLevelAt_Level (m : Atomics) (l : Level) (h1 : -128 ≤ l) (h2 : l ≤ 127) :
    (∃ (m1 : Atomics) (a : AtomicLevel),
      NewAtomicLevelAt m l = some (m1, a) ∧ a.Level m1 = some l) ∧
    int32 l = l ∧ int8 (int32 l) = l ∧
    (NewAtomicLevel m).2.Level (NewAtomicLevel m).1 = some InfoLevel := by
  obtain ⟨n1, n2⟩ := NewAtomicLevel_spec m
  obtain ⟨m1, s1, _, s3, _⟩ := SetLevel_spec _ _ l n1 h1 h2
  refine ⟨⟨m1, (NewAtomicLevel m).2, ?_, s3 _ rfl⟩, (int8_int32 l h1 h2).1,
    (int8_int32 l h1 h2).2, n2⟩
  simp only [NewAtomicLevelAt, s1, Option.map_some']

/-- C26 at the least signed 8-bit value, which is none of the named levels. -/
theorem NewAtomicLevelAt_Level_witness :
    (∃ (m1 : Atomics) (a : AtomicLevel),
      NewAtomicLevelAt ⟨[]⟩ (-128) = some (m1, a) ∧ a.Level m1 = some (-128)) ∧
    int32 (-128) = -128 ∧ int8 (int32 (-128)) = -128 ∧
    (NewAtomicLevel ⟨[]⟩).2.Level (NewAtomicLevel ⟨[]⟩).1 = some InfoLevel :=
  NewAtomicLevelAt_Level ⟨[]⟩ (-128) (by decide) (by decide)

/-- C27: for all `a` and `b`, the options `AddCallerSkip(a)` and `AddCallerSkip(b)`,
applied in either order, add `a + b` to the caller skip of the logger, in the
arithmetic of `int`, and change no other field; the sum is exact when it is in the
range of `int`; and `AddCallerSkip(1)` followed by `AddCallerSkip(-1)` leaves the
logger as it was. -/
theorem AddCallerSkip_adds {Core WriteSyncer Enabler : Type} (bits : Nat) (a b : Int)
    (log : Logger Core WriteSyncer Enabler) (hb : 0 < bits)
    (h1 : -(2 ^ (bits - 1)) ≤ log.callerSkip) (h2 : log.callerSkip < 2 ^ (bits - 1)) :
    AddCallerSkip bits b (AddCallerSkip bits a log) =
        { log with callerSkip := wrapInt bits (log.callerSkip + (a + b)) } ∧
      AddCallerSkip bits a (AddCallerSkip bits b log) =
        { log with callerSkip := wrapInt bits (log.callerSkip + (a + b)) } ∧
      (-(2 ^ (bits - 1)) ≤ log.callerSkip + (a + b) → log.callerSkip + (a + b) < 2 ^ (bits - 1) →
        (AddCallerSkip bits b (AddCallerSkip bits a log)).callerSkip =
          log.callerSkip + (a + b)) ∧
      AddCallerSkip bits (-1) (AddCallerSkip bits 1 log) = log := by
  have hab : AddCallerSkip bits b (AddCallerSkip bits a log) =
      { log with callerSkip := wrapInt bits (log.callerSkip + (a + b)) } := by
    simp only [AddCallerSkip, wrapInt_add, add_assoc]
  refine ⟨hab, ?_, ?_, ?_⟩
  · simp only [AddCallerSkip, wrapInt_add, add_assoc, add_comm b a]
  · intro g1 g2
    rw [hab]
    exact wrapInt_id bits _ hb g1 g2
  · simp only [AddCallerSkip, wrapInt_add, add_assoc]
    have e : log.callerSkip + (1 + -1) = log.callerSkip := by ring
    rw [e, wrapInt_id bits _ hb h1 h2]

/-- C27 on a logger with the caller annotation, with `int` of 64 bits: the skips 1 and
3 of `TestLoggerAddCaller` add up to 4, and the skips 1 and -1 cancel. -/
theorem AddCallerSkip_adds_witness :
    AddCallerSkip 64 3 (AddCallerSkip 64 1 callerLogger) =
        { callerLogger with callerSkip := wrapInt 64 (callerLogger.callerSkip + (1 + 3)) } ∧
      AddCallerSkip 64 1 (AddCallerSkip 64 3 callerLogger) =
        { callerLogger with callerSkip := wrapInt 64 (callerLogger.callerSkip + (1 + 3)) } ∧
      (-(2 ^ (64 - 1)) ≤ callerLogger.callerSkip + (1 + 3) →
        callerLogger.callerSkip + (1 + 3) < 2 ^ (64 - 1) →
        (AddCallerSkip 64 3 (AddCallerSkip 64 1 callerLogger)).callerSkip =
          callerLogger.callerSkip + (1 + 3)) ∧
      AddCallerSkip 64 (-1) (AddCallerSkip 64 1 callerLogger) = callerLogger :=
  AddCallerSkip_adds 64 1 3 callerLogger (by decide) (by decide) (by decide)

/-! ## The claims on the test buffer and on stack traces -/

/-- C31: `Buffer.Stripped` returns the content without any of its trailing newlines:
what it drops is a run of newlines and what it returns does not end in a newline. Its
result is the content without its last newline exactly when the content does not end
in two newlines; for `a\n\n` it returns `a`, where the last newline stripped leaves
`a\n`. -/
theorem Stripped_drops_every_newline (s : List Nat) :
    (∃ k, s = Buffer.Stripped s ++ List.replicate k 10) ∧
      (Buffer.Stripped s).getLast? ≠ some 10 ∧
      (Buffer.Stripped s = stripLastNewline s ↔ ¬ ∃ t, s = t ++ [10, 10]) ∧
      Buffer.Stripped (bytes "a\n\n") = bytes "a" ∧
      stripLastNewline (bytes "a\n\n") = bytes "a\n" := by
  refine ⟨(trimRightByte_spec s 10).1, (trimRightByte_spec s 10).2, Stripped_agrees_iff s,
    by decide, by decide⟩

set_option maxRecDepth 100000 in
/-- C32: for every function name, `isViperFrame` is true exactly when the name begins
with `github.com/gottingen/viper.` or `github.com/gottingen/viper/`, or contains
`/vendor/github.com/gottingen/viper.` or `/vendor/github.com/gottingen/viper/`; the
frames of the package, of a sub-package and of vendored copies are viper frames, the
frames of packages that share the beginning of the name only are not. -/
theorem isViperFrame_exact (function : List Nat) :
    (isViperFrame function = true ↔
      (bytes "github.com/gottingen/viper." <+: function ∨
        bytes "github.com/gottingen/viper/" <+: function ∨
        bytes "/vendor/github.com/gottingen/viper." <:+: function ∨
        bytes "/vendor/github.com/gottingen/viper/" <:+: function)) ∧
      isViperFrame (bytes "github.com/gottingen/viper.Stack") = true ∧
      isViperFrame (bytes "github.com/gottingen/viper.(*SugaredLogger).log") = true ∧
      isViperFrame
        (bytes "github.com/gottingen/viper/vipercore.(ArrayMarshalerFunc).MarshalLogArray") =
        true ∧
      isViperFrame
        (bytes "github.com/gottingen/tchannel-go/vendor/github.com/gottingen/viper.Stack") =
        true ∧
      isViperFrame
        (bytes ("github.com/gottingen/tchannel-go/vendor/github.com/gottingen/viper/" ++
          "vipercore.(ArrayMarshalerFunc).MarshalLogArray")) = true ∧
      isViperFrame (bytes "github.com/uber/tchannel-go.NewChannel") = false ∧
      isViperFrame (bytes "go.uber.org/not-viper.New") = false ∧
      isViperFrame (bytes "github.com/gottingen/viperext.ctx") = false ∧
      isViperFrame (bytes "github.com/gottingen/viper_ext/ctx.New") = false := by
  refine ⟨isViperFrame_iff function, ?_, ?_, ?_, ?_, ?_, ?_, ?_, ?_, ?_⟩ <;> decide

set_option maxRecDepth 100000 in
/-- C33: for every sequence of call frames, the text of `takeStacktrace` is made of the
frames but the last one, without the viper frames that come before the first frame
that is not of viper: each as its function name, a newline, a TAB, the file, a colon
and the decimal line number, joined by one newline, with no newline before the first
or after the last. A viper frame after the first other frame is kept. -/
theorem takeStacktrace_text (frames : List Frame) :
    takeStacktrace frames =
        List.intercalate [10]
          ((frames.dropLast.dropWhile (fun f => isViperFrame f.Function)).map frameText) ∧
      (∀ f : Frame, frameText f = f.Function ++ [10, 9] ++ f.File ++ [58] ++ formatInt f.Line) ∧
      takeStacktrace sampleFrames =
        bytes ("main.TestLog\n\t/t/log_test.go:12\n" ++
          "github.com/gottingen/viper/vipercore.(*jsonEncoder).AddObject\n\t/v/j.go:80\n" ++
          "testing.tRunner\n\t/go/testing.go:909") := by
  refine ⟨?_, fun _ => rfl, by decide⟩
  rw [takeStacktrace, takeStacktraceLoop_skip]
  rfl

/-! ## The claims on nested objects, escaping and reflection errors -/

set_option maxRecDepth 100000 in
/-- C34: `AddObject(key, obj)` leaves the open-namespace count of the encoder greater
by the number of `OpenNamespace` calls made while `obj` is marshalled. For a marshaler
that opens no namespace the count is as before and the buffer is again where a key of
the enclosing object may be written, at the same depth. For a marshaler that opens the
namespace `x` the count is one more than before: the `}` of `AppendObject` closes `x`,
the object of `key` is still open, and `AddInt64("y", 1)` after the call writes `y`
inside it. -/
theorem AddObject_namespace_count (enc : jsonEncoder) (key : List Nat) (obj : ObjectMarshaler) :
    (∀ (e : jsonEncoder) (err : Option Error), enc.AddObject key obj = some (e, err) →
      e.openNamespaces = enc.openNamespaces + ObjectMarshaler.opened obj) ∧
    (ObjectMarshaler.wellBehaved obj = true → enc.cfg.singleValued →
      ∀ (e : jsonEncoder) (err : Option Error) (s0 : JState) (σ : List Bool),
        enc.AddObject key obj = some (e, err) → ObjInv s0 σ enc →
          ObjInv s0 σ e ∧ e.openNamespaces = enc.openNamespaces) ∧
    ObjectMarshaler.opened openingMarshaler = 1 ∧
    ((NewJSONEncoder zeroConfig).AddObject (bytes "o") openingMarshaler).map
        (fun r => (r.1.buf, r.1.openNamespaces, r.2)) =
      some (bytes "\"o\":\x7b\"x\":\x7b\x7d", 1, none) ∧
    ((NewJSONEncoder zeroConfig).AddObject (bytes "o") openingMarshaler).map
        (fun r => (r.1.AddInt64 (bytes "y") 1).buf) =
      some (bytes "\"o\":\x7b\"x\":\x7b\x7d,\"y\":1") := by
  refine ⟨fun e err h => ?_, fun hwb hcfg e err s0 σ h hinv => ?_, by decide, by decide,
    by decide⟩
  · rw [AddObject_eq_run] at h
    simpa [ObjectCall.opened] using objectCall_opened _ _ _ _ h
  · rw [AddObject_eq_run] at h
    have hw : ObjectCall.wellBehaved (.AddObject key obj) = true := by
      simpa [ObjectCall.wellBehaved] using hwb
    refine ⟨objectCall_scans _ _ _ _ s0 σ hcfg hw h hinv, ?_⟩
    have h1 := objectCall_opened _ _ _ _ h
    rw [objectCall_wb_opened _ hw] at h1
    simpa using h1

/-- C35: for every byte string `a` and every valid UTF-8 string `b`, the bytes
`safeAddString` appends for `a` followed by `b` are the bytes it appends for `a`
followed by the bytes it appends for `b`. -/
theorem safeAddString_append (enc : jsonEncoder) (a b : List Nat) (h : validUTF8 b = true) :
    enc.safeAddString (a ++ b) = (enc.safeAddString a).safeAddString b ∧
      escaped (a ++ b) = escaped a ++ escaped b := by
  constructor
  · simp only [jsonEncoder.safeAddString_eq, escapeSpec_append a b h,
      jsonEncoder.bufWriteString_bufWriteString]
  · simp only [jsonEncoder.escaped_eq, escapeSpec_append a b h]

/-- C35 at a string that ends within a multi-byte sequence, followed by a CJK
character and a double quote. -/
theorem safeAddString_append_witness :
    validUTF8 [0xE4, 0xBD, 0xA0, 34] = true ∧
      (NewJSONEncoder zeroConfig).safeAddString ([97, 0xE4, 0xBD] ++ [0xE4, 0xBD, 0xA0, 34]) =
        ((NewJSONEncoder zeroConfig).safeAddString [97, 0xE4, 0xBD]).safeAddString
          [0xE4, 0xBD, 0xA0, 34] ∧
      escaped ([97, 0xE4, 0xBD] ++ [0xE4, 0xBD, 0xA0, 34]) =
        escaped [97, 0xE4, 0xBD] ++ escaped [0xE4, 0xBD, 0xA0, 34] :=
  ⟨by decide,
    safeAddString_append (NewJSONEncoder zeroConfig) [97, 0xE4, 0xBD] [0xE4, 0xBD, 0xA0, 34]
      (by decide)⟩

/-- C37: when the reflection encoder fails on a value, `AddReflected` and
`AppendReflected` return its error and leave the encoder as it was: no key and no
separator is written; and an error they return is that of the reflection encoder. -/
theorem reflected_error_writes_nothing (enc : jsonEncoder) (key : List Nat)
    (obj : Option Reflected) (err : Error) :
    (enc.encodeReflected obj = .error err →
      enc.AddReflected key obj = (enc, some err) ∧ enc.AppendReflected obj = (enc, some err)) ∧
    ((enc.AddReflected key obj).2 = some err →
      enc.encodeReflected obj = .error err ∧ (enc.AddReflected key obj).1 = enc) ∧
    ((enc.AppendReflected obj).2 = some err →
      enc.encodeReflected obj = .error err ∧ (enc.AppendReflected obj).1 = enc) ∧
    enc.encodeReflected (some (.fails err)) = .error err := by
  refine ⟨fun h => ?_, fun h => ?_, fun h => ?_, rfl⟩
  · simp only [jsonEncoder.AddReflected, jsonEncoder.AppendReflected, h, and_self]
  · unfold jsonEncoder.AddReflected at h ⊢
    cases hr : enc.encodeReflected obj with
    | error er =>
      rw [hr] at h
      simp only [Option.some.injEq] at h
      simp [h]
    | ok bs =>
      rw [hr] at h
      simp at h
  · unfold jsonEncoder.AppendReflected at h ⊢
    cases hr : enc.encodeReflected obj with
    | error er =>
      rw [hr] at h
      simp only [Option.some.injEq] at h
      simp [h]
    | ok bs =>
      rw [hr] at h
      simp at h

/-! ## The claims on the frame of `EncodeEntry`, on `Open`, on level errors and on
filters -/

/-- C36: `EncodeEntry` of the encoder at `p` leaves that encoder as it was: its struct,
hence its configuration and open-namespace count, and the bytes of its buffer; every
struct and buffer that existed is unchanged. The bytes returned are in a new buffer,
and a second call with the same arguments returns the same bytes in another new
buffer, the first one being left alone. -/
theorem EncodeEntry_frame (m : Memory) (p : Nat) (e : jsonEncoder) (ent : Entry)
    (fields : List Field) (bs : List Nat) (err : Option Error) (hv : m.view p = some e)
    (hr : e.EncodeEntry ent fields = some (bs, err)) :
    ∃ (m1 : Memory) (ret : Nat), m.EncodeEntry p ent fields = some (m1, ret, none) ∧
      m1.buffers[ret]? = some bs ∧ m.buffers.length ≤ ret ∧
      m1.view p = some e ∧ m1.cell p = m.cell p ∧
      (∀ b, b < m.buffers.length → m1.buffers[b]? = m.buffers[b]?) ∧
      (∀ q, q < m.encoders.length → m1.encoders[q]? = m.encoders[q]?) ∧
      ∃ (m2 : Memory) (ret2 : Nat), m1.EncodeEntry p ent fields = some (m2, ret2, none) ∧
        m2.buffers[ret2]? = some bs ∧ ret2 ≠ ret ∧ m2.buffers[ret]? = some bs ∧
        m2.view p = some e := by
  obtain ⟨c, b, hc, hcfg, hb, hbs, hsp, ho⟩ := (view_some_iff m p e).1 hv
  have hp := lt_of_get hc
  have hbl := lt_of_get hbs
  have frame : ∀ (mm : Memory) (x : List Nat), mm.view p = some e →
      Memory.view ⟨mm.buffers ++ [x], mm.encoders ++ [⟨none, none, false, 0⟩]⟩ p = some e := by
    intro mm x hmm
    obtain ⟨c1, b1, k1, k2, k3, k4, k5, k6⟩ := (view_some_iff mm p e).1 hmm
    rw [view_some_iff]
    exact ⟨c1, b1, by rw [get_old _ _ _ (lt_of_get k1)]; exact k1, k2, k3,
      by rw [get_old _ _ _ (lt_of_get k4)]; exact k4, k5, k6⟩
  have hv1 := frame m bs hv
  refine ⟨⟨m.buffers ++ [bs], m.encoders ++ [⟨none, none, false, 0⟩]⟩, m.buffers.length,
    by rw [Memory.EncodeEntry_spec m p e ent fields hv, hr]; rfl, get_last _ _, le_refl _,
    hv1, ?_, fun b hb => get_old _ _ _ hb, fun q hq => get_old _ _ _ hq, ?_⟩
  · simp only [Memory.cell]
    exact get_old _ _ _ hp
  · refine ⟨⟨m.buffers ++ [bs] ++ [bs], m.encoders ++ [⟨none, none, false, 0⟩] ++
        [⟨none, none, false, 0⟩]⟩, (m.buffers ++ [bs]).length,
      by rw [Memory.EncodeEntry_spec _ p e ent fields hv1, hr]; rfl, get_last _ _, by simp,
      ?_, frame _ bs hv1⟩
    rw [get_old _ _ _ (by simp)]
    exact get_last _ _

set_option maxRecDepth 100000 in
/-- C36 at the encoder of `sampleMemory`, which has accumulated `"k":"v"` and has the
namespace `ns` open, with fields that open one more namespace. -/
theorem EncodeEntry_frame_witness :
    ∃ (m1 : Memory) (ret : Nat),
      sampleMemory.EncodeEntry 0 (entryOf InfoLevel (bytes "m")) namespaceFields =
        some (m1, ret, none) ∧
      m1.buffers[ret]? = some (bytes
        "\x7b\"level\":\"info\",\"msg\":\"m\",\"k\":\"v\",\"ns\":\x7b\"ns\":\x7b\"x\":1\x7d\x7d\x7d\n") ∧
      sampleMemory.buffers.length ≤ ret ∧
      m1.view 0 = some sampleEncoder ∧ m1.cell 0 = sampleMemory.cell 0 ∧
      (∀ b, b < sampleMemory.buffers.length → m1.buffers[b]? = sampleMemory.buffers[b]?) ∧
      (∀ q, q < sampleMemory.encoders.length →
        m1.encoders[q]? = sampleMemory.encoders[q]?) ∧
      ∃ (m2 : Memory) (ret2 : Nat),
        m1.EncodeEntry 0 (entryOf InfoLevel (bytes "m")) namespaceFields =
          some (m2, ret2, none) ∧
        m2.buffers[ret2]? = some (bytes
          "\x7b\"level\":\"info\",\"msg\":\"m\",\"k\":\"v\",\"ns\":\x7b\"ns\":\x7b\"x\":1\x7d\x7d\x7d\n") ∧
        ret2 ≠ ret ∧
        m2.buffers[ret]? = some (bytes
          "\x7b\"level\":\"info\",\"msg\":\"m\",\"k\":\"v\",\"ns\":\x7b\"ns\":\x7b\"x\":1\x7d\x7d\x7d\n") ∧
        m2.view 0 = some sampleEncoder :=
  EncodeEntry_frame sampleMemory 0 sampleEncoder (entryOf InfoLevel (bytes "m"))
    namespaceFields _ none rfl (by decide)

set_option maxRecDepth 100000 in
/-- C38: for every list of paths, `Open` gives each path to `newSink`, in order,
whatever the earlier outcomes. If some path fails, the error holds one message for
each failed path, with the path in it, every sink that was opened is closed, in the
order of the paths, before `Open` returns, and the write syncer and the close function
returned are nil. If none fails, the error is nil, the write syncer combines the sinks
and the close function closes each sink once, in the order of the paths. -/
theorem Open_all_or_nothing (newSink : List SinkEvent → List Nat → Except Error Nat)
    (quote : List Nat → List Nat) (events : List SinkEvent) (paths : List (List Nat)) :
    (sinkOutcomes newSink events paths).map Prod.fst = paths ∧
    (failedPaths (sinkOutcomes newSink events paths) ≠ [] →
      Open newSink quote events paths =
        (events ++ paths.map SinkEvent.newSink ++
            (openedSinks (sinkOutcomes newSink events paths)).map SinkEvent.Close,
          none, none,
          (failedPaths (sinkOutcomes newSink events paths)).map
            (fun pe => bytes "couldn't open sink " ++ quote pe.1 ++ bytes ": " ++ pe.2))) ∧
    (failedPaths (sinkOutcomes newSink events paths) = [] →
      Open newSink quote events paths =
        (events ++ paths.map SinkEvent.newSink,
          some (CombineWriteSyncers (openedSinks (sinkOutcomes newSink events paths))),
          some (openedSinks (sinkOutcomes newSink events paths)), []) ∧
      (openedSinks (sinkOutcomes newSink events paths)).length = paths.length ∧
      runClose (events ++ paths.map SinkEvent.newSink)
          (openedSinks (sinkOutcomes newSink events paths)) =
        events ++ paths.map SinkEvent.newSink ++
          (openedSinks (sinkOutcomes newSink events paths)).map SinkEvent.Close) ∧
    Open sampleNewSink sampleQuote [] [bytes "/a", bytes "/nope", bytes "/b"] =
      ([.newSink (bytes "/a"), .newSink (bytes "/nope"), .newSink (bytes "/b"), .Close 0,
          .Close 2],
        none, none, [bytes "couldn't open sink \"/nope\": no such directory"]) ∧
    Open sampleNewSink sampleQuote [] [bytes "/a", bytes "/b"] =
      ([.newSink (bytes "/a"), .newSink (bytes "/b")], some (.lockedMulti [0, 1]),
        some [0, 1], []) := by
  refine ⟨sinkOutcomes_paths newSink paths events, fun hf => ?_, fun hf => ⟨?_, ?_, rfl⟩,
    by decide, by decide⟩
  · have hne : (failedPaths (sinkOutcomes newSink events paths)).map
        (fun pe => openError quote pe.1 pe.2) ≠ [] := by
      simpa using hf
    simp only [Open, openPaths, openLoop_eq, List.nil_append, ne_eq, hne, not_false_eq_true,
      if_true, runClose]
    rfl
  · simp only [Open, openPaths, openLoop_eq, List.nil_append, hf, List.map_nil, ne_eq,
      not_true_eq_false, if_false]
  · have h1 := outcomes_count (sinkOutcomes newSink events paths)
    have h2 := congrArg List.length (sinkOutcomes_paths newSink paths events)
    rw [hf] at h1
    simp only [List.length_map] at h2
    simp only [List.length_nil, Nat.add_zero] at h1
    omega

/-- C39: for an allocated atomic level, as `NewAtomicLevel` and `NewAtomicLevelAt`
return, and every text for which the level parser returns an error, `UnmarshalText`
returns that error and leaves the memory and the atomic level as they were, so that
the level is the same after the call; a text that is none of the seven names is such a
text. -/
theorem UnmarshalText_error_keeps_level (m : Atomics) (a : AtomicLevel) (l : Level)
    (text : List Nat) (err : Error) (ha : a.allocated m)
    (he : Level.UnmarshalText text = .error err) :
    a.UnmarshalText m text = some (m, a, some err) ∧
      (NewAtomicLevel m).2.UnmarshalText (NewAtomicLevel m).1 text =
        some ((NewAtomicLevel m).1, (NewAtomicLevel m).2, some err) ∧
      (∀ (m1 : Atomics) (b : AtomicLevel), NewAtomicLevelAt m l = some (m1, b) →
        b.UnmarshalText m1 text = some (m1, b, some err)) ∧
      ((∀ p ∈ levelNames, text ≠ p.2) →
        Level.UnmarshalText text = .error (bytes "unrecognized level")) := by
  have key : ∀ (mm : Atomics) (c : AtomicLevel), c.allocated mm →
      c.UnmarshalText mm text = some (mm, c, some err) := by
    intro mm c hc
    obtain ⟨q, hq, _⟩ := hc
    simp only [AtomicLevel.UnmarshalText, hq, he]
  refine ⟨key m a ha, key _ _ (NewAtomicLevel_spec m).1, fun m1 b h => ?_, fun hn => ?_⟩
  · simp only [NewAtomicLevelAt, Option.map_eq_some', Prod.mk.injEq] at h
    obtain ⟨m2, h2, rfl, rfl⟩ := h
    obtain ⟨q, hq, hlt⟩ := (NewAtomicLevel_spec m).1
    refine key _ _ ⟨q, hq, ?_⟩
    simp only [AtomicLevel.SetLevel, Atomics.Store, hq, hlt, if_true, Option.some.injEq] at h2
    rw [← h2]
    simpa using hlt
  · unfold Level.UnmarshalText
    rw [if_neg (hn (DebugLevel, bytes "debug") (by simp [levelNames])),
      if_neg (hn (InfoLevel, bytes "info") (by simp [levelNames])),
      if_neg (hn (WarnLevel, bytes "warn") (by simp [levelNames])),
      if_neg (hn (ErrorLevel, bytes "error") (by simp [levelNames])),
      if_neg (hn (DPanicLevel, bytes "dpanic") (by simp [levelNames])),
      if_neg (hn (PanicLevel, bytes "panic") (by simp [levelNames])),
      if_neg (hn (FatalLevel, bytes "fatal") (by simp [levelNames]))]

/-- C39 at a new atomic level set to `WarnLevel` and the text `loud`. -/
theorem UnmarshalText_error_keeps_level_witness :
    AtomicLevel.UnmarshalText ⟨[1]⟩ ⟨some 0⟩ (bytes "loud") =
        some (⟨[1]⟩, ⟨some 0⟩, some (bytes "unrecognized level")) ∧
      (NewAtomicLevel ⟨[1]⟩).2.UnmarshalText (NewAtomicLevel ⟨[1]⟩).1 (bytes "loud") =
        some ((NewAtomicLevel ⟨[1]⟩).1, (NewAtomicLevel ⟨[1]⟩).2,
          some (bytes "unrecognized level")) ∧
      (∀ (m1 : Atomics) (b : AtomicLevel), NewAtomicLevelAt ⟨[1]⟩ WarnLevel = some (m1, b) →
        b.UnmarshalText m1 (bytes "loud") = some (m1, b, some (bytes "unrecognized level"))) ∧
      ((∀ p ∈ levelNames, bytes "loud" ≠ p.2) →
        Level.UnmarshalText (bytes "loud") = .error (bytes "unrecognized level")) :=
  UnmarshalText_error_keeps_level ⟨[1]⟩ ⟨some 0⟩ WarnLevel (bytes "loud")
    (bytes "unrecognized level") ⟨0, rfl, by decide⟩ rfl

namespace observer

/-- C40: for the observed logs at `o` and two filters `p` and `q` among
`FilterMessage`, `FilterMessageSnippet` and `FilterField`, `p` then `q` and `q` then
`p` give the same entries in the same order, those of the original that both filters
are for, and `p` twice gives the entries of `p` once. -/
theorem filters_commute (equals : Field → Field → Bool) (m : Heap) (o : Nat)
    (p q : LogFilter) (hl : o < m.logs.length) :
    twoFilters equals m o p q =
        some ((ObservedLogs.All m o).filter
          (fun e => p.holds equals e && q.holds equals e)) ∧
      twoFilters equals m o q p = twoFilters equals m o p q ∧
      twoFilters equals m o p p = some ((ObservedLogs.All m o).filter (p.holds equals)) ∧
      (p.run equals m o).map (fun r => ObservedLogs.All r.1 r.2) =
        some ((ObservedLogs.All m o).filter (p.holds equals)) := by
  refine ⟨twoFilters_eq equals m o p q hl, ?_, ?_, ?_⟩
  · rw [twoFilters_eq equals m o p q hl, twoFilters_eq equals m o q p hl]
    congr 2
    funext e
    exact Bool.and_comm _ _
  · rw [twoFilters_eq equals m o p p hl]
    congr 2
    funext e
    exact Bool.and_self _
  · obtain ⟨m1, h1, _, h3, _⟩ := LogFilter.run_spec equals m o p hl
    rw [h1]
    simp [h3]

/-- C40 at the observed logs of `TestFilters`, with the filters of the message `log a`
and of the field `b=2`. -/
theorem filters_commute_witness :
    twoFilters sameField filterHeap 0 (.byMessage (bytes "log a")) (.byField (intField "b" 2)) =
        some ((ObservedLogs.All filterHeap 0).filter
          (fun e => (LogFilter.byMessage (bytes "log a")).holds sameField e &&
            (LogFilter.byField (intField "b" 2)).holds sameField e)) ∧
      twoFilters sameField filterHeap 0 (.byField (intField "b" 2)) (.byMessage (bytes "log a")) =
        twoFilters sameField filterHeap 0 (.byMessage (bytes "log a"))
          (.byField (intField "b" 2)) ∧
      twoFilters sameField filterHeap 0 (.byMessage (bytes "log a"))
          (.byMessage (bytes "log a")) =
        some ((ObservedLogs.All filterHeap 0).filter
          ((LogFilter.byMessage (bytes "log a")).holds sameField)) ∧
      ((LogFilter.byMessage (bytes "log a")).run sameField filterHeap 0).map
          (fun r => ObservedLogs.All r.1 r.2) =
        some ((ObservedLogs.All filterHeap 0).filter
          ((LogFilter.byMessage (bytes "log a")).holds sameField)) :=
  filters_commute sameField filterHeap 0 (.byMessage (bytes "log a"))
    (.byField (intField "b" 2)) (by decide)

end observer

end Viper
